import Mathlib

/-!
# Mini-assembly to AArch64 translator (`Ma2Asm/arm64_any.c`)

A shallow embedding of the arm64 back end of the Prolog-to-native compiler.
Every emitting C function becomes a Lean function returning the list of
assembly lines it prints; the translator globals (`dbl_tbl`, `nb_dbl`,
`dbl_lc_no`, `dbl_reg_no`) become an explicit record threaded through the
stateful operations.  Build-time switches (`#ifdef`) are fields of a target
record, so both branches of each conditional are modelled.

A small-step semantics of the emitted AArch64 subset is given so that the
emitted sequences can be executed; `Line.encodable` tells which immediates
the instructions encode, and `execAsm` executes encodable lines only.

The second part (namespace `BipsPl`) embeds the term support of the built-in
predicates (`BipsPl/term_supp.c`): `List_Length`, `Term_Size`, `Copy_Term`
and `Term_Compare` over a memory of tagged words, and
`Pl_Decompose_File_Name_4` of `BipsPl/file_c.c` over a memory of characters.
-/

namespace Ma2Asm

/-! ## Emitted assembly text -/

/-- Relocation operators, the `*_FMT` macros of the source. -/
inductive Reloc where
  | PAGE
  | PAGEOFF
  | GOT_PAGE
  | GOT_PAGEOFF
deriving DecidableEq, Repr

/-- A double constant, kept as its IEEE-754 bit pattern. -/
abbrev Dbl := Nat

/-- One comma-separated piece of the argument string of `Inst_Printf`.
Each constructor stands for one `printf` format shape used in the source. -/
inductive Operand where
  /-- A register: `%s`. -/
  | reg (r : String)
  /-- An immediate: `#%d`. -/
  | imm (n : Int)
  /-- A shift amount: `LSL %d`. -/
  | lsl (n : Int)
  /-- A literal for the load pseudo-instruction: `=%ld`. -/
  | lit (n : Int)
  /-- Verbatim text (a symbol, a section name, a directive argument). -/
  | text (s : String)
  /-- A relocated symbol, one of the `*_FMT` formats applied to `un`, `name`. -/
  | rel (k : Reloc) (un name : String)
  /-- Memory at a register: `[%s]`. -/
  | mem (base : String)
  /-- Memory at register plus immediate offset: `[%s, #%d]`. -/
  | memImm (base : String) (off : Int)
  /-- Memory at register plus offset printed without a hash: `[%s, %d]`. -/
  | memRaw (base : String) (off : Int)
  /-- Memory at register plus register: `[%s, %s]`. -/
  | memReg (base idx : String)
  /-- Memory at register plus relocated symbol: `[%s, <FMT>]`. -/
  | memRel (base : String) (k : Reloc) (un name : String)
  /-- A double constant: `ASM_DOUBLE_DIRECTIV_PREFIX "%1.20e"`. -/
  | dbl (d : Dbl)
deriving DecidableEq, Repr

/-- One line of output: `Inst_Printf(op, args)` or `Label_Printf(text)`. -/
inductive Line where
  | inst (op : String) (args : List Operand)
  | label (text : String)
deriving DecidableEq, Repr

/-! ## Target description (build-time switches and external macros) -/

/-- Build-time configuration and the macros / helpers that the translation
file uses but does not define itself. -/
structure Target where
  /-- `#ifdef M_darwin`. -/
  M_darwin : Bool
  /-- `#ifdef USE_LDR_PSEUDO_OP` (the source defines it under `#if 1`). -/
  USE_LDR_PSEUDO_OP : Bool
  /-- The global `comment` flag of the driver. -/
  comment : Bool
  /-- `MAP_REG_BANK`, when the register bank is mapped. -/
  MAP_REG_BANK : Option String
  /-- `#ifdef NO_MACHINE_REG_FOR_REG_BANK`. -/
  NO_MACHINE_REG_FOR_REG_BANK : Bool
  /-- `MAP_REG_E`, when E is mapped to a machine register. -/
  MAP_REG_E : Option String
  /-- `MAP_REG_B`, when B is mapped to a machine register. -/
  MAP_REG_B : Option String
  /-- `MAP_REG_CP`, when CP is mapped to a machine register. -/
  MAP_REG_CP : Option String
  /-- `MAP_OFFSET_E`. -/
  MAP_OFFSET_E : Int
  /-- `MAP_OFFSET_B`. -/
  MAP_OFFSET_B : Int
  /-- `MAP_OFFSET_CP`. -/
  MAP_OFFSET_CP : Int
  /-- The macro `Y_OFFSET(index)`, defined outside this file. -/
  Y_OFFSET : Int → Int
  /-- The function `Scope_Of_Symbol`, result of the pre-pass. -/
  Scope_Of_Symbol : String → Int
  /-- The text `printf` produces for a double under `%1.20e`. -/
  printf_1_20e : Dbl → String
  /-- The text of the continuation label numbered `n`, as the driver
  (outside this file) prints it. -/
  Label_Cont_Name : Nat → String

/-! ## Constants -/

def BPW : Int := 8
def MAX_ARGS_IN_REGS : Int := 8
def MAX_DOUBLES_IN_REGS : Int := 8
def MAX_C_ARGS_IN_C_CODE : Int := 32
def MAX_DOUBLES_IN_PRED : Nat := 2048
def DBL_RET_WORDS : Int := 2

/-- Two-complement reading of a 64-bit word (`%ld` applied to a `PlULong`). -/
def toSigned64 (w : Nat) : Int :=
  if w % 2 ^ 64 < 2 ^ 63 then (w % 2 ^ 64 : Nat) else (w % 2 ^ 64 : Nat) - 2 ^ 64

/-- Conversion of a signed C integer to `PlULong` (sign extension, mod 2^64). -/
def toPlULong (i : Int) : Nat := (i % 2 ^ 64).toNat

/-- The macro `Round_Up_Pow2(x, p)`:  `((x) + ((p) - 1)) & (-(p))`. -/
def Round_Up_Pow2 (x p : Int) : Int := Int.land (x + (p - 1)) (-p)

/-- `RESERVED_STACK_SPACE`: `+8` to save x30, rounded up to 16 bytes. -/
def RESERVED_STACK_SPACE : Int :=
  Round_Up_Pow2 ((MAX_C_ARGS_IN_C_CODE - MAX_ARGS_IN_REGS) * BPW + 8) 16

def UN_EXT (t : Target) : String := if t.M_darwin then "_" else ""
def STRING_PREFIX (t : Target) : String := if t.M_darwin then "L.str." else ".LC"
def DOUBLE_PREFIX (t : Target) : String := if t.M_darwin then "LCPI" else ".LCD"

/-- `ASM_REG_BANK`: `MAP_REG_BANK` if defined, else `x20`. -/
def ASM_REG_BANK (t : Target) : String := t.MAP_REG_BANK.getD "x20"

/-- The buffer `asm_reg_e` as filled by `Asm_Start`. -/
def asm_reg_e (t : Target) : String := t.MAP_REG_E.getD "x25"

/-! ## Syntactic observations on lines -/

/-- Mnemonic of a line (empty for a label). -/
def Line.op : Line → String
  | .inst op _ => op
  | .label _ => ""

/-- Whether a line is an instruction or directive (not a label). -/
def Line.isInst : Line → Bool
  | .inst _ _ => true
  | .label _ => false

/-- Whether a line is a store instruction. -/
def Line.isStore : Line → Bool
  | .inst op _ => decide (op = "str")
  | .label _ => false

/-- Destination register of an instruction: its first operand. -/
def Line.dest : Line → Option String
  | .inst _ (.reg r :: _) => some r
  | _ => none

/-- Whether an operand is a memory reference with a numeric offset. -/
def Operand.hasImmOffset : Operand → Bool
  | .memImm _ _ => true
  | .memRaw _ _ => true
  | _ => false

/-- Whether a line carries a memory operand with a numeric offset. -/
def Line.hasImmOffset : Line → Bool
  | .inst _ args => args.any Operand.hasImmOffset
  | .label _ => false

/-- Whether a line is `movz r, #c, LSL s` or `movk r, #c, LSL s`. -/
def Line.isMovzMovk (r : String) : Line → Bool
  | .inst op [.reg q, .imm _, .lsl _] => decide (q = r) && (decide (op = "movz") || decide (op = "movk"))
  | _ => false

/-! ## Text of the emitted lines -/

/-- The formats `PAGE_FMT`, `PAGEOFF_FMT`, `GOT_PAGE_FMT`, `GOT_PAGEOFF_FMT`. -/
def Reloc.fmt (darwin : Bool) (k : Reloc) (un name : String) : String :=
  match k, darwin with
  | .PAGE, true => un ++ name ++ "@PAGE"
  | .PAGE, false => un ++ name
  | .PAGEOFF, true => un ++ name ++ "@PAGEOFF"
  | .PAGEOFF, false => ":lo12:" ++ un ++ name
  | .GOT_PAGE, true => un ++ name ++ "@GOTPAGE"
  | .GOT_PAGE, false => ":got:" ++ un ++ name
  | .GOT_PAGEOFF, true => un ++ name ++ "@GOTPAGEOFF"
  | .GOT_PAGEOFF, false => ":got_lo12:" ++ un ++ name

/-- Text of one operand. -/
def Operand.render (t : Target) : Operand → String
  | .reg r => r
  | .imm n => "#" ++ toString n
  | .lsl n => "LSL " ++ toString n
  | .lit n => "=" ++ toString n
  | .text s => s
  | .rel k un name => Reloc.fmt t.M_darwin k un name
  | .mem b => "[" ++ b ++ "]"
  | .memImm b o => "[" ++ b ++ ", #" ++ toString o ++ "]"
  | .memRaw b o => "[" ++ b ++ ", " ++ toString o ++ "]"
  | .memReg b i => "[" ++ b ++ ", " ++ i ++ "]"
  | .memRel b k un name => "[" ++ b ++ ", " ++ Reloc.fmt t.M_darwin k un name ++ "]"
  | .dbl d => (if t.M_darwin then "" else "0d") ++ t.printf_1_20e d

/-- Mnemonic and argument text of a line (for a label, its text). -/
def Line.render (t : Target) : Line → String × String
  | .inst op args => (op, ", ".intercalate (args.map (Operand.render t)))
  | .label text => ("", text)

/-! ## Immediate and address materialisation -/

/-- The `while (int_val || wipe)` loop of `Load_Immediate` (manual branch). -/
def Load_Immediate_loop (r : String) (int_val : Nat) (shift : Int) (wipe : Bool) :
    List Line :=
  if int_val ≠ 0 ∨ wipe = true then
    let slice := int_val &&& 0xffff
    if slice ≠ 0 ∨ (int_val = 0 ∧ wipe = true) then
      (if wipe then Line.inst "movz" [.reg r, .imm slice, .lsl shift]
       else Line.inst "movk" [.reg r, .imm slice, .lsl shift])
        :: Load_Immediate_loop r (int_val >>> 16) (shift + 16) false
    else
      Load_Immediate_loop r (int_val >>> 16) (shift + 16) wipe
  else []
termination_by int_val + (if wipe then 1 else 0)
decreasing_by
  all_goals simp_wf
  · rename_i h1 h2
    rw [Nat.shiftRight_eq_div_pow]
    by_cases hz : int_val = 0
    · subst hz
      have hw : wipe = true := by simpa using h1
      simp [hw]
    · have : int_val / 2 ^ 16 < int_val := Nat.div_lt_self (Nat.pos_of_ne_zero hz) (by norm_num)
      split <;> omega
  · rename_i h1 h2
    rw [Nat.shiftRight_eq_div_pow]
    have hz : int_val ≠ 0 := by
      intro hz
      subst hz
      apply h2
      right
      simpa using h1
    have : int_val / 2 ^ 16 < int_val := Nat.div_lt_self (Nat.pos_of_ne_zero hz) (by norm_num)
    omega

/-- `Load_Immediate(r, int_val)`; `int_val` is a `PlULong`. -/
def Load_Immediate (t : Target) (r : String) (int_val : Nat) : List Line :=
  if t.USE_LDR_PSEUDO_OP then
    [Line.inst "ldr" [.reg r, .lit (toSigned64 int_val)]]
  else
    (if t.comment then
      [Line.inst "" [.text ("# load " ++ r ++ " = " ++ toString int_val)]]
     else [])
    ++ Load_Immediate_loop r int_val 0 true

/-- `Load_Address(r, addr)`: local page pair or indirection through the GOT. -/
def Load_Address (t : Target) (r : String) (addr : String) : List Line :=
  let scope := t.Scope_Of_Symbol addr
  if scope > 0 then
    let un := if scope = 1 then UN_EXT t else ""
    [Line.inst "adrp" [.reg r, .rel .PAGE un addr],
     Line.inst "add" [.reg r, .reg r, .rel .PAGEOFF un addr]]
  else
    [Line.inst "adrp" [.reg r, .rel .GOT_PAGE (UN_EXT t) addr],
     Line.inst "ldr" [.reg r, .memRel r .GOT_PAGEOFF (UN_EXT t) addr]]

/-- The macro `Load_Reg_Bank()`. -/
def Load_Reg_Bank (t : Target) : List Line :=
  if t.NO_MACHINE_REG_FOR_REG_BANK then Load_Address t (ASM_REG_BANK t) "pl_reg_bank" else []

/-- The `while (int_val)` loop of `Increment_Reg`, on the non-negative value
left after the sign test. -/
def Increment_Reg_loop (op r : String) (int_val : Nat) (shift : Int) : List Line :=
  if int_val ≠ 0 then
    let slice := int_val &&& 0xfff
    (if slice ≠ 0 then [Line.inst op [.reg r, .reg r, .imm slice, .lsl shift]] else [])
      ++ Increment_Reg_loop op r (int_val >>> 12) (shift + 12)
  else []
termination_by int_val
decreasing_by
  simp_wf
  rename_i h
  rw [Nat.shiftRight_eq_div_pow]
  exact Nat.div_lt_self (Nat.pos_of_ne_zero h) (by norm_num)

/-- `Increment_Reg(r, int_val)`.  The negation `-int_val` is the exact one; it
differs from the C `int` negation only at `INT_MIN`, where C overflows. -/
def Increment_Reg (r : String) (int_val : Int) : List Line :=
  if int_val < 0 then Increment_Reg_loop "sub" r (-int_val).toNat 0
  else Increment_Reg_loop "add" r int_val.toNat 0

/-- The macro `Is_Load_Store_Offset_Immediate(offset)`. -/
def Is_Load_Store_Offset_Immediate (offset : Int) : Bool :=
  decide (offset ≥ -255) && decide (offset ≤ 255)

/-- `Load_Store_Reg_Y(ldr_str, r, index)`. -/
def Load_Store_Reg_Y (t : Target) (ldr_str r : String) (index : Int) : List Line :=
  let offset := t.Y_OFFSET index
  if Is_Load_Store_Offset_Immediate offset then
    [Line.inst ldr_str [.reg r, .memImm (asm_reg_e t) offset]]
  else
    Load_Immediate t "x9" (toPlULong offset)
      ++ [Line.inst ldr_str [.reg r, .memReg (asm_reg_e t) "x9"]]

/-! ## Translator state -/

/-- The global variables of the translation file, together with the
continuation-label counter of the driver. -/
structure Tr where
  /-- `double dbl_tbl[MAX_DOUBLES_IN_PRED]`, by index. -/
  dbl_tbl : Nat → Dbl
  /-- `int nb_dbl`. -/
  nb_dbl : Nat
  /-- `int dbl_lc_no`. -/
  dbl_lc_no : Nat
  /-- `int dbl_reg_no`. -/
  dbl_reg_no : Nat
  /-- Counter behind `Label_Cont_New` / `Label_Cont_Get`. -/
  cont_no : Nat

/-- State at program start (`nb_dbl = 0`, `dbl_lc_no = 0`). -/
def Tr.init : Tr :=
  { dbl_tbl := fun _ => 0, nb_dbl := 0, dbl_lc_no := 0, dbl_reg_no := 0, cont_no := 0 }

/-- Modelled from the spec: `Label_Cont_New` of the driver, "a monotonically
increasing counter producing unique local labels": advances the counter and
returns the new label. -/
def Label_Cont_New (t : Target) (st : Tr) : String × Tr :=
  (t.Label_Cont_Name (st.cont_no + 1), { st with cont_no := st.cont_no + 1 })

/-- Modelled from the spec: `Label_Cont_Get` of the driver, which returns the
label of the most recent `Label_Cont_New` ("get always pairs with an
earlier new"). -/
def Label_Cont_Get (t : Target) (st : Tr) : String :=
  t.Label_Cont_Name st.cont_no

/-! ## Code emission -/

/-- The `for` loop of `Code_Start` that flushes the pool of doubles. -/
def Code_Start_doubles (t : Target) (dbl_tbl : Nat → Dbl) (nb_dbl : Nat) (x : Int) (i : Nat) :
    List Line :=
  if i < nb_dbl then
    Line.label (DOUBLE_PREFIX t ++ toString x ++ ":")
      :: Line.inst ".double" [.dbl (dbl_tbl i)]
      :: Code_Start_doubles t dbl_tbl nb_dbl (x + 1) (i + 1)
  else []
termination_by nb_dbl - i

/-- `Code_Start(label, prolog, global)`. -/
def Code_Start (t : Target) (label : String) (prolog global : Int) (st : Tr) :
    List Line × Tr :=
  let x : Int := (st.dbl_lc_no : Int) - st.nb_dbl
  ([Line.inst ".align" [.text "3"]]
    ++ Code_Start_doubles t st.dbl_tbl st.nb_dbl x 0
    ++ [Line.label ""]
    ++ (if t.M_darwin then [Line.inst ".p2align" [.text "2"]]
        else [Line.inst ".align" [.text "2"],
              Line.inst ".p2align" [.text "3,,7"],
              Line.inst ".type" [.text (UN_EXT t ++ label), .text "%function"]])
    ++ (if global ≠ 0 then [Line.inst ".global" [.text (UN_EXT t ++ label)]] else [])
    ++ [Line.label "", Line.label (UN_EXT t ++ label ++ ":")]
    ++ (if prolog = 0 then
          [Line.inst "sub" [.reg "sp", .reg "sp", .imm RESERVED_STACK_SPACE],
           Line.inst "str" [.reg "x30", .mem "sp"]]
        else []),
   { st with nb_dbl := 0 })

/-- `Pl_Fail()`. -/
def Pl_Fail (t : Target) : List Line :=
  (match t.MAP_REG_B with
   | some b => [Line.inst "ldr" [.reg "x11", .memImm b (-8)]]
   | none =>
     Load_Reg_Bank t
       ++ [Line.inst "ldr" [.reg "x11", .memImm (ASM_REG_BANK t) t.MAP_OFFSET_B],
           Line.inst "ldr" [.reg "x11", .memImm "x11" (-8)]])
  ++ [Line.inst "ret" [.reg "x11"]]

/-- `Fail_Ret()`. -/
def Fail_Ret (t : Target) (st : Tr) : List Line × Tr :=
  let new := Label_Cont_New t st
  ([Line.inst "cmp" [.reg "x0", .imm 0],
    Line.inst "bne" [.text new.1]]
    ++ Pl_Fail t
    ++ [Line.label (Label_Cont_Get t new.2 ++ ":")],
   new.2)

/-- `C_Ret()`. -/
def C_Ret : List Line :=
  [Line.inst "ldr" [.reg "x30", .mem "sp"],
   Line.inst "add" [.reg "sp", .reg "sp", .imm RESERVED_STACK_SPACE],
   Line.inst "ret" []]

/-! ## Native call marshaling -/

/-- `Call_C_Start`: resets the counter of floating-point arguments. -/
def Call_C_Start (st : Tr) : Tr := { st with dbl_reg_no := 0 }

/-- The local `offset_excl_doubles` of `BEFORE_ARG`. -/
def offset_excl_doubles (offset : Int) (st : Tr) : Int := offset - 2 * st.dbl_reg_no

/-- The register name `r` chosen by `BEFORE_ARG`. -/
def BEFORE_ARG (offset : Int) (st : Tr) : String :=
  if offset_excl_doubles offset st < MAX_ARGS_IN_REGS then
    "x" ++ toString (offset_excl_doubles offset st + 0)
  else "x9"

/-- The macro `STACK_OFFSET`. -/
def STACK_OFFSET (offset_excl_doubles : Int) : Int :=
  (offset_excl_doubles - MAX_ARGS_IN_REGS) * BPW

/-- The macro `AFTER_ARG`: the store of a stack argument. -/
def AFTER_ARG (r : String) (offset : Int) (st : Tr) : List Line :=
  if offset_excl_doubles offset st ≥ MAX_ARGS_IN_REGS then
    [Line.inst "str" [.reg r, .memImm "sp" (STACK_OFFSET (offset_excl_doubles offset st))]]
  else []

/-- `Call_C_Arg_Int(offset, int_val)`: emitted lines and returned word count. -/
def Call_C_Arg_Int (t : Target) (offset : Int) (int_val : Int) (st : Tr) : List Line × Int :=
  let r := BEFORE_ARG offset st
  (Load_Immediate t r (toPlULong int_val) ++ AFTER_ARG r offset st, 1)

/-- `Call_C_Arg_Double(offset, dbl_val)`.  The table is indexed by all
naturals; the C array has `MAX_DOUBLES_IN_PRED` entries, so for
`nb_dbl >= MAX_DOUBLES_IN_PRED` the store is outside the array and the state
given here says only which index was written, not what the C program holds
afterwards. -/
def Call_C_Arg_Double (t : Target) (offset : Int) (dbl_val : Dbl) (st : Tr) :
    (List Line × Int) × Tr :=
  let r := BEFORE_ARG offset st
  let dbl_locn := DOUBLE_PREFIX t ++ toString st.dbl_lc_no
  let dbl_reg := "d" ++ toString st.dbl_reg_no
  ((Load_Address t r dbl_locn ++ [Line.inst "ldr" [.reg dbl_reg, .mem r]], DBL_RET_WORDS),
   { st with
     dbl_lc_no := st.dbl_lc_no + 1
     dbl_reg_no := st.dbl_reg_no + 1
     dbl_tbl := fun i => if i = st.nb_dbl then dbl_val else st.dbl_tbl i
     nb_dbl := st.nb_dbl + 1 })

/-- `Call_C_Arg_String(offset, str_no)`. -/
def Call_C_Arg_String (t : Target) (offset : Int) (str_no : Int) (st : Tr) : List Line × Int :=
  let r := BEFORE_ARG offset st
  let labl := STRING_PREFIX t ++ toString str_no
  (Load_Address t r labl ++ AFTER_ARG r offset st, 1)

/-- `Call_C_Arg_Mem_L(offset, adr_of, name, index)`. -/
def Call_C_Arg_Mem_L (t : Target) (offset : Int) (adr_of : Int) (name : String) (index : Int)
    (st : Tr) : List Line × Int :=
  let r := BEFORE_ARG offset st
  (Load_Address t r name
     ++ Increment_Reg r (index * BPW)
     ++ (if adr_of = 0 then [Line.inst "ldr" [.reg r, .mem r]] else [])
     ++ AFTER_ARG r offset st, 1)

/-- `Call_C_Arg_Reg_X(offset, adr_of, index)`. -/
def Call_C_Arg_Reg_X (t : Target) (offset : Int) (adr_of : Int) (index : Int) (st : Tr) :
    List Line × Int :=
  let r := BEFORE_ARG offset st
  (Load_Reg_Bank t
     ++ [Line.inst "mov" [.reg r, .reg (ASM_REG_BANK t)]]
     ++ (if adr_of ≠ 0 then Increment_Reg r (index * BPW)
         else [Line.inst "ldr" [.reg r, .memImm r (index * BPW)]])
     ++ AFTER_ARG r offset st, 1)

/-- `Call_C_Arg_Reg_Y(offset, adr_of, index)`. -/
def Call_C_Arg_Reg_Y (t : Target) (offset : Int) (adr_of : Int) (index : Int) (st : Tr) :
    List Line × Int :=
  let r := BEFORE_ARG offset st
  ([Line.inst "mov" [.reg r, .reg (asm_reg_e t)]]
     ++ (if adr_of ≠ 0 then Increment_Reg r (t.Y_OFFSET index)
         else Load_Store_Reg_Y t "ldr" r index)
     ++ AFTER_ARG r offset st, 1)

/-- `Call_C_Arg_Foreign_L(offset, adr_of, index)`. -/
def Call_C_Arg_Foreign_L (t : Target) (offset : Int) (adr_of : Int) (index : Int) (st : Tr) :
    List Line × Int :=
  Call_C_Arg_Mem_L t offset adr_of "pl_foreign_long" index st

/-- `Call_C_Arg_Foreign_D(offset, adr_of, index)`. -/
def Call_C_Arg_Foreign_D (t : Target) (offset : Int) (adr_of : Int) (index : Int) (st : Tr) :
    (List Line × Int) × Tr :=
  if adr_of ≠ 0 then (Call_C_Arg_Mem_L t offset adr_of "pl_foreign_double" index st, st)
  else
    ((Load_Address t "x7" "pl_foreign_double"
        ++ [Line.inst "ldr" [.reg ("d" ++ toString st.dbl_reg_no), .memRaw "x7" (index * BPW)]],
      DBL_RET_WORDS),
     { st with dbl_reg_no := st.dbl_reg_no + 1 })

/-- `Call_C_Invoke(fct_name, ...)`. -/
def Call_C_Invoke (t : Target) (fct_name : String) : List Line :=
  [Line.inst "bl" [.text (UN_EXT t ++ fct_name)]]

/-- One argument of a native call, as the driver hands it to the
`Call_C_Arg_*` function of its kind. -/
inductive CArg where
  | int (int_val : Int)
  | double (dbl_val : Dbl)
  | string (str_no : Int)
  | mem_l (adr_of : Int) (name : String) (index : Int)
  | reg_x (adr_of index : Int)
  | reg_y (adr_of index : Int)
  | foreign_l (adr_of index : Int)
  | foreign_d (adr_of index : Int)
deriving DecidableEq, Repr

/-- Whether the argument is passed by value in a floating-point register. -/
def CArg.isDouble : CArg → Bool
  | .double _ => true
  | .foreign_d adr_of _ => decide (adr_of = 0)
  | _ => false

/-- Dispatch of one argument to its `Call_C_Arg_*` function. -/
def Call_C_Arg (t : Target) (offset : Int) (a : CArg) (st : Tr) : (List Line × Int) × Tr :=
  match a with
  | .int int_val => (Call_C_Arg_Int t offset int_val st, st)
  | .double dbl_val => Call_C_Arg_Double t offset dbl_val st
  | .string str_no => (Call_C_Arg_String t offset str_no st, st)
  | .mem_l adr_of name index => (Call_C_Arg_Mem_L t offset adr_of name index st, st)
  | .reg_x adr_of index => (Call_C_Arg_Reg_X t offset adr_of index st, st)
  | .reg_y adr_of index => (Call_C_Arg_Reg_Y t offset adr_of index st, st)
  | .foreign_l adr_of index => (Call_C_Arg_Foreign_L t offset adr_of index st, st)
  | .foreign_d adr_of index => Call_C_Arg_Foreign_D t offset adr_of index st

/-- What the marshaling of one argument was given and what it emitted. -/
structure ArgEmit where
  /-- The `offset` passed to `Call_C_Arg_*`. -/
  offset : Int
  /-- The translator state when the function was entered. -/
  before : Tr
  /-- The lines it emitted. -/
  lines : List Line

/-- Modelled from the spec: the argument loop of the driver (not part of
this file), which emits the arguments in order and gives each one, as
`offset`, the sum of the word counts returned for the preceding ones. -/
def Call_C_Args (t : Target) : Int → List CArg → Tr → List ArgEmit
  | _, [], _ => []
  | offset, a :: rest, st =>
    { offset := offset, before := st, lines := (Call_C_Arg t offset a st).1.1 }
      :: Call_C_Args t (offset + (Call_C_Arg t offset a st).1.2) rest (Call_C_Arg t offset a st).2

/-- Placement of an integer-class argument of integer slot `s` by the lines
`L`: for `s < 8` nothing is stored and the last line writes `x<s>`; for
`s >= 8` the lines end with `str x9, [sp, #(s-8)*8]`, nothing else is stored
and the line before that store writes x9. -/
def IntArgPlaced (s : Int) (L : List Line) : Prop :=
  (s < 8 → (∀ l ∈ L, l.isStore = false) ∧
    L.getLast?.bind Line.dest = some ("x" ++ toString s)) ∧
  (8 ≤ s → ∃ body, L = body ++ [Line.inst "str" [.reg "x9", .memImm "sp" ((s - 8) * 8)]] ∧
    (∀ l ∈ body, l.isStore = false) ∧ body.getLast?.bind Line.dest = some "x9")

/-! ## Execution of the emitted AArch64 subset -/

/-- Machine state: 64-bit registers by name, 64-bit memory words by byte
address, the operands of the last `cmp` (standing for the condition flags)
and the index of the next line to execute. -/
structure Machine where
  reg : String → Nat
  mem : Nat → Nat
  flags : Nat × Nat
  pc : Nat

/-- Register write. -/
def Machine.setReg (m : Machine) (r : String) (v : Nat) : Machine :=
  { m with reg := fun q => if q = r then v else m.reg q }

/-- Memory write of one 64-bit word. -/
def Machine.setMem (m : Machine) (a : Nat) (v : Nat) : Machine :=
  { m with mem := fun b => if b = a then v else m.mem b }

/-- Address arithmetic modulo 2^64 with a signed displacement. -/
def addr64 (base : Nat) (off : Int) : Nat := (((base : Int) + off) % 2 ^ 64).toNat

/-- `movz r, #c, LSL s` sets `r` to `c * 2^s`. -/
def movzVal (c s : Nat) : Nat := (c * 2 ^ s) % 2 ^ 64

/-- `movk r, #c, LSL s` replaces bits `s .. s+15` of `r` by `c`. -/
def movkVal (old c s : Nat) : Nat :=
  (old % 2 ^ s + (c % 2 ^ 16) * 2 ^ s + (old / 2 ^ (s + 16)) * 2 ^ (s + 16)) % 2 ^ 64

/-- Effective address of a memory operand: the address arithmetic only.
Whether the instruction can encode the displacement is `Line.encodable`. -/
def effAddr (m : Machine) : Operand → Option Nat
  | .mem b => some (m.reg b % 2 ^ 64)
  | .memImm b o => some (addr64 (m.reg b) o)
  | .memRaw b o => some (addr64 (m.reg b) o)
  | .memReg b i => some ((m.reg b + m.reg i) % 2 ^ 64)
  | _ => none

/-- Effect of `movz` / `movk` given the argument list. -/
def execMov (k : Bool) (args : List Operand) (m : Machine) : Option Machine :=
  match args with
  | [.reg r, .imm c, .lsl s] =>
      some (m.setReg r (if k then movkVal (m.reg r) c.toNat s.toNat
                        else movzVal c.toNat s.toNat))
  | _ => none

/-- Effect of `add` (`neg = false`) / `sub` (`neg = true`) with an immediate. -/
def execAddSub (neg : Bool) (args : List Operand) (m : Machine) : Option Machine :=
  match args with
  | [.reg r, .reg a, .imm c] =>
      some (m.setReg r (addr64 (m.reg a) (if neg then -c else c)))
  | [.reg r, .reg a, .imm c, .lsl s] =>
      some (m.setReg r (addr64 (m.reg a)
        (if neg then -(c * 2 ^ s.toNat) else c * 2 ^ s.toNat)))
  | _ => none

/-- Effect of `cmp`: records the two compared words.  Whether the instruction
can encode the immediate is `Line.encodable`. -/
def execCmp (args : List Operand) (m : Machine) : Option Machine :=
  match args with
  | [.reg a, .imm c] => some { m with flags := (m.reg a, toPlULong c) }
  | [.reg a, .reg b] => some { m with flags := (m.reg a, m.reg b) }
  | _ => none

/-- Effect of `ldr`: literal pseudo-instruction or load from memory. -/
def execLdr (args : List Operand) (m : Machine) : Option Machine :=
  match args with
  | [.reg r, .lit n] => some (m.setReg r (toPlULong n))
  | [.reg r, o] => (effAddr m o).map fun a => m.setReg r (m.mem a)
  | _ => none

/-- Effect of `str`: store one word. -/
def execStr (args : List Operand) (m : Machine) : Option Machine :=
  match args with
  | [.reg r, o] => (effAddr m o).map fun a => m.setMem a (m.reg r)
  | _ => none

/-- Effect of one data-processing or load/store line on registers, memory
and flags.  Labels and comment lines (empty mnemonic) have no effect; lines
outside the modelled subset yield `none`. -/
def execInst (l : Line) (m : Machine) : Option Machine :=
  match l with
  | .label _ => some m
  | .inst op args =>
    if op = "" then some m
    else if op = "movz" then execMov false args m
    else if op = "movk" then execMov true args m
    else if op = "mov" then
      match args with
      | [.reg r, .reg a] => some (m.setReg r (m.reg a))
      | _ => none
    else if op = "add" then execAddSub false args m
    else if op = "sub" then execAddSub true args m
    else if op = "cmp" then execCmp args m
    else if op = "ldr" then execLdr args m
    else if op = "str" then execStr args m
    else none

/-- Straight-line execution of a list of lines. -/
def execSeq : List Line → Machine → Option Machine
  | [], m => some m
  | l :: ls, m => (execInst l m).bind (execSeq ls)

/-- Index of the line that defines label `l` (printed as `l:`). -/
def findLabel (prog : List Line) (l : String) : Option Nat :=
  if prog.indexOf (Line.label (l ++ ":")) < prog.length then
    some (prog.indexOf (Line.label (l ++ ":")))
  else none

/-- Result of executing one line. -/
inductive Outcome where
  /-- Execution goes on in this state. -/
  | next (m : Machine)
  /-- Control leaves the emitted code through `ret`, to `target`. -/
  | ret (target : Nat) (m : Machine)
  /-- The line is outside the modelled subset. -/
  | stuck

/-- Whether the branch `op` is taken under the given flags. -/
def branchTaken (op : String) (f : Nat × Nat) : Option Bool :=
  if op = "b" then some true
  else if op = "beq" then some (decide (f.1 = f.2))
  else if op = "bne" then some (decide (f.1 ≠ f.2))
  else if op = "bgt" then some (decide (toSigned64 f.1 > toSigned64 f.2))
  else none

/-- One step of the program `prog` from the line at `m.pc`. -/
def step (prog : List Line) (m : Machine) : Outcome :=
  match prog[m.pc]? with
  | none => .stuck
  | some (.label _) => .next { m with pc := m.pc + 1 }
  | some (.inst op args) =>
    if op = "ret" then
      match args with
      | [] => .ret (m.reg "x30") m
      | [.reg r] => .ret (m.reg r) m
      | _ => .stuck
    else
      match branchTaken op m.flags with
      | some taken =>
        match args with
        | [.text l] =>
          if taken then
            match findLabel prog l with
            | some i => .next { m with pc := i }
            | none => .stuck
          else .next { m with pc := m.pc + 1 }
        | _ => .stuck
      | none =>
        match execInst (.inst op args) m with
        | some m1 => .next { m1 with pc := m.pc + 1 }
        | none => .stuck

/-- Executes at most `n` steps; stops at the first `ret` or unmodelled line. -/
def run : Nat → List Line → Machine → Outcome
  | 0, _, m => .next m
  | n + 1, prog, m =>
    match step prog m with
    | .next m1 => run n prog m1
    | o => o

/-- Program counter of an outcome that is still running. -/
def Outcome.pc? : Outcome → Option Nat
  | .next m => some m.pc
  | _ => none

/-- A sample Linux target: the build as shipped (`USE_LDR_PSEUDO_OP` on),
register bank, E, B and CP mapped to machine registers. -/
def sampleTarget : Target :=
  { M_darwin := false
    USE_LDR_PSEUDO_OP := true
    comment := false
    MAP_REG_BANK := some "x19"
    NO_MACHINE_REG_FOR_REG_BANK := false
    MAP_REG_E := some "x25"
    MAP_REG_B := some "x23"
    MAP_REG_CP := some "x26"
    MAP_OFFSET_E := 0
    MAP_OFFSET_B := 0
    MAP_OFFSET_CP := 0
    Y_OFFSET := fun index => (-4 - index) * 8
    Scope_Of_Symbol := fun _ => 0
    printf_1_20e := fun d => toString d
    Label_Cont_Name := fun n => ".Lcont" ++ toString n }

/-- The sample target with the manual chunked immediate encoding
(`USE_LDR_PSEUDO_OP` off). -/
def manualTarget : Target := { sampleTarget with USE_LDR_PSEUDO_OP := false }

/-- The sample target with the Y slots placed at offset +300. -/
def farTarget : Target := { sampleTarget with Y_OFFSET := fun _ => 300 }

/-- The sample target after a pre-pass that found `foo` defined as a code
label (scope 1) in the unit. -/
def localTarget : Target :=
  { sampleTarget with Scope_Of_Symbol := fun s => if s = "foo" then 1 else 0 }

/-- Rounding of `x` up to a multiple of `p`, as arithmetic on integers. -/
def round_up (x p : Int) : Int := (x + p - 1) / p * p

/-- Target of an outcome that left through `ret`. -/
def Outcome.target? : Outcome → Option Nat
  | .ret a _ => some a
  | _ => none

/-- Machine state carried by an outcome. -/
def Outcome.machine? : Outcome → Option Machine
  | .next m => some m
  | .ret _ m => some m
  | .stuck => none

/-- A function `f` with the non-Prolog prologue, the marshaling of a ninth
integer argument (offset 8, value 5) of a native call, and the epilogue. -/
def ninthArgProgram : List Line :=
  (Code_Start sampleTarget "f" 0 1 Tr.init).1
    ++ (Call_C_Arg_Int sampleTarget 8 5 (Call_C_Start Tr.init)).1
    ++ C_Ret

/-- A native call with two floating-point and three integer arguments. -/
def mixedArgs : List CArg :=
  [.double 1, .int 2, .double 3, .int 4, .int 5]

/-- A native call with eight integer arguments followed by a foreign double
passed by value. -/
def eightIntsThenForeignD : List CArg :=
  [.int 0, .int 1, .int 2, .int 3, .int 4, .int 5, .int 6, .int 7, .foreign_d 0 0]

/-- A sample machine state. -/
def sampleMachine : Machine :=
  { reg := fun r => if r = "sp" then 4096 else if r = "x30" then 77 else 0
    mem := fun _ => 0
    flags := (0, 0)
    pc := 0 }

/-! ## Continuation labels, sections, comparison -/

/-- `Pl_Jump(label)`. -/
def Pl_Jump (t : Target) (label : String) : List Line :=
  [Line.inst "b" [.text (UN_EXT t ++ label)]]

/-- `Prep_CP()`. -/
def Prep_CP (t : Target) (st : Tr) : List Line × Tr :=
  let new := Label_Cont_New t st
  (match t.MAP_REG_CP with
   | some cp => Load_Address t cp new.1
   | none =>
     Load_Address t "x2" new.1 ++ Load_Reg_Bank t
       ++ [Line.inst "str" [.reg "x2", .memImm (ASM_REG_BANK t) t.MAP_OFFSET_CP]],
   new.2)

/-- `Here_CP()`. -/
def Here_CP (t : Target) (st : Tr) : List Line :=
  [Line.label (Label_Cont_Get t st ++ ":")]

/-- `Pl_Call(label)`. -/
def Pl_Call (t : Target) (label : String) (st : Tr) : List Line × Tr :=
  ((Prep_CP t st).1 ++ Pl_Jump t label ++ Here_CP t (Prep_CP t st).2, (Prep_CP t st).2)

/-- The lines printed by `Call_C_Start(fct_name, fc, nb_args, nb_args_in_words,
p_inline)`: none (its effect on the globals is `Call_C_Start`). -/
def Call_C_Start_lines (_fct_name : String) (_fc _nb_args _nb_args_in_words : Int)
    (_p_inline : Option (List String)) : List Line := []

/-- `Dico_String_Start(nb_consts)`. -/
def Dico_String_Start (t : Target) (_nb_consts : Int) : List Line :=
  if t.M_darwin then [Line.inst ".section" [.text "__TEXT,__cstring,cstring_literals"]]
  else [Line.inst ".section" [.text ".rodata.str1.8"]]

/-- `Dico_Long_Start(nb_longs)`. -/
def Dico_Long_Start (_nb_longs : Int) : List Line :=
  [Line.label ".data", Line.inst ".align" [.text "4"]]

/-- `Data_Start(initializer_fct)`; `none` stands for the `NULL` pointer. -/
def Data_Start (t : Target) (initializer_fct : Option String) : List Line :=
  match initializer_fct with
  | none => []
  | some f =>
    if t.M_darwin then
      [Line.inst ".section" [.text "__DATA,__mod_init_func,mod_init_funcs"],
       Line.inst ".p2align" [.text "3"],
       Line.inst ".quad" [.text (UN_EXT t ++ f)]]
    else
      [Line.inst ".section" [.text ".init_array,\"aw\""],
       Line.inst ".align" [.text "3"],
       Line.inst ".xword" [.text (UN_EXT t ++ f)]]

/-- The `while (close > 255)` loop of `Nearest_Immediate`: final `close` and
`exp`. -/
def Nearest_Immediate_loop (close exp : Nat) : Nat × Nat :=
  if close > 255 then Nearest_Immediate_loop (close >>> 2) (exp + 2) else (close, exp)
termination_by close
decreasing_by
  simp_wf
  rename_i h
  rw [Nat.shiftRight_eq_div_pow]
  exact Nat.div_lt_self (by omega) (by norm_num)

/-- `Nearest_Immediate(target)`. -/
def Nearest_Immediate (target : Int) : Int :=
  let close : Int := if target ≥ 0 then target else -target
  let r := Nearest_Immediate_loop close.toNat 0
  let close : Int := ((r.1 <<< r.2 : Nat) : Int)
  if target ≥ 0 then close else -close

/-- Conversion of a `PlLong` to `int`: the low 32 bits, read as signed. -/
def toInt32 (i : Int) : Int :=
  if i % 2 ^ 32 < 2 ^ 31 then i % 2 ^ 32 else i % 2 ^ 32 - 2 ^ 32

/-- `Cmp_Ret_And_Int(int_val)`; the `PlLong` argument is converted to `int`
for the call of `Nearest_Immediate`. -/
def Cmp_Ret_And_Int (t : Target) (int_val : Int) : List Line :=
  if Nearest_Immediate (toInt32 int_val) = int_val then
    [Line.inst "cmp" [.reg "x0", .imm int_val]]
  else
    Load_Immediate t "x7" (toPlULong int_val) ++ [Line.inst "cmp" [.reg "x0", .reg "x7"]]

/-- Immediates of the AArch64 compare-immediate instruction: a 12-bit value,
optionally shifted left by 12 (a negative value is compared with `cmn`). -/
def cmpImmEncodable (v : Int) : Bool :=
  decide (v.natAbs ≤ 4095) || (decide (v.natAbs % 4096 = 0) && decide (v.natAbs ≤ 4095 * 4096))

/-! ## Execution with symbol addresses -/

/-- Addresses of the symbols and of their slots in the global offset table. -/
structure Symtab where
  addr : String → Nat
  got : String → Nat

/-- Effect of one line when symbols have addresses: `adrp` loads the 4 KB page
of the symbol (or of its GOT slot), `add ..., :lo12:` adds the offset inside
the page, `ldr ..., [r, :got_lo12:]` loads the GOT slot; every other line is
executed by `execInst`. -/
def execInstSym (S : Symtab) (l : Line) (m : Machine) : Option Machine :=
  match l with
  | .inst op [.reg r, .rel k un name] =>
    if op = "adrp" then
      match k with
      | .PAGE => some (m.setReg r (S.addr (un ++ name) / 4096 * 4096))
      | .GOT_PAGE => some (m.setReg r (S.got (un ++ name) / 4096 * 4096))
      | _ => none
    else none
  | .inst op [.reg r, .reg a, .rel k un name] =>
    if op = "add" then
      match k with
      | .PAGEOFF => some (m.setReg r ((m.reg a + S.addr (un ++ name) % 4096) % 2 ^ 64))
      | _ => none
    else none
  | .inst op [.reg r, .memRel b k un name] =>
    if op = "ldr" then
      match k with
      | .GOT_PAGEOFF =>
        some (m.setReg r (m.mem ((m.reg b + S.got (un ++ name) % 4096) % 2 ^ 64)))
      | _ => none
    else none
  | _ => execInst l m

/-- Straight-line execution with symbol addresses. -/
def execSeqSym (S : Symtab) : List Line → Machine → Option Machine
  | [], m => some m
  | l :: ls, m => (execInstSym S l m).bind (execSeqSym S ls)

/-- The symbol text that `Load_Address(r, addr)` refers to (with the
underscore of external symbols on Darwin). -/
def Load_Address_symbol (t : Target) (addr : String) : String :=
  if t.Scope_Of_Symbol addr > 0 then
    (if t.Scope_Of_Symbol addr = 1 then UN_EXT t else "") ++ addr
  else UN_EXT t ++ addr

/-- The symbol has a 64-bit address and its GOT slot holds that address. -/
def GotOk (S : Symtab) (m : Machine) (sym : String) : Prop :=
  S.addr sym < 2 ^ 64 ∧ S.got sym < 2 ^ 64 ∧ m.mem (S.got sym) = S.addr sym

/-- Whether an operand carries a relocation. -/
def Operand.isRel : Operand → Bool
  | .rel _ _ _ => true
  | .memRel _ _ _ _ => true
  | _ => false

/-- Whether a line is free of relocations. -/
def Line.plain : Line → Bool
  | .inst _ args => args.all (fun o => !o.isRel)
  | .label _ => true

/-- Whether a line loads a word from memory addressed through registers
(not through the GOT). -/
def Line.isDeref : Line → Bool
  | .inst op [_, .mem _] => decide (op = "ldr")
  | .inst op [_, .memImm _ _] => decide (op = "ldr")
  | .inst op [_, .memRaw _ _] => decide (op = "ldr")
  | .inst op [_, .memReg _ _] => decide (op = "ldr")
  | _ => false

/-- Executed without regard to the encoding of the immediates, the lines
leave the value `a` in register `r`. -/
def LeavesValueExec (S : Symtab) (lines : List Line) (m : Machine) (r : String) (a : Nat) :
    Prop :=
  ∃ m1, execSeqSym S lines m = some m1 ∧ m1.reg r = a

/-! ## Instructions the assembler can encode -/

/-- Displacements of `ldr` / `str` of a 64-bit register with an immediate
offset: a multiple of 8 from 0 to 32760 (12-bit unsigned offset, scaled by
the access size), or a value from -256 to 255 (9-bit signed offset, the
unscaled form that the assembler selects for it). -/
def ldrStrOffsetEncodable (o : Int) : Bool :=
  (decide (0 ≤ o) && decide (o ≤ 32760) && decide (o % 8 = 0))
    || (decide (-256 ≤ o) && decide (o ≤ 255))

/-- Whether the immediate operands of a line can be encoded in the
instruction.  The shape of the operands identifies the instruction among the
emitted ones: a numeric memory offset (`ldr`, `str`), a register and an
immediate (`cmp`), two registers and a 12-bit immediate, optionally shifted
left by 12 (`add`, `sub`), a register and a 16-bit immediate shifted by a
multiple of 16 (`movz`, `movk`).  Every other line has no numeric
immediate. -/
def Line.encodable : Line → Bool
  | .inst _ [.reg _, .memImm _ o] => ldrStrOffsetEncodable o
  | .inst _ [.reg _, .memRaw _ o] => ldrStrOffsetEncodable o
  | .inst _ [.reg _, .imm c] => cmpImmEncodable c
  | .inst _ [.reg _, .reg _, .imm c] => decide (0 ≤ c) && decide (c ≤ 4095)
  | .inst _ [.reg _, .reg _, .imm c, .lsl s] =>
    decide (0 ≤ c) && decide (c ≤ 4095) && (decide (s = 0) || decide (s = 12))
  | .inst _ [.reg _, .imm c, .lsl s] =>
    decide (0 ≤ c) && decide (c ≤ 65535)
      && (decide (s = 0) || decide (s = 16) || decide (s = 32) || decide (s = 48))
  | _ => true

/-- Execution of assembled code: `none` when a line has an immediate that
its instruction cannot encode (the assembler rejects the line), otherwise the
execution of the lines. -/
def execAsm (S : Symtab) (lines : List Line) (m : Machine) : Option Machine :=
  if lines.all Line.encodable then execSeqSym S lines m else none

/-- The lines are encodable instructions and leave the value `a` in register
`r`. -/
def LeavesValue (S : Symtab) (lines : List Line) (m : Machine) (r : String) (a : Nat) : Prop :=
  ∃ m1, execAsm S lines m = some m1 ∧ m1.reg r = a

/-- The register-bank base after `Load_Reg_Bank`. -/
def bankBase (t : Target) (S : Symtab) (m : Machine) : Nat :=
  if t.NO_MACHINE_REG_FOR_REG_BANK then S.addr (Load_Address_symbol t "pl_reg_bank")
  else m.reg (ASM_REG_BANK t)

/-! ## Sequences of translator operations -/

/-- One call of the driver into the translation file. -/
inductive Op where
  | code_start (label : String) (prolog global : Int)
  | call_c_start
  | call_c_arg (offset : Int) (a : CArg)
  | pl_call (label : String)
  | fail_ret
  | dico_string_start (nb_consts : Int)
  | dico_long_start (nb_longs : Int)
  | data_start (initializer_fct : Option String)
deriving DecidableEq, Repr

/-- Lines emitted by one operation and the state it leaves. -/
def Op.run (t : Target) (op : Op) (st : Tr) : List Line × Tr :=
  match op with
  | .code_start label prolog global => Code_Start t label prolog global st
  | .call_c_start => ([], Call_C_Start st)
  | .call_c_arg offset a => ((Call_C_Arg t offset a st).1.1, (Call_C_Arg t offset a st).2)
  | .pl_call label => Pl_Call t label st
  | .fail_ret => Fail_Ret t st
  | .dico_string_start n => (Dico_String_Start t n, st)
  | .dico_long_start n => (Dico_Long_Start n, st)
  | .data_start f => (Data_Start t f, st)

/-- An operation together with the state it started from and its lines. -/
structure OpEmit where
  op : Op
  before : Tr
  lines : List Line

/-- The operations of a sequence, each with the state it saw and its lines. -/
def traceOps (t : Target) : List Op → Tr → List OpEmit
  | [], _ => []
  | op :: rest, st =>
    { op := op, before := st, lines := (op.run t st).1 } :: traceOps t rest (op.run t st).2

/-- The state after a sequence of operations. -/
def finalTr (t : Target) : List Op → Tr → Tr
  | [], st => st
  | op :: rest, st => finalTr t rest (op.run t st).2

/-- The whole output of a sequence of operations. -/
def outputOps (t : Target) : List Op → Tr → List Line
  | [], _ => []
  | op :: rest, st => (op.run t st).1 ++ outputOps t rest (op.run t st).2

/-- Whether the operation is a `Call_C_Arg_Double`. -/
def Op.isDoubleArg : Op → Bool
  | .call_c_arg _ (.double _) => true
  | _ => false

/-- Whether the operation is a `Code_Start`. -/
def Op.isCodeStart : Op → Bool
  | .code_start _ _ _ => true
  | _ => false

/-- Whether the operation obtains a continuation label (`Pl_Call`, `Fail_Ret`). -/
def Op.isCont : Op → Bool
  | .pl_call _ => true
  | .fail_ret => true
  | _ => false

/-- The values registered by the `Call_C_Arg_Double` calls of a sequence. -/
def doubleValues : List Op → List Dbl
  | [] => []
  | .call_c_arg _ (.double d) :: rest => d :: doubleValues rest
  | _ :: rest => doubleValues rest

/-- Whether every `Call_C_Arg_Double` of the sequence stores inside the array
`dbl_tbl`: it is called with `nb_dbl < MAX_DOUBLES_IN_PRED`. -/
def poolInBounds (t : Target) (ops : List Op) (st : Tr) : Bool :=
  (traceOps t ops st).all fun e =>
    !e.op.isDoubleArg || decide (e.before.nb_dbl < MAX_DOUBLES_IN_PRED)

/-! ## Chunks of an immediate -/

/-- One line per non-zero 16-bit chunk among the chunks `j, j+1, ...` (`n`
of them) of `v`: `movz` for the first line if `wipe`, `movk` for the others. -/
def chunkLines (r : String) (v : Nat) : Nat → Nat → Bool → List Line
  | 0, _, _ => []
  | n + 1, j, wipe =>
    if v / 2 ^ (16 * j) % 65536 ≠ 0 then
      (if wipe then
         Line.inst "movz" [.reg r, .imm ((v / 2 ^ (16 * j) % 65536 : Nat) : Int), .lsl (16 * (j : Int))]
       else
         Line.inst "movk" [.reg r, .imm ((v / 2 ^ (16 * j) % 65536 : Nat) : Int), .lsl (16 * (j : Int))])
        :: chunkLines r v n (j + 1) false
    else chunkLines r v n (j + 1) wipe

/-- Number of non-zero 16-bit chunks of a 64-bit value. -/
def nonZeroChunks (v : Nat) : Nat :=
  (List.range' 0 4).countP (fun j => decide (v / 2 ^ (16 * j) % 65536 ≠ 0))

/-- A predicate call followed by a fail-on-false test. -/
def sampleContOps : List Op := [.pl_call "p", .fail_ret]

/-- The pool of doubles as data: for each value in turn, the definition of
the next label (numbered from `x`) followed by its `.double` directive. -/
def poolLines (t : Target) : Nat → List Dbl → List Line
  | _, [] => []
  | x, d :: ds =>
    Line.label (DOUBLE_PREFIX t ++ toString x ++ ":")
      :: Line.inst ".double" [.dbl d] :: poolLines t (x + 1) ds

/-- A native call with a double, an integer and a double argument. -/
def sampleDoubleOps : List Op :=
  [.call_c_start, .call_c_arg 0 (.double 15), .call_c_arg 2 (.int 1),
   .call_c_arg 3 (.double 25)]

/-- Two double arguments separated by the start of another function. -/
def sampleAcrossOps : List Op :=
  [.call_c_arg 0 (.double 15), .code_start "g" 1 1, .call_c_arg 0 (.double 25)]

/-- Whether the operation switches to a data section. -/
def Op.isSectionStart : Op → Bool
  | .dico_string_start _ => true
  | .dico_long_start _ => true
  | .data_start _ => true
  | _ => false

/-- A function with one double argument, followed by the data sections. -/
def sampleSectionOps : List Op :=
  [.code_start "f" 1 1, .call_c_arg 0 (.double 15), .dico_string_start 0,
   .dico_long_start 0, .data_start (some "init")]

/-- Sample symbol addresses: every symbol at 8192, every GOT slot at 4096. -/
def sampleSymtab : Symtab := { addr := fun _ => 8192, got := fun _ => 4096 }

/-- A sample machine whose memory word at 4096 (the GOT slot) holds 8192 and
whose word at 8192 + 16 holds 99. -/
def symMachine : Machine :=
  { reg := fun r => if r = "sp" then 4096 else 0
    mem := fun a => if a = 4096 then 8192 else if a = 8208 then 99 else 0
    flags := (0, 0)
    pc := 0 }

/-! ## Returns, moves of X registers, data words -/

/-- `Pl_Ret()`. -/
def Pl_Ret (t : Target) : List Line :=
  match t.MAP_REG_CP with
  | some cp => [Line.inst "ret" [.reg cp]]
  | none =>
    Load_Reg_Bank t
      ++ [Line.inst "ldr" [.reg "x11", .memImm (ASM_REG_BANK t) t.MAP_OFFSET_CP],
          Line.inst "ret" [.reg "x11"]]

/-- `Move_From_Reg_X(index)`. -/
def Move_From_Reg_X (t : Target) (index : Int) : List Line :=
  Load_Reg_Bank t ++ [Line.inst "ldr" [.reg "x2", .memImm (ASM_REG_BANK t) (index * BPW)]]

/-- `Move_To_Reg_X(index)`. -/
def Move_To_Reg_X (t : Target) (index : Int) : List Line :=
  Load_Reg_Bank t ++ [Line.inst "str" [.reg "x2", .memImm (ASM_REG_BANK t) (index * BPW)]]

/-- `Move_Ret_To_Reg_X(index)`. -/
def Move_Ret_To_Reg_X (t : Target) (index : Int) : List Line :=
  Load_Reg_Bank t ++ [Line.inst "str" [.reg "x0", .memImm (ASM_REG_BANK t) (index * BPW)]]

/-- The enumeration `VType` of the initialisation of a long. -/
inductive VType where
  | NONE
  | ARRAY_SIZE
  | INITIAL_VALUE
  deriving DecidableEq, Repr

/-- `Dico_Long(name, global, vtype, value)`.  The case `NONE` sets `value` to
1 and falls through to the case `ARRAY_SIZE`. -/
def Dico_Long (t : Target) (name : String) (global : Int) (vtype : VType) (value : Int) :
    List Line :=
  match vtype with
  | .INITIAL_VALUE =>
    (if global ≠ 0 then
       [Line.inst ".global" [.text (UN_EXT t ++ name)], Line.label (UN_EXT t ++ name ++ ":")]
     else [Line.label (name ++ ":")])
      ++ [Line.inst ".xword" [.text (toString value)]]
  | vt =>
    let value : Int := if vt = .NONE then 1 else value
    if global = 0 then
      [Line.inst ".lcomm" [.text (name ++ "," ++ toString (value * BPW))]]
    else
      [Line.inst ".comm" [.text (UN_EXT t ++ name ++ "," ++ toString (value * BPW) ++ ",8")]]

/-- Runs straight-line code up to its first `ret` and gives the address
control returns to (the operand register of `ret`, `x30` by default). -/
def execToRet (S : Symtab) : List Line → Machine → Option Nat
  | [], _ => none
  | .label _ :: ls, m => execToRet S ls m
  | .inst op args :: ls, m =>
    if op = "ret" then
      match args with
      | [] => some (m.reg "x30")
      | [.reg r] => some (m.reg r)
      | _ => none
    else (execInstSym S (.inst op args) m).bind (execToRet S ls)

/-- The sample target without a machine register for CP: the continuation
pointer lives in the register bank at offset 16. -/
def unmappedTarget : Target :=
  { sampleTarget with MAP_REG_CP := none, MAP_OFFSET_CP := 16 }

/-- A legal AArch64 add/sub with immediate: a 12-bit immediate (here
non-zero) shifted left by 0 or 12. -/
def addSubImmLegal : Line → Bool
  | .inst _ [.reg _, .reg _, .imm c, .lsl s] =>
    decide (1 ≤ c ∧ c ≤ 4095) && (decide (s = 0) || decide (s = 12))
  | _ => false

/-- One `op r, r, #slice, LSL 12*j` per non-zero 12-bit slice of `v` among
the slices `j, j+1, ...` (`n` of them), lowest first. -/
def sliceLines (op r : String) (v : Nat) : Nat → Nat → List Line
  | 0, _ => []
  | n + 1, j =>
    (if v / 2 ^ (12 * j) % 4096 ≠ 0 then
       [Line.inst op [.reg r, .reg r, .imm ((v / 2 ^ (12 * j) % 4096 : Nat) : Int),
          .lsl (12 * (j : Int))]]
     else [])
      ++ sliceLines op r v n (j + 1)

/-- Number of non-zero 12-bit slices among the three lowest of `v`. -/
def nonZeroSlices (v : Nat) : Nat :=
  (List.range' 0 3).countP (fun j => decide (v / 2 ^ (12 * j) % 4096 ≠ 0))

/-- A predicate body with `n` native calls, each with one double argument. -/
def doublesOps : Nat → List Op
  | 0 => []
  | n + 1 => .call_c_start :: .call_c_arg 0 (.double 1) :: doublesOps n

end Ma2Asm

/-! # Term support (`BipsPl/term_supp.c`)

`engine_pl.h` only includes the headers of the engine (`wam_archi.h`,
`wam_inst.h`, ...), which are not among the sources at hand.  The tagged
words and the macros that `term_supp.c` takes from them are modelled below;
addresses count words. -/

namespace BipsPl

/-- Modelled from the spec: the tag of a WAM word (`wam_archi.h`): the kinds
of terms the claims speak of (integer, variable reference, finite-domain
variable, atom, float, list, structure), as named by the `case` labels of
`term_supp.c`. -/
inductive Tag where
  | INT
  | REF
  | FDV
  | ATM
  | FLT
  | LST
  | STC
  deriving DecidableEq, Repr

/-- Modelled from the spec: a tagged word `WamWord` (`wam_archi.h`), as the
pair of its tag (`Tag_Mask_Of`) and its untagged value (`UnTag_REF`,
`UnTag_LST`, ...: an address for a reference, list, structure or float
pointer); `Tag_REF(adr)`, `Tag_LST(adr)`, ... build the pair. -/
structure WamWord where
  tag : Tag
  val : Nat
  deriving DecidableEq, Repr

/-- The memory of the engine: the word at each address. -/
abbrev Mem := Nat → WamWord

/-- Assignment `*a = w`. -/
def Mem.write (mem : Mem) (a : Nat) (w : WamWord) : Mem :=
  fun b => if b = a then w else mem b

/-- Build parameters and helpers of the engine that `term_supp.c` uses and
that are not among the sources. -/
structure Config where
  /-- `WORD_SIZE` (32 or 64). -/
  WORD_SIZE : Nat
  /-- Whether `NO_USE_FD_SOLVER` is defined. -/
  NO_USE_FD_SOLVER : Bool
  /-- `MAX_VAR_IN_TERM`. -/
  MAX_VAR_IN_TERM : Nat
  /-- The atom `[]` behind `NIL_WORD`. -/
  ATOM_NIL : Nat
  /-- The arity held by a functor/arity word (`Arity`). -/
  Arity_Of : WamWord → Nat
  /-- `Fd_Variable_Size(fdv_adr)`. -/
  Fd_Variable_Size : Mem → Nat → Nat
  /-- `Fd_Copy_Variable(dst_adr, fdv_adr)`: the memory it leaves and the
  number of words it wrote. -/
  Fd_Copy_Variable : Mem → Nat → Nat → Mem × Nat

/-- Modelled from the spec: `NIL_WORD` (`wam_inst.h`), the tagged atom `[]`
("the empty list"). -/
def NIL_WORD (c : Config) : WamWord := ⟨.ATM, c.ATOM_NIL⟩

/-- Modelled from the spec: the macro `DEREF(start_word, word, tag_mask)`
(`wam_inst.h`), the dereferencing the claims speak of: it follows bound
references and stops at a word that is no reference or at an unbound
variable, a reference to its own cell.  `none` when the chain is longer than
`fuel`. -/
def DEREF (mem : Mem) : Nat → WamWord → Option WamWord
  | 0, _ => none
  | fuel + 1, word =>
    if word.tag ≠ .REF then some word
    else if mem word.val = word then some word
    else DEREF mem fuel (mem word.val)

/-- `&Car(adr)`: the first cell of a list pair (the copy of a pair fills
`q` then `q + 1`). -/
def Car (adr : Nat) : Nat := adr

/-- `&Cdr(adr)`: the second cell of a list pair. -/
def Cdr (adr : Nat) : Nat := adr + 1

/-- `&Arg(adr, i)`: the cell of argument `i` of a structure, after the
functor/arity word at `adr`. -/
def Arg (adr i : Nat) : Nat := adr + 1 + i

/-- `Arity(adr)`: the arity held by the functor/arity word at `adr`. -/
def Arity (c : Config) (mem : Mem) (adr : Nat) : Nat := c.Arity_Of (mem adr)

/-- The loop `for (;;)` of `List_Length` with the counter `n`; `none` when
the loop runs longer than `fuel`. -/
def List_Length_loop (c : Config) (mem : Mem) : Nat → WamWord → Int → Option Int
  | 0, _, _ => none
  | fuel + 1, start_word, n =>
    match DEREF mem fuel start_word with
    | none => none
    | some word =>
      if word = NIL_WORD c then some n
      else if word.tag = .REF then some (-1)
      else if word.tag ≠ .LST then some (-2)
      else List_Length_loop c mem fuel (mem (Cdr word.val)) (n + 1)

/-- `List_Length(start_word)`. -/
def List_Length (c : Config) (mem : Mem) (fuel : Nat) (start_word : WamWord) : Option Int :=
  List_Length_loop c mem fuel start_word 0

/-- The loop `while (--i) n += Term_Size(*adr++)` of `Term_Size`, with `k`
iterations left. -/
def Term_Size_args (size : WamWord → Option Nat) (mem : Mem) : Nat → Nat → Nat → Option Nat
  | 0, _, n => some n
  | k + 1, adr, n =>
    match size (mem adr) with
    | none => none
    | some sz => Term_Size_args size mem k (adr + 1) (n + sz)

/-- The body of `Term_Size` from the label `terminal_rec`, with the counter
`n`.  A structure of arity 0, on which `while (--i)` does not stop, gives
`none`, as does a traversal longer than `fuel`. -/
def Term_Size_loop (c : Config) (mem : Mem) : Nat → WamWord → Nat → Option Nat
  | 0, _, _ => none
  | fuel + 1, start_word, n =>
    match DEREF mem fuel start_word with
    | none => none
    | some word =>
      match word.tag with
      | .FDV =>
        if c.NO_USE_FD_SOLVER then some (n + 1)
        else some (n + 1 + c.Fd_Variable_Size mem word.val)
      | .FLT => if c.WORD_SIZE = 32 then some (n + 1 + 2) else some (n + 1 + 1)
      | .LST =>
        match Term_Size_loop c mem fuel (mem (Car word.val)) 0 with
        | none => none
        | some k => Term_Size_loop c mem fuel (mem (Cdr word.val)) (n + (1 + k))
      | .STC =>
        if Arity c mem word.val = 0 then none
        else
          match Term_Size_args (fun w => Term_Size_loop c mem fuel w 0) mem
              (Arity c mem word.val - 1) (Arg word.val 0) (n + 2) with
          | none => none
          | some n1 =>
            Term_Size_loop c mem fuel (mem (Arg word.val (Arity c mem word.val - 1))) n1
      | _ => some (n + 1)

/-- `Term_Size(start_word)`. -/
def Term_Size (c : Config) (mem : Mem) (fuel : Nat) (start_word : WamWord) : Option Nat :=
  Term_Size_loop c mem fuel start_word 0

/-- The variables of a copy: the memory, `*p` (the next free address of the
destination) and the stack `vars .. top_vars` of saved variables as pairs
(word to restore, address to restore), most recent first. -/
structure CopySt where
  mem : Mem
  p : Nat
  top_vars : List (WamWord × Nat)

/-- The loop `while (--i) Copy_Term_Rec(q++, adr++, p)` of `Copy_Term_Rec`,
with `k` iterations left. -/
def Copy_Term_args (copy : Nat → Nat → CopySt → Option CopySt) :
    Nat → Nat → Nat → CopySt → Option CopySt
  | 0, _, _, s => some s
  | k + 1, q, adr, s =>
    match copy q adr s with
    | none => none
    | some s1 => Copy_Term_args copy k (q + 1) (adr + 1) s1

/-- `Copy_Term_Rec(dst_adr, src_adr, p)`, with the static `base_copy`.
`none` stands for no return: `Pl_Err_Representation`, a structure of arity 0
(on which `while (--i)` does not stop), or a traversal longer than `fuel`. -/
def Copy_Term_Rec (c : Config) (base_copy : Nat) :
    Nat → Nat → Nat → CopySt → Option CopySt
  | 0, _, _, _ => none
  | fuel + 1, dst_adr, src_adr, s =>
    match DEREF s.mem fuel (s.mem src_adr) with
    | none => none
    | some word =>
      match word.tag with
      | .REF =>
        if word.val < s.p ∧ word.val ≥ base_copy then
          some { s with mem := s.mem.write dst_adr word }
        else if s.top_vars.length ≥ c.MAX_VAR_IN_TERM then none
        else
          some { s with
            top_vars := (word, word.val) :: s.top_vars
            mem := (s.mem.write dst_adr ⟨.REF, dst_adr⟩).write word.val ⟨.REF, dst_adr⟩ }
      | .FDV =>
        if c.NO_USE_FD_SOLVER then some { s with mem := s.mem.write dst_adr word }
        else if word.val < s.p ∧ word.val ≥ base_copy then
          some { s with mem := s.mem.write dst_adr ⟨.REF, word.val⟩ }
        else if s.top_vars.length ≥ c.MAX_VAR_IN_TERM then none
        else
          some { top_vars := (word, word.val) :: s.top_vars
                 p := s.p + (c.Fd_Copy_Variable s.mem s.p word.val).2
                 mem := ((c.Fd_Copy_Variable s.mem s.p word.val).1.write dst_adr
                          ⟨.REF, s.p⟩).write word.val ⟨.REF, s.p⟩ }
      | .FLT =>
        let mem1 := s.mem.write s.p (s.mem word.val)
        if c.WORD_SIZE = 32 then
          let mem2 := mem1.write (s.p + 1) (mem1 (word.val + 1))
          some { s with p := s.p + 2, mem := mem2.write dst_adr ⟨.FLT, s.p⟩ }
        else
          some { s with p := s.p + 1, mem := mem1.write dst_adr ⟨.FLT, s.p⟩ }
      | .LST =>
        let q := s.p
        match Copy_Term_Rec c base_copy fuel (Car q) (Car word.val)
            { s with mem := s.mem.write dst_adr ⟨.LST, q⟩, p := Cdr q + 1 } with
        | none => none
        | some s1 => Copy_Term_Rec c base_copy fuel (Car q + 1) (Car word.val + 1) s1
      | .STC =>
        let q := s.p
        let mem1 := (s.mem.write dst_adr ⟨.STC, q⟩).write q
          ((s.mem.write dst_adr ⟨.STC, q⟩) word.val)
        let i := Arity c mem1 word.val
        if i = 0 then none
        else
          match Copy_Term_args (Copy_Term_Rec c base_copy fuel) (i - 1) (Arg q 0)
              (Arg word.val 0) { s with mem := mem1, p := Arg q (i - 1) + 1 } with
          | none => none
          | some s1 =>
            Copy_Term_Rec c base_copy fuel (Arg q 0 + (i - 1)) (Arg word.val 0 + (i - 1)) s1
      | _ => some { s with mem := s.mem.write dst_adr word }

/-- The loop of `Copy_Term` that restores the original self references,
from the top of the stack down. -/
def restore_vars : List (WamWord × Nat) → Mem → Mem
  | [], mem => mem
  | (word, adr) :: rest, mem => restore_vars rest (mem.write adr word)

/-- `Copy_Term(dst_adr, src_adr)`: the final memory, the final value of `*p`
(the static `fix_bug`) and the stack of saved variables. -/
def Copy_Term (c : Config) (fuel : Nat) (dst_adr src_adr : Nat) (mem : Mem) : Option CopySt :=
  match Copy_Term_Rec c dst_adr fuel dst_adr src_adr
      { mem := mem, p := dst_adr + 1, top_vars := [] } with
  | none => none
  | some s => some { s with mem := restore_vars s.top_vars s.mem }

/-- Dereferencing `w` in `mem` ends at `u`. -/
inductive Derefs (mem : Mem) : WamWord → WamWord → Prop where
  | nonref (w : WamWord) : w.tag ≠ .REF → Derefs mem w w
  | unbound (w : WamWord) : w.tag = .REF → mem w.val = w → Derefs mem w w
  | bound (w u : WamWord) : w.tag = .REF → mem w.val ≠ w → Derefs mem (mem w.val) u →
      Derefs mem w u

/-- `ListChain c mem w n e`: from the word `w`, `n` list pairs linked by
their second cells lead to the dereferenced word `e`, which is not a list
pair. -/
inductive ListChain (mem : Mem) : WamWord → Nat → WamWord → Prop where
  | stop (w e : WamWord) : Derefs mem w e → e.tag ≠ .LST → ListChain mem w 0 e
  | pair (w cell e : WamWord) (n : Nat) : Derefs mem w cell → cell.tag = .LST →
      ListChain mem (mem (Cdr cell.val)) n e → ListChain mem w (n + 1) e

/-- The term at `w` is a proper list of exactly `n` elements: `n` list pairs
ending in the empty list. -/
def IsProperList (c : Config) (mem : Mem) (w : WamWord) (n : Nat) : Prop :=
  ListChain mem w n (NIL_WORD c)

/-- The chain of list pairs from `w` ends in an unbound variable. -/
def EndsInVariable (mem : Mem) (w : WamWord) : Prop :=
  ∃ n a, ListChain mem w n ⟨.REF, a⟩

/-- A sample configuration: 64-bit words, no finite-domain solver, the arity
of a functor/arity word in its value. -/
def sampleConfig : Config :=
  { WORD_SIZE := 64
    NO_USE_FD_SOLVER := true
    MAX_VAR_IN_TERM := 2048
    ATOM_NIL := 0
    Arity_Of := fun w => w.val
    Fd_Variable_Size := fun _ _ => 0
    Fd_Copy_Variable := fun mem _ _ => (mem, 0) }

/-- A sample memory holding the list `[1, 2]` in the pairs at 10 and 12, the
partial list `[1 | X]` in the pair at 20 with the unbound variable `X` at 21,
and the term `[1 | 2]` in the pair at 30. -/
def listMem : Mem := fun a =>
  if a = 10 then ⟨.INT, 1⟩ else if a = 11 then ⟨.LST, 12⟩
  else if a = 12 then ⟨.INT, 2⟩ else if a = 13 then ⟨.ATM, 0⟩
  else if a = 20 then ⟨.INT, 1⟩ else if a = 21 then ⟨.REF, 21⟩
  else if a = 30 then ⟨.INT, 1⟩ else if a = 31 then ⟨.INT, 2⟩
  else ⟨.INT, 0⟩

/-- The address `a` lies outside the block `[lo, hi)`. -/
def Outside (lo hi a : Nat) : Prop := a < lo ∨ hi ≤ a

/-- Number of words a float takes after its tagged word. -/
def fltWords (c : Config) : Nat := if c.WORD_SIZE = 32 then 2 else 1

/-- `SrcTerm c mem V lo hi w n`: the word `w` is the root of a finite term
without finite-domain variables, stored in `mem` outside the block
`[lo, hi)`, whose unbound variables have their cells in `V`, and which counts
`n` words: one for a variable, an atom or an integer, the words of the
referenced term for a bound reference, `1 + fltWords` for a float, one plus
the words of both cells for a list pair, two plus the words of the arguments
for a structure. -/
inductive SrcTerm (c : Config) (mem : Mem) (V : Finset Nat) (lo hi : Nat) :
    WamWord → Nat → Prop where
  | var (a : Nat) : a ∈ V → Outside lo hi a → mem a = ⟨.REF, a⟩ →
      SrcTerm c mem V lo hi ⟨.REF, a⟩ 1
  | ref (a n : Nat) : Outside lo hi a → mem a ≠ ⟨.REF, a⟩ → SrcTerm c mem V lo hi (mem a) n →
      SrcTerm c mem V lo hi ⟨.REF, a⟩ n
  | atm (v : Nat) : SrcTerm c mem V lo hi ⟨.ATM, v⟩ 1
  | int (v : Nat) : SrcTerm c mem V lo hi ⟨.INT, v⟩ 1
  | flt (a : Nat) : SrcTerm c mem V lo hi ⟨.FLT, a⟩ (1 + fltWords c)
  | lst (a : Nat) (sz : Nat → Nat) :
      (∀ i < 2, Outside lo hi (a + i)) →
      (∀ i < 2, SrcTerm c mem V lo hi (mem (a + i)) (sz i)) →
      SrcTerm c mem V lo hi ⟨.LST, a⟩ (1 + (Finset.range 2).sum sz)
  | stc (a : Nat) (sz : Nat → Nat) :
      0 < Arity c mem a → (mem a).tag ≠ .REF → Outside lo hi a →
      (∀ i < Arity c mem a, Outside lo hi (a + 1 + i)) →
      (∀ i < Arity c mem a, SrcTerm c mem V lo hi (mem (a + 1 + i)) (sz i)) →
      SrcTerm c mem V lo hi ⟨.STC, a⟩ (2 + (Finset.range (Arity c mem a)).sum sz)

/-- `Packed c mem lo hi w q q1`: the term with root word `w` has the cells
after its root exactly in `[q, q1)`, in the order of the traversal, and every
pointer in it (variable reference, list, structure or float pointer) points
into the block `[lo, hi)`. -/
inductive Packed (c : Config) (mem : Mem) (lo hi : Nat) : WamWord → Nat → Nat → Prop where
  | atm (v q : Nat) : Packed c mem lo hi ⟨.ATM, v⟩ q q
  | int (v q : Nat) : Packed c mem lo hi ⟨.INT, v⟩ q q
  | ref (d q : Nat) : lo ≤ d → d < hi → Packed c mem lo hi ⟨.REF, d⟩ q q
  | flt (q : Nat) : lo ≤ q → q + fltWords c ≤ hi →
      Packed c mem lo hi ⟨.FLT, q⟩ q (q + fltWords c)
  | lst (q : Nat) (qs : Nat → Nat) : lo ≤ q → qs 0 = q + 2 → qs 2 ≤ hi →
      (∀ i < 2, Packed c mem lo hi (mem (q + i)) (qs i) (qs (i + 1))) →
      Packed c mem lo hi ⟨.LST, q⟩ q (qs 2)
  | stc (q : Nat) (qs : Nat → Nat) : lo ≤ q → 0 < Arity c mem q →
      qs 0 = q + 1 + Arity c mem q → qs (Arity c mem q) ≤ hi →
      (∀ i < Arity c mem q, Packed c mem lo hi (mem (q + 1 + i)) (qs i) (qs (i + 1))) →
      Packed c mem lo hi ⟨.STC, q⟩ q (qs (Arity c mem q))

/-- Some saved variable is bound to the cell `d` of the copy. -/
def CopyAt (s : CopySt) (d : Nat) : Prop :=
  ∃ e ∈ s.top_vars, s.mem e.2 = ⟨.REF, d⟩

/-- The state of a copy in progress, against the memory `m0` at the call:
outside the block the memory differs from `m0` only at the saved variables;
each saved variable was unbound in `m0`, lies outside the block, is saved
once, with its original word, and is bound to an unbound cell of the copy
below `p`. -/
structure CopyInv (m0 : Mem) (V : Finset Nat) (lo hi : Nat) (s : CopySt) : Prop where
  frame : ∀ a, Outside lo hi a → a ∉ s.top_vars.map Prod.snd → s.mem a = m0 a
  trail : ∀ e ∈ s.top_vars, e.1 = ⟨.REF, e.2⟩ ∧ m0 e.2 = ⟨.REF, e.2⟩ ∧ Outside lo hi e.2 ∧
    e.2 ∈ V ∧ ∃ d, s.mem e.2 = ⟨.REF, d⟩ ∧ lo ≤ d ∧ d < s.p ∧ s.mem d = ⟨.REF, d⟩
  nodup : (s.top_vars.map Prod.snd).Nodup
  bound : lo < s.p ∧ s.p ≤ hi

/-- What a call `Copy_Term_Rec(dst, src, p)` for a term of `n` words leaves
(`s1`) from the state `s`. -/
structure CopyPost (c : Config) (m0 : Mem) (V : Finset Nat) (lo hi : Nat) (s s1 : CopySt)
    (dst n : Nat) : Prop where
  p_eq : s1.p = s.p + (n - 1)
  inv : CopyInv m0 V lo hi s1
  block : ∀ a, lo ≤ a → a < s.p → a ≠ dst → s1.mem a = s.mem a
  copies : ∀ d, CopyAt s1 d → CopyAt s d ∨ d = dst ∨ s.p ≤ d
  packed : Packed c s1.mem lo hi (s1.mem dst) s.p s1.p

/-- The statement proved of `Copy_Term_Rec` for a source word `x` of `n`
words. -/
def CopySpec (c : Config) (m0 : Mem) (V : Finset Nat) (lo hi : Nat) (x : WamWord) (n : Nat) :
    Prop :=
  ∀ (dst src : Nat) (s : CopySt), CopyInv m0 V lo hi s → Outside lo hi src → m0 src = x →
    lo ≤ dst → dst < s.p → (∀ d, CopyAt s d → d ≠ dst) → s.p + (n - 1) ≤ hi →
    ∃ f s1, Copy_Term_Rec c lo f dst src s = some s1 ∧ CopyPost c m0 V lo hi s s1 dst n

/-- A sample memory holding at address 5 the term `[X | X]`: a list pair at
20 whose first cell is the unbound variable `X` and whose second cell refers
to it. -/
def pairMem : Mem := fun a =>
  if a = 5 then ⟨.LST, 20⟩ else if a = 20 then ⟨.REF, 20⟩ else if a = 21 then ⟨.REF, 20⟩
  else ⟨.INT, 0⟩

/-- A sample memory holding at address 5 the term `[[8 | [1 | 2]] | 7]`, of
seven words, whose inner pair `[8 | [1 | 2]]` lies at the addresses 102 and
103. -/
def overlapMem : Mem := fun a =>
  if a = 5 then ⟨.LST, 50⟩ else if a = 50 then ⟨.LST, 102⟩ else if a = 51 then ⟨.ATM, 7⟩
  else if a = 102 then ⟨.ATM, 8⟩ else if a = 103 then ⟨.LST, 60⟩
  else if a = 60 then ⟨.INT, 1⟩ else if a = 61 then ⟨.INT, 2⟩
  else ⟨.INT, 0⟩

/-! ## Standard order of terms (`Term_Compare`) -/

/-- The atom table, the untagging of integers and the helpers of
`Term_Compare` that are not among the sources. -/
structure CmpConfig where
  /-- `atom_tbl[a].name`, as the bytes of the string. -/
  atom_tbl : Nat → List Nat
  /-- The functor that `Rd_Compound` gives for a list pair (the atom `'.'`). -/
  ATOM_DOT : Nat
  /-- The functor held by a functor/arity word. -/
  Functor_Of : WamWord → Nat
  /-- `UnTag_INT`: the integer held by the value of an integer word. -/
  UnTag_INT : Nat → Int
  /-- `Obtain_Float(adr)`: the bits of the double stored at `adr`. -/
  Obtain_Float : Mem → Nat → Nat
  /-- The comparison `d1 < d2` of two doubles. -/
  dbl_lt : Nat → Nat → Bool
  /-- The comparison `d1 == d2` of two doubles. -/
  dbl_eq : Nat → Nat → Bool

/-- The C library function `strcmp`, whose result is specified by its sign
only: the lexicographic comparison of the bytes, with -1, 0 and 1 as
results. -/
def strcmp : List Nat → List Nat → Int
  | [], [] => 0
  | [], _ :: _ => -1
  | _ :: _, [] => 1
  | a :: as, b :: bs => if a < b then -1 else if b < a then 1 else strcmp as bs

/-- Conversion of a `long` to `int` (the assignment `x = Term_Compare(...)`
to the `int x`): the low 32 bits, read as signed. -/
def toInt (i : Int) : Int :=
  if i % 2 ^ 32 < 2 ^ 31 then i % 2 ^ 32 else i % 2 ^ 32 - 2 ^ 32

/-- Modelled from the spec: `Rd_Compound(word, &func, &arity)` of the engine,
on a dereferenced word: for a "compound (list or structure)" the functor, the
arity and the address of the first argument (`'.'` and 2 for a list pair),
`NULL` (here `none`) otherwise, as the comments `u_tag == LST / STC` and
`v_tag != LST / STC` of `Term_Compare` say. -/
def Rd_Compound (c : Config) (e : CmpConfig) (mem : Mem) (word : WamWord) :
    Option (Nat × Nat × Nat) :=
  match word.tag with
  | .LST => some (e.ATOM_DOT, 2, Car word.val)
  | .STC => some (e.Functor_Of (mem word.val), Arity c mem word.val, Arg word.val 0)
  | _ => none

/-- The loop `for (i = 0; i < u_arity; i++)` of `Term_Compare`, with `k`
iterations left; the result of each comparison goes through the `int x`. -/
def Term_Compare_args (cmp : WamWord → WamWord → Option Int) (mem : Mem) :
    Nat → Nat → Nat → Option Int
  | 0, _, _ => some 0
  | k + 1, u_arg_adr, v_arg_adr =>
    match cmp (mem u_arg_adr) (mem v_arg_adr) with
    | none => none
    | some r =>
      let x := toInt r
      if x ≠ 0 then some x
      else Term_Compare_args cmp mem k (u_arg_adr + 1) (v_arg_adr + 1)

/-- The part of `Term_Compare` after the `switch` (`u_tag == LST / STC`).
`none` when `Rd_Compound` gives `NULL` for `u_word`, whose arity is then
read uninitialised. -/
def Term_Compare_compound (c : Config) (e : CmpConfig) (mem : Mem)
    (cmp : WamWord → WamWord → Option Int) (u_word v_word : WamWord) : Option Int :=
  match Rd_Compound c e mem v_word with
  | none => some 1
  | some (v_func, v_arity, v_arg_adr) =>
    match Rd_Compound c e mem u_word with
    | none => none
    | some (u_func, u_arity, u_arg_adr) =>
      if u_arity ≠ v_arity then some ((u_arity : Int) - (v_arity : Int))
      else if u_func ≠ v_func then some (strcmp (e.atom_tbl u_func) (e.atom_tbl v_func))
      else Term_Compare_args cmp mem u_arity u_arg_adr v_arg_adr

/-- The `switch (u_tag)` of `Term_Compare` on the two dereferenced words and
what follows it; `cmp` is the recursive call.  Without the finite-domain
solver the `case FDV` and the tests `v_tag == FDV` are not compiled. -/
def Term_Compare_switch (c : Config) (e : CmpConfig) (mem : Mem)
    (cmp : WamWord → WamWord → Option Int) (u_word v_word : WamWord) : Option Int :=
  let v_fdv : Bool := !c.NO_USE_FD_SOLVER && decide (v_word.tag = .FDV)
  match u_word.tag with
  | .REF =>
    if v_word.tag ≠ .REF then some (-1) else some ((u_word.val : Int) - (v_word.val : Int))
  | .FDV =>
    if c.NO_USE_FD_SOLVER then Term_Compare_compound c e mem cmp u_word v_word
    else if v_word.tag = .REF then some 1
    else if v_word.tag ≠ .FDV then some (-1)
    else some ((u_word.val : Int) - (v_word.val : Int))
  | .FLT =>
    if v_word.tag = .REF ∨ v_fdv = true then some 1
    else if v_word.tag ≠ .FLT then some (-1)
    else
      let d1 := e.Obtain_Float mem u_word.val
      let d2 := e.Obtain_Float mem v_word.val
      some (if e.dbl_lt d1 d2 then -1 else if e.dbl_eq d1 d2 then 0 else 1)
  | .INT =>
    if v_word.tag = .REF ∨ v_fdv = true ∨ v_word.tag = .FLT then some 1
    else if v_word.tag ≠ .INT then some (-1)
    else some (e.UnTag_INT u_word.val - e.UnTag_INT v_word.val)
  | .ATM =>
    if v_word.tag = .REF ∨ v_fdv = true ∨ v_word.tag = .FLT ∨ v_word.tag = .INT then some 1
    else if v_word.tag ≠ .ATM then some (-1)
    else some (strcmp (e.atom_tbl u_word.val) (e.atom_tbl v_word.val))
  | _ => Term_Compare_compound c e mem cmp u_word v_word

/-- `Term_Compare(start_u_word, start_v_word)`; `none` when the traversal is
longer than `fuel`. -/
def Term_Compare (c : Config) (e : CmpConfig) (mem : Mem) :
    Nat → WamWord → WamWord → Option Int
  | 0, _, _ => none
  | fuel + 1, start_u_word, start_v_word =>
    match DEREF mem fuel start_u_word with
    | none => none
    | some u_word =>
      match DEREF mem fuel start_v_word with
      | none => none
      | some v_word =>
        Term_Compare_switch c e mem (Term_Compare c e mem fuel) u_word v_word

/-- The rank of the kind of a term in the standard order: variable,
finite-domain variable, float, integer, atom, compound (list or structure). -/
def kindRank : Tag → Nat
  | .REF => 0
  | .FDV => 1
  | .FLT => 2
  | .INT => 3
  | .ATM => 4
  | .LST => 5
  | .STC => 5

/-- A sample atom table and untagging: the atom `a` is named by the single
byte `a`, the functor of a functor/arity word is its value, an integer word
holds its value. -/
def sampleCmp : CmpConfig :=
  { atom_tbl := fun a => [a]
    ATOM_DOT := 46
    Functor_Of := fun w => w.val
    UnTag_INT := fun v => (v : Int)
    Obtain_Float := fun _ _ => 0
    dbl_lt := fun _ _ => false
    dbl_eq := fun _ _ => true }

/-- A sample memory holding the structures `f(4294967296)` at 10, `f(0)` at
20 and `f(2147483648)` at 30 (functor/arity word of value 1: the functor 1
with one argument). -/
def cmpMem : Mem := fun a =>
  if a = 10 then ⟨.ATM, 1⟩ else if a = 11 then ⟨.INT, 4294967296⟩
  else if a = 20 then ⟨.ATM, 1⟩ else if a = 21 then ⟨.INT, 0⟩
  else if a = 30 then ⟨.ATM, 1⟩ else if a = 31 then ⟨.INT, 2147483648⟩
  else ⟨.INT, 0⟩

/-! ## Decomposition of a file name (`BipsPl/file_c.c`) -/

/-- The memory of characters: the byte at each address. -/
abbrev Chars := Nat → Nat

/-- Assignment `*p = ch` of one character. -/
def Chars.write (chars : Chars) (p ch : Nat) : Chars :=
  fun q => if q = p then ch else chars q

/-- The helpers of `Pl_Decompose_File_Name_4` that are not among the
sources. -/
structure FileEnv where
  /-- `Pl_M_Decompose_File_Name(path, FALSE, &base, &suffix)`: the memory it
  leaves and the pointers `dir`, `base` and `suffix`. -/
  Pl_M_Decompose_File_Name : Chars → Nat → Chars × Nat × Nat × Nat
  /-- `Pl_Un_String(str, word)`: whether the string at `str` unifies with
  `word`. -/
  Pl_Un_String : Chars → Nat → WamWord → Bool

/-- `Pl_Decompose_File_Name_4(path_word, dir_word, prefix_word, suffix_word)`
from the call of `Pl_M_Decompose_File_Name` on (`path` is the name of the atom
of `path_word`; the checks before it either return or raise an error): the
returned boolean and the memory of characters at the return. -/
def Pl_Decompose_File_Name_4 (e : FileEnv) (chars : Chars) (path : Nat)
    (dir_word prefix_word suffix_word : WamWord) : Bool × Chars :=
  let d := e.Pl_M_Decompose_File_Name chars path
  let chars0 := d.1
  let dir := d.2.1
  let base := d.2.2.1
  let suffix := d.2.2.2
  if !e.Pl_Un_String chars0 dir dir_word then (false, chars0)
  else
    let ch := chars0 suffix
    let chars1 := chars0.write suffix 0
    if !e.Pl_Un_String chars1 base prefix_word then (false, chars1)
    else
      let chars2 := chars1.write suffix ch
      (e.Pl_Un_String chars2 suffix suffix_word, chars2)

/-- The memory of characters holding the path `/a/b.c` at 0 (terminated by
0) and the directory `/a/` at 100. -/
def pathChars : Chars := fun q =>
  if q = 0 then 47 else if q = 1 then 97 else if q = 2 then 47 else if q = 3 then 98
  else if q = 4 then 46 else if q = 5 then 99
  else if q = 100 then 47 else if q = 101 then 97 else if q = 102 then 47
  else 0

/-- A sample environment: the path at `path` is decomposed in place, with
the base three and the suffix four bytes on and the directory at 100; a
string unifies with an unbound variable and with nothing else. -/
def sampleFileEnv : FileEnv :=
  { Pl_M_Decompose_File_Name := fun chars path => (chars, 100, path + 3, path + 4)
    Pl_Un_String := fun _ _ w => decide (w.tag = .REF) }

end BipsPl

namespace Ma2Asm

/-! ## Return value into memory, spilled doubles -/

/-- `Move_Ret_To_Mem_L(name, index)`. -/
def Move_Ret_To_Mem_L (t : Target) (name : String) (index : Int) : List Line :=
  let offset := index * BPW
  Load_Address t "x7" name
    ++ (if offset ≤ 4095 then [Line.inst "str" [.reg "x0", .memImm "x7" offset]]
        else Increment_Reg "x7" offset ++ [Line.inst "str" [.reg "x0", .mem "x7"]])

/-- A native call whose first eight arguments are double constants (the
argument `i` at the word offset `2 * i`). -/
def eightDoubles : List Op :=
  [.call_c_start, .call_c_arg 0 (.double 1), .call_c_arg 2 (.double 1),
   .call_c_arg 4 (.double 1), .call_c_arg 6 (.double 1), .call_c_arg 8 (.double 1),
   .call_c_arg 10 (.double 1), .call_c_arg 12 (.double 1), .call_c_arg 14 (.double 1)]

/-! ## Helper lemmas -/

theorem land_ffff (n : Nat) : n &&& 0xffff = n % 65536 :=
  Nat.and_pow_two_sub_one_eq_mod n 16

theorem mod_chunk (v k : Nat) :
    v % 2 ^ (16 * (k + 1)) = v % 2 ^ (16 * k) + (v / 2 ^ (16 * k) % 65536) * 2 ^ (16 * k) := by
  have : (2 : Nat) ^ (16 * (k + 1)) = 2 ^ (16 * k) * 65536 := by
    rw [Nat.mul_add, pow_add]; norm_num
  rw [this, Nat.mod_mul, Nat.mul_comm (2 ^ (16 * k))]

theorem div_chunk (v k : Nat) : (v / 2 ^ (16 * k)) >>> 16 = v / 2 ^ (16 * (k + 1)) := by
  rw [Nat.shiftRight_eq_div_pow, Nat.div_div_eq_div_mul, Nat.mul_add, pow_add]

theorem setReg_same (m : Machine) (r : String) (v : Nat) : (m.setReg r v).reg r = v := by
  simp [Machine.setReg]

theorem setReg_other (m : Machine) (r q : String) (v : Nat) (h : q ≠ r) :
    (m.setReg r v).reg q = m.reg q := by
  simp [Machine.setReg, h]

theorem Load_Immediate_loop_exec (r : String) (v : Nat) (hv : v < 2 ^ 64) :
    ∀ (int_val : Nat) (shift : Int) (wipe : Bool) (k : Nat) (m : Machine),
      shift = 16 * (k : Int) → int_val = v / 2 ^ (16 * k) →
      (wipe = true → v % 2 ^ (16 * k) = 0) →
      (wipe = false → m.reg r = v % 2 ^ (16 * k)) →
      ∃ m', execSeq (Load_Immediate_loop r int_val shift wipe) m = some m' ∧
        m'.reg r = v ∧ (∀ q, q ≠ r → m'.reg q = m.reg q) ∧
        m'.mem = m.mem ∧ m'.flags = m.flags ∧ m'.pc = m.pc := by
  intro int_val shift wipe
  induction int_val, shift, wipe using Load_Immediate_loop.induct r with
  | case1 int_val shift wipe h1 slice h2 ih =>
    intro k m hs hi hw hr
    rw [Load_Immediate_loop]
    simp only [h1, if_true]
    have h2' : int_val &&& 0xffff ≠ 0 ∨ int_val = 0 ∧ wipe = true := h2
    simp only [h2', if_true]
    have hlt : v % 2 ^ (16 * (k + 1)) < 2 ^ 64 := lt_of_le_of_lt (Nat.mod_le _ _) hv
    have hst : shift.toNat = 16 * k := by rw [hs]; omega
    have hnext : ∀ m1 : Machine, m1.reg r = v % 2 ^ (16 * (k + 1)) →
        (∀ q, q ≠ r → m1.reg q = m.reg q) → m1.mem = m.mem → m1.flags = m.flags →
        m1.pc = m.pc →
        ∃ m', execSeq (Load_Immediate_loop r (int_val >>> 16) (shift + 16) false) m1 = some m' ∧
          m'.reg r = v ∧ (∀ q, q ≠ r → m'.reg q = m.reg q) ∧
          m'.mem = m.mem ∧ m'.flags = m.flags ∧ m'.pc = m.pc := by
      intro m1 hr1 hq1 hm1 hf1 hp1
      obtain ⟨m', he, hv', hq', hm', hf', hp'⟩ := ih (k + 1) m1 (by rw [hs]; push_cast; ring)
        (by rw [hi, div_chunk]) (by intro hc; cases hc) (fun _ => hr1)
      exact ⟨m', he, hv', fun q hq => (hq' q hq).trans (hq1 q hq), hm'.trans hm1,
        hf'.trans hf1, hp'.trans hp1⟩
    cases wipe with
    | true =>
      simp [execSeq, execInst, execMov]
      apply hnext
      · rw [setReg_same, movzVal, hst, land_ffff, mod_chunk, hw rfl, ← hi, Nat.zero_add]
        apply Nat.mod_eq_of_lt
        have := hlt
        rw [mod_chunk, hw rfl, ← hi, Nat.zero_add] at this
        exact this
      · intro q hq; exact setReg_other _ _ _ _ hq
      · rfl
      · rfl
      · rfl
    | false =>
      simp [execSeq, execInst, execMov]
      apply hnext
      · rw [setReg_same, movkVal, hst, land_ffff, hr rfl]
        have ha : v % 2 ^ (16 * k) < 2 ^ (16 * k) := Nat.mod_lt _ (by positivity)
        have hb : v % 2 ^ (16 * k) / 2 ^ (16 * k + 16) = 0 := by
          apply Nat.div_eq_of_lt
          exact lt_of_lt_of_le ha (Nat.pow_le_pow_right (by norm_num) (by omega))
        rw [hb, Nat.mod_mod, Nat.zero_mul, Nat.add_zero]
        have hc : int_val % 65536 % 2 ^ 16 = int_val % 65536 := by norm_num
        rw [hc]
        have := hlt
        rw [mod_chunk, ← hi] at this
        rw [Nat.mod_eq_of_lt this, mod_chunk, ← hi]
      · intro q hq; exact setReg_other _ _ _ _ hq
      · rfl
      · rfl
      · rfl
  | case2 int_val shift wipe h1 slice h2 ih =>
    intro k m hs hi hw hr
    rw [Load_Immediate_loop]
    simp only [h1, if_true]
    have h2' : ¬ (int_val &&& 0xffff ≠ 0 ∨ int_val = 0 ∧ wipe = true) := h2
    simp only [h2', if_false]
    have hsl : int_val % 65536 = 0 := by
      rw [← land_ffff]
      by_contra hne
      exact h2' (Or.inl hne)
    apply ih (k + 1) m
    · rw [hs]; push_cast; ring
    · rw [hi, div_chunk]
    · intro hwt
      rw [mod_chunk, hw hwt, ← hi, hsl]; simp
    · intro hwf
      rw [mod_chunk, ← hi, hsl, hr hwf]; simp
  | case3 int_val shift wipe h1 =>
    intro k m hs hi hw hr
    rw [Load_Immediate_loop]
    simp only [h1, if_false]
    refine ⟨m, rfl, ?_, fun _ _ => rfl, rfl, rfl, rfl⟩
    have hz : int_val = 0 := by
      by_contra hne
      exact h1 (Or.inl hne)
    have hwf : wipe = false := by
      cases wipe
      · rfl
      · exact absurd (Or.inr rfl) h1
    rw [hr hwf]
    apply Nat.mod_eq_of_lt
    rw [hz] at hi
    have hpos : 0 < 2 ^ (16 * k) := by positivity
    exact (Nat.div_eq_zero_iff hpos).mp hi.symm

theorem Load_Immediate_loop_lines (r : String) :
    ∀ (int_val : Nat) (shift : Int) (wipe : Bool),
      ∀ l ∈ Load_Immediate_loop r int_val shift wipe, l.isMovzMovk r = true := by
  intro int_val shift wipe
  induction int_val, shift, wipe using Load_Immediate_loop.induct r with
  | case1 int_val shift wipe h1 slice h2 ih =>
    rw [Load_Immediate_loop]
    have h2' : int_val &&& 0xffff ≠ 0 ∨ int_val = 0 ∧ wipe = true := h2
    simp only [h1, h2', if_true]
    intro l hl
    rcases List.mem_cons.mp hl with h | h
    · subst h
      cases wipe <;> simp [Line.isMovzMovk]
    · exact ih l h
  | case2 int_val shift wipe h1 slice h2 ih =>
    rw [Load_Immediate_loop]
    have h2' : ¬ (int_val &&& 0xffff ≠ 0 ∨ int_val = 0 ∧ wipe = true) := h2
    simp only [h1, h2', if_true, if_false]
    exact ih
  | case3 int_val shift wipe h1 =>
    rw [Load_Immediate_loop]
    simp only [h1, if_false]
    intro l hl
    cases hl

/-- C1: with the manual chunked encoding (`USE_LDR_PSEUDO_OP` not defined),
for every 64-bit value `v` and register `r`, the lines emitted by
`Load_Immediate(r, v)` are `movz` / `movk` on `r` (after the optional comment
line), and executing them from any machine state leaves `r` equal to `v`,
whatever `r` held before; no other register and no memory word changes. -/
theorem Load_Immediate_manual_leaves_value (t : Target)
    (hmanual : t.USE_LDR_PSEUDO_OP = false) (r : String) (v : Nat) (hv : v < 2 ^ 64)
    (m : Machine) :
    (∀ l ∈ Load_Immediate_loop r v 0 true, l.isMovzMovk r = true) ∧
    ∃ m1, execSeq (Load_Immediate t r v) m = some m1 ∧ m1.reg r = v ∧
      (∀ q, q ≠ r → m1.reg q = m.reg q) ∧ m1.mem = m.mem := by
  refine ⟨Load_Immediate_loop_lines r v 0 true, ?_⟩
  obtain ⟨m1, he, hr, hq, hm, _, _⟩ :=
    Load_Immediate_loop_exec r v hv v 0 true 0 m (by simp) (by simp)
      (fun _ => by simp [Nat.mod_one]) (by simp)
  refine ⟨m1, ?_, hr, hq, hm⟩
  unfold Load_Immediate
  rw [hmanual]
  cases hc : t.comment
  · simpa using he
  · simpa [execSeq, execInst] using he

/-- Witness of C1: the value 0x12345678 loaded into x0 on the manual target. -/
theorem Load_Immediate_manual_leaves_value_witness :
    (∀ l ∈ Load_Immediate_loop "x0" 305419896 0 true, l.isMovzMovk "x0" = true) ∧
    ∃ m1, execSeq (Load_Immediate manualTarget "x0" 305419896) sampleMachine = some m1 ∧
      m1.reg "x0" = 305419896 ∧
      (∀ q, q ≠ "x0" → m1.reg q = sampleMachine.reg q) ∧ m1.mem = sampleMachine.mem :=
  Load_Immediate_manual_leaves_value manualTarget rfl "x0" 305419896 (by norm_num) sampleMachine

/-- The manual encoding of 0x12345678: one `movz` and one `movk`. -/
theorem Load_Immediate_manual_example :
    Load_Immediate manualTarget "x0" 305419896 =
      [Line.inst "movz" [.reg "x0", .imm 22136, .lsl 0],
       Line.inst "movk" [.reg "x0", .imm 4660, .lsl 16]] := by
  simp [Load_Immediate, manualTarget, sampleTarget, Load_Immediate_loop, land_ffff]

theorem toPlULong_lt (i : Int) : toPlULong i < 2 ^ 64 := by
  unfold toPlULong
  have h1 : 0 ≤ i % 2 ^ 64 := Int.emod_nonneg _ (by norm_num)
  have h2 : i % 2 ^ 64 < 2 ^ 64 := Int.emod_lt_of_pos _ (by norm_num)
  omega

theorem toPlULong_toSigned64 (w : Nat) : toPlULong (toSigned64 w) = w % 2 ^ 64 := by
  unfold toPlULong toSigned64
  have hw : w % 2 ^ 64 < 2 ^ 64 := Nat.mod_lt _ (by norm_num)
  split <;> omega

theorem toPlULong_cast (i : Int) : ((toPlULong i : Nat) : Int) = i % 2 ^ 64 := by
  unfold toPlULong
  exact Int.toNat_of_nonneg (Int.emod_nonneg _ (by norm_num))

/-- Executing `Load_Immediate(r, w)` leaves `w` in `r`, in both builds. -/
theorem Load_Immediate_exec (t : Target) (r : String) (w : Nat) (hw : w < 2 ^ 64)
    (m : Machine) :
    ∃ m1, execSeq (Load_Immediate t r w) m = some m1 ∧ m1.reg r = w ∧
      (∀ q, q ≠ r → m1.reg q = m.reg q) ∧ m1.mem = m.mem := by
  cases hp : t.USE_LDR_PSEUDO_OP
  · obtain ⟨m1, he, hr, hq, hm, _, _⟩ :=
      Load_Immediate_loop_exec r w hw w 0 true 0 m (by simp) (by simp)
        (fun _ => by simp [Nat.mod_one]) (by simp)
    refine ⟨m1, ?_, hr, hq, hm⟩
    unfold Load_Immediate
    rw [hp]
    cases hc : t.comment
    · simpa using he
    · simpa [execSeq, execInst] using he
  · refine ⟨m.setReg r (toPlULong (toSigned64 w)), ?_, ?_, ?_, rfl⟩
    · simp [Load_Immediate, hp, execSeq, execInst, execLdr]
    · rw [setReg_same, toPlULong_toSigned64, Nat.mod_eq_of_lt hw]
    · intro q hq; exact setReg_other _ _ _ _ hq

theorem Load_Immediate_noImmOffset (t : Target) (r : String) (w : Nat) :
    ∀ l ∈ Load_Immediate t r w, l.hasImmOffset = false := by
  intro l hl
  unfold Load_Immediate at hl
  split at hl
  · simp at hl; subst hl; simp [Line.hasImmOffset, Operand.hasImmOffset]
  · rcases List.mem_append.mp hl with h | h
    · split at h
      · simp at h; subst h; simp [Line.hasImmOffset, Operand.hasImmOffset]
      · cases h
    · have := Load_Immediate_loop_lines r w 0 true l h
      revert this
      unfold Line.isMovzMovk
      split
      · intro _; simp [Line.hasImmOffset, Operand.hasImmOffset]
      · intro hc; cases hc

/-- C2: with `o = Y_OFFSET(index)`: if `-255 ≤ o ≤ 255`, `Load_Store_Reg_Y(op, r,
index)` emits exactly the one instruction `op r, [E, #o]`; otherwise it emits
the load of `o` into the scratch register x9 followed by `op r, [E, x9]`, and
no emitted line has a memory operand with a numeric offset. -/
theorem Load_Store_Reg_Y_forms (t : Target) (op r : String) (index : Int) :
    ((-255 ≤ t.Y_OFFSET index ∧ t.Y_OFFSET index ≤ 255) →
      Load_Store_Reg_Y t op r index =
        [Line.inst op [.reg r, .memImm (asm_reg_e t) (t.Y_OFFSET index)]]) ∧
    (¬ (-255 ≤ t.Y_OFFSET index ∧ t.Y_OFFSET index ≤ 255) →
      Load_Store_Reg_Y t op r index =
        Load_Immediate t "x9" (toPlULong (t.Y_OFFSET index))
          ++ [Line.inst op [.reg r, .memReg (asm_reg_e t) "x9"]] ∧
      (∀ l ∈ Load_Store_Reg_Y t op r index, l.hasImmOffset = false) ∧
      ∀ m : Machine, ∃ m1,
        execSeq (Load_Immediate t "x9" (toPlULong (t.Y_OFFSET index))) m = some m1 ∧
        m1.reg "x9" = toPlULong (t.Y_OFFSET index)) := by
  constructor
  · intro h
    simp [Load_Store_Reg_Y, Is_Load_Store_Offset_Immediate, h.1, h.2]
  · intro h
    have hf : Is_Load_Store_Offset_Immediate (t.Y_OFFSET index) = false := by
      unfold Is_Load_Store_Offset_Immediate
      by_contra hc
      simp at hc
      exact h ⟨hc.1, hc.2⟩
    have heq : Load_Store_Reg_Y t op r index =
        Load_Immediate t "x9" (toPlULong (t.Y_OFFSET index))
          ++ [Line.inst op [.reg r, .memReg (asm_reg_e t) "x9"]] := by
      simp [Load_Store_Reg_Y, hf]
    refine ⟨heq, ?_, ?_⟩
    · rw [heq]
      intro l hl
      rcases List.mem_append.mp hl with h1 | h1
      · exact Load_Immediate_noImmOffset t _ _ l h1
      · simp at h1; subst h1; simp [Line.hasImmOffset, Operand.hasImmOffset]
    · intro m
      obtain ⟨m1, he, hr, _, _⟩ := Load_Immediate_exec t "x9" _ (toPlULong_lt _) m
      exact ⟨m1, he, hr⟩

/-- Witness of C2: the offset +300 takes the scratch-register fallback. -/
theorem Load_Store_Reg_Y_forms_witness :
    Load_Store_Reg_Y farTarget "ldr" "x2" 0 =
      [Line.inst "ldr" [.reg "x9", .lit 300],
       Line.inst "ldr" [.reg "x2", .memReg "x25" "x9"]] ∧
    (∀ l ∈ Load_Store_Reg_Y farTarget "ldr" "x2" 0, l.hasImmOffset = false) :=
  ⟨((Load_Store_Reg_Y_forms farTarget "ldr" "x2" 0).2 (by decide)).1.trans (by decide),
   ((Load_Store_Reg_Y_forms farTarget "ldr" "x2" 0).2 (by decide)).2.1⟩

/-- An in-range slot: offset -32 is emitted as one direct load. -/
theorem Load_Store_Reg_Y_direct_example :
    Load_Store_Reg_Y sampleTarget "ldr" "x2" 0 =
      [Line.inst "ldr" [.reg "x2", .memImm "x25" (-32)]] := by
  decide

/-- C3: for every offset `o` (in particular every 32-bit signed one, negative
ones included) and every base value `E`, after the lines of
`Load_Immediate("x9", o)` have run, `E` plus the word left in x9, modulo 2^64,
is the effective address `E + o` of the direct-offset form; and the operand
`[E, x9]` of the fallback addresses the same word as `[E, #o]`. -/
theorem Load_Store_Reg_Y_fallback_address (t : Target) (hE : asm_reg_e t ≠ "x9")
    (o : Int) (m : Machine) :
    ∃ m1, execSeq (Load_Immediate t "x9" (toPlULong o)) m = some m1 ∧
      (∀ E : Nat, (E + m1.reg "x9") % 2 ^ 64 = addr64 E o) ∧
      effAddr m1 (.memReg (asm_reg_e t) "x9") = effAddr m (.memImm (asm_reg_e t) o) := by
  obtain ⟨m1, he, hr, hq, _⟩ := Load_Immediate_exec t "x9" _ (toPlULong_lt o) m
  have key : ∀ E : Nat, (E + m1.reg "x9") % 2 ^ 64 = addr64 E o := by
    intro E
    rw [hr]
    unfold addr64
    have hc := toPlULong_cast o
    have h1 : (((E + toPlULong o) % 2 ^ 64 : Nat) : Int) = ((E : Int) + o) % 2 ^ 64 := by
      push_cast
      rw [hc]
      omega
    omega
  refine ⟨m1, he, key, ?_⟩
  simp only [effAddr]
  rw [hq _ hE, key]

/-- Witness of C3: offset -300 from the frame register x25. -/
theorem Load_Store_Reg_Y_fallback_address_witness :
    ∃ m1, execSeq (Load_Immediate sampleTarget "x9" (toPlULong (-300))) sampleMachine = some m1 ∧
      (∀ E : Nat, (E + m1.reg "x9") % 2 ^ 64 = addr64 E (-300)) ∧
      effAddr m1 (.memReg (asm_reg_e sampleTarget) "x9") =
        effAddr sampleMachine (.memImm (asm_reg_e sampleTarget) (-300)) :=
  Load_Store_Reg_Y_fallback_address sampleTarget (by decide) (-300) sampleMachine


/-- C6: for every register `r` and symbol `name`, `Load_Address(r, name)` emits
exactly two instructions, both with destination `r`; they are the local pair
(`adrp` then `add`) if and only if `Scope_Of_Symbol(name)` is positive and the
GOT-indirect pair (`adrp` then `ldr` through `r`) otherwise.  On Linux the
text is `adrp r, name` / `add r, r, :lo12:name`, respectively
`adrp r, :got:name` / `ldr r, [r, :got_lo12:name]`, so two targets that give
the name a scope of the same sign emit the same lines. -/
theorem Load_Address_forms (t : Target) (r name : String) :
    (Load_Address t r name).length = 2 ∧
    (∀ l ∈ Load_Address t r name, l.dest = some r) ∧
    ((Load_Address t r name).map Line.op = ["adrp", "add"] ↔ 0 < t.Scope_Of_Symbol name) ∧
    ((Load_Address t r name).map Line.op = ["adrp", "ldr"] ↔ ¬ 0 < t.Scope_Of_Symbol name) ∧
    (t.M_darwin = false →
      (0 < t.Scope_Of_Symbol name →
        (Load_Address t r name).map (Line.render t) =
          [("adrp", r ++ ", " ++ name), ("add", r ++ ", " ++ r ++ ", :lo12:" ++ name)]) ∧
      (¬ 0 < t.Scope_Of_Symbol name →
        (Load_Address t r name).map (Line.render t) =
          [("adrp", r ++ ", :got:" ++ name),
           ("ldr", r ++ ", [" ++ r ++ ", :got_lo12:" ++ name ++ "]")]) ∧
      ∀ t2 : Target, t2.M_darwin = false →
        (0 < t2.Scope_Of_Symbol name ↔ 0 < t.Scope_Of_Symbol name) →
        Load_Address t2 r name = Load_Address t r name) := by
  by_cases hs : 0 < t.Scope_Of_Symbol name
  · refine ⟨?_, ?_, ?_, ?_, ?_⟩
    · simp [Load_Address, hs]
    · simp [Load_Address, hs, Line.dest]
    · simp [Load_Address, hs, Line.op]
    · simp [Load_Address, hs, Line.op]
    · intro hd
      refine ⟨?_, ?_, ?_⟩
      · intro _
        simp [Load_Address, hs, Line.render, Operand.render, Reloc.fmt, hd, UN_EXT,
          String.intercalate, String.intercalate.go, String.ext_iff]
      · intro h; exact absurd hs h
      · intro t2 hd2 hiff
        have hs2 := hiff.mpr hs
        simp [Load_Address, hs, hs2, UN_EXT, hd, hd2]
  · refine ⟨?_, ?_, ?_, ?_, ?_⟩
    · simp [Load_Address, hs]
    · simp [Load_Address, hs, Line.dest]
    · simp [Load_Address, hs, Line.op]
    · simp [Load_Address, hs, Line.op]
    · intro hd
      refine ⟨?_, ?_, ?_⟩
      · intro h; exact absurd h hs
      · intro _
        simp [Load_Address, hs, Line.render, Operand.render, Reloc.fmt, hd, UN_EXT,
          String.intercalate, String.intercalate.go, String.ext_iff]
      · intro t2 hd2 hiff
        have hs2 : ¬ 0 < t2.Scope_Of_Symbol name := fun h => hs (hiff.mp h)
        simp [Load_Address, hs, hs2, UN_EXT, hd, hd2]

/-- A sample target on which `foo` is a local code symbol. -/
theorem Load_Address_forms_witness :
    (Load_Address localTarget "x0" "foo").map (Line.render localTarget) =
      [("adrp", "x0, foo"), ("add", "x0, x0, :lo12:foo")] ∧
    (Load_Address sampleTarget "x0" "foo").map (Line.render sampleTarget) =
      [("adrp", "x0, :got:foo"), ("ldr", "x0, [x0, :got_lo12:foo]")] :=
  ⟨((Load_Address_forms localTarget "x0" "foo").2.2.2.2 rfl).1 (by decide),
   ((Load_Address_forms sampleTarget "x0" "foo").2.2.2.2 rfl).2.1 (by decide)⟩

theorem ldiff_two_pow_sub_one (m k : Nat) : Nat.ldiff m (2 ^ k - 1) = m / 2 ^ k * 2 ^ k := by
  apply Nat.eq_of_testBit_eq
  intro i
  rw [Nat.testBit_ldiff, Nat.testBit_two_pow_sub_one, ← Nat.shiftRight_eq_div_pow,
    ← Nat.shiftLeft_eq, Nat.testBit_shiftLeft, Nat.testBit_shiftRight]
  by_cases h : i < k
  · simp [h]
  · have : k + (i - k) = i := by omega
    simp [h, this, Nat.le_of_not_lt h]

/-- On a non-negative `x` and a power of two, the macro `Round_Up_Pow2`
computes the quotient-based rounding. -/
theorem Round_Up_Pow2_eq (x k : Nat) :
    Round_Up_Pow2 (x : Int) ((2 ^ k : Nat) : Int) = (((x + (2 ^ k - 1)) / 2 ^ k * 2 ^ k : Nat) : Int) := by
  have hp : 1 ≤ 2 ^ k := Nat.one_le_two_pow
  have h1 : (x : Int) + (((2 ^ k : Nat) : Int) - 1) = ((x + (2 ^ k - 1) : Nat) : Int) := by omega
  have h2 : -(((2 ^ k : Nat) : Int)) = Int.negSucc (2 ^ k - 1) := by
    rw [Int.negSucc_eq]; omega
  unfold Round_Up_Pow2
  rw [h1, h2]
  show ((Nat.ldiff (x + (2 ^ k - 1)) (2 ^ k - 1) : Nat) : Int) = _
  rw [ldiff_two_pow_sub_one]

theorem Code_Start_doubles_ops (t : Target) (tbl : Nat → Dbl) (n : Nat) :
    ∀ (x : Int) (i : Nat), ∀ l ∈ Code_Start_doubles t tbl n x i,
      l.op = "" ∨ l.op = ".double" := by
  intro x i
  induction x, i using Code_Start_doubles.induct t tbl n with
  | case1 x i h ih =>
    rw [Code_Start_doubles]
    simp only [h, if_true]
    intro l hl
    rcases List.mem_cons.mp hl with h1 | h1
    · subst h1; left; rfl
    · rcases List.mem_cons.mp h1 with h2 | h2
      · subst h2; right; rfl
      · exact ih l h2
  | case2 x i h =>
    rw [Code_Start_doubles]
    simp only [h, if_false]
    intro l hl
    cases hl

theorem Code_Start_doubles_filter (t : Target) (tbl : Nat → Dbl) (n : Nat) (x : Int) (i : Nat)
    (op : String) (h1 : op ≠ "") (h2 : op ≠ ".double") :
    (Code_Start_doubles t tbl n x i).filter (fun l => decide (l.op = op)) = [] := by
  rw [List.filter_eq_nil_iff]
  intro l hl
  rcases Code_Start_doubles_ops t tbl n x i l hl with h | h
  · simp [h, Ne.symm h1]
  · simp [h, Ne.symm h2]

theorem RESERVED_STACK_SPACE_eq : RESERVED_STACK_SPACE = 208 := by
  have h := Round_Up_Pow2_eq 200 4
  norm_num at h
  simpa [RESERVED_STACK_SPACE, MAX_C_ARGS_IN_C_CODE, MAX_ARGS_IN_REGS, BPW] using h

/-- C8: the number of bytes the prologue subtracts from sp is
`RESERVED_STACK_SPACE = round_up(A + 8, 16)` with
`A = (MAX_C_ARGS_IN_C_CODE - MAX_ARGS_IN_REGS) * BPW = 192`, that is 208; the
same macro gives 48 for `A = 40`; the value is a multiple of 16, at least
`A + 8`, and the least such multiple. -/
theorem RESERVED_STACK_SPACE_round_up :
    (MAX_C_ARGS_IN_C_CODE - MAX_ARGS_IN_REGS) * BPW = 192 ∧
    RESERVED_STACK_SPACE = round_up ((MAX_C_ARGS_IN_C_CODE - MAX_ARGS_IN_REGS) * BPW + 8) 16 ∧
    RESERVED_STACK_SPACE = 208 ∧
    Round_Up_Pow2 (40 + 8) 16 = 48 ∧ round_up (40 + 8) 16 = 48 ∧
    (16 : Int) ∣ RESERVED_STACK_SPACE ∧
    (MAX_C_ARGS_IN_C_CODE - MAX_ARGS_IN_REGS) * BPW + 8 ≤ RESERVED_STACK_SPACE ∧
    (∀ n : Int, (16 : Int) ∣ n → (MAX_C_ARGS_IN_C_CODE - MAX_ARGS_IN_REGS) * BPW + 8 ≤ n →
      RESERVED_STACK_SPACE ≤ n) ∧
    (∀ (t : Target) (label : String) (global : Int) (st : Tr),
      (Code_Start t label 0 global st).1.filter (fun l => decide (l.op = "sub")) =
        [Line.inst "sub" [.reg "sp", .reg "sp", .imm RESERVED_STACK_SPACE]]) := by
  have hA : (MAX_C_ARGS_IN_C_CODE - MAX_ARGS_IN_REGS) * BPW = 192 := by decide
  have h48 : Round_Up_Pow2 (40 + 8) 16 = 48 := by
    have h := Round_Up_Pow2_eq 48 4
    norm_num at h
    simpa using h
  refine ⟨hA, ?_, RESERVED_STACK_SPACE_eq, h48, by decide, ?_, ?_, ?_, ?_⟩
  · rw [RESERVED_STACK_SPACE_eq, hA]; decide
  · rw [RESERVED_STACK_SPACE_eq]; decide
  · rw [RESERVED_STACK_SPACE_eq, hA]; decide
  · intro n hn hle
    rw [RESERVED_STACK_SPACE_eq]
    rw [hA] at hle
    omega
  · intro t label global st
    have hd := Code_Start_doubles_filter t st.dbl_tbl st.nb_dbl
      ((st.dbl_lc_no : Int) - st.nb_dbl) 0 "sub" (by decide) (by decide)
    simp only [Code_Start, List.filter_append, hd]
    cases hdw : t.M_darwin <;> by_cases hg : global = 0 <;>
      simp [hg, Line.op, List.filter]

/-- C9 (as amended): the non-Prolog prologue and the epilogue are balanced.
With `prolog = 0`, `Code_Start` ends, after the function label, with
`sub sp, sp, #N` and `str x30, [sp]` (`N = RESERVED_STACK_SPACE`); `C_Ret` is
`ldr x30, [sp]`, `add sp, sp, #N`, `ret`.  Executing the prologue and then,
from any state with the same sp and the same word at [sp], the epilogue,
returns to the entry value of x30 with sp and x30 restored to their entry
values.  With `prolog != 0`, `Code_Start` emits no `sub` and no `str`. -/
theorem Code_Start_C_Ret_balanced (t : Target) (label : String) (global : Int) (st : Tr)
    (m : Machine) (hsp : m.reg "sp" < 2 ^ 64) :
    C_Ret = [Line.inst "ldr" [.reg "x30", .mem "sp"],
             Line.inst "add" [.reg "sp", .reg "sp", .imm RESERVED_STACK_SPACE],
             Line.inst "ret" []] ∧
    (∃ pre, (Code_Start t label 0 global st).1 =
        pre ++ [Line.label (UN_EXT t ++ label ++ ":"),
                Line.inst "sub" [.reg "sp", .reg "sp", .imm RESERVED_STACK_SPACE],
                Line.inst "str" [.reg "x30", .mem "sp"]]) ∧
    (∃ m1, execSeq [Line.inst "sub" [.reg "sp", .reg "sp", .imm RESERVED_STACK_SPACE],
                    Line.inst "str" [.reg "x30", .mem "sp"]] m = some m1 ∧
      m1.reg "sp" = addr64 (m.reg "sp") (-RESERVED_STACK_SPACE) ∧
      m1.mem (m1.reg "sp") = m.reg "x30" ∧
      ∀ m2 : Machine, m2.reg "sp" = m1.reg "sp" → m2.mem (m1.reg "sp") = m1.mem (m1.reg "sp") →
        m2.pc = 0 →
        ∃ m3, run 3 C_Ret m2 = .ret (m.reg "x30") m3 ∧
          m3.reg "sp" = m.reg "sp" ∧ m3.reg "x30" = m.reg "x30") ∧
    (∀ prolog : Int, prolog ≠ 0 →
      ∀ l ∈ (Code_Start t label prolog global st).1, l.op ≠ "sub" ∧ l.op ≠ "str") := by
  refine ⟨rfl, ?_, ?_, ?_⟩
  · refine ⟨[Line.inst ".align" [.text "3"]]
      ++ Code_Start_doubles t st.dbl_tbl st.nb_dbl ((st.dbl_lc_no : Int) - st.nb_dbl) 0
      ++ [Line.label ""]
      ++ (if t.M_darwin then [Line.inst ".p2align" [.text "2"]]
          else [Line.inst ".align" [.text "2"],
                Line.inst ".p2align" [.text "3,,7"],
                Line.inst ".type" [.text (UN_EXT t ++ label), .text "%function"]])
      ++ (if global ≠ 0 then [Line.inst ".global" [.text (UN_EXT t ++ label)]] else [])
      ++ [Line.label ""], ?_⟩
    simp [Code_Start]
  · rw [RESERVED_STACK_SPACE_eq]
    have hlt : addr64 (m.reg "sp") (-208) < 2 ^ 64 := by
      unfold addr64; omega
    have hback : addr64 (addr64 (m.reg "sp") (-208)) 208 = m.reg "sp" := by
      unfold addr64; omega
    have hmod : addr64 (m.reg "sp") (-208) % 18446744073709551616 =
        addr64 (m.reg "sp") (-208) := Nat.mod_eq_of_lt hlt
    refine ⟨(m.setReg "sp" (addr64 (m.reg "sp") (-208))).setMem
      (addr64 (m.reg "sp") (-208)) (m.reg "x30"), ?_, ?_, ?_, ?_⟩
    · simp [execSeq, execInst, execAddSub, execStr, effAddr, Machine.setReg, Machine.setMem,
        hmod]
    · simp [Machine.setReg, Machine.setMem]
    · simp [Machine.setReg, Machine.setMem]
    · intro m2 h1 h2 h3
      simp only [Machine.setReg, Machine.setMem] at h1 h2
      simp at h1 h2
      refine ⟨{ ({ (m2.setReg "x30" (m.reg "x30")) with pc := 1 } : Machine).setReg "sp"
        (m.reg "sp") with pc := 2 }, ?_, ?_, ?_⟩
      · simp [run, step, C_Ret, h3, branchTaken, execInst, execLdr, execAddSub, effAddr, h1,
          hmod, h2, Machine.setReg, hback, RESERVED_STACK_SPACE_eq]
      · simp [Machine.setReg]
      · simp [Machine.setReg]
  · intro prolog hp l hl
    have hd1 := Code_Start_doubles_ops t st.dbl_tbl st.nb_dbl
      ((st.dbl_lc_no : Int) - st.nb_dbl) 0
    simp only [Code_Start, hp, if_false, List.append_nil, List.mem_append] at hl
    rcases hl with ((((hl | hl) | hl) | hl) | hl) | hl
    · simp at hl; subst hl; simp [Line.op]
    · rcases hd1 l hl with h | h <;> simp [h]
    · simp at hl; subst hl; simp [Line.op]
    · cases hdw : t.M_darwin <;> simp [hdw] at hl
      · rcases hl with h | h | h <;> subst h <;> simp [Line.op]
      · subst hl; simp [Line.op]
    · by_cases hg : global = 0 <;> simp [hg] at hl
      subst hl; simp [Line.op]
    · simp at hl
      rcases hl with h | h <;> subst h <;> simp [Line.op]

/-- Witness of C9: the prologue on the sample machine (sp = 4096) leaves
sp = 3888 and the epilogue returns to the saved x30 = 77. -/
theorem Code_Start_C_Ret_balanced_witness :
    sampleMachine.reg "sp" < 2 ^ 64 ∧
    ∃ m1, execSeq [Line.inst "sub" [.reg "sp", .reg "sp", .imm RESERVED_STACK_SPACE],
                   Line.inst "str" [.reg "x30", .mem "sp"]] sampleMachine = some m1 ∧
      m1.reg "sp" = 3888 ∧
      ∃ m3, run 3 C_Ret { m1 with pc := 0 } = .ret 77 m3 ∧ m3.reg "sp" = 4096 := by
  refine ⟨by decide, ?_⟩
  obtain ⟨m1, h1, h2, h3, h4⟩ :=
    (Code_Start_C_Ret_balanced sampleTarget "f" 1 Tr.init sampleMachine (by decide)).2.2.1
  refine ⟨m1, h1, ?_, ?_⟩
  · rw [h2, RESERVED_STACK_SPACE_eq]; decide
  · obtain ⟨m3, h5, h6, _⟩ := h4 { m1 with pc := 0 } rfl rfl rfl
    exact ⟨m3, h5, h6⟩

/-- Counterexample to C9 as stated: on the sample machine (sp = 4096,
x30 = 77) the prologue is followed by the lines of a ninth integer argument
of value 12, `ldr x9, =12` and `str x9, [sp, #0]`, which leave sp unchanged;
the epilogue then restores sp but returns to 12 with x30 = 12, not to the
entry value 77. -/
theorem Code_Start_C_Ret_word_at_sp_overwritten :
    sampleMachine.reg "x30" = 77 ∧
    (Call_C_Arg_Int sampleTarget 8 12 (Call_C_Start Tr.init)).1 =
      [Line.inst "ldr" [.reg "x9", .lit 12],
       Line.inst "str" [.reg "x9", .memImm "sp" 0]] ∧
    ∃ m1 m2, execSeq [Line.inst "sub" [.reg "sp", .reg "sp", .imm RESERVED_STACK_SPACE],
                      Line.inst "str" [.reg "x30", .mem "sp"]] sampleMachine = some m1 ∧
      execSeq (Call_C_Arg_Int sampleTarget 8 12 (Call_C_Start Tr.init)).1 m1 = some m2 ∧
      m2.reg "sp" = m1.reg "sp" ∧
      ∃ m3, run 3 C_Ret { m2 with pc := 0 } = .ret 12 m3 ∧
        m3.reg "x30" = 12 ∧ m3.reg "sp" = 4096 := by
  have hc : (Call_C_Arg_Int sampleTarget 8 12 (Call_C_Start Tr.init)).1 =
      [Line.inst "ldr" [.reg "x9", .lit 12],
       Line.inst "str" [.reg "x9", .memImm "sp" 0]] := by decide
  rw [hc, RESERVED_STACK_SPACE_eq]
  refine ⟨rfl, rfl, _, _, rfl, rfl, rfl, ?_⟩
  simp only [C_Ret, RESERVED_STACK_SPACE_eq]
  exact ⟨_, rfl, rfl, rfl⟩


theorem findLabel_append (pre : List Line) (l : String)
    (h : ∀ x ∈ pre, x.isInst = true) :
    findLabel (pre ++ [Line.label (l ++ ":")]) l = some pre.length := by
  have hn : Line.label (l ++ ":") ∉ pre := by
    intro hmem
    have := h _ hmem
    simp [Line.isInst] at this
  unfold findLabel
  rw [List.indexOf_append_of_not_mem hn, List.indexOf_cons_self]
  simp

theorem Load_Address_isInst (t : Target) (r name : String) :
    ∀ x ∈ Load_Address t r name, x.isInst = true := by
  intro x hx
  by_cases hs : t.Scope_Of_Symbol name > 0 <;> simp [Load_Address, hs] at hx <;>
    rcases hx with h | h <;> subst h <;> rfl

theorem Pl_Fail_isInst (t : Target) : ∀ x ∈ Pl_Fail t, x.isInst = true := by
  intro x hx
  unfold Pl_Fail at hx
  rcases List.mem_append.mp hx with h | h
  · split at h
    · simp at h; subst h; rfl
    · rcases List.mem_append.mp h with h1 | h1
      · unfold Load_Reg_Bank at h1
        split at h1
        · exact Load_Address_isInst t _ _ x h1
        · cases h1
      · simp at h1; rcases h1 with h2 | h2 <;> subst h2 <;> rfl
  · simp at h; subst h; rfl

/-- C10 (as amended): the idiom emitted by `Fail_Ret` is `cmp x0, #0`,
`bne L`, the lines of `Pl_Fail`, and the definition of the continuation
label `L`.  When x0 differs from the compared value 0, control continues at
the continuation label, the last line of the idiom; when x0 equals 0,
control falls into the failure sequence emitted by `Pl_Fail`. -/
theorem Fail_Ret_branches (t : Target) (st : Tr) (m : Machine) (hpc : m.pc = 0) :
    (Fail_Ret t st).1 =
      [Line.inst "cmp" [.reg "x0", .imm 0],
       Line.inst "bne" [.text (t.Label_Cont_Name (st.cont_no + 1))]]
        ++ Pl_Fail t ++ [Line.label (t.Label_Cont_Name (st.cont_no + 1) ++ ":")] ∧
    (Fail_Ret t st).1[2 + (Pl_Fail t).length]? =
      some (Line.label (t.Label_Cont_Name (st.cont_no + 1) ++ ":")) ∧
    (Fail_Ret t st).1.length = 2 + (Pl_Fail t).length + 1 ∧
    ((Fail_Ret t st).1.drop 2).take (Pl_Fail t).length = Pl_Fail t ∧
    (m.reg "x0" ≠ 0 → (run 2 (Fail_Ret t st).1 m).pc? = some (2 + (Pl_Fail t).length)) ∧
    (m.reg "x0" = 0 → (run 2 (Fail_Ret t st).1 m).pc? = some 2) := by
  have hprog : (Fail_Ret t st).1 =
      [Line.inst "cmp" [.reg "x0", .imm 0],
       Line.inst "bne" [.text (t.Label_Cont_Name (st.cont_no + 1))]]
        ++ Pl_Fail t ++ [Line.label (t.Label_Cont_Name (st.cont_no + 1) ++ ":")] := by
    simp [Fail_Ret, Label_Cont_New, Label_Cont_Get]
  have hfind : findLabel (Fail_Ret t st).1 (t.Label_Cont_Name (st.cont_no + 1)) =
      some (2 + (Pl_Fail t).length) := by
    rw [hprog, findLabel_append]
    · simp; omega
    · intro x hx
      rcases List.mem_append.mp hx with h | h
      · simp at h; rcases h with h | h <;> subst h <;> rfl
      · exact Pl_Fail_isInst t x h
  have h0 : (Fail_Ret t st).1[0]? = some (Line.inst "cmp" [.reg "x0", .imm 0]) := by
    rw [hprog]; simp
  have h1 : (Fail_Ret t st).1[1]? =
      some (Line.inst "bne" [.text (t.Label_Cont_Name (st.cont_no + 1))]) := by
    rw [hprog]; simp
  have hz : toPlULong 0 = 0 := by decide
  refine ⟨hprog, ?_, ?_, ?_, ?_, ?_⟩
  · rw [hprog, show 2 + (Pl_Fail t).length = (Pl_Fail t).length + 1 + 1 by omega]
    simp [List.getElem?_cons_succ, List.getElem?_append_right]
  · rw [hprog]; simp; omega
  · rw [hprog]; simp
  · intro hx
    simp [run, step, hpc, h0, h1, branchTaken, execInst, execCmp, hz, hx, hfind, Outcome.pc?]
  · intro hx
    simp [run, step, hpc, h0, h1, branchTaken, execInst, execCmp, hz, hx, Outcome.pc?]

/-- Witness of C10 (as amended): on the sample machine x0 is 0 and control
enters the failure sequence at line 2. -/
theorem Fail_Ret_branches_witness :
    sampleMachine.pc = 0 ∧ sampleMachine.reg "x0" = 0 ∧
    (run 2 (Fail_Ret sampleTarget Tr.init).1 sampleMachine).pc? = some 2 :=
  ⟨rfl, rfl, (Fail_Ret_branches sampleTarget Tr.init sampleMachine rfl).2.2.2.2.2 rfl⟩

/-- Counterexample to C10 as stated: it is not the case that, for every
machine state, x0 equal to the compared value 0 leads to the continuation
label and x0 different from it leads to the failure sequence (line 2): on
the sample machine x0 = 0 and control is at line 2, while the continuation
label is line 4. -/
theorem Fail_Ret_equal_continues_refuted :
    ¬ (∀ m : Machine, m.pc = 0 →
        (m.reg "x0" = 0 →
          (run 2 (Fail_Ret sampleTarget Tr.init).1 m).pc? =
            findLabel (Fail_Ret sampleTarget Tr.init).1
              (Label_Cont_Get sampleTarget (Fail_Ret sampleTarget Tr.init).2)) ∧
        (m.reg "x0" ≠ 0 → (run 2 (Fail_Ret sampleTarget Tr.init).1 m).pc? = some 2)) := by
  intro h
  have h1 := (h sampleMachine rfl).1 rfl
  revert h1
  decide

/-- Evaluation for C7: in a function with the non-Prolog prologue, the ninth
integer argument (slot 8) of a native call is stored at `[sp, #0]`, the word
in which the prologue saved x30; the epilogue then returns to the argument
value 5 instead of the entry value 77 of x30. -/
theorem ninth_argument_overwrites_saved_x30 :
    (Call_C_Arg_Int sampleTarget 8 5 (Call_C_Start Tr.init)).1 =
      [Line.inst "ldr" [.reg "x9", .lit 5],
       Line.inst "str" [.reg "x9", .memImm "sp" 0]] ∧
    ninthArgProgram[7]? = some (Line.label "f:") ∧
    ninthArgProgram[9]? = some (Line.inst "str" [.reg "x30", .mem "sp"]) ∧
    effAddr sampleMachine (.memImm "sp" 0) = effAddr sampleMachine (.mem "sp") ∧
    sampleMachine.reg "x30" = 77 ∧
    (run 8 ninthArgProgram { sampleMachine with pc := 7 }).target? = some 5 := by
  have hprog : ninthArgProgram =
      [Line.inst ".align" [.text "3"], Line.label "",
       Line.inst ".align" [.text "2"], Line.inst ".p2align" [.text "3,,7"],
       Line.inst ".type" [.text "f", .text "%function"],
       Line.inst ".global" [.text "f"], Line.label "", Line.label "f:",
       Line.inst "sub" [.reg "sp", .reg "sp", .imm 208],
       Line.inst "str" [.reg "x30", .mem "sp"],
       Line.inst "ldr" [.reg "x9", .lit 5],
       Line.inst "str" [.reg "x9", .memImm "sp" 0],
       Line.inst "ldr" [.reg "x30", .mem "sp"],
       Line.inst "add" [.reg "sp", .reg "sp", .imm 208],
       Line.inst "ret" []] := by
    simp [ninthArgProgram, Code_Start, Code_Start_doubles, Tr.init, sampleTarget, UN_EXT,
      RESERVED_STACK_SPACE_eq, C_Ret, Call_C_Arg_Int, Call_C_Start, BEFORE_ARG, AFTER_ARG,
      offset_excl_doubles, MAX_ARGS_IN_REGS, STACK_OFFSET, BPW, Load_Immediate]
    decide
  refine ⟨by decide, ?_, ?_, by decide, rfl, ?_⟩
  · rw [hprog]; rfl
  · rw [hprog]; rfl
  · rw [hprog]; decide

/-! ## Placement of integer-class arguments -/

theorem getLast_dest_of_all (r : String) (L : List Line) (hne : L ≠ [])
    (h : ∀ l ∈ L, l.dest = some r) : L.getLast?.bind Line.dest = some r := by
  rw [List.getLast?_eq_getLast L hne]
  exact h _ (List.getLast_mem hne)

theorem getLast_dest_append (r : String) (A B : List Line) (hne : B ≠ [])
    (h : ∀ l ∈ B, l.dest = some r) : (A ++ B).getLast?.bind Line.dest = some r := by
  rw [List.getLast?_append_of_ne_nil A hne]
  exact getLast_dest_of_all r B hne h

theorem isMovzMovk_dest (r : String) (l : Line) (h : l.isMovzMovk r = true) :
    l.dest = some r ∧ l.isStore = false := by
  revert h
  unfold Line.isMovzMovk
  split
  · intro h
    simp at h
    obtain ⟨h1, h2⟩ := h
    subst h1
    rcases h2 with h2 | h2 <;> subst h2 <;> simp [Line.dest, Line.isStore]
  · intro h; cases h

theorem Load_Immediate_loop_ne_nil (r : String) :
    ∀ (int_val : Nat) (shift : Int) (wipe : Bool), wipe = true →
      Load_Immediate_loop r int_val shift wipe ≠ [] := by
  intro int_val shift wipe
  induction int_val, shift, wipe using Load_Immediate_loop.induct r with
  | case1 int_val shift wipe h1 slice h2 ih =>
    intro _
    rw [Load_Immediate_loop]
    have h2' : int_val &&& 0xffff ≠ 0 ∨ int_val = 0 ∧ wipe = true := h2
    simp only [h1, h2', if_true]
    exact List.cons_ne_nil _ _
  | case2 int_val shift wipe h1 slice h2 ih =>
    intro hw
    rw [Load_Immediate_loop]
    have h2' : ¬ (int_val &&& 0xffff ≠ 0 ∨ int_val = 0 ∧ wipe = true) := h2
    simp only [h1, h2', if_true, if_false]
    exact ih hw
  | case3 int_val shift wipe h1 =>
    intro hw
    exact absurd (Or.inr hw) h1

theorem Load_Immediate_dest (t : Target) (r : String) (w : Nat) :
    (Load_Immediate t r w).getLast?.bind Line.dest = some r := by
  unfold Load_Immediate
  split
  · rfl
  · exact getLast_dest_append r _ _ (Load_Immediate_loop_ne_nil r w 0 true rfl)
      (fun l hl => (isMovzMovk_dest r l (Load_Immediate_loop_lines r w 0 true l hl)).1)

theorem Load_Immediate_noStore (t : Target) (r : String) (w : Nat) :
    ∀ l ∈ Load_Immediate t r w, l.isStore = false := by
  intro l hl
  unfold Load_Immediate at hl
  split at hl
  · simp at hl; subst hl; rfl
  · rcases List.mem_append.mp hl with h | h
    · split at h
      · simp at h; subst h; rfl
      · cases h
    · exact (isMovzMovk_dest r l (Load_Immediate_loop_lines r w 0 true l h)).2

theorem Load_Address_all (t : Target) (r name : String) :
    Load_Address t r name ≠ [] ∧
    ∀ l ∈ Load_Address t r name, l.dest = some r ∧ l.isStore = false := by
  by_cases hs : t.Scope_Of_Symbol name > 0 <;>
    simp [Load_Address, hs, Line.dest, Line.isStore]

theorem Increment_Reg_loop_all (op r : String) (hop : op ≠ "str") :
    ∀ (int_val : Nat) (shift : Int), ∀ l ∈ Increment_Reg_loop op r int_val shift,
      l.dest = some r ∧ l.isStore = false := by
  intro int_val shift
  induction int_val, shift using Increment_Reg_loop.induct op r with
  | case1 int_val shift h ih =>
    rw [Increment_Reg_loop, if_pos h]
    intro l hl
    rcases List.mem_append.mp hl with h1 | h1
    · split at h1
      · simp at h1; subst h1; simp [Line.dest, Line.isStore, hop]
      · cases h1
    · exact ih l h1
  | case2 int_val shift h =>
    rw [Increment_Reg_loop, if_neg h]
    intro l hl
    cases hl

theorem Increment_Reg_all (r : String) (int_val : Int) :
    ∀ l ∈ Increment_Reg r int_val, l.dest = some r ∧ l.isStore = false := by
  unfold Increment_Reg
  split
  · exact Increment_Reg_loop_all "sub" r (by decide) _ _
  · exact Increment_Reg_loop_all "add" r (by decide) _ _

theorem Load_Reg_Bank_noStore (t : Target) : ∀ l ∈ Load_Reg_Bank t, l.isStore = false := by
  intro l hl
  unfold Load_Reg_Bank at hl
  split at hl
  · exact ((Load_Address_all t _ _).2 l hl).2
  · cases hl

theorem Load_Store_Reg_Y_ldr (t : Target) (r : String) (index : Int) :
    (∀ l ∈ Load_Store_Reg_Y t "ldr" r index, l.isStore = false) ∧
    (Load_Store_Reg_Y t "ldr" r index).getLast?.bind Line.dest = some r := by
  by_cases hi : Is_Load_Store_Offset_Immediate (t.Y_OFFSET index) = true
  · simp [Load_Store_Reg_Y, hi, Line.isStore, Line.dest]
  · have heq : Load_Store_Reg_Y t "ldr" r index =
        Load_Immediate t "x9" (toPlULong (t.Y_OFFSET index))
          ++ [Line.inst "ldr" [.reg r, .memReg (asm_reg_e t) "x9"]] := by
      simp [Load_Store_Reg_Y, hi]
    rw [heq]
    constructor
    · intro l hl
      rcases List.mem_append.mp hl with h | h
      · exact Load_Immediate_noStore t _ _ l h
      · simp at h; subst h; rfl
    · exact getLast_dest_append r _ _ (List.cons_ne_nil _ _)
        (fun l hl => by simp at hl; subst hl; rfl)

theorem IntArgPlaced_of_body (offset : Int) (st : Tr) (body : String → List Line)
    (hs : ∀ r, ∀ l ∈ body r, l.isStore = false)
    (hd : ∀ r, (body r).getLast?.bind Line.dest = some r) :
    IntArgPlaced (offset_excl_doubles offset st)
      (body (BEFORE_ARG offset st) ++ AFTER_ARG (BEFORE_ARG offset st) offset st) := by
  constructor
  · intro h
    have hb : BEFORE_ARG offset st = "x" ++ toString (offset_excl_doubles offset st) := by
      simp [BEFORE_ARG, MAX_ARGS_IN_REGS, h]
    have ha : AFTER_ARG (BEFORE_ARG offset st) offset st = [] := by
      simp [AFTER_ARG, MAX_ARGS_IN_REGS, h]
    rw [ha, List.append_nil]
    exact ⟨hs _, by rw [hd, hb]⟩
  · intro h
    have hlt : ¬ offset_excl_doubles offset st < 8 := by omega
    have hb : BEFORE_ARG offset st = "x9" := by
      simp [BEFORE_ARG, MAX_ARGS_IN_REGS, hlt]
    have ha : AFTER_ARG (BEFORE_ARG offset st) offset st =
        [Line.inst "str" [.reg "x9", .memImm "sp" ((offset_excl_doubles offset st - 8) * 8)]] := by
      simp [AFTER_ARG, MAX_ARGS_IN_REGS, h, hb, STACK_OFFSET, BPW]
    rw [ha]
    exact ⟨body (BEFORE_ARG offset st), rfl, hs _, by rw [hd, hb]⟩

theorem getLast_dest_append_last (r : String) (A B : List Line)
    (h : B.getLast?.bind Line.dest = some r) : (A ++ B).getLast?.bind Line.dest = some r := by
  have hne : B ≠ [] := by
    intro hb
    rw [hb] at h
    cases h
  rw [List.getLast?_append_of_ne_nil A hne]
  exact h

theorem Call_C_Arg_Int_placed (t : Target) (offset int_val : Int) (st : Tr) :
    IntArgPlaced (offset_excl_doubles offset st) (Call_C_Arg_Int t offset int_val st).1 :=
  IntArgPlaced_of_body offset st (fun r => Load_Immediate t r (toPlULong int_val))
    (fun r => Load_Immediate_noStore t r _) (fun r => Load_Immediate_dest t r _)

theorem Call_C_Arg_String_placed (t : Target) (offset str_no : Int) (st : Tr) :
    IntArgPlaced (offset_excl_doubles offset st) (Call_C_Arg_String t offset str_no st).1 :=
  IntArgPlaced_of_body offset st
    (fun r => Load_Address t r (STRING_PREFIX t ++ toString str_no))
    (fun r l hl => ((Load_Address_all t r _).2 l hl).2)
    (fun r => getLast_dest_of_all r _ (Load_Address_all t r _).1
      (fun l hl => ((Load_Address_all t r _).2 l hl).1))

theorem Call_C_Arg_Mem_L_placed (t : Target) (offset adr_of : Int) (name : String)
    (index : Int) (st : Tr) :
    IntArgPlaced (offset_excl_doubles offset st)
      (Call_C_Arg_Mem_L t offset adr_of name index st).1 := by
  have hall : ∀ r, ∀ l ∈ Load_Address t r name ++ Increment_Reg r (index * BPW)
      ++ (if adr_of = 0 then [Line.inst "ldr" [.reg r, .mem r]] else []),
      l.dest = some r ∧ l.isStore = false := by
    intro r l hl
    rcases List.mem_append.mp hl with h | h
    · rcases List.mem_append.mp h with h1 | h1
      · exact (Load_Address_all t r name).2 l h1
      · exact Increment_Reg_all r _ l h1
    · split at h
      · simp at h; subst h; exact ⟨rfl, rfl⟩
      · cases h
  have hne : ∀ r, Load_Address t r name ++ Increment_Reg r (index * BPW)
      ++ (if adr_of = 0 then [Line.inst "ldr" [.reg r, .mem r]] else []) ≠ [] := by
    intro r h
    have h1 := List.append_eq_nil.mp h
    have h2 := List.append_eq_nil.mp h1.1
    exact (Load_Address_all t r name).1 h2.1
  exact IntArgPlaced_of_body offset st
    (fun r => Load_Address t r name ++ Increment_Reg r (index * BPW)
      ++ (if adr_of = 0 then [Line.inst "ldr" [.reg r, .mem r]] else []))
    (fun r l hl => (hall r l hl).2)
    (fun r => getLast_dest_of_all r _ (hne r) (fun l hl => (hall r l hl).1))

theorem Call_C_Arg_Reg_X_placed (t : Target) (offset adr_of index : Int) (st : Tr) :
    IntArgPlaced (offset_excl_doubles offset st)
      (Call_C_Arg_Reg_X t offset adr_of index st).1 := by
  have htail : ∀ r, ∀ l ∈ [Line.inst "mov" [.reg r, .reg (ASM_REG_BANK t)]]
      ++ (if adr_of ≠ 0 then Increment_Reg r (index * BPW)
          else [Line.inst "ldr" [.reg r, .memImm r (index * BPW)]]),
      l.dest = some r ∧ l.isStore = false := by
    intro r l hl
    rcases List.mem_append.mp hl with h | h
    · simp at h; subst h; exact ⟨rfl, rfl⟩
    · split at h
      · exact Increment_Reg_all r _ l h
      · simp at h; subst h; exact ⟨rfl, rfl⟩
  refine IntArgPlaced_of_body offset st
    (fun r => Load_Reg_Bank t ++ [Line.inst "mov" [.reg r, .reg (ASM_REG_BANK t)]]
      ++ (if adr_of ≠ 0 then Increment_Reg r (index * BPW)
          else [Line.inst "ldr" [.reg r, .memImm r (index * BPW)]])) ?_ ?_
  · intro r l hl
    dsimp only at hl
    rw [List.append_assoc] at hl
    rcases List.mem_append.mp hl with h | h
    · exact Load_Reg_Bank_noStore t l h
    · exact (htail r l h).2
  · intro r
    show (Load_Reg_Bank t ++ [Line.inst "mov" [.reg r, .reg (ASM_REG_BANK t)]]
      ++ (if adr_of ≠ 0 then Increment_Reg r (index * BPW)
          else [Line.inst "ldr" [.reg r, .memImm r (index * BPW)]])).getLast?.bind Line.dest
      = some r
    rw [List.append_assoc]
    exact getLast_dest_append r _ _ (by simp) (fun l hl => (htail r l hl).1)

theorem Call_C_Arg_Reg_Y_placed (t : Target) (offset adr_of index : Int) (st : Tr) :
    IntArgPlaced (offset_excl_doubles offset st)
      (Call_C_Arg_Reg_Y t offset adr_of index st).1 := by
  refine IntArgPlaced_of_body offset st
    (fun r => [Line.inst "mov" [.reg r, .reg (asm_reg_e t)]]
      ++ (if adr_of ≠ 0 then Increment_Reg r (t.Y_OFFSET index)
          else Load_Store_Reg_Y t "ldr" r index)) ?_ ?_
  · intro r l hl
    rcases List.mem_append.mp hl with h | h
    · simp at h; subst h; rfl
    · split at h
      · exact (Increment_Reg_all r _ l h).2
      · exact (Load_Store_Reg_Y_ldr t r index).1 l h
  · intro r
    show ([Line.inst "mov" [.reg r, .reg (asm_reg_e t)]]
      ++ (if adr_of ≠ 0 then Increment_Reg r (t.Y_OFFSET index)
          else Load_Store_Reg_Y t "ldr" r index)).getLast?.bind Line.dest = some r
    split
    · refine getLast_dest_of_all r _ (by simp) ?_
      intro l hl
      rcases List.mem_append.mp hl with h | h
      · simp at h; subst h; rfl
      · exact (Increment_Reg_all r _ l h).1
    · exact getLast_dest_append_last r _ _ (Load_Store_Reg_Y_ldr t r index).2

/-- C4: every integer-class argument emission (`Call_C_Arg_Int`, `_String`,
`_Mem_L`, `_Reg_X`, `_Reg_Y`) with integer slot `s = offset - 2*dbl_reg_no`
loads the value into `x<s>` and stores nothing when `s < 8`, and loads it
into x9 and ends with `str x9, [sp, #(s-8)*8]` when `s >= 8`.  Hence ten
integer arguments use x0..x7 and then x9 with stores at sp offsets 0 and 8. -/
theorem Call_C_Arg_integer_class_placement (t : Target) (offset : Int) (st : Tr)
    (int_val str_no adr_of index : Int) (name : String) (v : Nat → Int) :
    IntArgPlaced (offset_excl_doubles offset st) (Call_C_Arg_Int t offset int_val st).1 ∧
    IntArgPlaced (offset_excl_doubles offset st) (Call_C_Arg_String t offset str_no st).1 ∧
    IntArgPlaced (offset_excl_doubles offset st)
      (Call_C_Arg_Mem_L t offset adr_of name index st).1 ∧
    IntArgPlaced (offset_excl_doubles offset st)
      (Call_C_Arg_Reg_X t offset adr_of index st).1 ∧
    IntArgPlaced (offset_excl_doubles offset st)
      (Call_C_Arg_Reg_Y t offset adr_of index st).1 ∧
    (Call_C_Args t 0 ((List.range 10).map fun i => CArg.int (v i)) (Call_C_Start st)).map
        ArgEmit.lines =
      [Load_Immediate t "x0" (toPlULong (v 0)), Load_Immediate t "x1" (toPlULong (v 1)),
       Load_Immediate t "x2" (toPlULong (v 2)), Load_Immediate t "x3" (toPlULong (v 3)),
       Load_Immediate t "x4" (toPlULong (v 4)), Load_Immediate t "x5" (toPlULong (v 5)),
       Load_Immediate t "x6" (toPlULong (v 6)), Load_Immediate t "x7" (toPlULong (v 7)),
       Load_Immediate t "x9" (toPlULong (v 8))
         ++ [Line.inst "str" [.reg "x9", .memImm "sp" 0]],
       Load_Immediate t "x9" (toPlULong (v 9))
         ++ [Line.inst "str" [.reg "x9", .memImm "sp" 8]]] := by
  refine ⟨Call_C_Arg_Int_placed t offset int_val st, Call_C_Arg_String_placed t offset str_no st,
    Call_C_Arg_Mem_L_placed t offset adr_of name index st,
    Call_C_Arg_Reg_X_placed t offset adr_of index st,
    Call_C_Arg_Reg_Y_placed t offset adr_of index st, ?_⟩
  simp [List.range, List.range.loop, Call_C_Args, Call_C_Arg, Call_C_Arg_Int, Call_C_Start,
    BEFORE_ARG, AFTER_ARG, offset_excl_doubles, MAX_ARGS_IN_REGS, STACK_OFFSET, BPW]
  refine ⟨?_, ?_, ?_, ?_, ?_, ?_, ?_, ?_⟩ <;> rfl

/-- Witness of C4: slot 9 of the sample target is loaded into x9 and stored
at `[sp, #8]`. -/
theorem Call_C_Arg_integer_class_placement_witness :
    offset_excl_doubles 9 Tr.init = 9 ∧
    (Call_C_Arg_Int sampleTarget 9 5 Tr.init).1 =
      [Line.inst "ldr" [.reg "x9", .lit 5],
       Line.inst "str" [.reg "x9", .memImm "sp" 8]] ∧
    IntArgPlaced 9 (Call_C_Arg_Int sampleTarget 9 5 Tr.init).1 :=
  ⟨by decide, by decide,
   (Call_C_Arg_integer_class_placement sampleTarget 9 Tr.init 5 0 0 0 "" (fun _ => 0)).1⟩

/-! ## Slots of mixed argument lists -/

theorem Call_C_Arg_effect (t : Target) (offset : Int) (a : CArg) (st : Tr) :
    (Call_C_Arg t offset a st).1.2 = (if a.isDouble then 2 else 1) ∧
    (Call_C_Arg t offset a st).2.dbl_reg_no = st.dbl_reg_no + (if a.isDouble then 1 else 0) := by
  cases a with
  | foreign_d adr_of index =>
    by_cases h : adr_of = 0 <;>
      simp [Call_C_Arg, Call_C_Arg_Foreign_D, CArg.isDouble, h, DBL_RET_WORDS, Call_C_Arg_Mem_L]
  | _ =>
    simp [Call_C_Arg, CArg.isDouble, Call_C_Arg_Int, Call_C_Arg_Double, Call_C_Arg_String,
      Call_C_Arg_Mem_L, Call_C_Arg_Reg_X, Call_C_Arg_Reg_Y, Call_C_Arg_Foreign_L, DBL_RET_WORDS]

theorem Call_C_Args_get (t : Target) :
    ∀ (args : List CArg) (offset : Int) (st : Tr) (k : Nat) (rec : ArgEmit),
      (Call_C_Args t offset args st)[k]? = some rec →
      ∃ a, args[k]? = some a ∧ rec.lines = (Call_C_Arg t rec.offset a rec.before).1.1 ∧
        rec.offset = offset + ((args.take k).countP (fun a => !a.isDouble) : Nat)
          + 2 * ((args.take k).countP CArg.isDouble : Nat) ∧
        rec.before.dbl_reg_no = st.dbl_reg_no + (args.take k).countP CArg.isDouble := by
  intro args
  induction args with
  | nil =>
    intro offset st k rec h
    simp [Call_C_Args] at h
  | cons a rest ih =>
    intro offset st k rec h
    cases k with
    | zero =>
      simp [Call_C_Args] at h
      subst h
      exact ⟨a, by simp, rfl, by simp, by simp⟩
    | succ k =>
      simp only [Call_C_Args, List.getElem?_cons_succ] at h
      obtain ⟨b, hb, hl, ho, hd⟩ := ih _ _ k rec h
      refine ⟨b, by simpa using hb, hl, ?_, ?_⟩
      · rw [ho, (Call_C_Arg_effect t offset a st).1]
        cases hda : a.isDouble <;> simp [List.take, List.countP_cons, hda] <;> omega
      · rw [hd, (Call_C_Arg_effect t offset a st).2]
        cases hda : a.isDouble
        · simp [List.take, List.countP_cons, hda]
        · simp [List.take, List.countP_cons, hda]
          omega

theorem Call_C_Arg_placed (t : Target) (offset : Int) (a : CArg) (st : Tr) :
    (a.isDouble = false →
      IntArgPlaced (offset_excl_doubles offset st) (Call_C_Arg t offset a st).1.1) ∧
    (a.isDouble = true →
      (Call_C_Arg t offset a st).1.1.getLast?.bind Line.dest =
        some ("d" ++ toString st.dbl_reg_no)) := by
  cases a with
  | int v => exact ⟨fun _ => Call_C_Arg_Int_placed t offset v st, fun h => by cases h⟩
  | double d =>
    refine ⟨fun h => (by cases h), fun _ => ?_⟩
    simp [Call_C_Arg, Call_C_Arg_Double, Line.dest]
  | string n => exact ⟨fun _ => Call_C_Arg_String_placed t offset n st, fun h => by cases h⟩
  | mem_l ao nm ix =>
    exact ⟨fun _ => Call_C_Arg_Mem_L_placed t offset ao nm ix st, fun h => by cases h⟩
  | reg_x ao ix => exact ⟨fun _ => Call_C_Arg_Reg_X_placed t offset ao ix st, fun h => by cases h⟩
  | reg_y ao ix => exact ⟨fun _ => Call_C_Arg_Reg_Y_placed t offset ao ix st, fun h => by cases h⟩
  | foreign_l ao ix =>
    exact ⟨fun _ => Call_C_Arg_Mem_L_placed t offset ao "pl_foreign_long" ix st,
      fun h => by cases h⟩
  | foreign_d ao ix =>
    by_cases h0 : ao = 0
    · refine ⟨fun h => (by simp [CArg.isDouble, h0] at h), fun _ => ?_⟩
      simp [Call_C_Arg, Call_C_Arg_Foreign_D, h0, Line.dest]
    · refine ⟨fun _ => ?_, fun h => by simp [CArg.isDouble, h0] at h⟩
      have := Call_C_Arg_Mem_L_placed t offset ao "pl_foreign_double" ix st
      simpa [Call_C_Arg, Call_C_Arg_Foreign_D, h0] using this

/-- C5: for every argument list of a native call, in any interleaving of
integer-class and by-value floating-point arguments, emitted after
`Call_C_Start` with the offsets threaded by the returned word counts: the
argument at position `k` sees as integer slot the number of integer-class
arguments before it, whatever the number of floating-point arguments before
it; if it is integer-class it is placed in that slot, and if it is
floating-point and `j` floating-point arguments precede it, its last line
loads register `d<j>`. -/
theorem Call_C_Args_slots (t : Target) (st : Tr) (args : List CArg) (k : Nat) (rec : ArgEmit)
    (hk : (Call_C_Args t 0 args (Call_C_Start st))[k]? = some rec) :
    offset_excl_doubles rec.offset rec.before =
      ((args.take k).countP (fun a => !a.isDouble) : Nat) ∧
    rec.before.dbl_reg_no = (args.take k).countP CArg.isDouble ∧
    ∃ a, args[k]? = some a ∧
      (a.isDouble = false →
        IntArgPlaced ((args.take k).countP (fun a => !a.isDouble) : Nat) rec.lines) ∧
      (a.isDouble = true →
        rec.lines.getLast?.bind Line.dest =
          some ("d" ++ toString ((args.take k).countP CArg.isDouble))) := by
  obtain ⟨a, ha, hl, ho, hd⟩ := Call_C_Args_get t args 0 (Call_C_Start st) k rec hk
  have hd0 : rec.before.dbl_reg_no = (args.take k).countP CArg.isDouble := by
    rw [hd]; simp [Call_C_Start]
  have hs : offset_excl_doubles rec.offset rec.before =
      ((args.take k).countP (fun a => !a.isDouble) : Nat) := by
    unfold offset_excl_doubles
    rw [ho, hd0]
    ring
  refine ⟨hs, hd0, a, ha, ?_, ?_⟩
  · intro hi
    rw [hl, ← hs]
    exact (Call_C_Arg_placed t rec.offset a rec.before).1 hi
  · intro hi
    rw [hl, ← hd0]
    exact (Call_C_Arg_placed t rec.offset a rec.before).2 hi

/-- Witness of C5: in a call with arguments (double, int, double, int, int)
the fourth argument is given integer slot 1 after two floating-point ones. -/
theorem Call_C_Args_slots_witness :
    ∃ rec, (Call_C_Args sampleTarget 0 mixedArgs (Call_C_Start Tr.init))[3]? = some rec ∧
      offset_excl_doubles rec.offset rec.before = 1 ∧ rec.before.dbl_reg_no = 2 ∧
      IntArgPlaced 1 rec.lines := by
  obtain ⟨rec, hrec⟩ :
      ∃ rec, (Call_C_Args sampleTarget 0 mixedArgs (Call_C_Start Tr.init))[3]? = some rec :=
    ⟨_, rfl⟩
  obtain ⟨h1, h2, a, ha, h3, _⟩ := Call_C_Args_slots sampleTarget Tr.init mixedArgs 3 rec hrec
  have ha4 : a = CArg.int 4 := by
    have : mixedArgs[3]? = some (CArg.int 4) := rfl
    rw [this] at ha
    exact (Option.some.inj ha).symm
  have hc1 : (mixedArgs.take 3).countP (fun a => !a.isDouble) = 1 := by decide
  have hc2 : (mixedArgs.take 3).countP CArg.isDouble = 2 := by decide
  rw [hc1] at h1 h3
  rw [hc2] at h2
  exact ⟨rec, hrec, by simpa using h1, h2, by simpa using h3 (by rw [ha4]; rfl)⟩

/-! ## Word counts and call start -/

/-- C16: every argument-emitting operation returns the number of machine
words of its argument: `Call_C_Arg_Int`, `_String`, `_Mem_L`, `_Reg_X`,
`_Reg_Y` and `_Foreign_L` return 1 for all inputs, `Call_C_Arg_Double`
returns 2, and `Call_C_Arg_Foreign_D` returns 2 when `adr_of = 0` and 1
otherwise. -/
theorem Call_C_Arg_word_counts (t : Target) (offset int_val str_no adr_of index : Int)
    (name : String) (dbl_val : Dbl) (st : Tr) :
    (Call_C_Arg_Int t offset int_val st).2 = 1 ∧
    (Call_C_Arg_String t offset str_no st).2 = 1 ∧
    (Call_C_Arg_Mem_L t offset adr_of name index st).2 = 1 ∧
    (Call_C_Arg_Reg_X t offset adr_of index st).2 = 1 ∧
    (Call_C_Arg_Reg_Y t offset adr_of index st).2 = 1 ∧
    (Call_C_Arg_Foreign_L t offset adr_of index st).2 = 1 ∧
    (Call_C_Arg_Double t offset dbl_val st).1.2 = 2 ∧
    (Call_C_Arg_Foreign_D t offset 0 index st).1.2 = 2 ∧
    (Call_C_Arg_Foreign_D t offset adr_of index st).1.2 = (if adr_of = 0 then 2 else 1) := by
  refine ⟨rfl, rfl, rfl, rfl, rfl, rfl, rfl, rfl, ?_⟩
  by_cases h : adr_of = 0
  · simp [Call_C_Arg_Foreign_D, h, DBL_RET_WORDS]
  · simp [Call_C_Arg_Foreign_D, h, Call_C_Arg_Mem_L]

/-- C17: `Call_C_Start` sets `dbl_reg_no` to 0 whatever its arguments and the
state, prints no line, and leaves `dbl_tbl`, `nb_dbl` and `dbl_lc_no` (and the
continuation counter) as they were. -/
theorem Call_C_Start_effect (t : Target) (fct_name : String) (fc nb_args nb_args_in_words : Int)
    (p_inline : Option (List String)) (st : Tr) :
    Call_C_Start_lines fct_name fc nb_args nb_args_in_words p_inline = [] ∧
    (Op.run t .call_c_start st).1 = [] ∧
    (Op.run t .call_c_start st).2 = Call_C_Start st ∧
    (Call_C_Start st).dbl_reg_no = 0 ∧
    (Call_C_Start st).dbl_tbl = st.dbl_tbl ∧
    (Call_C_Start st).nb_dbl = st.nb_dbl ∧
    (Call_C_Start st).dbl_lc_no = st.dbl_lc_no ∧
    (Call_C_Start st).cont_no = st.cont_no :=
  ⟨rfl, rfl, rfl, rfl, rfl, rfl, rfl, rfl⟩

/-! ## Comparison with an immediate -/

theorem Nearest_Immediate_5120 : Nearest_Immediate 5120 = 5120 := by
  simp [Nearest_Immediate, Nearest_Immediate_loop]

/-- Evaluation for C20: for `int_val = 5120 = 5 * 4^5`, `Nearest_Immediate`
returns its argument, so `Cmp_Ret_And_Int` emits the immediate form
`cmp x0, #5120`; 5120 exceeds 4095 and is not a multiple of 4096, so it is
not an immediate of the AArch64 compare instruction. -/
theorem Cmp_Ret_And_Int_immediate_not_encodable :
    toInt32 5120 = 5120 ∧ Nearest_Immediate (toInt32 5120) = 5120 ∧
    Cmp_Ret_And_Int sampleTarget 5120 = [Line.inst "cmp" [.reg "x0", .imm 5120]] ∧
    cmpImmEncodable 5120 = false := by
  have h1 : toInt32 5120 = 5120 := by decide
  refine ⟨h1, by rw [h1]; exact Nearest_Immediate_5120, ?_, by decide⟩
  simp [Cmp_Ret_And_Int, h1, Nearest_Immediate_5120]

/-! ## Scratch registers of the marshaler -/

/-- Evaluation for C19: in a call with eight integer arguments followed by a
foreign double passed by value, the eighth argument is loaded into x7 and
the lines of the ninth argument, emitted by `Call_C_Arg_Foreign_D`, write x7
again (as scratch register for the address of `pl_foreign_double`). -/
theorem Call_C_Arg_Foreign_D_overwrites_x7 :
    ((Call_C_Args sampleTarget 0 eightIntsThenForeignD (Call_C_Start Tr.init)).map
        ArgEmit.lines)[7]? =
      some [Line.inst "ldr" [.reg "x7", .lit 7]] ∧
    ((Call_C_Args sampleTarget 0 eightIntsThenForeignD (Call_C_Start Tr.init)).map
        ArgEmit.lines)[8]? =
      some [Line.inst "adrp" [.reg "x7", .rel .GOT_PAGE "" "pl_foreign_double"],
            Line.inst "ldr" [.reg "x7", .memRel "x7" .GOT_PAGEOFF "" "pl_foreign_double"],
            Line.inst "ldr" [.reg "d0", .memRaw "x7" 0]] ∧
    ((Call_C_Args sampleTarget 0 eightIntsThenForeignD (Call_C_Start Tr.init)).map
        (fun e => BEFORE_ARG e.offset e.before))[8]? = some "x9" := by
  refine ⟨by decide, by decide, by decide⟩

/-! ## Instruction count of the manual immediate encoding -/

theorem Load_Immediate_loop_zero_false (r : String) (shift : Int) :
    Load_Immediate_loop r 0 shift false = [] := by
  rw [Load_Immediate_loop]; simp

theorem Load_Immediate_loop_chunks (r : String) (v : Nat) :
    ∀ (n j : Nat) (wipe : Bool) (int_val : Nat),
      int_val = v / 2 ^ (16 * j) → int_val < 2 ^ (16 * n) →
      (int_val ≠ 0 ∨ wipe = false) →
      Load_Immediate_loop r int_val (16 * (j : Int)) wipe = chunkLines r v n j wipe := by
  intro n
  induction n with
  | zero =>
    intro j wipe int_val _ hlt hnz
    have h0 : int_val = 0 := by simpa using hlt
    subst h0
    have hw : wipe = false := by simpa using hnz
    subst hw
    rw [Load_Immediate_loop_zero_false]; rfl
  | succ n ih =>
    intro j wipe int_val hi hlt hnz
    have hsh : int_val >>> 16 = v / 2 ^ (16 * (j + 1)) := by rw [hi, div_chunk]
    have hlt2 : int_val >>> 16 < 2 ^ (16 * n) := by
      rw [Nat.shiftRight_eq_div_pow]
      apply Nat.div_lt_of_lt_mul
      have : (2 : Nat) ^ (16 * (n + 1)) = 2 ^ 16 * 2 ^ (16 * n) := by
        rw [← pow_add]; congr 1; ring
      omega
    have hcast : (16 * (j : Int) + 16) = 16 * ((j + 1 : Nat) : Int) := by push_cast; ring
    by_cases h0 : int_val = 0
    · have hw : wipe = false := by
        rcases hnz with h | h
        · exact absurd h0 h
        · exact h
      subst hw
      have hz : v / 2 ^ (16 * j) % 65536 = 0 := by rw [← hi, h0]
      have ih1 := ih (j + 1) false (int_val >>> 16) hsh hlt2 (Or.inr rfl)
      rw [h0] at ih1 ⊢
      simp only [chunkLines, hz, ne_eq, not_true_eq_false, if_false]
      rw [← ih1]
      simp [Load_Immediate_loop_zero_false]
    · have hc : int_val ≠ 0 ∨ wipe = true := Or.inl h0
      rw [Load_Immediate_loop]
      simp only [hc, if_true]
      by_cases hs : int_val % 65536 = 0
      · have hs1 : ¬ (int_val &&& 0xffff ≠ 0 ∨ int_val = 0 ∧ wipe = true) := by
          rw [land_ffff]
          intro h
          rcases h with h | h
          · exact h hs
          · exact h0 h.1
        have hz : v / 2 ^ (16 * j) % 65536 = 0 := by rw [← hi]; exact hs
        have hne : int_val >>> 16 ≠ 0 := by
          rw [Nat.shiftRight_eq_div_pow]
          intro h
          have := (Nat.div_eq_zero_iff (by norm_num : 0 < 2 ^ 16)).mp h
          omega
        simp only [hs1, if_false, chunkLines, hz, ne_eq, not_true_eq_false]
        rw [hcast]
        exact ih (j + 1) wipe _ hsh hlt2 (Or.inl hne)
      · have hs1 : int_val &&& 0xffff ≠ 0 ∨ int_val = 0 ∧ wipe = true := by
          left; rw [land_ffff]; exact hs
        have hz : v / 2 ^ (16 * j) % 65536 ≠ 0 := by rw [← hi]; exact hs
        simp only [hs1, if_true, chunkLines, hz, ne_eq, not_false_eq_true]
        rw [hcast, ih (j + 1) false _ hsh hlt2 (Or.inr rfl), land_ffff, ← hi]

theorem chunkLines_length (r : String) (v : Nat) :
    ∀ (n j : Nat) (wipe : Bool),
      (chunkLines r v n j wipe).length =
        (List.range' j n).countP (fun j => decide (v / 2 ^ (16 * j) % 65536 ≠ 0)) := by
  intro n
  induction n with
  | zero => intro j wipe; rfl
  | succ n ih =>
    intro j wipe
    by_cases hz : v / 2 ^ (16 * j) % 65536 = 0
    · simp [chunkLines, hz, List.range', List.countP_cons, ih]
    · simp [chunkLines, hz, List.range', List.countP_cons, ih]

theorem chunkLines_movk (r : String) (v : Nat) :
    ∀ (n j : Nat), ∀ l ∈ chunkLines r v n j false, l.op = "movk" := by
  intro n
  induction n with
  | zero => intro j l hl; cases hl
  | succ n ih =>
    intro j l hl
    by_cases hz : v / 2 ^ (16 * j) % 65536 = 0
    · simp [chunkLines, hz] at hl
      exact ih _ l hl
    · simp [chunkLines, hz] at hl
      rcases hl with h | h
      · subst h; rfl
      · exact ih _ l h

theorem chunkLines_movz (r : String) (v : Nat) :
    ∀ (n j : Nat), chunkLines r v n j true = [] ∨
      ∃ l rest, chunkLines r v n j true = l :: rest ∧ l.op = "movz" ∧
        ∀ x ∈ rest, x.op = "movk" := by
  intro n
  induction n with
  | zero => intro j; left; rfl
  | succ n ih =>
    intro j
    by_cases hz : v / 2 ^ (16 * j) % 65536 = 0
    · simp only [chunkLines, hz, ne_eq, not_true_eq_false, if_false]
      exact ih (j + 1)
    · right
      refine ⟨Line.inst "movz" [.reg r, .imm ((v / 2 ^ (16 * j) % 65536 : Nat) : Int),
        .lsl (16 * (j : Int))], chunkLines r v n (j + 1) false, ?_, rfl,
        chunkLines_movk r v n (j + 1)⟩
      simp [chunkLines, hz]

/-- C15 (as amended): in the build without `USE_LDR_PSEUDO_OP`, for every
64-bit value `v` the instructions of `Load_Immediate` are one line per
non-zero 16-bit chunk of `v`, the first a `movz` and the others `movk`, and
the single line `movz r, #0, LSL 0` when `v = 0`; their number is
`max(1, number of non-zero chunks)`. -/
theorem Load_Immediate_manual_count (t : Target) (hmanual : t.USE_LDR_PSEUDO_OP = false)
    (r : String) (v : Nat) (hv : v < 2 ^ 64) :
    Load_Immediate t r v =
      (if t.comment then
        [Line.inst "" [.text ("# load " ++ r ++ " = " ++ toString v)]] else [])
      ++ Load_Immediate_loop r v 0 true ∧
    Load_Immediate_loop r v 0 true =
      (if v = 0 then [Line.inst "movz" [.reg r, .imm 0, .lsl 0]] else chunkLines r v 4 0 true) ∧
    (Load_Immediate_loop r v 0 true).length = max 1 (nonZeroChunks v) ∧
    ∃ l rest, Load_Immediate_loop r v 0 true = l :: rest ∧ l.op = "movz" ∧
      ∀ x ∈ rest, x.op = "movk" := by
  have hform : Load_Immediate_loop r v 0 true =
      (if v = 0 then [Line.inst "movz" [.reg r, .imm 0, .lsl 0]]
       else chunkLines r v 4 0 true) := by
    by_cases h0 : v = 0
    · subst h0
      simp [Load_Immediate_loop]
    · simp only [h0, if_false]
      have := Load_Immediate_loop_chunks r v 4 0 true v (by simp) (by simpa using hv)
        (Or.inl h0)
      simpa using this
  have hne := Load_Immediate_loop_ne_nil r v 0 true rfl
  refine ⟨by simp [Load_Immediate, hmanual], hform, ?_, ?_⟩
  · by_cases h0 : v = 0
    · subst h0
      rw [hform]
      simp [nonZeroChunks, List.range']
    · rw [hform] at hne ⊢
      simp only [h0, if_false] at hne ⊢
      have hl := chunkLines_length r v 4 0 true
      have hpos : 0 < (chunkLines r v 4 0 true).length := List.length_pos.mpr hne
      unfold nonZeroChunks
      omega
  · by_cases h0 : v = 0
    · subst h0
      rw [hform]
      exact ⟨_, [], rfl, rfl, fun x hx => by cases hx⟩
    · rw [hform] at hne ⊢
      simp only [h0, if_false] at hne ⊢
      rcases chunkLines_movz r v 4 0 with h | h
      · exact absurd h hne
      · exact h

/-- Witness of C15 (as amended): 0x10001 has two non-zero chunks and is
loaded by one `movz` and one `movk`. -/
theorem Load_Immediate_manual_count_witness :
    (Load_Immediate_loop "x0" 65537 0 true).length = 2 ∧ nonZeroChunks 65537 = 2 :=
  ⟨(Load_Immediate_manual_count manualTarget rfl "x0" 65537 (by norm_num)).2.2.1.trans
      (by decide), by decide⟩

/-- Counterexample to C15 as stated: in the build as shipped
(`USE_LDR_PSEUDO_OP` defined) `Load_Immediate` emits for 0x10001, which has
two non-zero 16-bit chunks, the single pseudo-instruction `ldr x0, =65537`
and no `movz`. -/
theorem Load_Immediate_pseudo_op_single_line :
    sampleTarget.USE_LDR_PSEUDO_OP = true ∧
    Load_Immediate sampleTarget "x0" 65537 = [Line.inst "ldr" [.reg "x0", .lit 65537]] ∧
    nonZeroChunks 65537 = 2 ∧
    (Load_Immediate sampleTarget "x0" 65537).length ≠ max 1 (nonZeroChunks 65537) := by
  refine ⟨rfl, by decide, by decide, by decide⟩

/-! ## Continuation labels -/

theorem label_colon_inj (a b : String) (h : a ++ ":" = b ++ ":") : a = b := by
  have h1 := congrArg String.data h
  simp only [String.data_append] at h1
  exact String.ext (List.append_cancel_right h1)

theorem Load_Reg_Bank_isInst (t : Target) : ∀ x ∈ Load_Reg_Bank t, x.isInst = true := by
  intro x hx
  unfold Load_Reg_Bank at hx
  split at hx
  · exact Load_Address_isInst t _ _ x hx
  · cases hx

theorem Pl_Call_shape (t : Target) (label : String) (st : Tr) :
    (Pl_Call t label st).2 = { st with cont_no := st.cont_no + 1 } ∧
    ∃ mid, (Pl_Call t label st).1 =
        (Load_Address t (t.MAP_REG_CP.getD "x2") (t.Label_Cont_Name (st.cont_no + 1)) ++ mid)
          ++ [Line.label (t.Label_Cont_Name (st.cont_no + 1) ++ ":")] ∧
      ∀ x ∈ Load_Address t (t.MAP_REG_CP.getD "x2") (t.Label_Cont_Name (st.cont_no + 1)) ++ mid,
        x.isInst = true := by
  refine ⟨rfl, ?_⟩
  cases hcp : t.MAP_REG_CP with
  | some cp =>
    refine ⟨Pl_Jump t label, ?_, ?_⟩
    · simp [Pl_Call, Prep_CP, Here_CP, Label_Cont_New, Label_Cont_Get, hcp]
    · intro x hx
      rcases List.mem_append.mp hx with h | h
      · exact Load_Address_isInst t _ _ x h
      · simp [Pl_Jump] at h; subst h; rfl
  | none =>
    refine ⟨Load_Reg_Bank t
      ++ [Line.inst "str" [.reg "x2", .memImm (ASM_REG_BANK t) t.MAP_OFFSET_CP]]
      ++ Pl_Jump t label, ?_, ?_⟩
    · simp [Pl_Call, Prep_CP, Here_CP, Label_Cont_New, Label_Cont_Get, hcp]
    · intro x hx
      rcases List.mem_append.mp hx with h | h
      · exact Load_Address_isInst t _ _ x h
      · rcases List.mem_append.mp h with h1 | h1
        · rcases List.mem_append.mp h1 with h2 | h2
          · exact Load_Reg_Bank_isInst t x h2
          · simp at h2; subst h2; rfl
        · simp [Pl_Jump] at h1; subst h1; rfl

theorem Fail_Ret_shape (t : Target) (st : Tr) :
    (Fail_Ret t st).2 = { st with cont_no := st.cont_no + 1 } ∧
    (Fail_Ret t st).1 =
      ([Line.inst "cmp" [.reg "x0", .imm 0],
        Line.inst "bne" [.text (t.Label_Cont_Name (st.cont_no + 1))]] ++ Pl_Fail t)
        ++ [Line.label (t.Label_Cont_Name (st.cont_no + 1) ++ ":")] ∧
    ∀ x ∈ [Line.inst "cmp" [.reg "x0", .imm 0],
        Line.inst "bne" [.text (t.Label_Cont_Name (st.cont_no + 1))]] ++ Pl_Fail t,
      x.isInst = true := by
  refine ⟨rfl, by simp [Fail_Ret, Label_Cont_New, Label_Cont_Get], ?_⟩
  intro x hx
  rcases List.mem_append.mp hx with h | h
  · simp at h; rcases h with h | h <;> subst h <;> rfl
  · exact Pl_Fail_isInst t x h

theorem cont_op_shape (t : Target) (op : Op) (hop : op.isCont = true) (st : Tr) :
    (op.run t st).2 = { st with cont_no := st.cont_no + 1 } ∧
    ∃ pre, (op.run t st).1 = pre ++ [Line.label (t.Label_Cont_Name (st.cont_no + 1) ++ ":")] ∧
      ∀ x ∈ pre, x.isInst = true := by
  cases op with
  | pl_call label =>
    obtain ⟨h1, mid, h2, h3⟩ := Pl_Call_shape t label st
    exact ⟨h1, _, h2, h3⟩
  | fail_ret =>
    obtain ⟨h1, h2, h3⟩ := Fail_Ret_shape t st
    exact ⟨h1, _, h2, h3⟩
  | _ => cases hop

theorem count_label_insts (pre : List Line) (s : String) (h : ∀ x ∈ pre, x.isInst = true) :
    pre.count (Line.label s) = 0 := by
  apply List.count_eq_zero_of_not_mem
  intro hm
  have := h _ hm
  simp [Line.isInst] at this

theorem cont_labels_count (t : Target) :
    ∀ (ops : List Op) (st : Tr) (k : Nat), (∀ op ∈ ops, op.isCont = true) →
      (∀ j, st.cont_no < j → j ≤ st.cont_no + ops.length →
        t.Label_Cont_Name j = t.Label_Cont_Name k → j = k) →
      (finalTr t ops st).cont_no = st.cont_no + ops.length ∧
      (outputOps t ops st).count (Line.label (t.Label_Cont_Name k ++ ":")) =
        (if st.cont_no < k ∧ k ≤ st.cont_no + ops.length then 1 else 0) := by
  intro ops
  induction ops with
  | nil =>
    intro st k _ _
    refine ⟨rfl, ?_⟩
    have : ¬ (st.cont_no < k ∧ k ≤ st.cont_no + ([] : List Op).length) := by
      simp only [List.length_nil]; omega
    rw [if_neg this]
    rfl
  | cons op rest ih =>
    intro st k hops hinj
    obtain ⟨hst, pre, hlines, hpre⟩ := cont_op_shape t op (hops op (List.mem_cons_self _ _)) st
    have hrest := ih (op.run t st).2 k (fun o ho => hops o (List.mem_cons_of_mem _ ho))
      (by
        intro j h1 h2 h3
        rw [hst] at h1 h2
        simp only [List.length_cons] at hinj
        exact hinj j (by simp at h1; omega) (by simp at h2; omega) h3)
    rw [hst] at hrest
    simp only at hrest
    refine ⟨?_, ?_⟩
    · simp only [finalTr, List.length_cons]
      rw [hst, hrest.1]
      omega
    · simp only [outputOps, List.length_cons]
      rw [hst, List.count_append, hlines, List.count_append, count_label_insts pre _ hpre,
        hrest.2]
      by_cases hk : k = st.cont_no + 1
      · subst hk
        simp
      · have hne : ¬ (Line.label (t.Label_Cont_Name (st.cont_no + 1) ++ ":") =
            Line.label (t.Label_Cont_Name k ++ ":")) := by
          intro h
          have h1 := label_colon_inj _ _ (Line.label.inj h)
          simp only [List.length_cons] at hinj
          exact hk (hinj (st.cont_no + 1) (by omega) (by omega) h1).symm
        simp [List.count_cons, hne]
        by_cases hr : st.cont_no + 1 < k ∧ k ≤ st.cont_no + 1 + rest.length
        · have : st.cont_no < k ∧ k ≤ st.cont_no + (rest.length + 1) := by omega
          simp [hr, this]
        · have : ¬ (st.cont_no < k ∧ k ≤ st.cont_no + (rest.length + 1)) := by omega
          simp [hr, this]

theorem cont_final_counter (t : Target) :
    ∀ (ops : List Op) (st : Tr), (∀ op ∈ ops, op.isCont = true) →
      (finalTr t ops st).cont_no = st.cont_no + ops.length := by
  intro ops
  induction ops with
  | nil => intro st _; rfl
  | cons op rest ih =>
    intro st hops
    have hst := (cont_op_shape t op (hops op (List.mem_cons_self _ _)) st).1
    simp only [finalTr, List.length_cons]
    rw [ih _ (fun o ho => hops o (List.mem_cons_of_mem _ ho)), hst]
    simp only
    omega

/-- C11: with `Label_Cont_New` giving distinct labels and `Label_Cont_Get` the
most recent one, every invocation of `Pl_Call` and of `Fail_Ret` obtains
exactly one continuation label (the counter advances by one), references it
(in the address load of `Prep_CP`, respectively in the `bne`), and defines
it exactly once, as its last line, all other lines being instructions; after
any sequence of `Pl_Call` / `Fail_Ret` invocations every label obtained is
defined exactly once in the output. -/
theorem continuation_labels_defined_once (t : Target) (st : Tr) (label : String)
    (ops : List Op) (hops : ∀ op ∈ ops, op.isCont = true)
    (hfresh : ∀ i j, st.cont_no < i → i ≤ st.cont_no + ops.length →
      st.cont_no < j → j ≤ st.cont_no + ops.length →
      t.Label_Cont_Name i = t.Label_Cont_Name j → i = j) :
    ((Pl_Call t label st).2.cont_no = st.cont_no + 1 ∧
      ∃ mid, (Pl_Call t label st).1 =
          (Load_Address t (t.MAP_REG_CP.getD "x2") (t.Label_Cont_Name (st.cont_no + 1)) ++ mid)
            ++ [Line.label (t.Label_Cont_Name (st.cont_no + 1) ++ ":")] ∧
        ∀ x ∈ Load_Address t (t.MAP_REG_CP.getD "x2") (t.Label_Cont_Name (st.cont_no + 1))
            ++ mid, x.isInst = true) ∧
    ((Fail_Ret t st).2.cont_no = st.cont_no + 1 ∧
      (Fail_Ret t st).1 =
        ([Line.inst "cmp" [.reg "x0", .imm 0],
          Line.inst "bne" [.text (t.Label_Cont_Name (st.cont_no + 1))]] ++ Pl_Fail t)
          ++ [Line.label (t.Label_Cont_Name (st.cont_no + 1) ++ ":")] ∧
      ∀ x ∈ Pl_Fail t, x.isInst = true) ∧
    (finalTr t ops st).cont_no = st.cont_no + ops.length ∧
    ∀ k, st.cont_no < k → k ≤ st.cont_no + ops.length →
      (outputOps t ops st).count (Line.label (t.Label_Cont_Name k ++ ":")) = 1 := by
  refine ⟨?_, ?_, ?_, ?_⟩
  · obtain ⟨h1, h2⟩ := Pl_Call_shape t label st
    exact ⟨by rw [h1], h2⟩
  · obtain ⟨h1, h2, _⟩ := Fail_Ret_shape t st
    exact ⟨by rw [h1], h2, Pl_Fail_isInst t⟩
  · exact cont_final_counter t ops st hops
  · intro k hk1 hk2
    have h := (cont_labels_count t ops st k hops
      (fun j h1 h2 h3 => hfresh j k h1 h2 hk1 hk2 h3)).2
    rw [h, if_pos ⟨hk1, hk2⟩]

/-- Witness of C11: a `Pl_Call` followed by a `Fail_Ret` on the sample target
define `.Lcont1` and `.Lcont2` once each. -/
theorem continuation_labels_defined_once_witness :
    (finalTr sampleTarget sampleContOps Tr.init).cont_no = 2 ∧
    (outputOps sampleTarget sampleContOps Tr.init).count (Line.label ".Lcont1:") = 1 ∧
    (outputOps sampleTarget sampleContOps Tr.init).count (Line.label ".Lcont2:") = 1 := by
  have h := continuation_labels_defined_once sampleTarget Tr.init "p" sampleContOps
    (by decide)
    (by
      intro i j h1 h2 h3 h4
      have hi : i = 1 ∨ i = 2 := by
        simp only [Tr.init, sampleContOps, List.length_cons, List.length_nil] at h1 h2
        omega
      have hj : j = 1 ∨ j = 2 := by
        simp only [Tr.init, sampleContOps, List.length_cons, List.length_nil] at h3 h4
        omega
      rcases hi with hi | hi <;> rcases hj with hj | hj <;> subst hi <;> subst hj <;> decide)
  exact ⟨h.2.2.1, h.2.2.2 1 (by decide) (by decide), h.2.2.2 2 (by decide) (by decide)⟩

/-! ## The pool of doubles -/

theorem Op_run_pool (t : Target) (op : Op) (st : Tr) :
    (op.run t st).2.dbl_lc_no = st.dbl_lc_no + (if op.isDoubleArg then 1 else 0) ∧
    (op.isCodeStart = true → (op.run t st).2.nb_dbl = 0) ∧
    (op.isCodeStart = false →
      (op.run t st).2.nb_dbl = st.nb_dbl + (if op.isDoubleArg then 1 else 0) ∧
      (∀ i, i < st.nb_dbl → (op.run t st).2.dbl_tbl i = st.dbl_tbl i)) ∧
    (∀ off d, op = .call_c_arg off (.double d) →
      (op.run t st).2.dbl_tbl st.nb_dbl = d ∧
      (op.run t st).1 =
        Load_Address t (BEFORE_ARG off st) (DOUBLE_PREFIX t ++ toString st.dbl_lc_no)
          ++ [Line.inst "ldr" [.reg ("d" ++ toString st.dbl_reg_no),
                .mem (BEFORE_ARG off st)]]) := by
  cases op with
  | call_c_arg off a =>
    cases a with
    | double d =>
      refine ⟨by simp [Op.run, Call_C_Arg, Call_C_Arg_Double, Op.isDoubleArg],
        fun h => (by cases h), fun _ => ⟨by simp [Op.run, Call_C_Arg, Call_C_Arg_Double,
          Op.isDoubleArg], ?_⟩, ?_⟩
      · intro i hi
        have : i ≠ st.nb_dbl := by omega
        simp [Op.run, Call_C_Arg, Call_C_Arg_Double, this]
      · intro off1 d1 h
        injection h with h1 h2
        injection h2 with h3
        subst h1; subst h3
        simp [Op.run, Call_C_Arg, Call_C_Arg_Double]
    | foreign_d ao ix =>
      by_cases h0 : ao = 0
      · refine ⟨by simp [Op.run, Call_C_Arg, Call_C_Arg_Foreign_D, Op.isDoubleArg, h0],
          fun h => (by cases h), fun _ => ⟨by simp [Op.run, Call_C_Arg, Call_C_Arg_Foreign_D,
            Op.isDoubleArg, h0], fun i _ => by simp [Op.run, Call_C_Arg, Call_C_Arg_Foreign_D,
            h0]⟩, fun off1 d1 h => (by cases h)⟩
      · refine ⟨by simp [Op.run, Call_C_Arg, Call_C_Arg_Foreign_D, Op.isDoubleArg, h0],
          fun h => (by cases h), fun _ => ⟨by simp [Op.run, Call_C_Arg, Call_C_Arg_Foreign_D,
            Op.isDoubleArg, h0], fun i _ => by simp [Op.run, Call_C_Arg, Call_C_Arg_Foreign_D,
            h0]⟩, fun off1 d1 h => (by cases h)⟩
    | _ =>
      exact ⟨rfl, fun h => (by cases h), fun _ => ⟨rfl, fun i _ => rfl⟩,
        fun off1 d1 h => (by cases h)⟩
  | code_start l p g =>
    exact ⟨rfl, fun _ => rfl, fun h => (by cases h), fun off1 d1 h => (by cases h)⟩
  | _ =>
    exact ⟨rfl, fun h => (by cases h), fun _ => ⟨rfl, fun i _ => rfl⟩,
      fun off1 d1 h => (by cases h)⟩

theorem traceOps_get (t : Target) :
    ∀ (ops : List Op) (st : Tr) (k : Nat) (e : OpEmit),
      (traceOps t ops st)[k]? = some e →
      ops[k]? = some e.op ∧ e.lines = (e.op.run t e.before).1 ∧
        e.before = finalTr t (ops.take k) st := by
  intro ops
  induction ops with
  | nil => intro st k e h; simp [traceOps] at h
  | cons op rest ih =>
    intro st k e h
    cases k with
    | zero =>
      simp [traceOps] at h
      subst h
      exact ⟨by simp, rfl, rfl⟩
    | succ k =>
      simp only [traceOps, List.getElem?_cons_succ] at h
      obtain ⟨h1, h2, h3⟩ := ih _ k e h
      exact ⟨by simpa using h1, h2, by simpa [finalTr] using h3⟩

theorem finalTr_dbl_lc_no (t : Target) :
    ∀ (ops : List Op) (st : Tr),
      (finalTr t ops st).dbl_lc_no = st.dbl_lc_no + ops.countP Op.isDoubleArg := by
  intro ops
  induction ops with
  | nil => intro st; rfl
  | cons op rest ih =>
    intro st
    simp only [finalTr, List.countP_cons]
    rw [ih, (Op_run_pool t op st).1]
    cases op.isDoubleArg
    · simp
    · simp; omega

theorem doubleValues_length (ops : List Op) :
    (doubleValues ops).length = ops.countP Op.isDoubleArg := by
  induction ops with
  | nil => rfl
  | cons op rest ih =>
    cases op with
    | call_c_arg off a =>
      cases a <;> simp [doubleValues, Op.isDoubleArg, List.countP_cons, ih]
    | _ => simp [doubleValues, Op.isDoubleArg, List.countP_cons, ih]

theorem doubleValues_cons (op : Op) (rest : List Op) :
    (∃ off d, op = .call_c_arg off (.double d) ∧ op.isDoubleArg = true ∧
      doubleValues (op :: rest) = d :: doubleValues rest) ∨
    (op.isDoubleArg = false ∧ doubleValues (op :: rest) = doubleValues rest) := by
  cases op with
  | call_c_arg off a =>
    cases a with
    | double d => left; exact ⟨off, d, rfl, rfl, rfl⟩
    | _ => right; exact ⟨rfl, rfl⟩
  | _ => right; exact ⟨rfl, rfl⟩

theorem finalTr_pool (t : Target) :
    ∀ (ops : List Op) (st : Tr), (∀ op ∈ ops, op.isCodeStart = false) →
      (finalTr t ops st).nb_dbl = st.nb_dbl + (doubleValues ops).length ∧
      (∀ i, i < st.nb_dbl → (finalTr t ops st).dbl_tbl i = st.dbl_tbl i) ∧
      (∀ j d, (doubleValues ops)[j]? = some d →
        (finalTr t ops st).dbl_tbl (st.nb_dbl + j) = d) := by
  intro ops
  induction ops with
  | nil =>
    intro st _
    exact ⟨rfl, fun _ _ => rfl, fun j d h => by simp [doubleValues] at h⟩
  | cons op rest ih =>
    intro st hops
    have hcs := hops op (List.mem_cons_self _ _)
    obtain ⟨hn, hframe⟩ := (Op_run_pool t op st).2.2.1 hcs
    obtain ⟨ih1, ih2, ih3⟩ := ih (op.run t st).2 (fun o ho => hops o (List.mem_cons_of_mem _ ho))
    rcases doubleValues_cons op rest with ⟨off, d, hop, hd, hv⟩ | ⟨hd, hv⟩
    · rw [hd] at hn
      simp only [if_true] at hn
      have hw := ((Op_run_pool t op st).2.2.2 off d hop).1
      refine ⟨?_, ?_, ?_⟩
      · simp only [finalTr]; rw [ih1, hn, hv]; simp; omega
      · intro i hi
        simp only [finalTr]
        rw [ih2 i (by omega), hframe i hi]
      · intro j d1 hj
        rw [hv] at hj
        simp only [finalTr]
        cases j with
        | zero =>
          simp at hj
          subst hj
          rw [Nat.add_zero, ih2 _ (by omega), hw]
        | succ j =>
          simp only [List.getElem?_cons_succ] at hj
          have := ih3 j d1 hj
          rw [hn] at this
          rw [← this]
          congr 1
          omega
    · rw [hd] at hn
      simp only [Bool.false_eq_true, if_false, Nat.add_zero] at hn
      refine ⟨?_, ?_, ?_⟩
      · simp only [finalTr]; rw [ih1, hn, hv]
      · intro i hi
        simp only [finalTr]
        rw [ih2 i (by omega), hframe i hi]
      · intro j d1 hj
        rw [hv] at hj
        simp only [finalTr]
        have := ih3 j d1 hj
        rw [hn] at this
        exact this

theorem Code_Start_doubles_poolLines (t : Target) (tbl : Nat → Dbl) :
    ∀ (ds : List Dbl) (n i x : Nat), n = i + ds.length →
      (∀ j d, ds[j]? = some d → tbl (i + j) = d) →
      Code_Start_doubles t tbl n (x : Int) i = poolLines t x ds := by
  intro ds
  induction ds with
  | nil =>
    intro n i x hn _
    rw [Code_Start_doubles]
    simp at hn
    simp [hn, poolLines]
  | cons d ds ih =>
    intro n i x hn htbl
    rw [Code_Start_doubles]
    have hlt : i < n := by simp at hn; omega
    have h0 : tbl i = d := by simpa using htbl 0 d (by simp)
    simp only [hlt, if_true, poolLines, h0]
    have hx : ((x : Int) + 1) = ((x + 1 : Nat) : Int) := by push_cast; rfl
    rw [hx, ih n (i + 1) (x + 1) (by simp at hn; omega)
      (fun j d1 hj => by
        have := htbl (j + 1) d1 (by simpa using hj)
        rw [← this]; congr 1; omega)]
    rfl

theorem take_countP_succ (ops : List Op) (k1 k2 : Nat) (op : Op) (h : ops[k1]? = some op)
    (hlt : k1 < k2) :
    (ops.take k2).countP Op.isDoubleArg =
      (ops.take k1).countP Op.isDoubleArg + (if op.isDoubleArg then 1 else 0)
        + ((ops.take k2).drop (k1 + 1)).countP Op.isDoubleArg := by
  have h1 : ops.take k2 = (ops.take k1 ++ [op]) ++ (ops.take k2).drop (k1 + 1) := by
    have ha : (ops.take k2).take (k1 + 1) = ops.take k1 ++ [op] := by
      rw [List.take_take, Nat.min_eq_left (by omega), List.take_succ, h]
      rfl
    rw [← ha, List.take_append_drop]
  conv_lhs => rw [h1]
  rw [List.countP_append, List.countP_append]
  simp [List.countP_cons]

theorem doubleValues_get (ops : List Op) :
    ∀ (k : Nat) (off : Int) (d : Dbl), ops[k]? = some (.call_c_arg off (.double d)) →
      (doubleValues ops)[(ops.take k).countP Op.isDoubleArg]? = some d := by
  induction ops with
  | nil => intro k off d h; simp at h
  | cons op rest ih =>
    intro k off d h
    cases k with
    | zero =>
      simp at h
      subst h
      simp [doubleValues]
    | succ k =>
      simp only [List.getElem?_cons_succ] at h
      have := ih k off d h
      rcases doubleValues_cons op rest with ⟨off1, d1, _, hd, hv⟩ | ⟨hd, hv⟩
      · rw [hv]
        simp [List.countP_cons, hd, this]
      · rw [hv]
        simp [List.countP_cons, hd, this]

theorem poolLines_get (t : Target) :
    ∀ (ds : List Dbl) (x j : Nat) (d : Dbl), ds[j]? = some d →
      (poolLines t x ds)[2 * j]? = some (Line.label (DOUBLE_PREFIX t ++ toString (x + j) ++ ":")) ∧
      (poolLines t x ds)[2 * j + 1]? = some (Line.inst ".double" [.dbl d]) := by
  intro ds
  induction ds with
  | nil => intro x j d h; simp at h
  | cons d0 ds ih =>
    intro x j d h
    cases j with
    | zero =>
      simp at h
      subst h
      simp [poolLines]
    | succ j =>
      simp only [List.getElem?_cons_succ] at h
      obtain ⟨h1, h2⟩ := ih (x + 1) j d h
      have e1 : 2 * (j + 1) = 2 * j + 1 + 1 := by omega
      have e2 : x + (j + 1) = x + 1 + j := by omega
      rw [e1, e2]
      simp only [poolLines, List.getElem?_cons_succ]
      exact ⟨h1, h2⟩

/-- Across a sequence of translator operations in which every
`Call_C_Arg_Double` stores inside `dbl_tbl`, the label index used by a
`Call_C_Arg_Double` call is the index at the start plus the number of
earlier such calls, each call advances the index by one, so a later
operation always sees a larger index (no index is reused), also across
`Code_Start`; and `nb_dbl = 0` immediately after every `Code_Start`, which
leaves the index unchanged. -/
theorem double_label_indices_increase (t : Target) (ops : List Op) (st : Tr) (k1 k2 : Nat)
    (e1 e2 : OpEmit) (_hcap : poolInBounds t ops st = true)
    (h1 : (traceOps t ops st)[k1]? = some e1)
    (h2 : (traceOps t ops st)[k2]? = some e2) (hlt : k1 < k2)
    (hd1 : e1.op.isDoubleArg = true) :
    e1.before.dbl_lc_no = st.dbl_lc_no + (ops.take k1).countP Op.isDoubleArg ∧
    (∃ off d, e1.op = .call_c_arg off (.double d) ∧
      e1.lines =
        Load_Address t (BEFORE_ARG off e1.before)
            (DOUBLE_PREFIX t ++ toString e1.before.dbl_lc_no)
          ++ [Line.inst "ldr" [.reg ("d" ++ toString e1.before.dbl_reg_no),
                .mem (BEFORE_ARG off e1.before)]]) ∧
    (e1.op.run t e1.before).2.dbl_lc_no = e1.before.dbl_lc_no + 1 ∧
    e2.before.dbl_lc_no =
      e1.before.dbl_lc_no + 1 + ((ops.take k2).drop (k1 + 1)).countP Op.isDoubleArg ∧
    e1.before.dbl_lc_no < e2.before.dbl_lc_no ∧
    (∀ (k : Nat) (e : OpEmit), (traceOps t ops st)[k]? = some e → e.op.isCodeStart = true →
      (e.op.run t e.before).2.nb_dbl = 0 ∧
      (e.op.run t e.before).2.dbl_lc_no = e.before.dbl_lc_no) := by
  obtain ⟨ho1, hl1, hb1⟩ := traceOps_get t ops st k1 e1 h1
  obtain ⟨_, _, hb2⟩ := traceOps_get t ops st k2 e2 h2
  have hc1 : e1.before.dbl_lc_no = st.dbl_lc_no + (ops.take k1).countP Op.isDoubleArg := by
    rw [hb1, finalTr_dbl_lc_no]
  have hc2 : e2.before.dbl_lc_no = st.dbl_lc_no + (ops.take k2).countP Op.isDoubleArg := by
    rw [hb2, finalTr_dbl_lc_no]
  have hcount := take_countP_succ ops k1 k2 e1.op ho1 hlt
  rw [hd1] at hcount
  simp only [if_true] at hcount
  have hop : ∃ off d, e1.op = .call_c_arg off (.double d) := by
    cases hop : e1.op with
    | call_c_arg off a =>
      cases a with
      | double d => exact ⟨off, d, rfl⟩
      | _ => rw [hop] at hd1; cases hd1
    | _ => rw [hop] at hd1; cases hd1
  obtain ⟨off, d, hop⟩ := hop
  refine ⟨hc1, ⟨off, d, hop, ?_⟩, ?_, ?_, ?_, ?_⟩
  · rw [hl1]
    exact ((Op_run_pool t e1.op e1.before).2.2.2 off d hop).2
  · rw [(Op_run_pool t e1.op e1.before).1, hd1]
    simp
  · rw [hc2, hc1, hcount]; omega
  · rw [hc2, hc1, hcount]; omega
  · intro k e _ hcs
    refine ⟨(Op_run_pool t e.op e.before).2.1 hcs, ?_⟩
    rw [(Op_run_pool t e.op e.before).1]
    cases hop2 : e.op with
    | code_start l p g => simp [Op.isDoubleArg]
    | _ => rw [hop2] at hcs; cases hcs

/-- Two `Call_C_Arg_Double` calls separated by a `Code_Start` use the indices
0 and 1. -/
theorem double_label_indices_increase_witness :
    ∃ e1 e2, (traceOps sampleTarget sampleAcrossOps Tr.init)[0]? = some e1 ∧
      (traceOps sampleTarget sampleAcrossOps Tr.init)[2]? = some e2 ∧
      e1.before.dbl_lc_no = 0 ∧ e2.before.dbl_lc_no = 1 := by
  obtain ⟨e1, h1⟩ :
      ∃ e, (traceOps sampleTarget sampleAcrossOps Tr.init)[0]? = some e := ⟨_, rfl⟩
  obtain ⟨e2, h2⟩ :
      ∃ e, (traceOps sampleTarget sampleAcrossOps Tr.init)[2]? = some e := ⟨_, rfl⟩
  have hd1 : e1.op.isDoubleArg = true := by
    have h := (traceOps_get sampleTarget sampleAcrossOps Tr.init 0 e1 h1).1
    have h0 : sampleAcrossOps[0]? = some (Op.call_c_arg 0 (.double 15)) := rfl
    rw [h0] at h
    rw [← Option.some.inj h]
    rfl
  obtain ⟨ha, _, _, hb, _, _⟩ :=
    double_label_indices_increase sampleTarget sampleAcrossOps Tr.init 0 2 e1 e2 (by decide)
      h1 h2 (by decide) hd1
  refine ⟨e1, e2, h1, h2, ?_, ?_⟩
  · rw [ha]; decide
  · rw [hb, ha]; decide

/-- C12: for every sequence of operations between two consecutive
`Code_Start` calls (none of them a `Code_Start`, at most
`MAX_DOUBLES_IN_PRED` of them `Call_C_Arg_Double`), the second `Code_Start`
emits, after `.align 3`, for each `Call_C_Arg_Double` call in order the
definition of the label that call referenced followed by the `.double`
directive with the value it registered, each once, then the lines it emits
with an empty pool, and leaves `nb_dbl = 0`. -/
theorem Code_Start_flushes_pool (t : Target) (st0 st : Tr) (l0 : String) (p0 g0 : Int)
    (label : String) (prolog global : Int) (ops : List Op)
    (hst : st = (Code_Start t l0 p0 g0 st0).2)
    (hops : ∀ op ∈ ops, op.isCodeStart = false)
    (_hcap : (doubleValues ops).length ≤ MAX_DOUBLES_IN_PRED) :
    (Code_Start t label prolog global (finalTr t ops st)).1 =
      Line.inst ".align" [.text "3"]
        :: (poolLines t st.dbl_lc_no (doubleValues ops)
            ++ (Code_Start t label prolog global st).1.tail) ∧
    (Code_Start t label prolog global (finalTr t ops st)).2.nb_dbl = 0 ∧
    ∀ (k : Nat) (e : OpEmit) (off : Int) (d : Dbl), (traceOps t ops st)[k]? = some e →
      e.op = .call_c_arg off (.double d) →
      e.lines =
        Load_Address t (BEFORE_ARG off e.before)
            (DOUBLE_PREFIX t ++ toString (st.dbl_lc_no + (ops.take k).countP Op.isDoubleArg))
          ++ [Line.inst "ldr" [.reg ("d" ++ toString e.before.dbl_reg_no),
                .mem (BEFORE_ARG off e.before)]] ∧
      (poolLines t st.dbl_lc_no (doubleValues ops))[2 * (ops.take k).countP Op.isDoubleArg]? =
        some (Line.label (DOUBLE_PREFIX t
          ++ toString (st.dbl_lc_no + (ops.take k).countP Op.isDoubleArg) ++ ":")) ∧
      (poolLines t st.dbl_lc_no (doubleValues ops))[2 * (ops.take k).countP Op.isDoubleArg + 1]? =
        some (Line.inst ".double" [.dbl d]) := by
  have hnb : st.nb_dbl = 0 := by rw [hst]; rfl
  obtain ⟨hn, _, htbl⟩ := finalTr_pool t ops st hops
  have hlc := finalTr_dbl_lc_no t ops st
  rw [hnb, Nat.zero_add] at hn
  have hpool : Code_Start_doubles t (finalTr t ops st).dbl_tbl (finalTr t ops st).nb_dbl
      (((finalTr t ops st).dbl_lc_no : Int) - (finalTr t ops st).nb_dbl) 0 =
      poolLines t st.dbl_lc_no (doubleValues ops) := by
    have hx : (((finalTr t ops st).dbl_lc_no : Int) - (finalTr t ops st).nb_dbl) =
        ((st.dbl_lc_no : Nat) : Int) := by
      rw [hlc, hn, doubleValues_length]; push_cast; ring
    rw [hx]
    exact Code_Start_doubles_poolLines t _ (doubleValues ops) _ 0 st.dbl_lc_no (by rw [hn]; simp)
      (fun j d hj => by
        have := htbl j d hj
        rw [hnb] at this
        exact this)
  have hempty : Code_Start_doubles t st.dbl_tbl st.nb_dbl
      ((st.dbl_lc_no : Int) - st.nb_dbl) 0 = [] := by
    rw [Code_Start_doubles, hnb]; simp
  refine ⟨?_, rfl, ?_⟩
  · simp only [Code_Start, hpool, hempty]
    simp
  · intro k e off d he hop
    obtain ⟨ho, hl, hb⟩ := traceOps_get t ops st k e he
    have hlcb : e.before.dbl_lc_no = st.dbl_lc_no + (ops.take k).countP Op.isDoubleArg := by
      rw [hb, finalTr_dbl_lc_no]
    have hline := ((Op_run_pool t e.op e.before).2.2.2 off d hop).2
    rw [hop] at ho
    have hv := doubleValues_get ops k off d ho
    obtain ⟨hp1, hp2⟩ := poolLines_get t (doubleValues ops) st.dbl_lc_no _ d hv
    exact ⟨by rw [hl, hline, hlcb], hp1, hp2⟩

/-- Witness of C12: a call with the double arguments 15 and 25 after the
first `Code_Start`; the next `Code_Start` defines `.LCD0` and `.LCD1` with
these values. -/
theorem Code_Start_flushes_pool_witness :
    (Code_Start sampleTarget "g" 1 0
        (finalTr sampleTarget sampleDoubleOps (Code_Start sampleTarget "f" 1 1 Tr.init).2)).1 =
      Line.inst ".align" [.text "3"]
        :: ([Line.label ".LCD0:", Line.inst ".double" [.dbl 15],
             Line.label ".LCD1:", Line.inst ".double" [.dbl 25]]
            ++ (Code_Start sampleTarget "g" 1 0
                  (Code_Start sampleTarget "f" 1 1 Tr.init).2).1.tail) :=
  (Code_Start_flushes_pool sampleTarget Tr.init _ "f" 1 1 "g" 1 0 sampleDoubleOps rfl
    (by decide) (by decide)).1.trans (by rfl)

/-! ## Section switches -/

/-- C14 (as amended): `Dico_String_Start`, `Dico_Long_Start` and `Data_Start`
emit only their section and alignment directives: no label of the pool, no
`.double` directive, and they leave the translator state, pool included, as
it was; the pending entries are still emitted by the next `Code_Start`. -/
theorem section_start_keeps_pool (t : Target) (op : Op) (st : Tr)
    (hop : op.isSectionStart = true) :
    (op.run t st).2 = st ∧
    (∀ l ∈ (op.run t st).1, l.op ≠ ".double" ∧
      (l = Line.label ".data" ∨ l.isInst = true)) ∧
    (∀ n, (Op.run t (.dico_string_start n) st).1 =
      [Line.inst ".section"
        [.text (if t.M_darwin then "__TEXT,__cstring,cstring_literals" else ".rodata.str1.8")]]) ∧
    (∀ n, (Op.run t (.dico_long_start n) st).1 =
      [Line.label ".data", Line.inst ".align" [.text "4"]]) ∧
    (Op.run t (.data_start none) st).1 = [] ∧
    (∀ (label : String) (prolog global : Int),
      Code_Start t label prolog global (op.run t st).2 = Code_Start t label prolog global st) := by
  have hst : (op.run t st).2 = st := by
    cases op with
    | dico_string_start n => rfl
    | dico_long_start n => rfl
    | data_start f => rfl
    | _ => cases hop
  refine ⟨hst, ?_, ?_, fun _ => rfl, rfl, fun _ _ _ => by rw [hst]⟩
  · intro l hl
    cases op with
    | dico_string_start n =>
      cases hd : t.M_darwin <;> simp [Op.run, Dico_String_Start, hd] at hl <;> subst hl <;>
        simp [Line.op, Line.isInst]
    | dico_long_start n =>
      simp [Op.run, Dico_Long_Start] at hl
      rcases hl with h | h <;> subst h <;> simp [Line.op, Line.isInst]
    | data_start f =>
      cases f with
      | none => simp [Op.run, Data_Start] at hl
      | some f =>
        cases hd : t.M_darwin <;> simp [Op.run, Data_Start, hd] at hl <;>
          rcases hl with h | h | h <;> subst h <;> simp [Line.op, Line.isInst]
    | _ => cases hop
  · intro n
    cases hd : t.M_darwin <;> simp [Op.run, Dico_String_Start, hd]

/-- Witness of C14 (as amended): `Dico_Long_Start` after a double argument
leaves `nb_dbl = 1`. -/
theorem section_start_keeps_pool_witness :
    (Op.run sampleTarget (.dico_long_start 0)
      (finalTr sampleTarget [.call_c_arg 0 (.double 15)] Tr.init)).2.nb_dbl = 1 :=
  (congrArg Tr.nb_dbl (section_start_keeps_pool sampleTarget (.dico_long_start 0)
    (finalTr sampleTarget [.call_c_arg 0 (.double 15)] Tr.init) rfl).1).trans (by decide)

/-- Counterexample to C14 as stated: a function with one double argument
followed by `Dico_String_Start`, `Dico_Long_Start` and `Data_Start`: the
label `.LCD0` is referenced by the argument load, no line defines it and no
`.double` directive is emitted, and the pool still holds one entry. -/
theorem section_start_does_not_flush :
    Line.inst "adrp" [.reg "x0", .rel .GOT_PAGE "" ".LCD0"]
      ∈ outputOps sampleTarget sampleSectionOps Tr.init ∧
    (outputOps sampleTarget sampleSectionOps Tr.init).count (Line.label ".LCD0:") = 0 ∧
    (outputOps sampleTarget sampleSectionOps Tr.init).countP
      (fun l => decide (l.op = ".double")) = 0 ∧
    (finalTr sampleTarget sampleSectionOps Tr.init).nb_dbl = 1 := by
  have hout : outputOps sampleTarget sampleSectionOps Tr.init =
      [Line.inst ".align" [.text "3"], Line.label "",
       Line.inst ".align" [.text "2"], Line.inst ".p2align" [.text "3,,7"],
       Line.inst ".type" [.text "f", .text "%function"],
       Line.inst ".global" [.text "f"], Line.label "", Line.label "f:",
       Line.inst "adrp" [.reg "x0", .rel .GOT_PAGE "" ".LCD0"],
       Line.inst "ldr" [.reg "x0", .memRel "x0" .GOT_PAGEOFF "" ".LCD0"],
       Line.inst "ldr" [.reg "d0", .mem "x0"],
       Line.inst ".section" [.text ".rodata.str1.8"],
       Line.label ".data", Line.inst ".align" [.text "4"],
       Line.inst ".section" [.text ".init_array,\"aw\""],
       Line.inst ".align" [.text "3"],
       Line.inst ".xword" [.text "init"]] := by
    simp [outputOps, sampleSectionOps, Op.run, Code_Start, Code_Start_doubles, Tr.init,
      sampleTarget, UN_EXT, Call_C_Arg, Call_C_Arg_Double, BEFORE_ARG, offset_excl_doubles,
      MAX_ARGS_IN_REGS, Load_Address, DOUBLE_PREFIX, Dico_String_Start, Dico_Long_Start,
      Data_Start]
    decide
  refine ⟨?_, ?_, ?_, by decide⟩
  · rw [hout]; decide
  · rw [hout]; decide
  · rw [hout]; decide

/-! ## Addresses and values of arguments passed by address -/

theorem execInstSym_plain (S : Symtab) (l : Line) (m : Machine) (h : l.plain = true) :
    execInstSym S l m = execInst l m := by
  unfold execInstSym
  split <;> simp_all [Line.plain, Operand.isRel]

theorem execSeqSym_append (S : Symtab) (A B : List Line) (m : Machine) :
    execSeqSym S (A ++ B) m = (execSeqSym S A m).bind (execSeqSym S B) := by
  induction A generalizing m with
  | nil => simp [execSeqSym]
  | cons a A ih =>
    simp only [List.cons_append, execSeqSym]
    cases execInstSym S a m with
    | none => rfl
    | some m1 => simpa using ih m1

theorem execSeqSym_plain (S : Symtab) (L : List Line) (m : Machine)
    (h : ∀ l ∈ L, l.plain = true) : execSeqSym S L m = execSeq L m := by
  induction L generalizing m with
  | nil => rfl
  | cons a L ih =>
    simp only [execSeqSym, execSeq]
    rw [execInstSym_plain S a m (h a (List.mem_cons_self _ _))]
    cases execInst a m with
    | none => rfl
    | some m1 => simpa using ih m1 (fun l hl => h l (List.mem_cons_of_mem _ hl))

theorem addr64_lt (a : Nat) (o : Int) : addr64 a o < 2 ^ 64 := by
  unfold addr64
  have h1 : 0 ≤ ((a : Int) + o) % 2 ^ 64 := Int.emod_nonneg _ (by norm_num)
  have h2 : ((a : Int) + o) % 2 ^ 64 < 2 ^ 64 := Int.emod_lt_of_pos _ (by norm_num)
  omega

theorem addr64_addr64 (a : Nat) (x y : Int) : addr64 (addr64 a x) y = addr64 a (x + y) := by
  unfold addr64
  have h1 : 0 ≤ ((a : Int) + x) % 2 ^ 64 := Int.emod_nonneg _ (by norm_num)
  rw [Int.toNat_of_nonneg h1]
  congr 1
  omega

theorem addr64_zero (a : Nat) (h : a < 2 ^ 64) : addr64 a 0 = a := by
  unfold addr64
  omega

theorem Load_Address_exec (S : Symtab) (t : Target) (r name : String) (m : Machine)
    (hgot : GotOk S m (Load_Address_symbol t name)) :
    ∃ m1, execSeqSym S (Load_Address t r name) m = some m1 ∧
      m1.reg r = S.addr (Load_Address_symbol t name) ∧
      (∀ q, q ≠ r → m1.reg q = m.reg q) ∧ m1.mem = m.mem := by
  obtain ⟨ha, hg, hmem⟩ := hgot
  by_cases hs : t.Scope_Of_Symbol name > 0
  · simp only [Load_Address_symbol, hs, if_true] at ha ⊢
    refine ⟨_, by simp [Load_Address, hs, execSeqSym, execInstSym]; rfl, ?_, ?_, ?_⟩
    · simp only [Machine.setReg, if_true]
      omega
    · intro q hq; simp [Machine.setReg, hq]
    · rfl
  · simp only [Load_Address_symbol, hs, if_false] at ha hg hmem ⊢
    refine ⟨_, by simp [Load_Address, hs, execSeqSym, execInstSym]; rfl, ?_, ?_, ?_⟩
    · simp only [Machine.setReg, if_true]
      have : (S.got (UN_EXT t ++ name) / 4096 * 4096 + S.got (UN_EXT t ++ name) % 4096)
          % 18446744073709551616 = S.got (UN_EXT t ++ name) := by omega
      rw [this, hmem]
    · intro q hq; simp [Machine.setReg, hq]
    · rfl

theorem Increment_Reg_loop_exec (neg : Bool) (r : String) :
    ∀ (n : Nat) (shift : Int) (k : Nat) (m : Machine), shift = 12 * (k : Int) →
      m.reg r < 2 ^ 64 →
      ∃ m1, execSeq (Increment_Reg_loop (if neg then "sub" else "add") r n shift) m = some m1 ∧
        m1.reg r = addr64 (m.reg r)
          (if neg then -((n : Int) * 2 ^ (12 * k)) else (n : Int) * 2 ^ (12 * k)) ∧
        (∀ q, q ≠ r → m1.reg q = m.reg q) ∧ m1.mem = m.mem := by
  intro n shift
  induction n, shift using Increment_Reg_loop.induct (if neg then "sub" else "add") r with
  | case1 n shift h ih =>
    intro k m hs hreg
    rw [Increment_Reg_loop, if_pos h]
    have hland : n &&& 0xfff = n % 4096 := Nat.and_pow_two_sub_one_eq_mod n 12
    have hsplit : (n : Int) = ((n % 4096 : Nat) : Int) + 4096 * ((n / 4096 : Nat) : Int) := by
      omega
    have hsh : n >>> 12 = n / 4096 := by rw [Nat.shiftRight_eq_div_pow]
    have hst : shift.toNat = 12 * k := by rw [hs]; omega
    have hpow : (2 : Int) ^ (12 * (k + 1)) = 4096 * 2 ^ (12 * k) := by
      rw [Nat.mul_add, pow_add]; ring
    have hsum : (if neg then -(((n % 4096 : Nat) : Int) * 2 ^ (12 * k))
          else ((n % 4096 : Nat) : Int) * 2 ^ (12 * k))
        + (if neg then -(((n / 4096 : Nat) : Int) * 2 ^ (12 * (k + 1)))
          else ((n / 4096 : Nat) : Int) * 2 ^ (12 * (k + 1)))
        = (if neg then -((n : Int) * 2 ^ (12 * k)) else (n : Int) * 2 ^ (12 * k)) := by
      rw [hpow]
      conv_rhs => rw [hsplit]
      cases neg <;> simp <;> ring
    rw [hland, hsh]
    rw [hsh] at ih
    by_cases hz : n % 4096 = 0
    · simp only [hz, ne_eq, not_true_eq_false, if_false, List.nil_append]
      obtain ⟨m1, he, hr, hq, hm⟩ := ih (k + 1) m (by rw [hs]; push_cast; ring) hreg
      refine ⟨m1, he, ?_, hq, hm⟩
      rw [hr, ← hsum, hz]
      simp
    · simp only [hz, ne_eq, not_false_eq_true, if_true, List.singleton_append, execSeq]
      have hstep : execInst (Line.inst (if neg then "sub" else "add")
          [.reg r, .reg r, .imm ((n % 4096 : Nat) : Int), .lsl shift]) m =
          some (m.setReg r (addr64 (m.reg r)
            (if neg then -(((n % 4096 : Nat) : Int) * 2 ^ (12 * k))
             else ((n % 4096 : Nat) : Int) * 2 ^ (12 * k)))) := by
        cases neg <;> simp [execInst, execAddSub, hst]
      rw [hstep]
      simp only [Option.bind]
      have hlt := addr64_lt (m.reg r)
        (if neg then -(((n % 4096 : Nat) : Int) * 2 ^ (12 * k))
         else ((n % 4096 : Nat) : Int) * 2 ^ (12 * k))
      obtain ⟨m1, he, hr, hq, hm⟩ := ih (k + 1)
        (m.setReg r (addr64 (m.reg r)
          (if neg then -(((n % 4096 : Nat) : Int) * 2 ^ (12 * k))
           else ((n % 4096 : Nat) : Int) * 2 ^ (12 * k))))
        (by rw [hs]; push_cast; ring) (by rw [setReg_same]; exact hlt)
      refine ⟨m1, he, ?_, ?_, ?_⟩
      · rw [hr, setReg_same, addr64_addr64, hsum]
      · intro q hq1
        rw [hq q hq1, setReg_other _ _ _ _ hq1]
      · rw [hm]; rfl
  | case2 n shift h =>
    intro k m _ hreg
    rw [Increment_Reg_loop, if_neg h]
    have h0 : n = 0 := by
      by_contra hc; exact h hc
    subst h0
    refine ⟨m, rfl, ?_, fun _ _ => rfl, rfl⟩
    have := addr64_zero (m.reg r) hreg
    cases neg <;> simpa using this.symm

theorem Increment_Reg_exec (r : String) (v : Int) (m : Machine) (hreg : m.reg r < 2 ^ 64) :
    ∃ m1, execSeq (Increment_Reg r v) m = some m1 ∧ m1.reg r = addr64 (m.reg r) v ∧
      (∀ q, q ≠ r → m1.reg q = m.reg q) ∧ m1.mem = m.mem := by
  unfold Increment_Reg
  split
  · rename_i hneg
    obtain ⟨m1, he, hr, hq, hm⟩ := Increment_Reg_loop_exec true r (-v).toNat 0 0 m (by simp) hreg
    refine ⟨m1, by simpa using he, ?_, hq, hm⟩
    rw [hr]
    congr 1
    have : (((-v).toNat : Nat) : Int) = -v := Int.toNat_of_nonneg (by omega)
    simp [this]
  · rename_i hneg
    obtain ⟨m1, he, hr, hq, hm⟩ := Increment_Reg_loop_exec false r v.toNat 0 0 m (by simp) hreg
    refine ⟨m1, by simpa using he, ?_, hq, hm⟩
    rw [hr]
    congr 1
    have : ((v.toNat : Nat) : Int) = v := Int.toNat_of_nonneg (by omega)
    simp [this]

theorem Increment_Reg_loop_simple (op r : String) :
    ∀ (n : Nat) (shift : Int), ∀ l ∈ Increment_Reg_loop op r n shift,
      l.plain = true ∧ l.isDeref = false := by
  intro n shift
  induction n, shift using Increment_Reg_loop.induct op r with
  | case1 n shift h ih =>
    rw [Increment_Reg_loop, if_pos h]
    intro l hl
    rcases List.mem_append.mp hl with h1 | h1
    · split at h1
      · simp at h1; subst h1
        simp [Line.plain, Operand.isRel, Line.isDeref]
      · cases h1
    · exact ih l h1
  | case2 n shift h =>
    rw [Increment_Reg_loop, if_neg h]
    intro l hl
    cases hl

theorem Increment_Reg_simple (r : String) (v : Int) :
    ∀ l ∈ Increment_Reg r v, l.plain = true ∧ l.isDeref = false := by
  unfold Increment_Reg
  split
  · exact Increment_Reg_loop_simple "sub" r _ _
  · exact Increment_Reg_loop_simple "add" r _ _

theorem Load_Immediate_plain (t : Target) (r : String) (w : Nat) :
    ∀ l ∈ Load_Immediate t r w, l.plain = true := by
  intro l hl
  unfold Load_Immediate at hl
  split at hl
  · simp at hl; subst hl; simp [Line.plain, Operand.isRel]
  · rcases List.mem_append.mp hl with h | h
    · split at h
      · simp at h; subst h; simp [Line.plain, Operand.isRel]
      · cases h
    · have := Load_Immediate_loop_lines r w 0 true l h
      revert this
      unfold Line.isMovzMovk
      split
      · intro _; simp [Line.plain, Operand.isRel]
      · intro hc; cases hc

theorem Load_Address_noDeref (t : Target) (r name : String) :
    ∀ l ∈ Load_Address t r name, l.isDeref = false := by
  intro l hl
  by_cases hs : t.Scope_Of_Symbol name > 0 <;> simp [Load_Address, hs] at hl <;>
    rcases hl with h | h <;> subst h <;> simp [Line.isDeref]

theorem AFTER_ARG_exec (S : Symtab) (r : String) (offset : Int) (st : Tr) (m : Machine) :
    (∃ m1, execSeqSym S (AFTER_ARG r offset st) m = some m1 ∧ m1.reg = m.reg) ∧
    ∀ l ∈ AFTER_ARG r offset st, l.isDeref = false := by
  unfold AFTER_ARG
  split
  · refine ⟨⟨m.setMem (addr64 (m.reg "sp") (STACK_OFFSET (offset_excl_doubles offset st)))
      (m.reg r), by simp [execSeqSym, execInstSym, execInst, execStr, effAddr], rfl⟩, ?_⟩
    intro l hl
    simp at hl; subst hl; simp [Line.isDeref]
  · exact ⟨⟨m, rfl, rfl⟩, fun l hl => by cases hl⟩

theorem LeavesValueExec_after (S : Symtab) (A : List Line) (r : String) (offset : Int) (st : Tr)
    (m : Machine) (q : String) (a : Nat) (h : LeavesValueExec S A m q a) :
    LeavesValueExec S (A ++ AFTER_ARG r offset st) m q a := by
  obtain ⟨m1, he, hr⟩ := h
  obtain ⟨⟨m2, he2, hr2⟩, _⟩ := AFTER_ARG_exec S r offset st m1
  refine ⟨m2, ?_, by rw [hr2, hr]⟩
  rw [execSeqSym_append, he]
  exact he2

theorem Increment_Reg_execSym (S : Symtab) (r : String) (v : Int) (m : Machine)
    (hreg : m.reg r < 2 ^ 64) :
    ∃ m1, execSeqSym S (Increment_Reg r v) m = some m1 ∧ m1.reg r = addr64 (m.reg r) v ∧
      (∀ q, q ≠ r → m1.reg q = m.reg q) ∧ m1.mem = m.mem := by
  rw [execSeqSym_plain S _ m (fun l hl => (Increment_Reg_simple r v l hl).1)]
  exact Increment_Reg_exec r v m hreg

theorem Load_Reg_Bank_exec (S : Symtab) (t : Target) (m : Machine)
    (hregs : ∀ q, m.reg q < 2 ^ 64)
    (hbank : GotOk S m (Load_Address_symbol t "pl_reg_bank")) :
    (∃ m1, execSeqSym S (Load_Reg_Bank t) m = some m1 ∧
      m1.reg (ASM_REG_BANK t) = bankBase t S m ∧ m1.mem = m.mem) ∧
    bankBase t S m < 2 ^ 64 ∧ ∀ l ∈ Load_Reg_Bank t, l.isDeref = false := by
  unfold Load_Reg_Bank bankBase
  split
  · obtain ⟨m1, he, hr, _, hm⟩ := Load_Address_exec S t (ASM_REG_BANK t) "pl_reg_bank" m hbank
    exact ⟨⟨m1, he, hr, hm⟩, hbank.1, Load_Address_noDeref t _ _⟩
  · exact ⟨⟨m, rfl, rfl, rfl⟩, hregs _, fun l hl => by cases hl⟩

theorem Call_C_Arg_Mem_L_value (S : Symtab) (t : Target) (offset adr_of index : Int)
    (name : String) (st : Tr) (m : Machine)
    (hname : GotOk S m (Load_Address_symbol t name)) :
    (adr_of ≠ 0 →
      LeavesValueExec S (Call_C_Arg_Mem_L t offset adr_of name index st).1 m (BEFORE_ARG offset st)
        (addr64 (S.addr (Load_Address_symbol t name)) (index * BPW)) ∧
      ∀ l ∈ (Call_C_Arg_Mem_L t offset adr_of name index st).1, l.isDeref = false) ∧
    (adr_of = 0 →
      LeavesValueExec S (Call_C_Arg_Mem_L t offset adr_of name index st).1 m (BEFORE_ARG offset st)
        (m.mem (addr64 (S.addr (Load_Address_symbol t name)) (index * BPW)))) := by
  obtain ⟨m1, he1, hr1, _, hm1⟩ := Load_Address_exec S t (BEFORE_ARG offset st) name m hname
  obtain ⟨m2, he2, hr2, _, hm2⟩ := Increment_Reg_execSym S (BEFORE_ARG offset st) (index * BPW) m1
    (by rw [hr1]; exact hname.1)
  have h12 : execSeqSym S (Load_Address t (BEFORE_ARG offset st) name
      ++ Increment_Reg (BEFORE_ARG offset st) (index * BPW)) m = some m2 := by
    rw [execSeqSym_append, he1]; exact he2
  constructor
  · intro ha
    constructor
    · have : LeavesValueExec S (Load_Address t (BEFORE_ARG offset st) name
          ++ Increment_Reg (BEFORE_ARG offset st) (index * BPW) ++ []) m (BEFORE_ARG offset st)
          (addr64 (S.addr (Load_Address_symbol t name)) (index * BPW)) :=
        ⟨m2, by rw [List.append_nil]; exact h12, by rw [hr2, hr1]⟩
      have h := LeavesValueExec_after S _ (BEFORE_ARG offset st) offset st m _ _ this
      simpa [Call_C_Arg_Mem_L, ha] using h
    · intro l hl
      simp only [Call_C_Arg_Mem_L, ha, if_false, List.append_nil] at hl
      rcases List.mem_append.mp hl with h | h
      · rcases List.mem_append.mp h with h1 | h1
        · exact Load_Address_noDeref t _ _ l h1
        · exact (Increment_Reg_simple _ _ l h1).2
      · exact (AFTER_ARG_exec S _ offset st m).2 l h
  · intro ha
    have : LeavesValueExec S (Load_Address t (BEFORE_ARG offset st) name
        ++ Increment_Reg (BEFORE_ARG offset st) (index * BPW)
        ++ [Line.inst "ldr" [.reg (BEFORE_ARG offset st), .mem (BEFORE_ARG offset st)]]) m
        (BEFORE_ARG offset st)
        (m.mem (addr64 (S.addr (Load_Address_symbol t name)) (index * BPW))) := by
      refine ⟨m2.setReg (BEFORE_ARG offset st) (m2.mem (m2.reg (BEFORE_ARG offset st) % 2 ^ 64)),
        ?_, ?_⟩
      · rw [execSeqSym_append, h12]
        simp [execSeqSym, execInstSym, execInst, execLdr, effAddr]
      · rw [setReg_same, hm2, hm1, hr2, hr1, Nat.mod_eq_of_lt (addr64_lt _ _)]
    have h := LeavesValueExec_after S _ (BEFORE_ARG offset st) offset st m _ _ this
    simpa [Call_C_Arg_Mem_L, ha] using h

theorem Call_C_Arg_Reg_X_value (S : Symtab) (t : Target) (offset adr_of index : Int)
    (st : Tr) (m : Machine) (hregs : ∀ q, m.reg q < 2 ^ 64)
    (hbank : GotOk S m (Load_Address_symbol t "pl_reg_bank")) :
    (adr_of ≠ 0 →
      LeavesValueExec S (Call_C_Arg_Reg_X t offset adr_of index st).1 m (BEFORE_ARG offset st)
        (addr64 (bankBase t S m) (index * BPW)) ∧
      ∀ l ∈ (Call_C_Arg_Reg_X t offset adr_of index st).1, l.isDeref = false) ∧
    (adr_of = 0 →
      LeavesValueExec S (Call_C_Arg_Reg_X t offset adr_of index st).1 m (BEFORE_ARG offset st)
        (m.mem (addr64 (bankBase t S m) (index * BPW)))) := by
  obtain ⟨⟨m1, he1, hr1, hm1⟩, hlt, hnd⟩ := Load_Reg_Bank_exec S t m hregs hbank
  have hmov : execSeqSym S (Load_Reg_Bank t
      ++ [Line.inst "mov" [.reg (BEFORE_ARG offset st), .reg (ASM_REG_BANK t)]]) m =
      some (m1.setReg (BEFORE_ARG offset st) (bankBase t S m)) := by
    rw [execSeqSym_append, he1]
    simp [execSeqSym, execInstSym, execInst, hr1]
  constructor
  · intro ha
    obtain ⟨m3, he3, hr3, _, _⟩ := Increment_Reg_execSym S (BEFORE_ARG offset st) (index * BPW)
      (m1.setReg (BEFORE_ARG offset st) (bankBase t S m)) (by rw [setReg_same]; exact hlt)
    constructor
    · have : LeavesValueExec S (Load_Reg_Bank t
          ++ [Line.inst "mov" [.reg (BEFORE_ARG offset st), .reg (ASM_REG_BANK t)]]
          ++ Increment_Reg (BEFORE_ARG offset st) (index * BPW)) m (BEFORE_ARG offset st)
          (addr64 (bankBase t S m) (index * BPW)) :=
        ⟨m3, by rw [execSeqSym_append, hmov]; exact he3, by rw [hr3, setReg_same]⟩
      have h := LeavesValueExec_after S _ (BEFORE_ARG offset st) offset st m _ _ this
      simpa [Call_C_Arg_Reg_X, ha] using h
    · intro l hl
      simp only [Call_C_Arg_Reg_X, ha, ne_eq, not_false_eq_true, if_true] at hl
      rcases List.mem_append.mp hl with h | h
      · rcases List.mem_append.mp h with h1 | h1
        · rcases List.mem_append.mp h1 with h2 | h2
          · exact hnd l h2
          · simp at h2; subst h2; simp [Line.isDeref]
        · exact (Increment_Reg_simple _ _ l h1).2
      · exact (AFTER_ARG_exec S _ offset st m).2 l h
  · intro ha
    have : LeavesValueExec S (Load_Reg_Bank t
        ++ [Line.inst "mov" [.reg (BEFORE_ARG offset st), .reg (ASM_REG_BANK t)]]
        ++ [Line.inst "ldr" [.reg (BEFORE_ARG offset st),
              .memImm (BEFORE_ARG offset st) (index * BPW)]]) m (BEFORE_ARG offset st)
        (m.mem (addr64 (bankBase t S m) (index * BPW))) := by
      refine ⟨(m1.setReg (BEFORE_ARG offset st) (bankBase t S m)).setReg (BEFORE_ARG offset st)
        (m.mem (addr64 (bankBase t S m) (index * BPW))), ?_, by rw [setReg_same]⟩
      rw [execSeqSym_append, hmov]
      simp [execSeqSym, execInstSym, execInst, execLdr, effAddr, setReg_same, Machine.setReg, hm1]
    have h := LeavesValueExec_after S _ (BEFORE_ARG offset st) offset st m _ _ this
    simpa [Call_C_Arg_Reg_X, ha] using h

theorem add_toPlULong (E : Nat) (o : Int) : (E + toPlULong o) % 2 ^ 64 = addr64 E o := by
  unfold addr64
  have hc := toPlULong_cast o
  have h1 : (((E + toPlULong o) % 2 ^ 64 : Nat) : Int) = ((E : Int) + o) % 2 ^ 64 := by
    push_cast
    rw [hc]
    omega
  omega

theorem setReg_self_source (m : Machine) (r e : String) :
    (m.setReg r (m.reg e)).reg e = m.reg e := by
  simp only [Machine.setReg]
  split
  · rfl
  · rfl

theorem Call_C_Arg_Reg_Y_value (S : Symtab) (t : Target) (offset adr_of index : Int)
    (st : Tr) (m : Machine) (hregs : ∀ q, m.reg q < 2 ^ 64) (hE : asm_reg_e t ≠ "x9") :
    (adr_of ≠ 0 →
      LeavesValueExec S (Call_C_Arg_Reg_Y t offset adr_of index st).1 m (BEFORE_ARG offset st)
        (addr64 (m.reg (asm_reg_e t)) (t.Y_OFFSET index)) ∧
      ∀ l ∈ (Call_C_Arg_Reg_Y t offset adr_of index st).1, l.isDeref = false) ∧
    (adr_of = 0 →
      LeavesValueExec S (Call_C_Arg_Reg_Y t offset adr_of index st).1 m (BEFORE_ARG offset st)
        (m.mem (addr64 (m.reg (asm_reg_e t)) (t.Y_OFFSET index)))) := by
  have hmov : execSeqSym S [Line.inst "mov" [.reg (BEFORE_ARG offset st), .reg (asm_reg_e t)]] m
      = some (m.setReg (BEFORE_ARG offset st) (m.reg (asm_reg_e t))) := by
    simp [execSeqSym, execInstSym, execInst]
  constructor
  · intro ha
    obtain ⟨m3, he3, hr3, _, _⟩ := Increment_Reg_execSym S (BEFORE_ARG offset st)
      (t.Y_OFFSET index) (m.setReg (BEFORE_ARG offset st) (m.reg (asm_reg_e t)))
      (by rw [setReg_same]; exact hregs _)
    constructor
    · have : LeavesValueExec S ([Line.inst "mov" [.reg (BEFORE_ARG offset st), .reg (asm_reg_e t)]]
          ++ Increment_Reg (BEFORE_ARG offset st) (t.Y_OFFSET index)) m (BEFORE_ARG offset st)
          (addr64 (m.reg (asm_reg_e t)) (t.Y_OFFSET index)) :=
        ⟨m3, by rw [execSeqSym_append, hmov]; exact he3, by rw [hr3, setReg_same]⟩
      have h := LeavesValueExec_after S _ (BEFORE_ARG offset st) offset st m _ _ this
      simpa [Call_C_Arg_Reg_Y, ha] using h
    · intro l hl
      simp only [Call_C_Arg_Reg_Y, ha, ne_eq, not_false_eq_true, if_true] at hl
      rcases List.mem_append.mp hl with h | h
      · rcases List.mem_append.mp h with h1 | h1
        · simp at h1; subst h1; simp [Line.isDeref]
        · exact (Increment_Reg_simple _ _ l h1).2
      · exact (AFTER_ARG_exec S _ offset st m).2 l h
  · intro ha
    have : LeavesValueExec S ([Line.inst "mov" [.reg (BEFORE_ARG offset st), .reg (asm_reg_e t)]]
        ++ Load_Store_Reg_Y t "ldr" (BEFORE_ARG offset st) index) m (BEFORE_ARG offset st)
        (m.mem (addr64 (m.reg (asm_reg_e t)) (t.Y_OFFSET index))) := by
      by_cases hi : Is_Load_Store_Offset_Immediate (t.Y_OFFSET index) = true
      · refine ⟨(m.setReg (BEFORE_ARG offset st) (m.reg (asm_reg_e t))).setReg
          (BEFORE_ARG offset st) (m.mem (addr64 (m.reg (asm_reg_e t)) (t.Y_OFFSET index))),
          ?_, by rw [setReg_same]⟩
        rw [execSeqSym_append, hmov]
        simp [Load_Store_Reg_Y, hi, execSeqSym, execInstSym, execInst, execLdr, effAddr,
          setReg_self_source]
        rfl
      · have heq : Load_Store_Reg_Y t "ldr" (BEFORE_ARG offset st) index =
            Load_Immediate t "x9" (toPlULong (t.Y_OFFSET index))
              ++ [Line.inst "ldr" [.reg (BEFORE_ARG offset st),
                    .memReg (asm_reg_e t) "x9"]] := by
          simp [Load_Store_Reg_Y, hi]
        obtain ⟨m2, he2, hr2, hq2, hm2⟩ := Load_Immediate_exec t "x9"
          (toPlULong (t.Y_OFFSET index)) (toPlULong_lt _)
          (m.setReg (BEFORE_ARG offset st) (m.reg (asm_reg_e t)))
        rw [← execSeqSym_plain S _ _ (Load_Immediate_plain t _ _)] at he2
        refine ⟨m2.setReg (BEFORE_ARG offset st)
          (m.mem (addr64 (m.reg (asm_reg_e t)) (t.Y_OFFSET index))), ?_, by rw [setReg_same]⟩
        rw [execSeqSym_append, hmov, heq]
        simp only [Option.bind]
        rw [execSeqSym_append, he2]
        have hEreg : m2.reg (asm_reg_e t) = m.reg (asm_reg_e t) := by
          rw [hq2 _ hE, setReg_self_source]
        have hmem : m2.mem = m.mem := by rw [hm2]; rfl
        simp [execSeqSym, execInstSym, execInst, execLdr, effAddr, hEreg, hr2, hmem]
        have := add_toPlULong (m.reg (asm_reg_e t)) (t.Y_OFFSET index)
        norm_num at this
        rw [this]
    have h := LeavesValueExec_after S _ (BEFORE_ARG offset st) offset st m _ _ this
    simpa [Call_C_Arg_Reg_Y, ha] using h

theorem symMachine_regs : ∀ q, symMachine.reg q < 2 ^ 64 := by
  intro q
  simp only [symMachine]
  split <;> norm_num

/-! ## Rounding up to a power of two -/

/-- C25: for every integer `x >= 0` and every power of two `p = 2^k`,
`Round_Up_Pow2(x, p)` is a multiple of `p`, is at least `x`, is at most every
multiple of `p` that is at least `x` (so it is the least such multiple), is
`x` itself when `p` divides `x`, and is smaller than `x + p`. -/
theorem Round_Up_Pow2_least_multiple (x k : Nat) :
    (((2 ^ k : Nat) : Int) ∣ Round_Up_Pow2 (x : Int) ((2 ^ k : Nat) : Int)) ∧
    (x : Int) ≤ Round_Up_Pow2 (x : Int) ((2 ^ k : Nat) : Int) ∧
    (∀ n : Int, ((2 ^ k : Nat) : Int) ∣ n → (x : Int) ≤ n →
      Round_Up_Pow2 (x : Int) ((2 ^ k : Nat) : Int) ≤ n) ∧
    ((((2 ^ k : Nat) : Int) ∣ (x : Int)) → Round_Up_Pow2 (x : Int) ((2 ^ k : Nat) : Int) = x) ∧
    Round_Up_Pow2 (x : Int) ((2 ^ k : Nat) : Int) < (x : Int) + ((2 ^ k : Nat) : Int) := by
  have hp : 0 < 2 ^ k := Nat.two_pow_pos k
  rw [Round_Up_Pow2_eq]
  generalize hP : 2 ^ k = p at hp
  have hdm := Nat.div_add_mod (x + (p - 1)) p
  have hml := Nat.mod_lt (x + (p - 1)) hp
  have hmul : p * ((x + (p - 1)) / p) = (x + (p - 1)) / p * p := Nat.mul_comm _ _
  have hge : x ≤ (x + (p - 1)) / p * p := by omega
  have hlt : (x + (p - 1)) / p * p < x + p := by omega
  have hleast : ∀ n : Nat, p ∣ n → x ≤ n → (x + (p - 1)) / p * p ≤ n := by
    intro n hn hle
    obtain ⟨c, rfl⟩ := hn
    have h1 : (x + (p - 1)) / p ≤ c := by
      apply Nat.le_of_lt_succ
      apply (Nat.div_lt_iff_lt_mul hp).mpr
      have h2 : c.succ * p = p * c + p := by rw [Nat.succ_mul, Nat.mul_comm]
      omega
    calc (x + (p - 1)) / p * p ≤ c * p := Nat.mul_le_mul_right p h1
      _ = p * c := Nat.mul_comm _ _
  refine ⟨?_, ?_, ?_, ?_, ?_⟩
  · exact Int.natCast_dvd_natCast.mpr (Dvd.intro_left _ rfl)
  · exact_mod_cast hge
  · intro n hn hle
    have hn0 : 0 ≤ n := le_trans (Int.ofNat_nonneg x) hle
    obtain ⟨n1, rfl⟩ := Int.eq_ofNat_of_zero_le hn0
    have := hleast n1 (Int.natCast_dvd_natCast.mp hn) (by exact_mod_cast hle)
    exact_mod_cast this
  · intro hd
    have hd1 : p ∣ x := Int.natCast_dvd_natCast.mp hd
    have := hleast x hd1 le_rfl
    have : (x + (p - 1)) / p * p = x := le_antisymm this hge
    exact_mod_cast this
  · exact_mod_cast hlt

/-! ## Linkage directives -/

/-- C22: linkage directives follow the global flag.  The `.global` lines of
`Code_Start` are the single line `.global <label>` when `global != 0` and none
otherwise; the same holds for `Dico_Long` with an initial value; without an
initial value (`NONE` or `ARRAY_SIZE`) `Dico_Long` emits exactly one line,
`.comm` when `global != 0` and `.lcomm` otherwise. -/
theorem linkage_follows_global (t : Target) (name : String) (prolog global value : Int)
    (st : Tr) :
    (Code_Start t name prolog global st).1.filter (fun l => decide (l.op = ".global")) =
      (if global ≠ 0 then [Line.inst ".global" [.text (UN_EXT t ++ name)]] else []) ∧
    (Dico_Long t name global .INITIAL_VALUE value).filter
        (fun l => decide (l.op = ".global")) =
      (if global ≠ 0 then [Line.inst ".global" [.text (UN_EXT t ++ name)]] else []) ∧
    (∀ vt : VType, vt ≠ .INITIAL_VALUE →
      ∃ l, Dico_Long t name global vt value = [l] ∧
        l.op = (if global ≠ 0 then ".comm" else ".lcomm")) ∧
    (∀ vt : VType, ∀ l ∈ Dico_Long t name global vt value,
      (l.op = ".comm" → global ≠ 0 ∧ vt ≠ .INITIAL_VALUE) ∧
      (l.op = ".lcomm" → global = 0 ∧ vt ≠ .INITIAL_VALUE)) := by
  refine ⟨?_, ?_, ?_, ?_⟩
  · have hd := Code_Start_doubles_filter t st.dbl_tbl st.nb_dbl
      ((st.dbl_lc_no : Int) - st.nb_dbl) 0 ".global" (by decide) (by decide)
    simp only [Code_Start, List.filter_append, hd]
    cases hdw : t.M_darwin <;> by_cases hg : global = 0 <;> by_cases hpr : prolog = 0 <;>
      simp [hg, hpr, Line.op, List.filter]
  · by_cases hg : global = 0 <;> simp [Dico_Long, hg, Line.op, List.filter]
  · intro vt hvt
    cases vt with
    | INITIAL_VALUE => exact absurd rfl hvt
    | NONE => by_cases hg : global = 0 <;> simp [Dico_Long, hg, Line.op]
    | ARRAY_SIZE => by_cases hg : global = 0 <;> simp [Dico_Long, hg, Line.op]
  · intro vt
    cases vt <;> by_cases hg : global = 0 <;> simp [Dico_Long, hg, Line.op]

/-! ## Slices of `Increment_Reg` -/

theorem land_fff (n : Nat) : n &&& 0xfff = n % 4096 :=
  Nat.and_pow_two_sub_one_eq_mod n 12

theorem div_slice (v k : Nat) : (v / 2 ^ (12 * k)) >>> 12 = v / 2 ^ (12 * (k + 1)) := by
  rw [Nat.shiftRight_eq_div_pow, Nat.div_div_eq_div_mul, Nat.mul_add, pow_add]

theorem Increment_Reg_loop_zero (op r : String) (shift : Int) :
    Increment_Reg_loop op r 0 shift = [] := by
  rw [Increment_Reg_loop]; simp

theorem sliceLines_zero (op r : String) (v : Nat) :
    ∀ (n j : Nat), v / 2 ^ (12 * j) = 0 → sliceLines op r v n j = [] := by
  intro n
  induction n with
  | zero => intro j _; rfl
  | succ n ih =>
    intro j h
    have h1 : v / 2 ^ (12 * (j + 1)) = 0 := by
      rw [← div_slice, h]; simp
    simp [sliceLines, h, ih (j + 1) h1]

theorem Increment_Reg_loop_slices (op r : String) (v : Nat) :
    ∀ (n j : Nat) (int_val : Nat),
      int_val = v / 2 ^ (12 * j) → int_val < 2 ^ (12 * n) →
      Increment_Reg_loop op r int_val (12 * (j : Int)) = sliceLines op r v n j := by
  intro n
  induction n with
  | zero =>
    intro j int_val _ hlt
    have h0 : int_val = 0 := by simpa using hlt
    subst h0
    rw [Increment_Reg_loop_zero]; rfl
  | succ n ih =>
    intro j int_val hi hlt
    have hsh : int_val >>> 12 = v / 2 ^ (12 * (j + 1)) := by rw [hi, div_slice]
    have hlt2 : int_val >>> 12 < 2 ^ (12 * n) := by
      rw [Nat.shiftRight_eq_div_pow]
      apply Nat.div_lt_of_lt_mul
      have : (2 : Nat) ^ (12 * (n + 1)) = 2 ^ 12 * 2 ^ (12 * n) := by
        rw [← pow_add]; congr 1; ring
      omega
    have hcast : (12 * (j : Int) + 12) = 12 * ((j + 1 : Nat) : Int) := by push_cast; ring
    by_cases h0 : int_val = 0
    · subst h0
      rw [Increment_Reg_loop_zero, sliceLines_zero op r v (n + 1) j hi.symm]
    · rw [Increment_Reg_loop, if_pos h0]
      subst hi
      simp only [land_fff, hcast, sliceLines]
      rw [ih (j + 1) _ hsh hlt2]

theorem sliceLines_length (op r : String) (v : Nat) :
    ∀ (n j : Nat),
      (sliceLines op r v n j).length =
        (List.range' j n).countP (fun j => decide (v / 2 ^ (12 * j) % 4096 ≠ 0)) := by
  intro n
  induction n with
  | zero => intro j; rfl
  | succ n ih =>
    intro j
    by_cases hz : v / 2 ^ (12 * j) % 4096 = 0
    · simp [sliceLines, hz, List.range', List.countP_cons, ih]
    · simp [sliceLines, hz, List.range', List.countP_cons, ih]

theorem sliceLines_op (op r : String) (v : Nat) :
    ∀ (n j : Nat), ∀ l ∈ sliceLines op r v n j, l.op = op := by
  intro n
  induction n with
  | zero => intro j l hl; cases hl
  | succ n ih =>
    intro j l hl
    simp only [sliceLines] at hl
    rcases List.mem_append.mp hl with h | h
    · split at h
      · simp at h; subst h; rfl
      · cases h
    · exact ih _ l h

theorem Increment_Reg_sliceLines (r : String) (v : Int) (hlo : -2 ^ 31 < v) (hhi : v < 2 ^ 31) :
    Increment_Reg r v = sliceLines (if v < 0 then "sub" else "add") r v.natAbs 3 0 := by
  unfold Increment_Reg
  by_cases hneg : v < 0
  · simp only [hneg, if_true]
    have h1 : (-v).toNat = v.natAbs := by omega
    rw [h1]
    have := Increment_Reg_loop_slices "sub" r v.natAbs 3 0 v.natAbs (by simp) (by norm_num; omega)
    simpa using this
  · simp only [hneg, if_false]
    have h1 : v.toNat = v.natAbs := by omega
    rw [h1]
    have := Increment_Reg_loop_slices "add" r v.natAbs 3 0 v.natAbs (by simp) (by norm_num; omega)
    simpa using this

/-- C28: for every register `r` and every 32-bit `int_val` other than
`-2^31`, `Increment_Reg` (a total function: its loop terminates) emits
nothing when `int_val = 0` and otherwise one instruction per non-zero 12-bit
slice of `|int_val|`, lowest slice first, at most three, all `add` when
`int_val > 0` and all `sub` when `int_val < 0`; executed with `#c, LSL s`
denoting `c * 2^s`, the sequence changes `r` by exactly `int_val` (mod 2^64)
and leaves the other registers and the memory as they were. -/
theorem Increment_Reg_slices (r : String) (v : Int) (m : Machine)
    (hlo : -2 ^ 31 < v) (hhi : v < 2 ^ 31) (hreg : m.reg r < 2 ^ 64) :
    (v = 0 → Increment_Reg r v = []) ∧
    Increment_Reg r v = sliceLines (if v < 0 then "sub" else "add") r v.natAbs 3 0 ∧
    (Increment_Reg r v).length = nonZeroSlices v.natAbs ∧
    (Increment_Reg r v).length ≤ 3 ∧
    (∀ l ∈ Increment_Reg r v, l.op = (if v < 0 then "sub" else "add")) ∧
    ∃ m1, execSeq (Increment_Reg r v) m = some m1 ∧ m1.reg r = addr64 (m.reg r) v ∧
      (∀ q, q ≠ r → m1.reg q = m.reg q) ∧ m1.mem = m.mem := by
  have hs := Increment_Reg_sliceLines r v hlo hhi
  have hlen : (Increment_Reg r v).length = nonZeroSlices v.natAbs := by
    rw [hs, sliceLines_length]; rfl
  refine ⟨?_, hs, hlen, ?_, ?_, Increment_Reg_exec r v m hreg⟩
  · intro h0
    subst h0
    simp [Increment_Reg, Increment_Reg_loop_zero]
  · rw [hlen]
    unfold nonZeroSlices
    exact List.countP_le_length _
  · rw [hs]
    exact sliceLines_op _ r _ 3 0

/-- Witness of C28: -4097 has two non-zero slices; `Increment_Reg` emits two
`sub` instructions that take x0 from 0 to `2^64 - 4097`. -/
theorem Increment_Reg_slices_witness :
    (Increment_Reg "x0" (-4097)).length = 2 ∧
    (∀ l ∈ Increment_Reg "x0" (-4097), l.op = "sub") ∧
    ∃ m1, execSeq (Increment_Reg "x0" (-4097)) sampleMachine = some m1 ∧
      m1.reg "x0" = 18446744073709547519 := by
  have h := Increment_Reg_slices "x0" (-4097) sampleMachine (by norm_num) (by norm_num)
    (by decide)
  refine ⟨h.2.2.1.trans (by decide), ?_, ?_⟩
  · intro l hl
    simpa using h.2.2.2.2.1 l hl
  · obtain ⟨m1, he, hr, _⟩ := h.2.2.2.2.2
    refine ⟨m1, he, hr.trans ?_⟩
    decide

/-- C29: `Increment_Reg("x7", 16777216)` (the increment of
`Move_Ret_To_Mem_L` for the index 2097152) emits the single instruction
`add x7, x7, #1, LSL 24`, whose shift amount is neither 0 nor 12: the loop
goes on adding 12 to the shift for the third slice. -/
theorem Increment_Reg_shift_24 :
    Increment_Reg "x7" 16777216 =
      [Line.inst "add" [.reg "x7", .reg "x7", .imm 1, .lsl 24]] ∧
    (Increment_Reg "x7" 16777216).all addSubImmLegal = false := by
  have h : Increment_Reg "x7" 16777216 =
      [Line.inst "add" [.reg "x7", .reg "x7", .imm 1, .lsl 24]] := by
    rw [Increment_Reg_sliceLines "x7" 16777216 (by norm_num) (by norm_num)]
    decide
  exact ⟨h, by rw [h]; decide⟩

/-! ## End of the pool of doubles -/

theorem doublesOps_final (t : Target) :
    ∀ (n : Nat) (st : Tr), (finalTr t (doublesOps n) st).nb_dbl = st.nb_dbl + n := by
  intro n
  induction n with
  | zero => intro st; rfl
  | succ n ih =>
    intro st
    simp only [doublesOps, finalTr]
    rw [ih]
    simp [Op.run, Call_C_Arg, Call_C_Arg_Double, Call_C_Start]
    omega

/-- C21: after 2048 native calls with a double argument in one predicate the
pool holds `MAX_DOUBLES_IN_PRED` entries; the next `Call_C_Arg_Double` does
not fail: it returns `DBL_RET_WORDS` as usual, having written its value at
index `MAX_DOUBLES_IN_PRED` of `dbl_tbl` and counted 2049 entries. -/
theorem Call_C_Arg_Double_past_pool_end :
    (finalTr sampleTarget (doublesOps 2048) Tr.init).nb_dbl = MAX_DOUBLES_IN_PRED ∧
    (Call_C_Arg_Double sampleTarget 0 7
      (finalTr sampleTarget (doublesOps 2048) Tr.init)).1.2 = DBL_RET_WORDS ∧
    (Call_C_Arg_Double sampleTarget 0 7
      (finalTr sampleTarget (doublesOps 2048) Tr.init)).2.dbl_tbl MAX_DOUBLES_IN_PRED = 7 ∧
    (Call_C_Arg_Double sampleTarget 0 7
      (finalTr sampleTarget (doublesOps 2048) Tr.init)).2.nb_dbl = MAX_DOUBLES_IN_PRED + 1 := by
  have h : (finalTr sampleTarget (doublesOps 2048) Tr.init).nb_dbl = MAX_DOUBLES_IN_PRED := by
    rw [doublesOps_final]; rfl
  refine ⟨h, rfl, ?_, ?_⟩
  · simp [Call_C_Arg_Double, h]
  · simp [Call_C_Arg_Double, h]

/-- Counterexample to C24 as stated: the X register 32 has the byte offset
256, outside the range of `Is_Load_Store_Offset_Immediate`, and each of the
three moves is the single load or store with 256 as immediate offset. -/
theorem Move_Reg_X_256_direct :
    Is_Load_Store_Offset_Immediate (32 * BPW) = false ∧
    Move_From_Reg_X sampleTarget 32 = [Line.inst "ldr" [.reg "x2", .memImm "x19" 256]] ∧
    Move_To_Reg_X sampleTarget 32 = [Line.inst "str" [.reg "x2", .memImm "x19" 256]] ∧
    Move_Ret_To_Reg_X sampleTarget 32 = [Line.inst "str" [.reg "x0", .memImm "x19" 256]] ∧
    (Move_From_Reg_X sampleTarget 32 ++ Move_To_Reg_X sampleTarget 32
      ++ Move_Ret_To_Reg_X sampleTarget 32).all Line.hasImmOffset = true := by
  refine ⟨by decide, by decide, by decide, by decide, by decide⟩

/-! ## Comparison of the returned value with an integer -/

theorem Nearest_Immediate_loop_le :
    ∀ (close exp : Nat),
      (Nearest_Immediate_loop close exp).1 * 2 ^ (Nearest_Immediate_loop close exp).2
        ≤ close * 2 ^ exp := by
  intro close exp
  induction close, exp using Nearest_Immediate_loop.induct with
  | case1 close exp h ih =>
    rw [Nearest_Immediate_loop, if_pos h]
    refine le_trans ih ?_
    rw [Nat.shiftRight_eq_div_pow, pow_add]
    calc close / 2 ^ 2 * (2 ^ exp * 2 ^ 2) = close / 2 ^ 2 * 2 ^ 2 * 2 ^ exp := by ring
      _ ≤ close * 2 ^ exp := Nat.mul_le_mul_right _ (Nat.div_mul_le_self _ _)
  | case2 close exp h =>
    rw [Nearest_Immediate_loop, if_neg h]

theorem Nearest_Immediate_natAbs_le (target : Int) :
    (Nearest_Immediate target).natAbs ≤ target.natAbs := by
  have h := Nearest_Immediate_loop_le (if target ≥ 0 then target else -target).toNat 0
  simp only [pow_zero, Nat.mul_one] at h
  unfold Nearest_Immediate
  simp only [Nat.shiftLeft_eq]
  by_cases hpos : target ≥ 0
  · simp only [hpos, if_true] at h ⊢
    omega
  · simp only [hpos, if_false] at h ⊢
    omega

theorem toInt32_range (i : Int) : -2 ^ 31 ≤ toInt32 i ∧ toInt32 i < 2 ^ 31 := by
  unfold toInt32
  have h1 : 0 ≤ i % 2 ^ 32 := Int.emod_nonneg _ (by norm_num)
  have h2 : i % 2 ^ 32 < 2 ^ 32 := Int.emod_lt_of_pos _ (by norm_num)
  split <;> constructor <;> omega

theorem execSeq_append (A B : List Line) (m : Machine) :
    execSeq (A ++ B) m = (execSeq A m).bind (execSeq B) := by
  induction A generalizing m with
  | nil => simp [execSeq]
  | cons a A ih =>
    simp only [List.cons_append, execSeq]
    cases execInst a m with
    | none => rfl
    | some m1 => simpa using ih m1

theorem toSigned64_toPlULong (v : Int) (hlo : -2 ^ 63 ≤ v) (hhi : v < 2 ^ 63) :
    toSigned64 (toPlULong v) = v := by
  have hlt := toPlULong_lt v
  have hc := toPlULong_cast v
  unfold toSigned64
  rw [Nat.mod_eq_of_lt hlt]
  split <;> omega

/-! ## Return to the continuation -/

theorem execToRet_append (S : Symtab) (B : List Line) :
    ∀ (A : List Line) (m m1 : Machine), (∀ l ∈ A, l.op ≠ "ret") →
      execSeqSym S A m = some m1 → execToRet S (A ++ B) m = execToRet S B m1 := by
  intro A
  induction A with
  | nil =>
    intro m m1 _ he
    simp only [execSeqSym, Option.some.injEq] at he
    subst he; rfl
  | cons a A ih =>
    intro m m1 hA he
    have ha := hA a (List.mem_cons_self _ _)
    have hrest : ∀ l ∈ A, l.op ≠ "ret" := fun l hl => hA l (List.mem_cons_of_mem _ hl)
    cases a with
    | label s =>
      have h1 : execInstSym S (Line.label s) m = some m := by simp [execInstSym, execInst]
      simp only [execSeqSym, h1, Option.some_bind] at he
      simp only [List.cons_append, execToRet]
      exact ih m m1 hrest he
    | inst op args =>
      have hop : op ≠ "ret" := ha
      simp only [List.cons_append, execToRet, if_neg hop]
      simp only [execSeqSym] at he
      cases h1 : execInstSym S (Line.inst op args) m with
      | none => rw [h1] at he; cases he
      | some m2 =>
        rw [h1] at he
        simp only [Option.some_bind] at he ⊢
        exact ih m2 m1 hrest he

theorem Load_Reg_Bank_noRet (t : Target) : ∀ l ∈ Load_Reg_Bank t, l.op ≠ "ret" := by
  intro l hl
  unfold Load_Reg_Bank at hl
  split at hl
  · by_cases hs : t.Scope_Of_Symbol "pl_reg_bank" > 0
    · simp [Load_Address, hs] at hl
      rcases hl with h | h <;> subst h <;> simp [Line.op]
    · simp [Load_Address, hs] at hl
      rcases hl with h | h <;> subst h <;> simp [Line.op]
  · cases hl

/-- C23: in both configurations the code of `Pl_Ret` returns to the address
recorded by `Prep_CP`.  With CP mapped to a machine register, `Prep_CP` loads
the address of the new continuation label into that register and `Pl_Ret` is
`ret` through the same register.  With CP unmapped, `Prep_CP` loads the
address into x2 and stores it at [register bank + MAP_OFFSET_CP]; `Pl_Ret`
loads x11 from that same field immediately before `ret x11`.  Executed from
any later state in which the record is intact (the register, respectively
the bank base and the word of the field), `Pl_Ret` returns to the address of
the continuation label. -/
theorem Pl_Ret_returns_to_Prep_CP (S : Symtab) (t : Target) (st : Tr) (m : Machine)
    (hbank : GotOk S m (Load_Address_symbol t "pl_reg_bank"))
    (hlab : GotOk S m (Load_Address_symbol t (Label_Cont_New t st).1))
    (hx2 : ASM_REG_BANK t ≠ "x2") :
    (∀ cp, t.MAP_REG_CP = some cp →
      (Prep_CP t st).1 = Load_Address t cp (Label_Cont_New t st).1 ∧
      Pl_Ret t = [Line.inst "ret" [.reg cp]] ∧
      ∃ m1, execSeqSym S (Prep_CP t st).1 m = some m1 ∧
        m1.reg cp = S.addr (Load_Address_symbol t (Label_Cont_New t st).1) ∧
        ∀ m2 : Machine, m2.reg cp = m1.reg cp →
          execToRet S (Pl_Ret t) m2 =
            some (S.addr (Load_Address_symbol t (Label_Cont_New t st).1))) ∧
    (t.MAP_REG_CP = none →
      (Prep_CP t st).1 = Load_Address t "x2" (Label_Cont_New t st).1 ++ Load_Reg_Bank t
        ++ [Line.inst "str" [.reg "x2", .memImm (ASM_REG_BANK t) t.MAP_OFFSET_CP]] ∧
      Pl_Ret t = Load_Reg_Bank t
        ++ [Line.inst "ldr" [.reg "x11", .memImm (ASM_REG_BANK t) t.MAP_OFFSET_CP],
            Line.inst "ret" [.reg "x11"]] ∧
      ∃ m1, execSeqSym S (Prep_CP t st).1 m = some m1 ∧
        m1.mem (addr64 (bankBase t S m) t.MAP_OFFSET_CP) =
          S.addr (Load_Address_symbol t (Label_Cont_New t st).1) ∧
        (∀ a, a ≠ addr64 (bankBase t S m) t.MAP_OFFSET_CP → m1.mem a = m.mem a) ∧
        bankBase t S m1 = bankBase t S m ∧
        ∀ m2 : Machine, GotOk S m2 (Load_Address_symbol t "pl_reg_bank") →
          bankBase t S m2 = bankBase t S m →
          m2.mem (addr64 (bankBase t S m) t.MAP_OFFSET_CP) =
            m1.mem (addr64 (bankBase t S m) t.MAP_OFFSET_CP) →
          execToRet S (Pl_Ret t) m2 =
            some (S.addr (Load_Address_symbol t (Label_Cont_New t st).1))) := by
  have hbankexec : ∀ (m0 : Machine), GotOk S m0 (Load_Address_symbol t "pl_reg_bank") →
      ∃ m1, execSeqSym S (Load_Reg_Bank t) m0 = some m1 ∧
        m1.reg (ASM_REG_BANK t) = bankBase t S m0 ∧ m1.mem = m0.mem ∧
        m1.reg "x2" = m0.reg "x2" := by
    intro m0 hb
    unfold Load_Reg_Bank bankBase
    split
    · obtain ⟨m1, he, hr, hf, hm⟩ := Load_Address_exec S t (ASM_REG_BANK t) "pl_reg_bank" m0 hb
      exact ⟨m1, he, hr, hm, hf "x2" (Ne.symm hx2)⟩
    · exact ⟨m0, rfl, rfl, rfl, rfl⟩
  constructor
  · intro cp hcp
    obtain ⟨m1, he, hr, _, _⟩ := Load_Address_exec S t cp (Label_Cont_New t st).1 m hlab
    have hP : (Prep_CP t st).1 = Load_Address t cp (Label_Cont_New t st).1 := by
      simp [Prep_CP, hcp]
    have hR : Pl_Ret t = [Line.inst "ret" [.reg cp]] := by simp [Pl_Ret, hcp]
    refine ⟨hP, hR, m1, by rw [hP]; exact he, hr, ?_⟩
    intro m2 h2
    rw [hR]
    simp [execToRet, h2, hr]
  · intro hcp
    obtain ⟨m1, he1, hr1, hf1, hm1⟩ :=
      Load_Address_exec S t "x2" (Label_Cont_New t st).1 m hlab
    have hb1 : GotOk S m1 (Load_Address_symbol t "pl_reg_bank") := by
      obtain ⟨a, b, c⟩ := hbank
      exact ⟨a, b, by rw [hm1]; exact c⟩
    have hbase1 : bankBase t S m1 = bankBase t S m := by
      unfold bankBase
      split
      · rfl
      · exact hf1 _ hx2
    obtain ⟨m2, he2, hr2, hm2, hx⟩ := hbankexec m1 hb1
    have hP : (Prep_CP t st).1 = Load_Address t "x2" (Label_Cont_New t st).1 ++ Load_Reg_Bank t
        ++ [Line.inst "str" [.reg "x2", .memImm (ASM_REG_BANK t) t.MAP_OFFSET_CP]] := by
      simp [Prep_CP, hcp]
    have hR : Pl_Ret t = Load_Reg_Bank t
        ++ [Line.inst "ldr" [.reg "x11", .memImm (ASM_REG_BANK t) t.MAP_OFFSET_CP],
            Line.inst "ret" [.reg "x11"]] := by
      simp [Pl_Ret, hcp]
    refine ⟨hP, hR,
      m2.setMem (addr64 (m2.reg (ASM_REG_BANK t)) t.MAP_OFFSET_CP) (m2.reg "x2"), ?_, ?_, ?_,
      ?_, ?_⟩
    · rw [hP, execSeqSym_append, execSeqSym_append, he1]
      simp only [Option.some_bind]
      rw [he2]
      simp [execSeqSym, execInstSym, execInst, execStr, effAddr]
    · simp [Machine.setMem, hr2, hbase1, hx, hr1]
    · intro a ha
      simp [Machine.setMem, hr2, hbase1, ha, hm2, hm1]
    · rw [← hbase1]
      unfold bankBase
      split
      · rfl
      · simp only [Machine.setMem]
        rw [hr2]
        unfold bankBase
        simp [*]
    · intro m3 hb3 hbase3 hmem3
      obtain ⟨m4, he4, hr4, hm4, _⟩ := hbankexec m3 hb3
      rw [hR, execToRet_append S _ (Load_Reg_Bank t) m3 m4 (Load_Reg_Bank_noRet t) he4]
      simp only [execToRet]
      simp [execInstSym, execInst, execLdr, effAddr, Machine.setReg, hr4, hbase3, hm4, hmem3,
        Machine.setMem, hr2, hbase1, hx, hr1]

/-- Witness of C23: on the sample target without a machine register for CP,
after `Prep_CP` the code of `Pl_Ret` returns to the address 8192 of the
continuation label. -/
theorem Pl_Ret_returns_to_Prep_CP_witness :
    unmappedTarget.MAP_REG_CP = none ∧
    ∃ m1, execSeqSym sampleSymtab (Prep_CP unmappedTarget Tr.init).1 symMachine = some m1 ∧
      execToRet sampleSymtab (Pl_Ret unmappedTarget) m1 = some 8192 := by
  obtain ⟨m1, he, _, hframe, hbase, hret⟩ :=
    ((Pl_Ret_returns_to_Prep_CP sampleSymtab unmappedTarget Tr.init symMachine
      ⟨by decide, by decide, by decide⟩ ⟨by decide, by decide, by decide⟩ (by decide)).2
      rfl).2.2
  refine ⟨rfl, m1, he, ?_⟩
  have hmem : m1.mem 4096 = 8192 := (hframe 4096 (by decide)).trans (by decide)
  exact hret m1 ⟨by decide, by decide, hmem⟩ hbase rfl

end Ma2Asm

namespace BipsPl

/-! ## Dereferencing -/

theorem DEREF_succ (mem : Mem) :
    ∀ (f : Nat) (w u : WamWord), DEREF mem f w = some u → DEREF mem (f + 1) w = some u := by
  intro f
  induction f with
  | zero => intro w u h; simp [DEREF] at h
  | succ f ih =>
    intro w u h
    rw [DEREF] at h ⊢
    by_cases h1 : w.tag ≠ .REF
    · rw [if_pos h1] at h ⊢; exact h
    · rw [if_neg h1] at h ⊢
      by_cases h2 : mem w.val = w
      · rw [if_pos h2] at h ⊢; exact h
      · rw [if_neg h2] at h ⊢
        exact ih _ _ h

theorem DEREF_mono (mem : Mem) (f g : Nat) (w u : WamWord) (hfg : f ≤ g)
    (h : DEREF mem f w = some u) : DEREF mem g w = some u := by
  induction hfg with
  | refl => exact h
  | step _ ih => exact DEREF_succ mem _ _ _ ih

theorem Derefs_DEREF (mem : Mem) (w u : WamWord) (h : Derefs mem w u) :
    ∃ f0, ∀ f, f0 ≤ f → DEREF mem f w = some u := by
  induction h with
  | nonref w hw =>
    refine ⟨1, fun f hf => DEREF_mono mem 1 f _ _ hf ?_⟩
    simp [DEREF, hw]
  | unbound w hw hself =>
    refine ⟨1, fun f hf => DEREF_mono mem 1 f _ _ hf ?_⟩
    simp [DEREF, hw, hself]
  | bound w u hw hne _ ih =>
    obtain ⟨f0, hf0⟩ := ih
    refine ⟨f0 + 1, fun f hf => DEREF_mono mem (f0 + 1) f _ _ hf ?_⟩
    rw [DEREF]
    simp only [hw, ne_eq, not_true_eq_false, if_false, hne]
    exact hf0 f0 le_rfl

theorem Derefs_unique (mem : Mem) (w u v : WamWord) (h1 : Derefs mem w u)
    (h2 : Derefs mem w v) : u = v := by
  induction h1 with
  | nonref w hw =>
    cases h2 with
    | nonref _ _ => rfl
    | unbound _ _ _ => rfl
    | bound _ _ hr _ _ => exact absurd hr hw
  | unbound w hw hself =>
    cases h2 with
    | nonref _ _ => rfl
    | unbound _ _ _ => rfl
    | bound _ _ _ hne _ => exact absurd hself hne
  | bound w u hw hne _ ih =>
    cases h2 with
    | nonref _ hr => exact absurd hw hr
    | unbound _ _ hself => exact absurd hself hne
    | bound _ _ _ _ hd => exact ih hd

/-- A dereferenced word is no reference or is an unbound variable. -/
theorem Derefs_end (mem : Mem) (w u : WamWord) (h : Derefs mem w u) :
    u.tag ≠ .REF ∨ mem u.val = u := by
  induction h with
  | nonref w hw => exact Or.inl hw
  | unbound w _ hself => exact Or.inr hself
  | bound _ _ _ _ _ ih => exact ih

/-! ## Length of a list -/

theorem List_Length_loop_chain (c : Config) (mem : Mem) (w e : WamWord) (k : Nat)
    (h : ListChain mem w k e) :
    ∃ f0, ∀ f, f0 ≤ f → ∀ n : Int, List_Length_loop c mem f w n =
      some (if e = NIL_WORD c then n + k else if e.tag = .REF then -1 else -2) := by
  induction h with
  | stop w e hd he =>
    obtain ⟨f0, hf0⟩ := Derefs_DEREF mem w e hd
    refine ⟨f0 + 1, fun f hf n => ?_⟩
    obtain ⟨g, rfl⟩ : ∃ g, f = g + 1 := ⟨f - 1, by omega⟩
    rw [List_Length_loop, hf0 g (by omega)]
    by_cases h1 : e = NIL_WORD c
    · simp [h1]
    · by_cases h2 : e.tag = .REF
      · simp [h1, h2]
      · simp [h1, h2, he]
  | pair w cell e k hd hc _ ih =>
    obtain ⟨f0, hf0⟩ := Derefs_DEREF mem w cell hd
    obtain ⟨f1, hf1⟩ := ih
    refine ⟨max f0 f1 + 1, fun f hf n => ?_⟩
    obtain ⟨g, rfl⟩ : ∃ g, f = g + 1 := ⟨f - 1, by omega⟩
    have hg0 : f0 ≤ g := by omega
    have hg1 : f1 ≤ g := by omega
    rw [List_Length_loop, hf0 g hg0]
    have h1 : cell ≠ NIL_WORD c := by
      intro h; rw [h] at hc; simp [NIL_WORD] at hc
    simp only [h1, if_false, hc, ne_eq, not_true_eq_false]
    rw [hf1 g hg1 (n + 1)]
    simp only [reduceCtorEq, if_false]
    congr 1
    push_cast
    split
    · ring
    · rfl

theorem ListChain_unique (mem : Mem) (w e1 e2 : WamWord) (k1 k2 : Nat)
    (h1 : ListChain mem w k1 e1) (h2 : ListChain mem w k2 e2) : k1 = k2 ∧ e1 = e2 := by
  induction h1 generalizing k2 e2 with
  | stop w e hd he =>
    cases h2 with
    | stop _ _ hd2 _ => exact ⟨rfl, Derefs_unique mem _ _ _ hd hd2⟩
    | pair _ cell _ _ hd2 hc _ =>
      have := Derefs_unique mem _ _ _ hd hd2
      subst this
      exact absurd hc he
  | pair w cell e k hd hc _ ih =>
    cases h2 with
    | stop _ _ hd2 he2 =>
      have := Derefs_unique mem _ _ _ hd hd2
      subst this
      exact absurd hc he2
    | pair _ cell2 _ k2 hd2 _ hrest =>
      have := Derefs_unique mem _ _ _ hd hd2
      subst this
      obtain ⟨hk, he⟩ := ih _ _ hrest
      exact ⟨by omega, he⟩

/-- The end of a chain of list pairs is a dereferenced word. -/
theorem ListChain_end (mem : Mem) (w e : WamWord) (k : Nat) (h : ListChain mem w k e) :
    e.tag ≠ .REF ∨ mem e.val = e := by
  induction h with
  | stop w e hd _ => exact Derefs_end mem w e hd
  | pair _ _ _ _ _ _ _ ih => exact ih

/-- C26: for every memory and start word whose chain of list pairs is finite
(`k` pairs lead to the dereferenced word `e`, which is no list pair),
`List_Length` returns, given enough fuel for its loop, a value `r` such that
`r = n >= 0` if and only if the term is a proper list of exactly `n`
elements, `r = -1` if and only if the chain ends in an unbound variable, and
`r = -2` if and only if neither holds. -/
theorem List_Length_classifies (c : Config) (mem : Mem) (w e : WamWord) (k : Nat)
    (h : ListChain mem w k e) :
    ∃ f0, ∀ f, f0 ≤ f → ∃ r, List_Length c mem f w = some r ∧
      (∀ n : Nat, r = n ↔ IsProperList c mem w n) ∧
      (r = -1 ↔ EndsInVariable mem w) ∧
      (r = -2 ↔ (¬ ∃ n, IsProperList c mem w n) ∧ ¬ EndsInVariable mem w) := by
  obtain ⟨f0, hf0⟩ := List_Length_loop_chain c mem w e k h
  refine ⟨f0, fun f hf => ⟨_, hf0 f hf 0, ?_⟩⟩
  have hprop : ∀ n, IsProperList c mem w n ↔ (e = NIL_WORD c ∧ n = k) := by
    intro n
    constructor
    · intro hp
      obtain ⟨h1, h2⟩ := ListChain_unique mem w _ _ _ _ hp h
      exact ⟨h2.symm, h1⟩
    · rintro ⟨h1, h2⟩
      subst h1; subst h2
      exact h
  have hvar : EndsInVariable mem w ↔ e.tag = .REF := by
    constructor
    · rintro ⟨n, a, hv⟩
      obtain ⟨_, h2⟩ := ListChain_unique mem w _ _ _ _ hv h
      rw [← h2]
    · intro ht
      refine ⟨k, e.val, ?_⟩
      have : (⟨.REF, e.val⟩ : WamWord) = e := by
        cases e with
        | mk t v => simp at ht; subst ht; rfl
      rw [this]
      exact h
  have hnil : e = NIL_WORD c → e.tag ≠ .REF := by
    intro h1; rw [h1]; simp [NIL_WORD]
  refine ⟨?_, ?_, ?_⟩
  · intro n
    rw [hprop]
    by_cases h1 : e = NIL_WORD c
    · simp only [h1, if_true, true_and]
      constructor
      · intro h2; omega
      · intro h2; subst h2; simp
    · by_cases h2 : e.tag = .REF
      · simp only [h1, if_false, h2, if_true, false_and, iff_false]
        omega
      · simp only [h1, if_false, h2, false_and, iff_false]
        omega
  · rw [hvar]
    by_cases h1 : e = NIL_WORD c
    · simp only [h1, if_true]
      have := hnil h1
      rw [h1] at this
      constructor
      · intro h2; omega
      · intro h2; exact absurd h2 this
    · by_cases h2 : e.tag = .REF
      · simp [h1, h2]
      · simp [h1, h2]
  · rw [hvar]
    have hex : (∃ n, IsProperList c mem w n) ↔ e = NIL_WORD c := by
      constructor
      · rintro ⟨n, hn⟩; exact ((hprop n).mp hn).1
      · intro h1; exact ⟨k, (hprop k).mpr ⟨h1, rfl⟩⟩
    rw [hex]
    by_cases h1 : e = NIL_WORD c
    · simp only [h1, if_true, not_true_eq_false, false_and, iff_false]
      omega
    · by_cases h2 : e.tag = .REF
      · simp [h1, h2]
      · simp [h1, h2]

/-- Witness of C26: the list `[1, 2]` of the sample memory is a chain of two
pairs ending in the empty list, and `List_Length` returns 2 on it from some
fuel on. -/
theorem List_Length_classifies_witness :
    ListChain listMem ⟨.LST, 10⟩ 2 (NIL_WORD sampleConfig) ∧
    ∃ f0, ∀ f, f0 ≤ f → ∃ r, List_Length sampleConfig listMem f ⟨.LST, 10⟩ = some r ∧
      (∀ n : Nat, r = n ↔ IsProperList sampleConfig listMem ⟨.LST, 10⟩ n) ∧
      (r = -1 ↔ EndsInVariable listMem ⟨.LST, 10⟩) ∧
      (r = -2 ↔ (¬ ∃ n, IsProperList sampleConfig listMem ⟨.LST, 10⟩ n) ∧
        ¬ EndsInVariable listMem ⟨.LST, 10⟩) := by
  have h : ListChain listMem ⟨.LST, 10⟩ 2 (NIL_WORD sampleConfig) := by
    refine ListChain.pair _ ⟨.LST, 10⟩ _ 1 (Derefs.nonref _ (by decide)) rfl ?_
    refine ListChain.pair _ ⟨.LST, 12⟩ _ 0 (Derefs.nonref _ (by decide)) rfl ?_
    exact ListChain.stop _ _ (Derefs.nonref _ (by decide)) (by decide)
  exact ⟨h, List_Length_classifies sampleConfig listMem _ _ 2 h⟩

/-! ## Fuel of the copy and of the size -/

theorem Copy_Term_args_mono (copy1 copy2 : Nat → Nat → CopySt → Option CopySt)
    (h : ∀ q a s r, copy1 q a s = some r → copy2 q a s = some r) :
    ∀ (k q a : Nat) (s r : CopySt), Copy_Term_args copy1 k q a s = some r →
      Copy_Term_args copy2 k q a s = some r := by
  intro k
  induction k with
  | zero => intro q a s r hr; simpa [Copy_Term_args] using hr
  | succ k ih =>
    intro q a s r hr
    simp only [Copy_Term_args] at hr ⊢
    cases h1 : copy1 q a s with
    | none => rw [h1] at hr; cases hr
    | some s1 =>
      rw [h1] at hr
      rw [h q a s s1 h1]
      exact ih _ _ _ _ hr

theorem Copy_Term_Rec_succ (c : Config) (base : Nat) :
    ∀ (f dst src : Nat) (s r : CopySt), Copy_Term_Rec c base f dst src s = some r →
      Copy_Term_Rec c base (f + 1) dst src s = some r := by
  intro f
  induction f with
  | zero => intro dst src s r h; simp [Copy_Term_Rec] at h
  | succ f ih =>
    intro dst src s r h
    rw [Copy_Term_Rec] at h ⊢
    cases hD : DEREF s.mem f (s.mem src) with
    | none => rw [hD] at h; cases h
    | some word =>
      rw [hD] at h
      rw [DEREF_succ s.mem f _ _ hD]
      simp only at h ⊢
      cases htag : word.tag <;> simp only [htag] at h ⊢
      · exact h
      · exact h
      · exact h
      · exact h
      · exact h
      · split at h
        · cases h
        · rename_i s1 h1
          rw [ih _ _ _ _ h1]
          exact ih _ _ _ _ h
      · split at h
        · cases h
        · rename_i hi
          rw [if_neg hi]
          split at h
          · cases h
          · rename_i s1 h1
            rw [Copy_Term_args_mono _ _ (fun q a s r hr => ih q a s r hr) _ _ _ _ _ h1]
            exact ih _ _ _ _ h

theorem Copy_Term_Rec_mono (c : Config) (base : Nat) (f g dst src : Nat) (s r : CopySt)
    (hfg : f ≤ g) (h : Copy_Term_Rec c base f dst src s = some r) :
    Copy_Term_Rec c base g dst src s = some r := by
  induction hfg with
  | refl => exact h
  | step _ ih => exact Copy_Term_Rec_succ c base _ _ _ _ _ ih

theorem Copy_Term_args_fuel (c : Config) (base : Nat) (f g k q a : Nat) (s r : CopySt)
    (hfg : f ≤ g) (h : Copy_Term_args (Copy_Term_Rec c base f) k q a s = some r) :
    Copy_Term_args (Copy_Term_Rec c base g) k q a s = some r :=
  Copy_Term_args_mono _ _ (fun _ _ _ _ hr => Copy_Term_Rec_mono c base f g _ _ _ _ hfg hr)
    _ _ _ _ _ h

theorem Copy_Term_args_cons (copy : Nat → Nat → CopySt → Option CopySt) (k q a : Nat)
    (s s1 : CopySt) (h : copy q a s = some s1) :
    Copy_Term_args copy (k + 1) q a s = Copy_Term_args copy k (q + 1) (a + 1) s1 := by
  rw [Copy_Term_args, h]

theorem Copy_Term_args_snoc (copy : Nat → Nat → CopySt → Option CopySt) :
    ∀ (k q a : Nat) (s : CopySt),
      Copy_Term_args copy (k + 1) q a s =
        (match Copy_Term_args copy k q a s with
         | none => none
         | some s1 => copy (q + k) (a + k) s1) := by
  intro k
  induction k with
  | zero =>
    intro q a s
    simp only [Copy_Term_args, Nat.add_zero]
    cases copy q a s <;> rfl
  | succ k ih =>
    intro q a s
    cases h1 : copy q a s with
    | none => simp [Copy_Term_args, h1]
    | some s1 =>
      rw [Copy_Term_args_cons copy (k + 1) q a s s1 h1, Copy_Term_args_cons copy k q a s s1 h1,
        ih]
      have e1 : q + 1 + k = q + (k + 1) := by omega
      have e2 : a + 1 + k = a + (k + 1) := by omega
      rw [e1, e2]

/-! ## Layout of a copy -/

theorem write_same (mem : Mem) (a : Nat) (w : WamWord) : (mem.write a w) a = w := by
  simp [Mem.write]

theorem write_other (mem : Mem) (a b : Nat) (w : WamWord) (h : b ≠ a) :
    (mem.write a w) b = mem b := by
  simp [Mem.write, h]

theorem Packed_le (c : Config) (mem : Mem) (lo hi : Nat) (w : WamWord) (q q1 : Nat)
    (h : Packed c mem lo hi w q q1) : q ≤ q1 := by
  induction h with
  | atm _ _ => exact le_rfl
  | int _ _ => exact le_rfl
  | ref _ _ _ _ => exact le_rfl
  | flt _ _ _ => exact Nat.le_add_right _ _
  | lst q qs _ h0 _ _ ih =>
    have h1 := ih 0 (by norm_num)
    have h2 := ih 1 (by norm_num)
    simp only [Nat.zero_add] at h1
    have e : (1 : Nat) + 1 = 2 := rfl
    rw [e] at h2
    omega
  | stc q qs _ _ h0 _ _ ih =>
    have hmono : ∀ i, i ≤ Arity c mem q → qs 0 ≤ qs i := by
      intro i
      induction i with
      | zero => intro _; exact le_rfl
      | succ i ihi =>
        intro hi1
        exact le_trans (ihi (by omega)) (ih i (by omega))
    have := hmono _ le_rfl
    omega

/-- The layout of a copy depends only on the cells after its root. -/
theorem Packed_frame (c : Config) (mem : Mem) (lo hi : Nat) (w : WamWord) (q q1 : Nat)
    (h : Packed c mem lo hi w q q1) :
    ∀ mem1 : Mem, (∀ x, q ≤ x → x < q1 → mem1 x = mem x) → Packed c mem1 lo hi w q q1 := by
  induction h with
  | atm v q => intro _ _; exact Packed.atm v q
  | int v q => intro _ _; exact Packed.int v q
  | ref d q h1 h2 => intro _ _; exact Packed.ref d q h1 h2
  | flt q h1 h2 => intro _ _; exact Packed.flt q h1 h2
  | lst q qs hlo h0 hhi hsub ih =>
    intro mem1 hag
    have l0 := Packed_le c mem lo hi _ _ _ (hsub 0 (by norm_num))
    have l1 := Packed_le c mem lo hi _ _ _ (hsub 1 (by norm_num))
    simp only [Nat.zero_add] at l0
    have e : (1 : Nat) + 1 = 2 := rfl
    rw [e] at l1
    refine Packed.lst q qs hlo h0 hhi ?_
    intro i hi2
    have hcell : mem1 (q + i) = mem (q + i) := hag _ (by omega) (by omega)
    rw [hcell]
    apply ih i hi2
    intro x hx1 hx2
    have hi01 : i = 0 ∨ i = 1 := by omega
    apply hag x
    · rcases hi01 with h | h <;> subst h <;> omega
    · rcases hi01 with h | h <;> subst h
      · simp only [Nat.zero_add] at hx2; omega
      · rw [e] at hx2; omega
  | stc q qs hlo har h0 hhi hsub ih =>
    intro mem1 hag
    have hmono : ∀ i j, i ≤ j → j ≤ Arity c mem q → qs i ≤ qs j := by
      intro i j hij
      induction hij with
      | refl => intro _; exact le_rfl
      | step _ ihj =>
        intro hj
        exact le_trans (ihj (by omega)) (Packed_le c mem lo hi _ _ _ (hsub _ (by omega)))
    have hq : mem1 q = mem q := by
      apply hag q le_rfl
      have := hmono 0 _ (Nat.zero_le _) le_rfl
      omega
    have hA : Arity c mem1 q = Arity c mem q := by simp [Arity, hq]
    have hres : Packed c mem1 lo hi ⟨.STC, q⟩ q (qs (Arity c mem1 q)) := by
      refine Packed.stc q qs hlo (by rw [hA]; exact har) (by rw [hA]; exact h0)
        (by rw [hA]; exact hhi) ?_
      intro i hi1
      rw [hA] at hi1
      have hcell : mem1 (q + 1 + i) = mem (q + 1 + i) := by
        apply hag
        · omega
        · have := hmono 0 _ (Nat.zero_le _) le_rfl
          omega
      rw [hcell]
      apply ih i hi1
      intro x hx1 hx2
      apply hag x
      · have := hmono 0 i (Nat.zero_le _) (by omega)
        omega
      · have := hmono (i + 1) _ (by omega) le_rfl
        omega
    rw [hA] at hres
    exact hres

/-! ## The state of a copy -/

theorem CopyInv_untrailed (m0 : Mem) (V : Finset Nat) (lo hi : Nat) (s : CopySt)
    (hinv : CopyInv m0 V lo hi s) (a : Nat) (hout : Outside lo hi a)
    (hne : m0 a ≠ ⟨.REF, a⟩) : s.mem a = m0 a := by
  apply hinv.frame a hout
  intro hmem
  obtain ⟨e, he, rfl⟩ := List.mem_map.mp hmem
  exact hne (hinv.trail e he).2.1

theorem CopyInv_trailed (m0 : Mem) (V : Finset Nat) (lo hi : Nat) (s : CopySt)
    (hinv : CopyInv m0 V lo hi s) (a : Nat) (hmem : a ∈ s.top_vars.map Prod.snd) :
    m0 a = ⟨.REF, a⟩ ∧
    ∃ d, s.mem a = ⟨.REF, d⟩ ∧ lo ≤ d ∧ d < s.p ∧ s.mem d = ⟨.REF, d⟩ ∧ CopyAt s d := by
  obtain ⟨e, he, rfl⟩ := List.mem_map.mp hmem
  obtain ⟨_, h2, _, _, d, h5, h6, h7, h8⟩ := hinv.trail e he
  exact ⟨h2, d, h5, h6, h7, h8, e, he, h5⟩

theorem CopyAt_lt (m0 : Mem) (V : Finset Nat) (lo hi : Nat) (s : CopySt)
    (hinv : CopyInv m0 V lo hi s) (d : Nat) (h : CopyAt s d) : lo ≤ d ∧ d < s.p := by
  obtain ⟨e, he, hd⟩ := h
  obtain ⟨_, _, _, _, d1, h5, h6, h7, _⟩ := hinv.trail e he
  rw [h5] at hd
  injection hd with _ hd
  subst hd
  exact ⟨h6, h7⟩

/-- A write into the block, at a cell no saved variable is bound to, keeps
the invariant and the bindings of the saved variables. -/
theorem CopyInv_write (m0 : Mem) (V : Finset Nat) (lo hi : Nat) (s : CopySt) (x p1 : Nat)
    (w : WamWord) (hinv : CopyInv m0 V lo hi s) (hx : lo ≤ x) (hxhi : x < hi)
    (hnc : ∀ d, CopyAt s d → d ≠ x) (hp : s.p ≤ p1) (hp1 : p1 ≤ hi) :
    CopyInv m0 V lo hi { s with mem := s.mem.write x w, p := p1 } ∧
    ∀ d, CopyAt { s with mem := s.mem.write x w, p := p1 } d ↔ CopyAt s d := by
  have hout : ∀ a, Outside lo hi a → a ≠ x := by
    intro a ha h
    subst h
    rcases ha with h | h <;> omega
  constructor
  · refine ⟨?_, ?_, hinv.nodup, ?_⟩
    · intro a ha hnm
      show (s.mem.write x w) a = m0 a
      rw [write_other _ _ _ _ (hout a ha)]
      exact hinv.frame a ha hnm
    · intro e he
      obtain ⟨h1, h2, h3, h4, d, h5, h6, h7, h8⟩ := hinv.trail e he
      refine ⟨h1, h2, h3, h4, d, ?_, h6, ?_, ?_⟩
      · show (s.mem.write x w) e.2 = _
        rw [write_other _ _ _ _ (hout _ h3)]
        exact h5
      · show d < p1
        omega
      · show (s.mem.write x w) d = _
        rw [write_other _ _ _ _ (hnc d ⟨e, he, h5⟩)]
        exact h8
    · show lo < p1 ∧ p1 ≤ hi
      have := hinv.bound
      omega
  · intro d
    constructor
    · rintro ⟨e, he, hd⟩
      refine ⟨e, he, ?_⟩
      have h3 := (hinv.trail e he).2.2.1
      have hd1 : (s.mem.write x w) e.2 = ⟨.REF, d⟩ := hd
      rw [write_other _ _ _ _ (hout _ h3)] at hd1
      exact hd1
    · rintro ⟨e, he, hd⟩
      refine ⟨e, he, ?_⟩
      have h3 := (hinv.trail e he).2.2.1
      show (s.mem.write x w) e.2 = ⟨.REF, d⟩
      rw [write_other _ _ _ _ (hout _ h3)]
      exact hd

/-! ## Copy of consecutive cells -/

theorem Copy_Term_args_spec (c : Config) (m0 : Mem) (V : Finset Nat) (lo hi : Nat) :
    ∀ (k d0 a : Nat) (sz : Nat → Nat) (s : CopySt),
      (∀ i < k, CopySpec c m0 V lo hi (m0 (a + i)) (sz i)) →
      (∀ i < k, Outside lo hi (a + i)) →
      CopyInv m0 V lo hi s → lo ≤ d0 → d0 + k ≤ s.p →
      (∀ d, CopyAt s d → d < d0 ∨ d0 + k ≤ d) →
      s.p + (Finset.range k).sum (fun i => sz i - 1) ≤ hi →
      ∃ f s1, Copy_Term_args (Copy_Term_Rec c lo f) k d0 a s = some s1 ∧
        s1.p = s.p + (Finset.range k).sum (fun i => sz i - 1) ∧
        CopyInv m0 V lo hi s1 ∧
        (∀ x, lo ≤ x → x < s.p → (x < d0 ∨ d0 + k ≤ x) → s1.mem x = s.mem x) ∧
        (∀ d, CopyAt s1 d → CopyAt s d ∨ (d0 ≤ d ∧ d < d0 + k) ∨ s.p ≤ d) ∧
        (∀ i < k, Packed c s1.mem lo hi (s1.mem (d0 + i))
          (s.p + (Finset.range i).sum (fun t => sz t - 1))
          (s.p + (Finset.range (i + 1)).sum (fun t => sz t - 1))) := by
  intro k
  induction k with
  | zero =>
    intro d0 a sz s _ _ hinv _ _ _ _
    refine ⟨0, s, rfl, by simp, hinv, fun _ _ _ _ => rfl, fun d hd => Or.inl hd, ?_⟩
    intro i hi0
    omega
  | succ k ih =>
    intro d0 a sz s hspec hout hinv hlo hp hcop hbound
    have hsum : ∀ j, (Finset.range (j + 1)).sum (fun i => sz i - 1) =
        (Finset.range j).sum (fun i => sz (i + 1) - 1) + (sz 0 - 1) :=
      fun j => Finset.sum_range_succ' _ j
    rw [hsum k] at hbound
    obtain ⟨f1, s1, he1, post1⟩ := hspec 0 (by omega) d0 a s hinv
      (by simpa using hout 0 (by omega)) (by simp) hlo (by omega)
      (fun d hd => by have := hcop d hd; omega) (by omega)
    have hp1 := post1.p_eq
    obtain ⟨f2, s2, he2, hp2, hinv2, hblock2, hcop2, hpacked2⟩ :=
      ih (d0 + 1) (a + 1) (fun i => sz (i + 1)) s1
        (fun i hi1 => by
          have := hspec (i + 1) (by omega)
          have e : a + (i + 1) = a + 1 + i := by omega
          rw [e] at this
          exact this)
        (fun i hi1 => by
          have := hout (i + 1) (by omega)
          have e : a + (i + 1) = a + 1 + i := by omega
          rw [e] at this
          exact this)
        post1.inv (by omega) (by omega)
        (fun d hd => by
          rcases post1.copies d hd with h | h | h
          · have := hcop d h; omega
          · omega
          · omega)
        (by
          show s1.p + (Finset.range k).sum (fun i => sz (i + 1) - 1) ≤ hi
          omega)
    refine ⟨max f1 f2, s2, ?_, ?_, hinv2, ?_, ?_, ?_⟩
    · rw [Copy_Term_args_cons _ k d0 a s s1
        (Copy_Term_Rec_mono c lo f1 _ _ _ _ _ (le_max_left _ _) he1)]
      exact Copy_Term_args_fuel c lo f2 _ _ _ _ _ _ (le_max_right _ _) he2
    · rw [hp2, hp1, hsum k]; omega
    · intro x hx1 hx2 hx3
      rw [hblock2 x hx1 (by omega) (by omega)]
      exact post1.block x hx1 hx2 (by omega)
    · intro d hd
      rcases hcop2 d hd with h | h | h
      · rcases post1.copies d h with h1 | h1 | h1
        · exact Or.inl h1
        · exact Or.inr (Or.inl (by omega))
        · exact Or.inr (Or.inr h1)
      · exact Or.inr (Or.inl (by omega))
      · exact Or.inr (Or.inr (by omega))
    · intro i hi1
      cases i with
      | zero =>
        have hpk := post1.packed
        have hfr := Packed_frame c s1.mem lo hi _ _ _ hpk s2.mem
          (fun x hx1 hx2 => hblock2 x (by have := hinv.bound; omega) hx2 (by omega))
        rw [← hblock2 d0 hlo (by omega) (by omega)] at hfr
        simp only [Finset.range_zero, Finset.sum_empty, Nat.add_zero, Nat.zero_add,
          Finset.range_one, Finset.sum_singleton]
        rw [hp1] at hfr
        exact hfr
      | succ j =>
        have hpk := hpacked2 j (by omega)
        have e : d0 + 1 + j = d0 + (j + 1) := by omega
        rw [e, hp1] at hpk
        rw [hsum j, hsum (j + 1)]
        have e1 : s.p + (sz 0 - 1) + (Finset.range j).sum (fun t => sz (t + 1) - 1) =
            s.p + ((Finset.range j).sum (fun t => sz (t + 1) - 1) + (sz 0 - 1)) := by omega
        have e2 : s.p + (sz 0 - 1) + (Finset.range (j + 1)).sum (fun t => sz (t + 1) - 1) =
            s.p + ((Finset.range (j + 1)).sum (fun t => sz (t + 1) - 1) + (sz 0 - 1)) := by
          omega
        rw [e1, e2] at hpk
        exact hpk

/-! ## The cases of `Copy_Term_Rec` -/

theorem Copy_Term_Rec_deref (c : Config) (base f dst src : Nat) (s r : CopySt)
    (h : Copy_Term_Rec c base (f + 1) dst src s = some r) :
    ∃ w, DEREF s.mem f (s.mem src) = some w := by
  rw [Copy_Term_Rec] at h
  cases hD : DEREF s.mem f (s.mem src) with
  | none => rw [hD] at h; cases h
  | some w => exact ⟨w, rfl⟩

theorem Copy_Term_Rec_congr (c : Config) (base f dst src1 src2 : Nat) (s : CopySt)
    (h : DEREF s.mem f (s.mem src1) = DEREF s.mem f (s.mem src2)) :
    Copy_Term_Rec c base (f + 1) dst src1 s = Copy_Term_Rec c base (f + 1) dst src2 s := by
  rw [Copy_Term_Rec, Copy_Term_Rec, h]

theorem Copy_Term_Rec_copied (c : Config) (base f dst src d : Nat) (s : CopySt)
    (hD : DEREF s.mem f (s.mem src) = some ⟨.REF, d⟩) (h1 : d < s.p) (h2 : d ≥ base) :
    Copy_Term_Rec c base (f + 1) dst src s =
      some { s with mem := s.mem.write dst ⟨.REF, d⟩ } := by
  rw [Copy_Term_Rec, hD]
  simp [h1, h2]

theorem Copy_Term_Rec_new (c : Config) (base f dst src a : Nat) (s : CopySt)
    (hD : DEREF s.mem f (s.mem src) = some ⟨.REF, a⟩) (h1 : ¬ (a < s.p ∧ a ≥ base))
    (h2 : s.top_vars.length < c.MAX_VAR_IN_TERM) :
    Copy_Term_Rec c base (f + 1) dst src s =
      some { s with
        top_vars := (⟨.REF, a⟩, a) :: s.top_vars
        mem := (s.mem.write dst ⟨.REF, dst⟩).write a ⟨.REF, dst⟩ } := by
  rw [Copy_Term_Rec, hD]
  have h3 : ¬ (s.top_vars.length ≥ c.MAX_VAR_IN_TERM) := by omega
  simp only [h1, h3, if_false]

theorem Copy_Term_Rec_atm (c : Config) (base f dst src v : Nat) (s : CopySt)
    (hD : DEREF s.mem f (s.mem src) = some ⟨.ATM, v⟩) :
    Copy_Term_Rec c base (f + 1) dst src s =
      some { s with mem := s.mem.write dst ⟨.ATM, v⟩ } := by
  rw [Copy_Term_Rec, hD]

theorem Copy_Term_Rec_int (c : Config) (base f dst src v : Nat) (s : CopySt)
    (hD : DEREF s.mem f (s.mem src) = some ⟨.INT, v⟩) :
    Copy_Term_Rec c base (f + 1) dst src s =
      some { s with mem := s.mem.write dst ⟨.INT, v⟩ } := by
  rw [Copy_Term_Rec, hD]

theorem Copy_Term_Rec_flt (c : Config) (base f dst src a : Nat) (s : CopySt)
    (hD : DEREF s.mem f (s.mem src) = some ⟨.FLT, a⟩) :
    Copy_Term_Rec c base (f + 1) dst src s =
      (if c.WORD_SIZE = 32 then
        some { s with
          p := s.p + 2
          mem := (((s.mem.write s.p (s.mem a)).write (s.p + 1)
            ((s.mem.write s.p (s.mem a)) (a + 1))).write dst ⟨.FLT, s.p⟩) }
      else
        some { s with
          p := s.p + 1
          mem := (s.mem.write s.p (s.mem a)).write dst ⟨.FLT, s.p⟩ }) := by
  rw [Copy_Term_Rec, hD]

theorem Copy_Term_Rec_lst (c : Config) (base f dst src a : Nat) (s : CopySt)
    (hD : DEREF s.mem f (s.mem src) = some ⟨.LST, a⟩) :
    Copy_Term_Rec c base (f + 1) dst src s =
      Copy_Term_args (Copy_Term_Rec c base f) 2 s.p a
        { s with mem := s.mem.write dst ⟨.LST, s.p⟩, p := s.p + 2 } := by
  rw [Copy_Term_Rec, hD]
  simp only [Car, Cdr, Copy_Term_args]
  cases Copy_Term_Rec c base f s.p a
      { s with mem := s.mem.write dst ⟨.LST, s.p⟩, p := s.p + 1 + 1 } with
  | none => rfl
  | some s1 =>
    simp only
    cases Copy_Term_Rec c base f (s.p + 1) (a + 1) s1 <;> rfl

theorem Copy_Term_Rec_stc (c : Config) (base f dst src a : Nat) (s : CopySt)
    (hD : DEREF s.mem f (s.mem src) = some ⟨.STC, a⟩)
    (har : 0 < Arity c ((s.mem.write dst ⟨.STC, s.p⟩).write s.p
      ((s.mem.write dst ⟨.STC, s.p⟩) a)) a) :
    Copy_Term_Rec c base (f + 1) dst src s =
      Copy_Term_args (Copy_Term_Rec c base f)
        (Arity c ((s.mem.write dst ⟨.STC, s.p⟩).write s.p
          ((s.mem.write dst ⟨.STC, s.p⟩) a)) a) (s.p + 1) (a + 1)
        { s with
          mem := (s.mem.write dst ⟨.STC, s.p⟩).write s.p ((s.mem.write dst ⟨.STC, s.p⟩) a)
          p := s.p + 1 + Arity c ((s.mem.write dst ⟨.STC, s.p⟩).write s.p
            ((s.mem.write dst ⟨.STC, s.p⟩) a)) a } := by
  rw [Copy_Term_Rec, hD]
  simp only
  generalize hA : Arity c ((s.mem.write dst ⟨.STC, s.p⟩).write s.p
      ((s.mem.write dst ⟨.STC, s.p⟩) a)) a = ar at har ⊢
  obtain ⟨k, rfl⟩ : ∃ k, ar = k + 1 := ⟨ar - 1, by omega⟩
  rw [if_neg (by omega), Copy_Term_args_snoc]
  simp only [Arg, Nat.add_sub_cancel, Nat.add_zero]
  have e : s.p + 1 + k + 1 = s.p + 1 + (k + 1) := by omega
  rw [e]

/-! ## Copy of a term -/

theorem fltWords_pos (c : Config) : 1 ≤ fltWords c := by
  unfold fltWords
  split <;> omega

theorem sum_pred_add (sz : Nat → Nat) :
    ∀ k, (∀ i < k, 1 ≤ sz i) →
      (Finset.range k).sum (fun i => sz i - 1) + k = (Finset.range k).sum sz := by
  intro k
  induction k with
  | zero => intro _; simp
  | succ k ih =>
    intro h
    have e1 : (Finset.range (k + 1)).sum (fun i => sz i - 1) =
        (Finset.range k).sum (fun i => sz i - 1) + (sz k - 1) := Finset.sum_range_succ _ _
    have e2 : (Finset.range (k + 1)).sum sz = (Finset.range k).sum sz + sz k :=
      Finset.sum_range_succ _ _
    have h1 := ih (fun i hi => h i (by omega))
    have h2 := h k (by omega)
    omega

theorem SrcTerm_pos (c : Config) (mem : Mem) (V : Finset Nat) (lo hi : Nat) (x : WamWord)
    (n : Nat) (h : SrcTerm c mem V lo hi x n) : 1 ≤ n := by
  induction h with
  | var _ _ _ _ => exact le_rfl
  | ref _ _ _ _ _ ih => exact ih
  | atm _ => exact le_rfl
  | int _ => exact le_rfl
  | flt _ => omega
  | lst _ _ _ _ _ => omega
  | stc _ _ _ _ _ _ _ _ => omega

theorem trail_length_lt (m0 : Mem) (V : Finset Nat) (lo hi : Nat) (s : CopySt)
    (hinv : CopyInv m0 V lo hi s) (a : Nat) (haV : a ∈ V)
    (hnot : a ∉ s.top_vars.map Prod.snd) : s.top_vars.length < V.card := by
  have hnd : (a :: s.top_vars.map Prod.snd).Nodup := List.nodup_cons.mpr ⟨hnot, hinv.nodup⟩
  have hsub : (a :: s.top_vars.map Prod.snd).toFinset ⊆ V := by
    intro x hx
    rw [List.mem_toFinset] at hx
    rcases List.mem_cons.mp hx with h | h
    · rw [h]; exact haV
    · obtain ⟨e, he, rfl⟩ := List.mem_map.mp h
      exact (hinv.trail e he).2.2.2.1
  have hcard := Finset.card_le_card hsub
  rw [List.toFinset_card_of_nodup hnd] at hcard
  simp only [List.length_cons, List.length_map] at hcard
  omega

theorem CopyPost_write (c : Config) (m0 : Mem) (V : Finset Nat) (lo hi : Nat) (s : CopySt)
    (dst : Nat) (w : WamWord) (hinv : CopyInv m0 V lo hi s) (hlo : lo ≤ dst)
    (hdst : dst < s.p) (hnc : ∀ d, CopyAt s d → d ≠ dst)
    (hpk : ∀ mem : Mem, Packed c mem lo hi w s.p s.p) :
    CopyPost c m0 V lo hi s { s with mem := s.mem.write dst w } dst 1 := by
  have hb := hinv.bound
  obtain ⟨h1, h2⟩ := CopyInv_write m0 V lo hi s dst s.p w hinv hlo (by omega) hnc le_rfl hb.2
  refine ⟨rfl, h1, ?_, ?_, ?_⟩
  · intro a _ _ hne
    exact write_other _ _ _ _ hne
  · intro d hd
    exact Or.inl ((h2 d).mp hd)
  · show Packed c _ lo hi ((s.mem.write dst w) dst) s.p s.p
    rw [write_same]
    exact hpk _

theorem DEREF_nonref (mem : Mem) (f : Nat) (w : WamWord) (h : w.tag ≠ .REF) :
    DEREF mem (f + 1) w = some w := by
  rw [DEREF, if_pos h]

theorem CopySpec_atm (c : Config) (m0 : Mem) (V : Finset Nat) (lo hi v : Nat) :
    CopySpec c m0 V lo hi ⟨.ATM, v⟩ 1 := by
  intro dst src s hinv hsrc hm hlo hdst hnc _
  have hmem : s.mem src = ⟨.ATM, v⟩ := by
    rw [CopyInv_untrailed m0 V lo hi s hinv src hsrc (by rw [hm]; simp), hm]
  refine ⟨2, _, Copy_Term_Rec_atm c lo 1 dst src v s ?_, ?_⟩
  · rw [hmem]; exact DEREF_nonref _ _ _ (by simp)
  · exact CopyPost_write c m0 V lo hi s dst _ hinv hlo hdst hnc (fun _ => Packed.atm v _)

theorem CopySpec_int (c : Config) (m0 : Mem) (V : Finset Nat) (lo hi v : Nat) :
    CopySpec c m0 V lo hi ⟨.INT, v⟩ 1 := by
  intro dst src s hinv hsrc hm hlo hdst hnc _
  have hmem : s.mem src = ⟨.INT, v⟩ := by
    rw [CopyInv_untrailed m0 V lo hi s hinv src hsrc (by rw [hm]; simp), hm]
  refine ⟨2, _, Copy_Term_Rec_int c lo 1 dst src v s ?_, ?_⟩
  · rw [hmem]; exact DEREF_nonref _ _ _ (by simp)
  · exact CopyPost_write c m0 V lo hi s dst _ hinv hlo hdst hnc (fun _ => Packed.int v _)

theorem CopySpec_ref (c : Config) (m0 : Mem) (V : Finset Nat) (lo hi a n : Nat)
    (hout : Outside lo hi a) (hne : m0 a ≠ ⟨.REF, a⟩)
    (ih : CopySpec c m0 V lo hi (m0 a) n) : CopySpec c m0 V lo hi ⟨.REF, a⟩ n := by
  intro dst src s hinv hsrc hm hlo hdst hnc hb
  obtain ⟨f, s1, he, post⟩ := ih dst a s hinv hout rfl hlo hdst hnc hb
  obtain ⟨g, rfl⟩ : ∃ g, f = g + 1 := by
    cases f with
    | zero => simp [Copy_Term_Rec] at he
    | succ g => exact ⟨g, rfl⟩
  obtain ⟨w, hw⟩ := Copy_Term_Rec_deref c lo g dst a s s1 he
  have hma : s.mem a = m0 a := CopyInv_untrailed m0 V lo hi s hinv a hout hne
  have hsrcne : m0 src ≠ ⟨.REF, src⟩ := by
    rw [hm]
    intro h
    injection h with _ h
    subst h
    exact hne hm
  have hms : s.mem src = ⟨.REF, a⟩ := by
    rw [CopyInv_untrailed m0 V lo hi s hinv src hsrc hsrcne, hm]
  have hd1 : DEREF s.mem (g + 1) (s.mem src) = some w := by
    rw [hms, DEREF]
    simp only [ne_eq, not_true_eq_false, if_false]
    rw [if_neg (by rw [hma]; exact hne)]
    exact hw
  have hd2 : DEREF s.mem (g + 1) (s.mem a) = some w := DEREF_succ _ _ _ _ hw
  refine ⟨g + 2, s1, ?_, post⟩
  rw [Copy_Term_Rec_congr c lo (g + 1) dst src a s (by rw [hd1, hd2])]
  exact Copy_Term_Rec_succ c lo _ _ _ _ _ he

theorem CopySpec_var (c : Config) (m0 : Mem) (V : Finset Nat) (lo hi a : Nat)
    (hV : V.card ≤ c.MAX_VAR_IN_TERM) (haV : a ∈ V) (hout : Outside lo hi a)
    (hma0 : m0 a = ⟨.REF, a⟩) : CopySpec c m0 V lo hi ⟨.REF, a⟩ 1 := by
  intro dst src s hinv hsrc hm hlo hdst hnc _
  have hbnd := hinv.bound
  have hdsta : dst ≠ a := by
    intro h; subst h; rcases hout with h | h <;> omega
  by_cases ht : a ∈ s.top_vars.map Prod.snd
  · obtain ⟨_, d, hd1, hd2, hd3, hd4, hd5⟩ := CopyInv_trailed m0 V lo hi s hinv a ht
    have hda : d ≠ a := by
      intro h; subst h; rcases hout with h | h <;> omega
    have hD1 : DEREF s.mem 1 ⟨.REF, d⟩ = some ⟨.REF, d⟩ := by
      rw [DEREF]; simp [hd4]
    have hD : DEREF s.mem 2 (s.mem src) = some ⟨.REF, d⟩ := by
      by_cases hsa : src = a
      · subst hsa
        rw [hd1]
        exact DEREF_succ _ _ _ _ hD1
      · have hms : s.mem src = ⟨.REF, a⟩ := by
          rw [CopyInv_untrailed m0 V lo hi s hinv src hsrc
            (by rw [hm]; intro h; injection h with _ h; exact hsa h.symm), hm]
        rw [hms, DEREF]
        simp only [ne_eq, not_true_eq_false, if_false]
        rw [if_neg (by rw [hd1]; intro h; injection h with _ h; exact hda h), hd1]
        exact hD1
    exact ⟨3, _, Copy_Term_Rec_copied c lo 2 dst src d s hD hd3 hd2,
      CopyPost_write c m0 V lo hi s dst _ hinv hlo hdst hnc
        (fun _ => Packed.ref d _ hd2 (by omega))⟩
  · have hma : s.mem a = ⟨.REF, a⟩ := by rw [hinv.frame a hout ht, hma0]
    have hsa : src ∉ s.top_vars.map Prod.snd := by
      intro h
      have h1 := (CopyInv_trailed m0 V lo hi s hinv src h).1
      rw [hm] at h1
      injection h1 with _ h1
      subst h1
      exact ht h
    have hms : s.mem src = ⟨.REF, a⟩ := by rw [hinv.frame src hsrc hsa, hm]
    have hD : DEREF s.mem 1 (s.mem src) = some ⟨.REF, a⟩ := by
      rw [hms, DEREF]; simp [hma]
    have hnb : ¬ (a < s.p ∧ a ≥ lo) := by
      rcases hout with h | h <;> omega
    have hlen := trail_length_lt m0 V lo hi s hinv a haV ht
    refine ⟨2, _, Copy_Term_Rec_new c lo 1 dst src a s hD hnb (by omega), ?_⟩
    have hold : ∀ e ∈ s.top_vars, e.2 ≠ a ∧ e.2 ≠ dst := by
      intro e he
      constructor
      · intro h
        exact ht (List.mem_map.mpr ⟨e, he, h⟩)
      · intro h
        have h3 := (hinv.trail e he).2.2.1
        rw [h] at h3
        rcases h3 with h3 | h3 <;> omega
    refine ⟨rfl, ⟨?_, ?_, ?_, hbnd⟩, ?_, ?_, ?_⟩
    · intro x hx hnm
      have hxa : x ≠ a := by
        intro h; apply hnm; simp [h]
      have hxd : x ≠ dst := by
        intro h; subst h; rcases hx with h | h <;> omega
      show ((s.mem.write dst ⟨.REF, dst⟩).write a ⟨.REF, dst⟩) x = m0 x
      rw [write_other _ _ _ _ hxa, write_other _ _ _ _ hxd]
      apply hinv.frame x hx
      intro h
      apply hnm
      simp only [List.map_cons, List.mem_cons]
      exact Or.inr h
    · intro e he
      rcases List.mem_cons.mp he with h | h
      · subst h
        refine ⟨rfl, hma0, hout, haV, dst, ?_, hlo, hdst, ?_⟩
        · show ((s.mem.write dst ⟨.REF, dst⟩).write a ⟨.REF, dst⟩) a = _
          rw [write_same]
        · show ((s.mem.write dst ⟨.REF, dst⟩).write a ⟨.REF, dst⟩) dst = _
          rw [write_other _ _ _ _ hdsta, write_same]
      · obtain ⟨h1, h2, h3, h4, d, h5, h6, h7, h8⟩ := hinv.trail e h
        obtain ⟨hea, hed⟩ := hold e h
        have hdd : d ≠ dst := hnc d ⟨e, h, h5⟩
        have hda : d ≠ a := by
          intro hh; subst hh; rcases hout with hh | hh <;> omega
        refine ⟨h1, h2, h3, h4, d, ?_, h6, h7, ?_⟩
        · show ((s.mem.write dst ⟨.REF, dst⟩).write a ⟨.REF, dst⟩) e.2 = _
          rw [write_other _ _ _ _ hea, write_other _ _ _ _ hed]
          exact h5
        · show ((s.mem.write dst ⟨.REF, dst⟩).write a ⟨.REF, dst⟩) d = _
          rw [write_other _ _ _ _ hda, write_other _ _ _ _ hdd]
          exact h8
    · show ((⟨.REF, a⟩, a) :: s.top_vars |>.map Prod.snd).Nodup
      simp only [List.map_cons, List.nodup_cons]
      exact ⟨ht, hinv.nodup⟩
    · intro x hx1 hx2 hxd
      have hxa : x ≠ a := by
        intro h; subst h; rcases hout with h | h <;> omega
      show ((s.mem.write dst ⟨.REF, dst⟩).write a ⟨.REF, dst⟩) x = _
      rw [write_other _ _ _ _ hxa, write_other _ _ _ _ hxd]
    · rintro d ⟨e, he, hd⟩
      rcases List.mem_cons.mp he with h | h
      · subst h
        have hd1 : ((s.mem.write dst ⟨.REF, dst⟩).write a ⟨.REF, dst⟩) a = ⟨.REF, d⟩ := hd
        rw [write_same] at hd1
        injection hd1 with _ hd1
        exact Or.inr (Or.inl hd1.symm)
      · obtain ⟨hea, hed⟩ := hold e h
        have hd1 : ((s.mem.write dst ⟨.REF, dst⟩).write a ⟨.REF, dst⟩) e.2 = ⟨.REF, d⟩ := hd
        rw [write_other _ _ _ _ hea, write_other _ _ _ _ hed] at hd1
        exact Or.inl ⟨e, h, hd1⟩
    · show Packed c _ lo hi (((s.mem.write dst ⟨.REF, dst⟩).write a ⟨.REF, dst⟩) dst) s.p s.p
      rw [write_other _ _ _ _ hdsta, write_same]
      exact Packed.ref dst _ hlo (by omega)

theorem CopySpec_flt (c : Config) (m0 : Mem) (V : Finset Nat) (lo hi a : Nat) :
    CopySpec c m0 V lo hi ⟨.FLT, a⟩ (1 + fltWords c) := by
  intro dst src s hinv hsrc hm hlo hdst hnc hb
  have hbnd := hinv.bound
  have hmem : s.mem src = ⟨.FLT, a⟩ := by
    rw [CopyInv_untrailed m0 V lo hi s hinv src hsrc (by rw [hm]; simp), hm]
  have hD : DEREF s.mem 1 (s.mem src) = some ⟨.FLT, a⟩ := by
    rw [hmem]; exact DEREF_nonref _ _ _ (by simp)
  have hcp : ∀ d, CopyAt s d → d < s.p := fun d hd => (CopyAt_lt m0 V lo hi s hinv d hd).2
  have hE := Copy_Term_Rec_flt c lo 1 dst src a s hD
  have hfw : fltWords c = if c.WORD_SIZE = 32 then 2 else 1 := rfl
  by_cases h32 : c.WORD_SIZE = 32
  · rw [if_pos h32] at hE
    refine ⟨2, _, hE, ?_⟩
    rw [if_pos h32] at hfw
    rw [hfw] at hb ⊢
    obtain ⟨i1, c1⟩ := CopyInv_write m0 V lo hi s s.p s.p (s.mem a) hinv (by omega) (by omega)
      (fun d hd => by have := hcp d hd; omega) le_rfl hbnd.2
    obtain ⟨i2, c2⟩ := CopyInv_write m0 V lo hi _ (s.p + 1) s.p
      ((s.mem.write s.p (s.mem a)) (a + 1)) i1 (by omega) (by omega)
      (fun d hd => by have := hcp d ((c1 d).mp hd); omega) le_rfl hbnd.2
    obtain ⟨i3, c3⟩ := CopyInv_write m0 V lo hi _ dst (s.p + 2) ⟨.FLT, s.p⟩ i2 hlo (by omega)
      (fun d hd => hnc d ((c1 d).mp ((c2 d).mp hd))) (by show s.p ≤ s.p + 2; omega)
      (by omega)
    refine ⟨rfl, i3, ?_, ?_, ?_⟩
    · intro x hx1 hx2 hxd
      show (((s.mem.write s.p (s.mem a)).write (s.p + 1) _).write dst _) x = _
      rw [write_other _ _ _ _ hxd, write_other _ _ _ _ (by omega),
        write_other _ _ _ _ (by omega)]
    · intro d hd
      exact Or.inl ((c1 d).mp ((c2 d).mp ((c3 d).mp hd)))
    · show Packed c _ lo hi ((((s.mem.write s.p (s.mem a)).write (s.p + 1) _).write dst _) dst)
        s.p (s.p + 2)
      rw [write_same]
      have := @Packed.flt c (((s.mem.write s.p (s.mem a)).write (s.p + 1)
        ((s.mem.write s.p (s.mem a)) (a + 1))).write dst ⟨.FLT, s.p⟩) lo hi
        s.p (by omega) (by rw [hfw]; omega)
      rw [hfw] at this
      exact this
  · rw [if_neg h32] at hE
    refine ⟨2, _, hE, ?_⟩
    rw [if_neg h32] at hfw
    rw [hfw] at hb ⊢
    obtain ⟨i1, c1⟩ := CopyInv_write m0 V lo hi s s.p s.p (s.mem a) hinv (by omega) (by omega)
      (fun d hd => by have := hcp d hd; omega) le_rfl hbnd.2
    obtain ⟨i3, c3⟩ := CopyInv_write m0 V lo hi _ dst (s.p + 1) ⟨.FLT, s.p⟩ i1 hlo (by omega)
      (fun d hd => hnc d ((c1 d).mp hd)) (by show s.p ≤ s.p + 1; omega) (by omega)
    refine ⟨rfl, i3, ?_, ?_, ?_⟩
    · intro x hx1 hx2 hxd
      show ((s.mem.write s.p (s.mem a)).write dst _) x = _
      rw [write_other _ _ _ _ hxd, write_other _ _ _ _ (by omega)]
    · intro d hd
      exact Or.inl ((c1 d).mp ((c3 d).mp hd))
    · show Packed c _ lo hi (((s.mem.write s.p (s.mem a)).write dst _) dst) s.p (s.p + 1)
      rw [write_same]
      have := @Packed.flt c ((s.mem.write s.p (s.mem a)).write dst
        ⟨.FLT, s.p⟩) lo hi s.p (by omega) (by rw [hfw]; omega)
      rw [hfw] at this
      exact this

theorem CopySpec_lst (c : Config) (m0 : Mem) (V : Finset Nat) (lo hi a : Nat)
    (sz : Nat → Nat) (hout : ∀ i < 2, Outside lo hi (a + i)) (hpos : ∀ i < 2, 1 ≤ sz i)
    (ih : ∀ i < 2, CopySpec c m0 V lo hi (m0 (a + i)) (sz i)) :
    CopySpec c m0 V lo hi ⟨.LST, a⟩ (1 + (Finset.range 2).sum sz) := by
  intro dst src s hinv hsrc hm hlo hdst hnc hb
  have hbnd := hinv.bound
  have hmem : s.mem src = ⟨.LST, a⟩ := by
    rw [CopyInv_untrailed m0 V lo hi s hinv src hsrc (by rw [hm]; simp), hm]
  have hcp : ∀ d, CopyAt s d → d < s.p := fun d hd => (CopyAt_lt m0 V lo hi s hinv d hd).2
  have hsum := sum_pred_add sz 2 hpos
  obtain ⟨i1, c1⟩ := CopyInv_write m0 V lo hi s dst (s.p + 2) ⟨.LST, s.p⟩ hinv hlo (by omega)
    hnc (by omega) (by omega)
  obtain ⟨f, s2, he, hp2, hinv2, hblock2, hcop2, hpk2⟩ :=
    Copy_Term_args_spec c m0 V lo hi 2 s.p a sz
      { s with mem := s.mem.write dst ⟨.LST, s.p⟩, p := s.p + 2 } ih hout i1 (by omega)
      (by show s.p + 2 ≤ s.p + 2; omega)
      (fun d hd => Or.inl (hcp d ((c1 d).mp hd)))
      (by show s.p + 2 + _ ≤ hi; omega)
  have hp2' : s2.p = s.p + 2 + (Finset.range 2).sum (fun i => sz i - 1) := hp2
  have hD : DEREF s.mem (f + 1) (s.mem src) = some ⟨.LST, a⟩ := by
    rw [hmem]; exact DEREF_nonref _ _ _ (by simp)
  refine ⟨f + 2, s2, ?_, ?_⟩
  · rw [Copy_Term_Rec_lst c lo (f + 1) dst src a s hD]
    exact Copy_Term_args_fuel c lo f (f + 1) _ _ _ _ _ (by omega) he
  · have hroot : s2.mem dst = ⟨.LST, s.p⟩ := by
      rw [hblock2 dst hlo (by show dst < s.p + 2; omega) (Or.inl hdst)]
      exact write_same _ _ _
    refine ⟨by rw [hp2']; omega, hinv2, ?_, ?_, ?_⟩
    · intro x hx1 hx2 hxd
      rw [hblock2 x hx1 (by show x < s.p + 2; omega) (Or.inl hx2)]
      exact write_other _ _ _ _ hxd
    · intro d hd
      rcases hcop2 d hd with h | h | h
      · exact Or.inl ((c1 d).mp h)
      · exact Or.inr (Or.inr h.1)
      · have h1 : s.p + 2 ≤ d := h
        exact Or.inr (Or.inr (by omega))
    · rw [hroot, hp2']
      have hq := @Packed.lst c s2.mem lo hi s.p
        (fun i => s.p + 2 + (Finset.range i).sum (fun t => sz t - 1)) (by omega) (by simp)
        (by show s.p + 2 + _ ≤ hi; omega)
        (fun i hi2 => hpk2 i hi2)
      exact hq

theorem CopySpec_stc (c : Config) (m0 : Mem) (V : Finset Nat) (lo hi a : Nat)
    (sz : Nat → Nat) (har : 0 < Arity c m0 a) (htag : (m0 a).tag ≠ .REF)
    (houta : Outside lo hi a) (hout : ∀ i < Arity c m0 a, Outside lo hi (a + 1 + i))
    (hpos : ∀ i < Arity c m0 a, 1 ≤ sz i)
    (ih : ∀ i < Arity c m0 a, CopySpec c m0 V lo hi (m0 (a + 1 + i)) (sz i)) :
    CopySpec c m0 V lo hi ⟨.STC, a⟩ (2 + (Finset.range (Arity c m0 a)).sum sz) := by
  intro dst src s hinv hsrc hm hlo hdst hnc hb
  have hbnd := hinv.bound
  have hmem : s.mem src = ⟨.STC, a⟩ := by
    rw [CopyInv_untrailed m0 V lo hi s hinv src hsrc (by rw [hm]; simp), hm]
  have hcp : ∀ d, CopyAt s d → d < s.p := fun d hd => (CopyAt_lt m0 V lo hi s hinv d hd).2
  have hsum := sum_pred_add sz (Arity c m0 a) hpos
  have hma : s.mem a = m0 a :=
    CopyInv_untrailed m0 V lo hi s hinv a houta (by
      intro h; rw [h] at htag; exact htag rfl)
  have hadst : a ≠ dst := by
    intro h; subst h; rcases houta with h | h <;> omega
  have hap : a ≠ s.p := by
    intro h; rw [h] at houta; rcases houta with h | h <;> omega
  have hfun : (s.mem.write dst ⟨.STC, s.p⟩) a = m0 a := by
    rw [write_other _ _ _ _ hadst, hma]
  have hA : Arity c ((s.mem.write dst ⟨.STC, s.p⟩).write s.p
      ((s.mem.write dst ⟨.STC, s.p⟩) a)) a = Arity c m0 a := by
    unfold Arity
    rw [write_other _ _ _ _ hap, hfun]
  obtain ⟨i1, c1⟩ := CopyInv_write m0 V lo hi s dst s.p ⟨.STC, s.p⟩ hinv hlo (by omega)
    hnc le_rfl hbnd.2
  obtain ⟨i2, c2⟩ := CopyInv_write m0 V lo hi _ s.p (s.p + 1 + Arity c m0 a) (m0 a) i1
    (by omega) (by omega) (fun d hd => by have := hcp d ((c1 d).mp hd); omega)
    (by show s.p ≤ _; omega) (by omega)
  obtain ⟨f, s2, he, hp2, hinv2, hblock2, hcop2, hpk2⟩ :=
    Copy_Term_args_spec c m0 V lo hi (Arity c m0 a) (s.p + 1) (a + 1) sz
      { s with mem := (s.mem.write dst ⟨.STC, s.p⟩).write s.p (m0 a),
               p := s.p + 1 + Arity c m0 a } ih hout i2 (by omega)
      (by show s.p + 1 + _ ≤ s.p + 1 + _; omega)
      (fun d hd => Or.inl (by have := hcp d ((c1 d).mp ((c2 d).mp hd)); omega))
      (by show s.p + 1 + _ + _ ≤ hi; omega)
  have hp2' : s2.p = s.p + 1 + Arity c m0 a +
      (Finset.range (Arity c m0 a)).sum (fun i => sz i - 1) := hp2
  have hD : DEREF s.mem (f + 1) (s.mem src) = some ⟨.STC, a⟩ := by
    rw [hmem]; exact DEREF_nonref _ _ _ (by simp)
  refine ⟨f + 2, s2, ?_, ?_⟩
  · rw [Copy_Term_Rec_stc c lo (f + 1) dst src a s hD (by rw [hA]; exact har)]
    rw [hA, hfun]
    exact Copy_Term_args_fuel c lo f (f + 1) _ _ _ _ _ (by omega) he
  · have hroot : s2.mem dst = ⟨.STC, s.p⟩ := by
      rw [hblock2 dst hlo (by show dst < s.p + 1 + _; omega) (Or.inl (by omega))]
      show ((s.mem.write dst ⟨.STC, s.p⟩).write s.p (m0 a)) dst = _
      rw [write_other _ _ _ _ (by omega), write_same]
    have hfn : s2.mem s.p = m0 a := by
      rw [hblock2 s.p (by omega) (by show s.p < s.p + 1 + _; omega) (Or.inl (by omega))]
      exact write_same _ _ _
    have hA2 : Arity c s2.mem s.p = Arity c m0 a := by
      unfold Arity; rw [hfn]
    refine ⟨by rw [hp2']; omega, hinv2, ?_, ?_, ?_⟩
    · intro x hx1 hx2 hxd
      rw [hblock2 x hx1 (by show x < s.p + 1 + _; omega) (Or.inl (by omega))]
      show ((s.mem.write dst ⟨.STC, s.p⟩).write s.p (m0 a)) x = _
      rw [write_other _ _ _ _ (by omega), write_other _ _ _ _ hxd]
    · intro d hd
      rcases hcop2 d hd with h | h | h
      · exact Or.inl ((c1 d).mp ((c2 d).mp h))
      · exact Or.inr (Or.inr (by omega))
      · have h1 : s.p + 1 + Arity c m0 a ≤ d := h
        exact Or.inr (Or.inr (by omega))
    · rw [hroot, hp2']
      have hq := @Packed.stc c s2.mem lo hi s.p
        (fun i => s.p + 1 + Arity c m0 a + (Finset.range i).sum (fun t => sz t - 1))
        (by omega) (by rw [hA2]; exact har) (by rw [hA2]; simp)
        (by rw [hA2]; show s.p + 1 + _ + _ ≤ hi; omega)
        (fun i hi2 => by
          rw [hA2] at hi2
          exact hpk2 i hi2)
      rw [hA2] at hq
      exact hq

/-- For a finite source term stored outside the block, `Copy_Term_Rec`
returns (given enough fuel) and leaves a packed copy. -/
theorem Copy_Term_Rec_spec (c : Config) (m0 : Mem) (V : Finset Nat) (lo hi : Nat)
    (hV : V.card ≤ c.MAX_VAR_IN_TERM) (x : WamWord) (n : Nat)
    (h : SrcTerm c m0 V lo hi x n) : CopySpec c m0 V lo hi x n := by
  induction h with
  | var a haV hout hma => exact CopySpec_var c m0 V lo hi a hV haV hout hma
  | ref a n hout hne _ ih => exact CopySpec_ref c m0 V lo hi a n hout hne ih
  | atm v => exact CopySpec_atm c m0 V lo hi v
  | int v => exact CopySpec_int c m0 V lo hi v
  | flt a => exact CopySpec_flt c m0 V lo hi a
  | lst a sz hout hsub ih =>
    exact CopySpec_lst c m0 V lo hi a sz hout
      (fun i hi2 => SrcTerm_pos c m0 V lo hi _ _ (hsub i hi2)) ih
  | stc a sz har htag houta hout hsub ih =>
    exact CopySpec_stc c m0 V lo hi a sz har htag houta hout
      (fun i hi2 => SrcTerm_pos c m0 V lo hi _ _ (hsub i hi2)) ih

/-! ## Size of a term -/

theorem Term_Size_loop_deref (c : Config) (mem : Mem) (f : Nat) (x : WamWord) (acc r : Nat)
    (h : Term_Size_loop c mem (f + 1) x acc = some r) : ∃ w, DEREF mem f x = some w := by
  rw [Term_Size_loop] at h
  cases hD : DEREF mem f x with
  | none => rw [hD] at h; cases h
  | some w => exact ⟨w, rfl⟩

theorem Term_Size_loop_congr (c : Config) (mem : Mem) (f : Nat) (x1 x2 : WamWord) (acc : Nat)
    (h : DEREF mem f x1 = DEREF mem f x2) :
    Term_Size_loop c mem (f + 1) x1 acc = Term_Size_loop c mem (f + 1) x2 acc := by
  rw [Term_Size_loop, Term_Size_loop, h]

theorem Term_Size_args_sum (size : WamWord → Option Nat) (mem : Mem) (sz : Nat → Nat) :
    ∀ (k adr n : Nat), (∀ i < k, size (mem (adr + i)) = some (sz (i))) →
      Term_Size_args size mem k adr n = some (n + (Finset.range k).sum sz) := by
  intro k
  induction k with
  | zero => intro adr n _; simp [Term_Size_args]
  | succ k ih =>
    intro adr n h
    have e2 : (Finset.range (k + 1)).sum sz = (Finset.range k).sum sz + sz k :=
      Finset.sum_range_succ _ _
    have hsnoc : ∀ (j adr1 n1 : Nat),
        Term_Size_args size mem (j + 1) adr1 n1 =
          (match Term_Size_args size mem j adr1 n1 with
           | none => none
           | some n2 =>
             match size (mem (adr1 + j)) with
             | none => none
             | some s1 => some (n2 + s1)) := by
      intro j
      induction j with
      | zero =>
        intro adr1 n1
        simp only [Term_Size_args, Nat.add_zero]
      | succ j ihj =>
        intro adr1 n1
        rw [Term_Size_args]
        cases h1 : size (mem adr1) with
        | none => simp [Term_Size_args, h1]
        | some s1 =>
          simp only
          rw [ihj]
          have e : adr1 + 1 + j = adr1 + (j + 1) := by omega
          rw [e]
          conv_rhs => rw [Term_Size_args]
          simp only [h1]
    rw [hsnoc, ih adr n (fun i hi => h i (by omega)), h k (by omega), e2]
    simp only [Nat.add_assoc]

theorem exists_fuel_bound (P : Nat → Nat → Prop) :
    ∀ k, (∀ i < k, ∃ f0, ∀ f, f0 ≤ f → P i f) → ∃ F, ∀ i < k, ∀ f, F ≤ f → P i f := by
  intro k
  induction k with
  | zero => intro _; exact ⟨0, fun i hi => by omega⟩
  | succ k ih =>
    intro h
    obtain ⟨F, hF⟩ := ih (fun i hi => h i (by omega))
    obtain ⟨f0, hf0⟩ := h k (by omega)
    refine ⟨max F f0, fun i hi f hf => ?_⟩
    by_cases hik : i < k
    · exact hF i hik f (by omega)
    · have : i = k := by omega
      subst this
      exact hf0 f (by omega)

/-- `Term_Size` returns the number of words of a finite term. -/
theorem Term_Size_loop_spec (c : Config) (mem : Mem) (V : Finset Nat) (lo hi : Nat)
    (x : WamWord) (n : Nat) (h : SrcTerm c mem V lo hi x n) :
    ∃ f0, ∀ f, f0 ≤ f → ∀ acc, Term_Size_loop c mem f x acc = some (acc + n) := by
  induction h with
  | var a _ _ hma =>
    refine ⟨2, fun f hf acc => ?_⟩
    obtain ⟨g, rfl⟩ : ∃ g, f = g + 2 := ⟨f - 2, by omega⟩
    have hD : DEREF mem (g + 1) ⟨.REF, a⟩ = some ⟨.REF, a⟩ := by
      rw [DEREF]; simp [hma]
    rw [Term_Size_loop, hD]
  | ref a n _ hne _ ih =>
    obtain ⟨f0, hf0⟩ := ih
    refine ⟨f0 + 2, fun f hf acc => ?_⟩
    obtain ⟨g, rfl⟩ : ∃ g, f = g + 2 := ⟨f - 2, by omega⟩
    have h1 := hf0 (g + 1) (by omega) acc
    obtain ⟨w, hw⟩ := Term_Size_loop_deref c mem g _ _ _ h1
    have hd1 : DEREF mem (g + 1) ⟨.REF, a⟩ = some w := by
      rw [DEREF]
      simp only [ne_eq, not_true_eq_false, if_false]
      rw [if_neg hne]
      exact hw
    have hd2 : DEREF mem (g + 1) (mem a) = some w := DEREF_succ _ _ _ _ hw
    rw [Term_Size_loop_congr c mem (g + 1) ⟨.REF, a⟩ (mem a) acc (by rw [hd1, hd2])]
    exact hf0 (g + 2) (by omega) acc
  | atm v =>
    refine ⟨2, fun f hf acc => ?_⟩
    obtain ⟨g, rfl⟩ : ∃ g, f = g + 2 := ⟨f - 2, by omega⟩
    rw [Term_Size_loop, DEREF_nonref _ _ _ (by simp)]
  | int v =>
    refine ⟨2, fun f hf acc => ?_⟩
    obtain ⟨g, rfl⟩ : ∃ g, f = g + 2 := ⟨f - 2, by omega⟩
    rw [Term_Size_loop, DEREF_nonref _ _ _ (by simp)]
  | flt a =>
    refine ⟨2, fun f hf acc => ?_⟩
    obtain ⟨g, rfl⟩ : ∃ g, f = g + 2 := ⟨f - 2, by omega⟩
    rw [Term_Size_loop, DEREF_nonref _ _ _ (by simp)]
    simp only [fltWords]
    split <;> simp only [Nat.add_assoc]
  | lst a sz _ _ ih =>
    obtain ⟨F, hF⟩ := exists_fuel_bound
      (fun i f => ∀ acc, Term_Size_loop c mem f (mem (a + i)) acc = some (acc + sz i)) 2 ih
    refine ⟨F + 2, fun f hf acc => ?_⟩
    obtain ⟨g, rfl⟩ : ∃ g, f = g + 2 := ⟨f - 2, by omega⟩
    rw [Term_Size_loop, DEREF_nonref _ _ _ (by simp)]
    have h0 := hF 0 (by norm_num) (g + 1) (by omega) 0
    have h1 := hF 1 (by norm_num) (g + 1) (by omega) (acc + (1 + sz 0))
    simp only [Nat.add_zero, Nat.zero_add] at h0
    simp only [Car, Cdr, h0, h1]
    congr 1
    simp [Finset.sum_range_succ]
    omega
  | stc a sz har _ _ _ _ ih =>
    obtain ⟨F, hF⟩ := exists_fuel_bound
      (fun i f => ∀ acc, Term_Size_loop c mem f (mem (a + 1 + i)) acc = some (acc + sz i))
      (Arity c mem a) ih
    refine ⟨F + 2, fun f hf acc => ?_⟩
    obtain ⟨g, rfl⟩ : ∃ g, f = g + 2 := ⟨f - 2, by omega⟩
    rw [Term_Size_loop, DEREF_nonref _ _ _ (by simp)]
    simp only
    rw [if_neg (by omega)]
    obtain ⟨k, hk⟩ : ∃ k, Arity c mem a = k + 1 := ⟨Arity c mem a - 1, by omega⟩
    rw [hk] at hF ⊢
    have hargs := Term_Size_args_sum (fun w => Term_Size_loop c mem (g + 1) w 0) mem sz k
      (Arg a 0) (acc + 2) (fun i hi => by
        have := hF i (by omega) (g + 1) (by omega) 0
        simp only [Nat.zero_add] at this
        simpa [Arg] using this)
    simp only [Nat.add_sub_cancel]
    rw [hargs]
    simp only
    have hlast := hF k (by omega) (g + 1) (by omega) (acc + 2 + (Finset.range k).sum sz)
    simp only [Arg]
    rw [hlast]
    congr 1
    have e2 : (Finset.range (k + 1)).sum sz = (Finset.range k).sum sz + sz k :=
      Finset.sum_range_succ _ _
    omega

/-! ## `Copy_Term` -/

theorem restore_vars_other :
    ∀ (L : List (WamWord × Nat)) (mem : Mem) (a : Nat), a ∉ L.map Prod.snd →
      restore_vars L mem a = mem a := by
  intro L
  induction L with
  | nil => intro mem a _; rfl
  | cons e L ih =>
    intro mem a h
    obtain ⟨w, b⟩ := e
    simp only [List.map_cons, List.mem_cons, not_or] at h
    rw [restore_vars, ih _ _ h.2, write_other _ _ _ _ h.1]

theorem restore_vars_saved :
    ∀ (L : List (WamWord × Nat)) (mem : Mem) (w : WamWord) (a : Nat),
      (L.map Prod.snd).Nodup → (w, a) ∈ L → restore_vars L mem a = w := by
  intro L
  induction L with
  | nil => intro mem w a _ h; cases h
  | cons e L ih =>
    intro mem w a hnd h
    obtain ⟨w1, b⟩ := e
    simp only [List.map_cons, List.nodup_cons] at hnd
    rcases List.mem_cons.mp h with h1 | h1
    · injection h1 with h2 h3
      subst h2; subst h3
      rw [restore_vars, restore_vars_other L _ a hnd.1, write_same]
    · rw [restore_vars]
      exact ih _ w a hnd.2 h1

/-- `Copy_Term` on a finite term of `n` words stored outside the destination
`[dst, dst + n)`: it returns (given enough fuel), the destination pointer
ends at `dst + n`, the memory outside the destination is as before the call
and the destination holds a packed copy. -/
theorem Copy_Term_spec (c : Config) (mem : Mem) (V : Finset Nat) (dst src n : Nat)
    (hV : V.card ≤ c.MAX_VAR_IN_TERM) (hsrc : Outside dst (dst + n) src)
    (ht : SrcTerm c mem V dst (dst + n) (mem src) n) :
    ∃ f0, ∀ f, f0 ≤ f → ∃ r, Copy_Term c f dst src mem = some r ∧ r.p = dst + n ∧
      (∀ a, Outside dst (dst + n) a → r.mem a = mem a) ∧
      Packed c r.mem dst (dst + n) (r.mem dst) (dst + 1) (dst + n) := by
  have hn := SrcTerm_pos c mem V dst (dst + n) _ _ ht
  have hinv0 : CopyInv mem V dst (dst + n) { mem := mem, p := dst + 1, top_vars := [] } := by
    refine ⟨fun _ _ _ => rfl, fun e he => (by cases he), List.nodup_nil, ?_⟩
    show dst < dst + 1 ∧ dst + 1 ≤ dst + n
    omega
  obtain ⟨f0, s1, he, post⟩ := Copy_Term_Rec_spec c mem V dst (dst + n) hV _ _ ht dst src
    { mem := mem, p := dst + 1, top_vars := [] } hinv0 hsrc rfl le_rfl
    (by show dst < dst + 1; omega) (fun d hd => by obtain ⟨e, he, _⟩ := hd; cases he)
    (by show dst + 1 + (n - 1) ≤ dst + n; omega)
  have hp : s1.p = dst + n := by
    have := post.p_eq
    have h1 : s1.p = dst + 1 + (n - 1) := this
    omega
  have hblockmem : ∀ a, dst ≤ a → a < dst + n →
      restore_vars s1.top_vars s1.mem a = s1.mem a := by
    intro a h1 h2
    apply restore_vars_other
    intro hm
    obtain ⟨e, he1, rfl⟩ := List.mem_map.mp hm
    have := (post.inv.trail e he1).2.2.1
    rcases this with h | h <;> omega
  refine ⟨f0, fun f hf => ⟨{ s1 with mem := restore_vars s1.top_vars s1.mem }, ?_, hp, ?_, ?_⟩⟩
  · unfold Copy_Term
    rw [Copy_Term_Rec_mono c dst f0 f _ _ _ _ hf he]
  · intro a ha
    show restore_vars s1.top_vars s1.mem a = mem a
    by_cases hm : a ∈ s1.top_vars.map Prod.snd
    · obtain ⟨e, he1, rfl⟩ := List.mem_map.mp hm
      obtain ⟨h1, h2, _⟩ := post.inv.trail e he1
      have hmem : (e.1, e.2) ∈ s1.top_vars := he1
      rw [restore_vars_saved s1.top_vars s1.mem e.1 e.2 post.inv.nodup hmem, h1, h2]
    · rw [restore_vars_other _ _ _ hm]
      exact post.inv.frame a ha hm
  · show Packed c (restore_vars s1.top_vars s1.mem) dst (dst + n)
      (restore_vars s1.top_vars s1.mem dst) (dst + 1) (dst + n)
    rw [hblockmem dst le_rfl (by omega)]
    have hpk : Packed c s1.mem dst (dst + n) (s1.mem dst) (dst + 1) s1.p := post.packed
    rw [hp] at hpk
    exact Packed_frame c s1.mem dst (dst + n) _ _ _ hpk _
      (fun x hx1 hx2 => hblockmem x (by omega) hx2)

/-- C27 (as amended): for every finite term without finite-domain variables,
stored outside the destination, whose distinct variables (the cells of `V`) are
fewer than `MAX_VAR_IN_TERM`, and which counts `n` words: `Term_Size` returns
`n` and `Copy_Term(dst, src)` returns (both given enough fuel for their
traversal); the copy takes exactly the `n` words `dst[0] .. dst[n-1]` (the
destination pointer ends at `dst + n`, the root is `dst[0]`, the cells after
it fill `[dst + 1, dst + n)` without gap, and no word outside the destination
has changed); and the result is contiguous: every variable reference, list,
structure or float pointer of the copy points inside `[dst, dst + n)`. -/
theorem Copy_Term_writes_Term_Size (c : Config) (mem : Mem) (V : Finset Nat)
    (dst src n : Nat) (hV : V.card < c.MAX_VAR_IN_TERM) (hsrc : Outside dst (dst + n) src)
    (ht : SrcTerm c mem V dst (dst + n) (mem src) n) :
    ∃ f0, ∀ f, f0 ≤ f → Term_Size c mem f (mem src) = some n ∧
      ∃ r, Copy_Term c f dst src mem = some r ∧ r.p = dst + n ∧
        (∀ a, Outside dst (dst + n) a → r.mem a = mem a) ∧
        Packed c r.mem dst (dst + n) (r.mem dst) (dst + 1) (dst + n) := by
  obtain ⟨f1, h1⟩ := Term_Size_loop_spec c mem V dst (dst + n) _ _ ht
  obtain ⟨f2, h2⟩ := Copy_Term_spec c mem V dst src n (by omega) hsrc ht
  refine ⟨max f1 f2, fun f hf => ⟨?_, h2 f (by omega)⟩⟩
  have := h1 f (by omega) 0
  simpa [Term_Size] using this

/-- Witness of C27 (as amended): the term `[X | X]` of the sample memory counts three
words; `Term_Size` returns 3 and `Copy_Term(100, 5)` leaves a packed copy in
the words 100 .. 102. -/
theorem Copy_Term_writes_Term_Size_witness :
    SrcTerm sampleConfig pairMem {20} 100 (100 + 3) (pairMem 5) 3 ∧
    ∃ f0, ∀ f, f0 ≤ f → Term_Size sampleConfig pairMem f (pairMem 5) = some 3 ∧
      ∃ r, Copy_Term sampleConfig f 100 5 pairMem = some r ∧ r.p = 100 + 3 ∧
        (∀ a, Outside 100 (100 + 3) a → r.mem a = pairMem a) ∧
        Packed sampleConfig r.mem 100 (100 + 3) (r.mem 100) (100 + 1) (100 + 3) := by
  have hterm : SrcTerm sampleConfig pairMem {20} 100 (100 + 3) (pairMem 5) 3 := by
    have h := @SrcTerm.lst sampleConfig pairMem {20} 100 (100 + 3) 20 (fun _ => 1)
      (by intro i hi; left; omega)
      (by
        intro i hi
        have hi01 : i = 0 ∨ i = 1 := by omega
        rcases hi01 with h | h <;> subst h
        · exact SrcTerm.var 20 (by simp) (Or.inl (by decide)) rfl
        · exact SrcTerm.var 20 (by simp) (Or.inl (by decide)) rfl)
    have e : 1 + (Finset.range 2).sum (fun _ => 1) = 3 := by simp
    rw [e] at h
    exact h
  exact ⟨hterm, Copy_Term_writes_Term_Size sampleConfig pairMem {20} 100 5 3 (by decide)
    (Or.inl (by decide)) hterm⟩

theorem Term_Size_args_mono (size1 size2 : WamWord → Option Nat) (mem : Mem)
    (h : ∀ w r, size1 w = some r → size2 w = some r) :
    ∀ (k adr n r : Nat), Term_Size_args size1 mem k adr n = some r →
      Term_Size_args size2 mem k adr n = some r := by
  intro k
  induction k with
  | zero => intro adr n r hr; simpa [Term_Size_args] using hr
  | succ k ih =>
    intro adr n r hr
    simp only [Term_Size_args] at hr ⊢
    cases h1 : size1 (mem adr) with
    | none => rw [h1] at hr; cases hr
    | some s1 =>
      rw [h1] at hr
      rw [h _ s1 h1]
      exact ih _ _ _ hr

theorem Term_Size_loop_succ (c : Config) (mem : Mem) :
    ∀ (f : Nat) (x : WamWord) (acc r : Nat), Term_Size_loop c mem f x acc = some r →
      Term_Size_loop c mem (f + 1) x acc = some r := by
  intro f
  induction f with
  | zero => intro x acc r h; simp [Term_Size_loop] at h
  | succ f ih =>
    intro x acc r h
    rw [Term_Size_loop] at h ⊢
    cases hD : DEREF mem f x with
    | none => rw [hD] at h; cases h
    | some word =>
      rw [hD] at h
      rw [DEREF_succ mem f _ _ hD]
      simp only at h ⊢
      cases htag : word.tag <;> simp only [htag] at h ⊢
      · exact h
      · exact h
      · exact h
      · exact h
      · exact h
      · split at h
        · cases h
        · rename_i k h1
          rw [ih _ _ _ h1]
          exact ih _ _ _ h
      · split at h
        · cases h
        · rename_i hi
          rw [if_neg hi]
          split at h
          · cases h
          · rename_i n1 h1
            rw [Term_Size_args_mono _ _ mem (fun w r hr => ih w 0 r hr) _ _ _ _ h1]
            exact ih _ _ _ h

theorem Term_Size_mono (c : Config) (mem : Mem) (f g : Nat) (x : WamWord) (r : Nat)
    (hfg : f ≤ g) (h : Term_Size c mem f x = some r) : Term_Size c mem g x = some r := by
  unfold Term_Size at h ⊢
  induction hfg with
  | refl => exact h
  | step _ ih => exact Term_Size_loop_succ c mem _ _ _ _ ih

theorem Copy_Term_mono (c : Config) (f g dst src : Nat) (mem : Mem) (r : CopySt)
    (hfg : f ≤ g) (h : Copy_Term c f dst src mem = some r) :
    Copy_Term c g dst src mem = some r := by
  unfold Copy_Term at h ⊢
  split at h
  · cases h
  · rename_i s1 h1
    rw [Copy_Term_Rec_mono c dst f g _ _ _ _ hfg h1]
    exact h

/-- Counterexample to C27 as stated: the term `[[8 | [1 | 2]] | 7]` of the
sample memory is finite, without variables, and `Term_Size` returns 7 for it;
its inner pair lies at the addresses 102 and 103, inside the seven words from
100 on.  `Copy_Term(100, 5)` overwrites the second cell of that pair before
reading it and ends with the destination pointer at 105: it has written five
words, not seven. -/
theorem Copy_Term_overlapping_source :
    (∀ f, 10 ≤ f → Term_Size sampleConfig overlapMem f (overlapMem 5) = some 7) ∧
    (∀ f, 10 ≤ f →
      (Copy_Term sampleConfig f 100 5 overlapMem).map (fun r => r.p) = some 105) ∧
    ¬ (∃ f, (Copy_Term sampleConfig f 100 5 overlapMem).map (fun r => r.p) = some (100 + 7)) := by
  have h10 : (Copy_Term sampleConfig 10 100 5 overlapMem).map (fun r => r.p) = some 105 := by
    decide
  have hall : ∀ f, 10 ≤ f →
      (Copy_Term sampleConfig f 100 5 overlapMem).map (fun r => r.p) = some 105 := by
    intro f hf
    cases hc : Copy_Term sampleConfig 10 100 5 overlapMem with
    | none => rw [hc] at h10; cases h10
    | some r =>
      rw [hc] at h10
      rw [Copy_Term_mono sampleConfig 10 f 100 5 overlapMem r hf hc]
      exact h10
  refine ⟨fun f hf => Term_Size_mono sampleConfig overlapMem 10 f _ _ hf (by decide), hall, ?_⟩
  rintro ⟨f, hf⟩
  cases hc : Copy_Term sampleConfig f 100 5 overlapMem with
  | none => rw [hc] at hf; cases hf
  | some r =>
    have h1 := Copy_Term_mono sampleConfig f (max f 10) 100 5 overlapMem r (le_max_left _ _) hc
    have h2 := hall (max f 10) (le_max_right _ _)
    rw [hc] at hf
    rw [h1] at h2
    simp only [Option.map_some'] at hf h2
    rw [hf] at h2
    revert h2
    decide

end BipsPl

namespace Ma2Asm

/-! ## Fixed points of `Nearest_Immediate` -/

theorem Nearest_Immediate_loop_fixed :
    ∀ (close exp : Nat), (∃ m k, m ≤ 255 ∧ close = m * 4 ^ k) →
      (Nearest_Immediate_loop close exp).1 * 2 ^ (Nearest_Immediate_loop close exp).2
        = close * 2 ^ exp := by
  intro close exp
  induction close, exp using Nearest_Immediate_loop.induct with
  | case1 close exp h ih =>
    rintro ⟨m, k, hm, hk⟩
    rw [Nearest_Immediate_loop, if_pos h]
    cases k with
    | zero => simp at hk; omega
    | succ k =>
      have hdiv : close >>> 2 = m * 4 ^ k := by
        rw [Nat.shiftRight_eq_div_pow, hk, pow_succ, ← Nat.mul_assoc]
        norm_num
      rw [ih ⟨m, k, hm, hdiv⟩, hdiv, hk, pow_add, pow_succ]
      ring
  | case2 close exp h =>
    intro _
    rw [Nearest_Immediate_loop, if_neg h]

theorem Nearest_Immediate_loop_form :
    ∀ (close exp : Nat), (Nearest_Immediate_loop close exp).1 ≤ 255 ∧
      (close ≠ 0 → (Nearest_Immediate_loop close exp).1 ≠ 0) ∧
      ∃ j, (Nearest_Immediate_loop close exp).2 = exp + 2 * j := by
  intro close exp
  induction close, exp using Nearest_Immediate_loop.induct with
  | case1 close exp h ih =>
    rw [Nearest_Immediate_loop, if_pos h]
    obtain ⟨h1, h2, j, hj⟩ := ih
    refine ⟨h1, fun _ => h2 ?_, j + 1, by rw [hj]; ring⟩
    rw [Nat.shiftRight_eq_div_pow]
    have : 4 ≤ close := by omega
    have := Nat.div_pos this (by norm_num : 0 < 2 ^ 2)
    omega
  | case2 close exp h =>
    rw [Nearest_Immediate_loop, if_neg h]
    exact ⟨by simpa using h, fun h0 => h0, 0, rfl⟩

/-- The absolute value computed by `Nearest_Immediate`. -/
theorem Nearest_Immediate_natAbs (t : Int) :
    (Nearest_Immediate t).natAbs =
      (Nearest_Immediate_loop t.natAbs 0).1 * 2 ^ (Nearest_Immediate_loop t.natAbs 0).2 := by
  unfold Nearest_Immediate
  simp only [Nat.shiftLeft_eq]
  by_cases hpos : t ≥ 0
  · have e : t.toNat = t.natAbs := by omega
    simp only [hpos, if_true, e]
    exact Int.natAbs_ofNat _
  · have e : (-t).toNat = t.natAbs := by omega
    simp only [hpos, if_false, e]
    rw [Int.natAbs_neg]
    exact Int.natAbs_ofNat _

theorem Nearest_Immediate_sign (t : Int) :
    (0 < t → 0 < Nearest_Immediate t) ∧ (t < 0 → Nearest_Immediate t < 0) ∧
    (t = 0 → Nearest_Immediate t = 0) := by
  have hform := Nearest_Immediate_loop_form t.natAbs 0
  have hpos : t ≠ 0 → 0 < (Nearest_Immediate_loop t.natAbs 0).1 *
      2 ^ (Nearest_Immediate_loop t.natAbs 0).2 := by
    intro h
    have h1 := hform.2.1 (by omega)
    exact Nat.mul_pos (Nat.pos_of_ne_zero h1) (Nat.two_pow_pos _)
  have hle := Nearest_Immediate_natAbs_le t
  refine ⟨?_, ?_, ?_⟩
  · intro h
    have h2 := hpos (by omega)
    unfold Nearest_Immediate
    have e : t.toNat = t.natAbs := by omega
    simp only [ge_iff_le, le_of_lt h, if_true, e, Nat.shiftLeft_eq]
    exact_mod_cast h2
  · intro h
    have h2 := hpos (by omega)
    unfold Nearest_Immediate
    have e : (-t).toNat = t.natAbs := by omega
    have hn : ¬ (t ≥ 0) := by omega
    simp only [hn, if_false, e, Nat.shiftLeft_eq]
    have : (0 : Int) < (((Nearest_Immediate_loop t.natAbs 0).1 *
      2 ^ (Nearest_Immediate_loop t.natAbs 0).2 : Nat) : Int) := by exact_mod_cast h2
    omega
  · intro h
    subst h
    simp [Nearest_Immediate, Nearest_Immediate_loop]

theorem Nearest_Immediate_fixed_iff (t : Int) :
    Nearest_Immediate t = t ↔ ∃ m k : Nat, m ≤ 255 ∧ t.natAbs = m * 4 ^ k := by
  have habs := Nearest_Immediate_natAbs t
  have hsign := Nearest_Immediate_sign t
  constructor
  · intro h
    rw [h] at habs
    obtain ⟨h1, _, j, hj⟩ := Nearest_Immediate_loop_form t.natAbs 0
    rw [hj, Nat.zero_add, pow_mul] at habs
    norm_num at habs
    exact ⟨_, j, h1, habs⟩
  · intro h
    have hfix := Nearest_Immediate_loop_fixed t.natAbs 0 h
    rw [pow_zero, Nat.mul_one] at hfix
    rw [hfix] at habs
    rcases lt_trichotomy t 0 with h0 | h0 | h0
    · have := hsign.2.1 h0
      omega
    · exact h0 ▸ hsign.2.2 h0
    · have := hsign.1 h0
      omega

/-- C31: for every `int` `t` with `|t| < 2^31`, `Nearest_Immediate(t) = t` if
and only if `|t| = m * 4^k` for some `0 <= m <= 255` and `k >= 0`; the result
has the sign of `t` (and is 0 for 0), its absolute value is at most `|t|`, and
it is a fixed point: `Nearest_Immediate` is idempotent. -/
theorem Nearest_Immediate_fixed_points (t : Int) (hlo : -2 ^ 31 < t) (hhi : t < 2 ^ 31) :
    (Nearest_Immediate t = t ↔ ∃ m k : Nat, m ≤ 255 ∧ t.natAbs = m * 4 ^ k) ∧
    (0 < t → 0 < Nearest_Immediate t) ∧ (t < 0 → Nearest_Immediate t < 0) ∧
    (t = 0 → Nearest_Immediate t = 0) ∧
    (Nearest_Immediate t).natAbs ≤ t.natAbs ∧
    -2 ^ 31 < Nearest_Immediate t ∧ Nearest_Immediate t < 2 ^ 31 ∧
    Nearest_Immediate (Nearest_Immediate t) = Nearest_Immediate t := by
  have hle := Nearest_Immediate_natAbs_le t
  have hsign := Nearest_Immediate_sign t
  refine ⟨Nearest_Immediate_fixed_iff t, hsign.1, hsign.2.1, hsign.2.2, hle, by omega, by omega,
    ?_⟩
  rw [Nearest_Immediate_fixed_iff, Nearest_Immediate_natAbs]
  obtain ⟨h1, _, j, hj⟩ := Nearest_Immediate_loop_form t.natAbs 0
  refine ⟨_, j, h1, ?_⟩
  rw [hj, Nat.zero_add, pow_mul]
  norm_num

/-- Witness of C31: 300 = 75 * 4 is a fixed point; 301 is not, and is taken
to the fixed point 300. -/
theorem Nearest_Immediate_fixed_points_witness :
    Nearest_Immediate 300 = 300 ∧ Nearest_Immediate 301 = 300 ∧
    Nearest_Immediate (Nearest_Immediate 301) = Nearest_Immediate 301 := by
  have h300 := Nearest_Immediate_fixed_points 300 (by norm_num) (by norm_num)
  have h301 := Nearest_Immediate_fixed_points 301 (by norm_num) (by norm_num)
  refine ⟨h300.1.mpr ⟨75, 1, by norm_num, by norm_num⟩, ?_, h301.2.2.2.2.2.2.2⟩
  simp [Nearest_Immediate, Nearest_Immediate_loop]

/-! ## Stack slots inside the reserved space -/

/-- C32: for every integer slot `s` with `8 <= s < MAX_C_ARGS_IN_C_CODE`,
`AFTER_ARG` emits the single store `str r, [sp, #(s - 8) * 8]`, and its eight
bytes, from `(s - 8) * 8` to `(s - 8) * 8 + 7` above sp, lie inside the
`RESERVED_STACK_SPACE` bytes subtracted from sp by the prologue. -/
theorem stack_slot_inside_reserved (r : String) (offset : Int) (st : Tr)
    (hlo : 8 ≤ offset_excl_doubles offset st)
    (hhi : offset_excl_doubles offset st < MAX_C_ARGS_IN_C_CODE) :
    AFTER_ARG r offset st =
      [Line.inst "str" [.reg r, .memImm "sp" ((offset_excl_doubles offset st - 8) * 8)]] ∧
    STACK_OFFSET (offset_excl_doubles offset st) = (offset_excl_doubles offset st - 8) * 8 ∧
    0 ≤ STACK_OFFSET (offset_excl_doubles offset st) ∧
    STACK_OFFSET (offset_excl_doubles offset st) + 7 < RESERVED_STACK_SPACE ∧
    (∀ (t : Target) (label : String) (global : Int),
      (Code_Start t label 0 global st).1.filter (fun l => decide (l.op = "sub")) =
        [Line.inst "sub" [.reg "sp", .reg "sp", .imm RESERVED_STACK_SPACE]]) := by
  have hs : STACK_OFFSET (offset_excl_doubles offset st) =
      (offset_excl_doubles offset st - 8) * 8 := by
    simp [STACK_OFFSET, MAX_ARGS_IN_REGS, BPW]
  have hmax : MAX_C_ARGS_IN_C_CODE = 32 := rfl
  rw [hmax] at hhi
  refine ⟨?_, hs, ?_, ?_, ?_⟩
  · have hge : offset_excl_doubles offset st ≥ MAX_ARGS_IN_REGS := by
      simpa [MAX_ARGS_IN_REGS] using hlo
    simp only [AFTER_ARG, hge, if_true, hs]
  · rw [hs]; omega
  · rw [hs, RESERVED_STACK_SPACE_eq]; omega
  · intro t label global
    have hd := Code_Start_doubles_filter t st.dbl_tbl st.nb_dbl
      ((st.dbl_lc_no : Int) - st.nb_dbl) 0 "sub" (by decide) (by decide)
    simp only [Code_Start, List.filter_append, hd]
    cases hdw : t.M_darwin <;> by_cases hg : global = 0 <;>
      simp [hg, Line.op, List.filter]

/-- Witness of C32: the last slot, 31, is stored at `[sp, #184]`, below the
208 reserved bytes. -/
theorem stack_slot_inside_reserved_witness :
    AFTER_ARG "x9" 31 (Call_C_Start Tr.init) =
      [Line.inst "str" [.reg "x9", .memImm "sp" 184]] ∧
    STACK_OFFSET (offset_excl_doubles 31 (Call_C_Start Tr.init)) + 7 < RESERVED_STACK_SPACE :=
  ⟨(stack_slot_inside_reserved "x9" 31 (Call_C_Start Tr.init) (by decide) (by decide)).1,
   (stack_slot_inside_reserved "x9" 31 (Call_C_Start Tr.init) (by decide) (by decide)).2.2.2.1⟩

/-! ## Floating-point argument registers -/

/-- C33: after `Call_C_Start` and eight double arguments the counter
`dbl_reg_no` is 8 = `MAX_DOUBLES_IN_REGS`; for the ninth double argument (at
the word offset 16) `Call_C_Arg_Double` names the register `d8`, and
`Call_C_Arg_Foreign_D` passing by value does the same. -/
theorem ninth_double_named_d8 :
    (finalTr sampleTarget eightDoubles Tr.init).dbl_reg_no = 8 ∧
    MAX_DOUBLES_IN_REGS = 8 ∧
    (Call_C_Arg_Double sampleTarget 16 1 (finalTr sampleTarget eightDoubles Tr.init)).1.1 =
      Load_Address sampleTarget "x0" ".LCD8"
        ++ [Line.inst "ldr" [.reg "d8", .mem "x0"]] ∧
    (Call_C_Arg_Foreign_D sampleTarget 16 0 0 (finalTr sampleTarget eightDoubles Tr.init)).1.1 =
      Load_Address sampleTarget "x7" "pl_foreign_double"
        ++ [Line.inst "ldr" [.reg "d8", .memRaw "x7" 0]] := by
  have h : (finalTr sampleTarget eightDoubles Tr.init).dbl_reg_no = 8 := by decide
  have h2 : (finalTr sampleTarget eightDoubles Tr.init).dbl_lc_no = 8 := by decide
  refine ⟨h, rfl, ?_, ?_⟩
  · simp only [Call_C_Arg_Double, BEFORE_ARG, offset_excl_doubles, h, h2]
    decide
  · simp only [Call_C_Arg_Foreign_D, h]
    decide

/-! ## Store of the returned value -/

theorem Increment_Reg_legal (r : String) (v : Int) (h0 : 0 ≤ v) (h24 : v < 2 ^ 24) :
    ∀ l ∈ Increment_Reg r v, addSubImmLegal l = true := by
  have e : Increment_Reg r v = sliceLines "add" r v.toNat 2 0 := by
    unfold Increment_Reg
    rw [if_neg (by omega)]
    have := Increment_Reg_loop_slices "add" r v.toNat 2 0 v.toNat (by simp)
      (by norm_num; omega)
    simpa using this
  rw [e]
  intro l hl
  have hm0 : v.toNat / 2 ^ (12 * 0) % 4096 < 4096 := Nat.mod_lt _ (by norm_num)
  have hm1 : v.toNat / 2 ^ (12 * (0 + 1)) % 4096 < 4096 := Nat.mod_lt _ (by norm_num)
  simp only [sliceLines, List.append_nil] at hl
  rcases List.mem_append.mp hl with h | h
  · split at h
    · rename_i hne
      simp only [List.mem_singleton] at h
      subst h
      simp only [addSubImmLegal, Bool.and_eq_true, Bool.or_eq_true, decide_eq_true_eq]
      omega
    · cases h
  · split at h
    · rename_i hne
      simp only [List.mem_singleton] at h
      subst h
      simp only [addSubImmLegal, Bool.and_eq_true, Bool.or_eq_true, decide_eq_true_eq]
      omega
    · cases h

/-- C34: for every symbol `name` and every `index >= 0` with
`index * 8 < 2^24`, `Move_Ret_To_Mem_L` is `Load_Address("x7", name)` followed
by the single store `str x0, [x7, #index*8]` exactly when `index * 8 <= 4095`,
and otherwise by `Increment_Reg("x7", index * 8)` (whose add instructions are
legal) and `str x0, [x7]`; executed, both forms store x0 at
`address(name) + index * 8` and leave the rest of the memory unchanged. -/
theorem Move_Ret_To_Mem_L_stores (S : Symtab) (t : Target) (name : String) (index : Int)
    (m : Machine) (hgot : GotOk S m (Load_Address_symbol t name))
    (h0 : 0 ≤ index) (h24 : index * 8 < 2 ^ 24) :
    (index * 8 ≤ 4095 →
      Move_Ret_To_Mem_L t name index = Load_Address t "x7" name
        ++ [Line.inst "str" [.reg "x0", .memImm "x7" (index * 8)]]) ∧
    (4095 < index * 8 →
      Move_Ret_To_Mem_L t name index = Load_Address t "x7" name
        ++ Increment_Reg "x7" (index * 8) ++ [Line.inst "str" [.reg "x0", .mem "x7"]]) ∧
    (∀ l ∈ Increment_Reg "x7" (index * 8), addSubImmLegal l = true) ∧
    ∃ m1, execSeqSym S (Move_Ret_To_Mem_L t name index) m = some m1 ∧
      m1.mem (addr64 (S.addr (Load_Address_symbol t name)) (index * 8)) = m.reg "x0" ∧
      ∀ a, a ≠ addr64 (S.addr (Load_Address_symbol t name)) (index * 8) →
        m1.mem a = m.mem a := by
  have hbpw : index * BPW = index * 8 := rfl
  obtain ⟨m1, he1, hr1, hf1, hm1⟩ := Load_Address_exec S t "x7" name m hgot
  have hx0 : m1.reg "x0" = m.reg "x0" := hf1 "x0" (by decide)
  refine ⟨?_, ?_, Increment_Reg_legal "x7" (index * 8) (by omega) h24, ?_⟩
  · intro h
    simp [Move_Ret_To_Mem_L, hbpw, h]
  · intro h
    have hn : ¬ (index * 8 ≤ 4095) := by omega
    simp [Move_Ret_To_Mem_L, hbpw, hn]
  · by_cases h : index * 8 ≤ 4095
    · refine ⟨m1.setMem (addr64 (m1.reg "x7") (index * 8)) (m1.reg "x0"), ?_, ?_, ?_⟩
      · simp only [Move_Ret_To_Mem_L, hbpw, h, if_true]
        rw [execSeqSym_append, he1]
        simp [execSeqSym, execInstSym, execInst, execStr, effAddr]
      · simp [Machine.setMem, hr1, hx0]
      · intro a ha
        simp [Machine.setMem, hr1, ha, hm1]
    · obtain ⟨m2, he2, hr2, hf2, hm2⟩ := Increment_Reg_execSym S "x7" (index * 8) m1
        (by rw [hr1]; exact hgot.1)
      have hlt := addr64_lt (m1.reg "x7") (index * 8)
      refine ⟨m2.setMem (m2.reg "x7" % 2 ^ 64) (m2.reg "x0"), ?_, ?_, ?_⟩
      · simp only [Move_Ret_To_Mem_L, hbpw, h, if_false]
        rw [execSeqSym_append, he1]
        simp only [Option.some_bind]
        rw [execSeqSym_append, he2]
        simp [execSeqSym, execInstSym, execInst, execStr, effAddr]
      · rw [hr2, Nat.mod_eq_of_lt hlt, hr1]
        simp [Machine.setMem, hf2 "x0" (by decide), hx0]
      · intro a ha
        rw [hr2, Nat.mod_eq_of_lt hlt, hr1]
        simp [Machine.setMem, ha, hm2, hm1]

/-- Witness of C34: on the sample target, `Move_Ret_To_Mem_L("foo", 1000)`
(offset 8000, beyond 4095) stores x0 at the address of `foo` plus 8000. -/
theorem Move_Ret_To_Mem_L_stores_witness :
    ∃ m1, execSeqSym sampleSymtab (Move_Ret_To_Mem_L sampleTarget "foo" 1000) symMachine
        = some m1 ∧
      m1.mem (addr64 (sampleSymtab.addr (Load_Address_symbol sampleTarget "foo")) (1000 * 8)) =
        symMachine.reg "x0" :=
  let ⟨m1, h1, h2, _⟩ := (Move_Ret_To_Mem_L_stores sampleSymtab sampleTarget "foo" 1000
    symMachine ⟨by decide, by decide, by decide⟩ (by decide) (by decide)).2.2.2
  ⟨m1, h1, h2⟩

end Ma2Asm

namespace BipsPl

/-! ## Order of the kinds of terms -/

theorem DEREF_self (mem : Mem) (f : Nat) (w : WamWord)
    (h : w.tag ≠ .REF ∨ mem w.val = w) : DEREF mem (f + 1) w = some w := by
  rw [DEREF]
  rcases h with h | h
  · rw [if_pos h]
  · by_cases h1 : w.tag ≠ .REF
    · rw [if_pos h1]
    · rw [if_neg h1, if_pos h]

/-- C35: for every pair of dereferenced words `u` and `v` of different kinds
(in a build without the finite-domain solver, neither being a finite-domain
variable), `Term_Compare(u, v)` returns a value that is negative exactly when
the kind of `u` precedes the kind of `v` in the order variable, finite-domain
variable, float, integer, atom, compound (list or structure), positive
exactly when it follows, and never 0. -/
theorem Term_Compare_kinds (c : Config) (e : CmpConfig) (mem : Mem) (u v : WamWord) (f : Nat)
    (hu : u.tag ≠ .REF ∨ mem u.val = u) (hv : v.tag ≠ .REF ∨ mem v.val = v)
    (hk : kindRank u.tag ≠ kindRank v.tag)
    (hfd : c.NO_USE_FD_SOLVER = true → u.tag ≠ .FDV ∧ v.tag ≠ .FDV) :
    ∃ r, Term_Compare c e mem (f + 2) u v = some r ∧
      (r < 0 ↔ kindRank u.tag < kindRank v.tag) ∧
      (0 < r ↔ kindRank v.tag < kindRank u.tag) ∧ r ≠ 0 := by
  rw [Term_Compare, DEREF_self mem f u hu, DEREF_self mem f v hv]
  simp only
  obtain ⟨ut, ua⟩ := u
  obtain ⟨vt, va⟩ := v
  cases hno : c.NO_USE_FD_SOLVER
  · cases ut <;> cases vt <;>
      simp [kindRank, Term_Compare_switch, Term_Compare_compound, Rd_Compound, hno] at hk ⊢
  · have h1 := (hfd hno).1
    have h2 := (hfd hno).2
    cases ut <;> cases vt <;>
      simp [kindRank, Term_Compare_switch, Term_Compare_compound, Rd_Compound, hno]
        at hk h1 h2 ⊢

/-- Witness of C35: an atom against a list pair compares as smaller, the
list pair against the atom as greater. -/
theorem Term_Compare_kinds_witness :
    Term_Compare sampleConfig sampleCmp listMem 2 ⟨.ATM, 0⟩ ⟨.LST, 10⟩ = some (-1) ∧
    ∃ r, Term_Compare sampleConfig sampleCmp listMem 2 ⟨.LST, 10⟩ ⟨.ATM, 0⟩ = some r ∧
      (r < 0 ↔ kindRank Tag.LST < kindRank Tag.ATM) ∧
      (0 < r ↔ kindRank Tag.ATM < kindRank Tag.LST) ∧ r ≠ 0 :=
  ⟨by decide,
   Term_Compare_kinds sampleConfig sampleCmp listMem ⟨.LST, 10⟩ ⟨.ATM, 0⟩ 0
     (Or.inl (by decide)) (Or.inl (by decide)) (by decide)
     (fun _ => ⟨by decide, by decide⟩)⟩

/-! ## Comparison of the arguments of compound terms -/

/-- C36: the structures `f(4294967296)` and `f(0)` of the sample memory have
the same functor and arity and differ in their argument, whose comparison
returns 4294967296; through the `int x` of the loop that result becomes 0, so
`Term_Compare` returns 0 for the two structures, in both orders.  For
`f(2147483648)` against `f(0)` it returns -2147483648 in both orders. -/
theorem Term_Compare_truncates_argument :
    Term_Compare sampleConfig sampleCmp cmpMem 5 (cmpMem 11) (cmpMem 21) = some 4294967296 ∧
    toInt 4294967296 = 0 ∧
    Term_Compare sampleConfig sampleCmp cmpMem 5 ⟨.STC, 10⟩ ⟨.STC, 20⟩ = some 0 ∧
    Term_Compare sampleConfig sampleCmp cmpMem 5 ⟨.STC, 20⟩ ⟨.STC, 10⟩ = some 0 ∧
    cmpMem 11 ≠ cmpMem 21 ∧
    Term_Compare sampleConfig sampleCmp cmpMem 5 ⟨.STC, 30⟩ ⟨.STC, 20⟩ = some (-2147483648) ∧
    Term_Compare sampleConfig sampleCmp cmpMem 5 ⟨.STC, 20⟩ ⟨.STC, 30⟩ = some (-2147483648) := by
  refine ⟨by decide, by decide, by decide, by decide, by decide, by decide, by decide⟩

/-! ## Restoration of the source by `Copy_Term` -/

/-- C37: for every finite source term without finite-domain variables, with
fewer than `MAX_VAR_IN_TERM` distinct variables (the cells of `V`) and stored
outside the destination `[dst, dst + n)`, `Copy_Term` returns (given enough
fuel) and every word outside the destination has the value it had before the
call.  Before the restoring loop, at the return of `Copy_Term_Rec`, the words
outside the destination that differ are saved variables; each saved variable
was an unbound variable of the source, is bound there to a cell of the copy,
and holds its original self reference again at the return of `Copy_Term`. -/
theorem Copy_Term_restores_source (c : Config) (mem : Mem) (V : Finset Nat)
    (dst src n : Nat) (hV : V.card < c.MAX_VAR_IN_TERM) (hsrc : Outside dst (dst + n) src)
    (ht : SrcTerm c mem V dst (dst + n) (mem src) n) :
    ∃ f0, ∀ f, f0 ≤ f → ∃ s1 r,
      Copy_Term_Rec c dst f dst src { mem := mem, p := dst + 1, top_vars := [] } = some s1 ∧
      Copy_Term c f dst src mem = some r ∧
      (∀ a, Outside dst (dst + n) a → r.mem a = mem a) ∧
      (∀ a, Outside dst (dst + n) a → s1.mem a ≠ mem a → a ∈ s1.top_vars.map Prod.snd) ∧
      (∀ x ∈ s1.top_vars, Outside dst (dst + n) x.2 ∧ mem x.2 = ⟨.REF, x.2⟩ ∧
        (∃ d, s1.mem x.2 = ⟨.REF, d⟩ ∧ dst ≤ d ∧ d < dst + n) ∧
        r.mem x.2 = ⟨.REF, x.2⟩) := by
  have hn := SrcTerm_pos c mem V dst (dst + n) _ _ ht
  have hinv0 : CopyInv mem V dst (dst + n) { mem := mem, p := dst + 1, top_vars := [] } := by
    refine ⟨fun _ _ _ => rfl, fun x hx => (by cases hx), List.nodup_nil, ?_⟩
    show dst < dst + 1 ∧ dst + 1 ≤ dst + n
    omega
  obtain ⟨f0, s1, he, post⟩ := Copy_Term_Rec_spec c mem V dst (dst + n) (by omega) _ _ ht
    dst src { mem := mem, p := dst + 1, top_vars := [] } hinv0 hsrc rfl le_rfl
    (by show dst < dst + 1; omega) (fun d hd => by obtain ⟨x, hx, _⟩ := hd; cases hx)
    (by show dst + 1 + (n - 1) ≤ dst + n; omega)
  have hp : s1.p = dst + n := by
    have h1 : s1.p = dst + 1 + (n - 1) := post.p_eq
    omega
  have hrest : ∀ a, Outside dst (dst + n) a →
      restore_vars s1.top_vars s1.mem a = mem a := by
    intro a ha
    by_cases hm : a ∈ s1.top_vars.map Prod.snd
    · obtain ⟨x, hx1, rfl⟩ := List.mem_map.mp hm
      obtain ⟨h1, h2, _⟩ := post.inv.trail x hx1
      have hmem : (x.1, x.2) ∈ s1.top_vars := hx1
      rw [restore_vars_saved s1.top_vars s1.mem x.1 x.2 post.inv.nodup hmem, h1, h2]
    · rw [restore_vars_other _ _ _ hm]
      exact post.inv.frame a ha hm
  refine ⟨f0, fun f hf => ⟨s1, { s1 with mem := restore_vars s1.top_vars s1.mem },
    Copy_Term_Rec_mono c dst f0 f _ _ _ _ hf he, ?_, hrest, ?_, ?_⟩⟩
  · unfold Copy_Term
    rw [Copy_Term_Rec_mono c dst f0 f _ _ _ _ hf he]
  · intro a ha hne
    by_contra hm
    exact hne (post.inv.frame a ha hm)
  · intro x hx
    obtain ⟨_, h2, h3, _, d, h5, h6, h7, _⟩ := post.inv.trail x hx
    refine ⟨h3, h2, ⟨d, h5, h6, by omega⟩, ?_⟩
    show restore_vars s1.top_vars s1.mem x.2 = _
    rw [hrest x.2 h3, h2]

/-- Witness of C37: after `Copy_Term(100, 5)` on the term `[X | X]` of the
sample memory every word outside 100 .. 102 is as before; the variable `X`
at 20 holds its self reference. -/
theorem Copy_Term_restores_source_witness :
    ∃ f0, ∀ f, f0 ≤ f → ∃ r, Copy_Term sampleConfig f 100 5 pairMem = some r ∧
      (∀ a, Outside 100 (100 + 3) a → r.mem a = pairMem a) ∧ r.mem 20 = ⟨.REF, 20⟩ := by
  have hterm : SrcTerm sampleConfig pairMem {20} 100 (100 + 3) (pairMem 5) 3 := by
    have h := @SrcTerm.lst sampleConfig pairMem {20} 100 (100 + 3) 20 (fun _ => 1)
      (by intro i hi; left; omega)
      (by
        intro i hi
        have hi01 : i = 0 ∨ i = 1 := by omega
        rcases hi01 with h | h <;> subst h
        · exact SrcTerm.var 20 (by simp) (Or.inl (by decide)) rfl
        · exact SrcTerm.var 20 (by simp) (Or.inl (by decide)) rfl)
    have e : 1 + (Finset.range 2).sum (fun _ => 1) = 3 := by simp
    rw [e] at h
    exact h
  obtain ⟨f0, h⟩ := Copy_Term_restores_source sampleConfig pairMem {20} 100 5 3 (by decide)
    (Or.inl (by decide)) hterm
  refine ⟨f0, fun f hf => ?_⟩
  obtain ⟨s1, r, _, h2, h3, _, _⟩ := h f hf
  exact ⟨r, h2, h3, (h3 20 (Or.inl (by decide))).trans rfl⟩

/-! ## The suffix character of `Pl_Decompose_File_Name_4` -/

/-- C38: for the path `/a/b.c` of the sample memory, with the directory
unified with an unbound variable and the prefix `b` unified with the atom
`x`, which fails, `Pl_Decompose_File_Name_4` returns false through its second
`return FALSE` and leaves the terminator 0 at the start of the suffix, where
the path held the character `.` before the call.  When the prefix unifies,
the character is restored. -/
theorem Pl_Decompose_File_Name_4_leaves_terminator :
    (Pl_Decompose_File_Name_4 sampleFileEnv pathChars 0 ⟨.REF, 7⟩ ⟨.ATM, 120⟩ ⟨.REF, 9⟩).1
      = false ∧
    pathChars 4 = 46 ∧
    (Pl_Decompose_File_Name_4 sampleFileEnv pathChars 0 ⟨.REF, 7⟩ ⟨.ATM, 120⟩ ⟨.REF, 9⟩).2 4
      = 0 ∧
    (Pl_Decompose_File_Name_4 sampleFileEnv pathChars 0 ⟨.REF, 7⟩ ⟨.REF, 8⟩ ⟨.REF, 9⟩).2 4
      = 46 := by
  refine ⟨by decide, by decide, by decide, by decide⟩

end BipsPl

namespace Ma2Asm

/-! ## Encodable immediates of the emitted lines -/

theorem execAsm_of_encodable (S : Symtab) (L : List Line) (m : Machine)
    (h : ∀ l ∈ L, l.encodable = true) : execAsm S L m = execSeqSym S L m := by
  unfold execAsm
  rw [if_pos (List.all_eq_true.mpr h)]

theorem execAsm_of_not_encodable (S : Symtab) (L : List Line) (m : Machine) (l : Line)
    (hl : l ∈ L) (h : l.encodable = false) : execAsm S L m = none := by
  unfold execAsm
  rw [if_neg]
  intro hall
  have := List.all_eq_true.mp hall l hl
  rw [h] at this
  cases this

theorem LeavesValue_of_exec (S : Symtab) (L : List Line) (m : Machine) (r : String) (a : Nat)
    (henc : ∀ l ∈ L, l.encodable = true) (h : LeavesValueExec S L m r a) :
    LeavesValue S L m r a := by
  obtain ⟨m1, he, hr⟩ := h
  exact ⟨m1, by rw [execAsm_of_encodable S L m henc]; exact he, hr⟩

theorem Load_Address_encodable (t : Target) (r name : String) :
    ∀ l ∈ Load_Address t r name, l.encodable = true := by
  intro l hl
  by_cases hs : t.Scope_Of_Symbol name > 0 <;> simp [Load_Address, hs] at hl <;>
    rcases hl with h | h <;> subst h <;> rfl

theorem Load_Reg_Bank_encodable (t : Target) : ∀ l ∈ Load_Reg_Bank t, l.encodable = true := by
  unfold Load_Reg_Bank
  split
  · exact Load_Address_encodable t _ _
  · intro l hl; cases hl

theorem chunkLines_encodable (r : String) (v : Nat) :
    ∀ (n j : Nat) (wipe : Bool), j + n ≤ 4 →
      ∀ l ∈ chunkLines r v n j wipe, l.encodable = true := by
  intro n
  induction n with
  | zero => intro j wipe _ l hl; cases hl
  | succ n ih =>
    intro j wipe hj l hl
    have hm : v / 2 ^ (16 * j) % 65536 < 65536 := Nat.mod_lt _ (by norm_num)
    have hj3 : j = 0 ∨ j = 1 ∨ j = 2 ∨ j = 3 := by omega
    simp only [chunkLines] at hl
    split at hl
    · rcases List.mem_cons.mp hl with h | h
      · subst h
        cases wipe <;>
          simp only [if_true, Bool.false_eq_true, if_false, Line.encodable, Bool.and_eq_true,
            Bool.or_eq_true, decide_eq_true_eq] <;>
          rcases hj3 with h | h | h | h <;> subst h <;> omega
      · exact ih (j + 1) false (by omega) l h
    · exact ih (j + 1) wipe (by omega) l hl

theorem Load_Immediate_encodable (t : Target) (r : String) (w : Nat) (hw : w < 2 ^ 64) :
    ∀ l ∈ Load_Immediate t r w, l.encodable = true := by
  intro l hl
  unfold Load_Immediate at hl
  split at hl
  · simp at hl; subst hl; rfl
  · rcases List.mem_append.mp hl with h | h
    · split at h
      · simp at h; subst h; rfl
      · cases h
    · by_cases h0 : w = 0
      · subst h0
        simp [Load_Immediate_loop] at h
        subst h
        rfl
      · have hc := Load_Immediate_loop_chunks r w 4 0 true w (by simp) (by simpa using hw)
          (Or.inl h0)
        have hc2 : Load_Immediate_loop r w 0 true = chunkLines r w 4 0 true := by
          simpa using hc
        rw [hc2] at h
        exact chunkLines_encodable r w 4 0 true (by omega) l h

theorem sliceLines_encodable (op r : String) (v : Nat) :
    ∀ (n j : Nat), j + n ≤ 2 → ∀ l ∈ sliceLines op r v n j, l.encodable = true := by
  intro n
  induction n with
  | zero => intro j _ l hl; cases hl
  | succ n ih =>
    intro j hj l hl
    have hm : v / 2 ^ (12 * j) % 4096 < 4096 := Nat.mod_lt _ (by norm_num)
    have hj1 : j = 0 ∨ j = 1 := by omega
    simp only [sliceLines] at hl
    rcases List.mem_append.mp hl with h | h
    · split at h
      · simp only [List.mem_singleton] at h
        subst h
        simp only [Line.encodable, Bool.and_eq_true, Bool.or_eq_true, decide_eq_true_eq]
        rcases hj1 with h | h <;> subst h <;> omega
      · cases h
    · exact ih (j + 1) (by omega) l h

theorem Increment_Reg_encodable (r : String) (v : Int) (h24 : v.natAbs < 2 ^ 24) :
    ∀ l ∈ Increment_Reg r v, l.encodable = true := by
  unfold Increment_Reg
  by_cases hneg : v < 0
  · simp only [hneg, if_true]
    have h1 : (-v).toNat = v.natAbs := by omega
    rw [h1]
    have := Increment_Reg_loop_slices "sub" r v.natAbs 2 0 v.natAbs (by simp)
      (by norm_num; omega)
    have e : Increment_Reg_loop "sub" r v.natAbs 0 = sliceLines "sub" r v.natAbs 2 0 := by
      simpa using this
    rw [e]
    exact sliceLines_encodable "sub" r v.natAbs 2 0 (by omega)
  · simp only [hneg, if_false]
    have h1 : v.toNat = v.natAbs := by omega
    rw [h1]
    have := Increment_Reg_loop_slices "add" r v.natAbs 2 0 v.natAbs (by simp)
      (by norm_num; omega)
    have e : Increment_Reg_loop "add" r v.natAbs 0 = sliceLines "add" r v.natAbs 2 0 := by
      simpa using this
    rw [e]
    exact sliceLines_encodable "add" r v.natAbs 2 0 (by omega)

theorem AFTER_ARG_encodable (r : String) (offset : Int) (st : Tr)
    (hslot : offset_excl_doubles offset st < MAX_C_ARGS_IN_C_CODE) :
    ∀ l ∈ AFTER_ARG r offset st, l.encodable = true := by
  intro l hl
  unfold AFTER_ARG at hl
  split at hl
  · rename_i hge
    simp only [List.mem_singleton] at hl
    subst hl
    simp only [MAX_C_ARGS_IN_C_CODE, MAX_ARGS_IN_REGS] at hslot hge
    simp only [Line.encodable, ldrStrOffsetEncodable, STACK_OFFSET, MAX_ARGS_IN_REGS, BPW,
      Bool.and_eq_true, Bool.or_eq_true, decide_eq_true_eq]
    left
    omega
  · cases hl

theorem Load_Store_Reg_Y_encodable (t : Target) (op r : String) (index : Int) :
    ∀ l ∈ Load_Store_Reg_Y t op r index, l.encodable = true := by
  intro l hl
  unfold Load_Store_Reg_Y at hl
  simp only at hl
  split at hl
  · rename_i hi
    simp only [List.mem_singleton] at hl
    subst hl
    simp only [Is_Load_Store_Offset_Immediate, ge_iff_le, Bool.and_eq_true,
      decide_eq_true_eq] at hi
    simp only [Line.encodable, ldrStrOffsetEncodable, Bool.and_eq_true, Bool.or_eq_true,
      decide_eq_true_eq]
    right
    omega
  · rcases List.mem_append.mp hl with h | h
    · exact Load_Immediate_encodable t "x9" _ (toPlULong_lt _) l h
    · simp only [List.mem_singleton] at h
      subst h
      rfl

theorem Call_C_Arg_Mem_L_encodable (t : Target) (offset adr_of index : Int) (name : String)
    (st : Tr) (hslot : offset_excl_doubles offset st < MAX_C_ARGS_IN_C_CODE)
    (hidx : (index * BPW).natAbs < 2 ^ 24) :
    ∀ l ∈ (Call_C_Arg_Mem_L t offset adr_of name index st).1, l.encodable = true := by
  intro l hl
  simp only [Call_C_Arg_Mem_L, List.mem_append] at hl
  rcases hl with ((h | h) | h) | h
  · exact Load_Address_encodable t _ _ l h
  · exact Increment_Reg_encodable _ _ hidx l h
  · split at h
    · simp only [List.mem_singleton] at h
      subst h
      rfl
    · cases h
  · exact AFTER_ARG_encodable _ offset st hslot l h

theorem Call_C_Arg_Reg_X_encodable (t : Target) (offset adr_of index : Int) (st : Tr)
    (hslot : offset_excl_doubles offset st < MAX_C_ARGS_IN_C_CODE)
    (hidx : (index * BPW).natAbs < 2 ^ 24)
    (henc : adr_of = 0 → ldrStrOffsetEncodable (index * BPW) = true) :
    ∀ l ∈ (Call_C_Arg_Reg_X t offset adr_of index st).1, l.encodable = true := by
  intro l hl
  simp only [Call_C_Arg_Reg_X, List.mem_append] at hl
  rcases hl with ((h | h) | h) | h
  · exact Load_Reg_Bank_encodable t l h
  · simp only [List.mem_singleton] at h
    subst h
    rfl
  · split at h
    · exact Increment_Reg_encodable _ _ hidx l h
    · rename_i ha
      simp only [List.mem_singleton] at h
      subst h
      exact henc (by simpa using ha)
  · exact AFTER_ARG_encodable _ offset st hslot l h

theorem Call_C_Arg_Reg_Y_encodable (t : Target) (offset adr_of index : Int) (st : Tr)
    (hslot : offset_excl_doubles offset st < MAX_C_ARGS_IN_C_CODE)
    (hY : (t.Y_OFFSET index).natAbs < 2 ^ 24) :
    ∀ l ∈ (Call_C_Arg_Reg_Y t offset adr_of index st).1, l.encodable = true := by
  intro l hl
  simp only [Call_C_Arg_Reg_Y, List.mem_append] at hl
  rcases hl with (h | h) | h
  · simp only [List.mem_singleton] at h
    subst h
    rfl
  · split at h
    · exact Increment_Reg_encodable _ _ hY l h
    · exact Load_Store_Reg_Y_encodable t _ _ index l h
  · exact AFTER_ARG_encodable _ offset st hslot l h

/-! ## Arguments passed by address or by value -/

/-- Counterexample to C18 as stated: the index 5000 has the byte offset 40000,
of magnitude below 2^24; passed by value, `Call_C_Arg_Reg_X` emits
`mov x0, x19` and the single load `ldr x0, [x0, #40000]`, whose offset is
neither a multiple of 8 up to 32760 nor in -256 .. 255: the line is not an
instruction, so the emitted code leaves no value in x0. -/
theorem Call_C_Arg_Reg_X_offset_40000 :
    (5000 * BPW).natAbs < 2 ^ 24 ∧
    (Call_C_Arg_Reg_X sampleTarget 0 0 5000 Tr.init).1 =
      [Line.inst "mov" [.reg "x0", .reg "x19"],
       Line.inst "ldr" [.reg "x0", .memImm "x0" 40000]] ∧
    ldrStrOffsetEncodable 40000 = false ∧
    execAsm sampleSymtab (Call_C_Arg_Reg_X sampleTarget 0 0 5000 Tr.init).1 symMachine
      = none ∧
    ¬ ∃ a, LeavesValue sampleSymtab (Call_C_Arg_Reg_X sampleTarget 0 0 5000 Tr.init).1
        symMachine "x0" a := by
  have hl : (Call_C_Arg_Reg_X sampleTarget 0 0 5000 Tr.init).1 =
      [Line.inst "mov" [.reg "x0", .reg "x19"],
       Line.inst "ldr" [.reg "x0", .memImm "x0" 40000]] := by decide
  have he : execAsm sampleSymtab (Call_C_Arg_Reg_X sampleTarget 0 0 5000 Tr.init).1 symMachine
      = none := by
    rw [hl]
    exact execAsm_of_not_encodable _ _ _ (Line.inst "ldr" [.reg "x0", .memImm "x0" 40000])
      (by simp) (by decide)
  refine ⟨by decide, hl, by decide, he, ?_⟩
  rintro ⟨a, m1, h1, _⟩
  rw [he] at h1
  cases h1

/-- C18 (as amended): for `Call_C_Arg_Mem_L`, `Call_C_Arg_Reg_X` and
`Call_C_Arg_Reg_Y`, an argument slot below `MAX_C_ARGS_IN_C_CODE` and every
index whose byte offset (`index * 8`, respectively `Y_OFFSET(index)`) has a
magnitude below 2^24, every emitted line is an encodable instruction and:
with `adr_of != 0` the emitted code leaves in the target register the address
base + offset of the storage (the symbol address, the register-bank base,
respectively the value of E, plus the offset) and no emitted line loads
through a register; with `adr_of = 0` the code of `Call_C_Arg_Mem_L` and of
`Call_C_Arg_Reg_Y` leaves in the target register the memory word stored at
that same address, and so does the code of `Call_C_Arg_Reg_X` when
`index * 8` is an offset that `ldr` encodes (a multiple of 8 from 0 to 32760,
or a value from -256 to 255); for any other index the single load
`ldr r, [r, #index*8]` of `Call_C_Arg_Reg_X` is not an instruction.
Registers hold 64-bit values, the GOT slots of the symbols hold their
addresses, and E is not the scratch register x9. -/
theorem Call_C_Arg_address_or_value (S : Symtab) (t : Target) (m : Machine)
    (offset index : Int) (name : String) (st : Tr)
    (hregs : ∀ q, m.reg q < 2 ^ 64)
    (hname : GotOk S m (Load_Address_symbol t name))
    (hbank : GotOk S m (Load_Address_symbol t "pl_reg_bank"))
    (hE : asm_reg_e t ≠ "x9")
    (hslot : offset_excl_doubles offset st < MAX_C_ARGS_IN_C_CODE)
    (hidx : (index * BPW).natAbs < 2 ^ 24) (hY : (t.Y_OFFSET index).natAbs < 2 ^ 24) :
    (∀ adr_of : Int, adr_of ≠ 0 →
      (LeavesValue S (Call_C_Arg_Mem_L t offset adr_of name index st).1 m (BEFORE_ARG offset st)
          (addr64 (S.addr (Load_Address_symbol t name)) (index * BPW)) ∧
        ∀ l ∈ (Call_C_Arg_Mem_L t offset adr_of name index st).1, l.isDeref = false) ∧
      (LeavesValue S (Call_C_Arg_Reg_X t offset adr_of index st).1 m (BEFORE_ARG offset st)
          (addr64 (bankBase t S m) (index * BPW)) ∧
        ∀ l ∈ (Call_C_Arg_Reg_X t offset adr_of index st).1, l.isDeref = false) ∧
      (LeavesValue S (Call_C_Arg_Reg_Y t offset adr_of index st).1 m (BEFORE_ARG offset st)
          (addr64 (m.reg (asm_reg_e t)) (t.Y_OFFSET index)) ∧
        ∀ l ∈ (Call_C_Arg_Reg_Y t offset adr_of index st).1, l.isDeref = false)) ∧
    LeavesValue S (Call_C_Arg_Mem_L t offset 0 name index st).1 m (BEFORE_ARG offset st)
      (m.mem (addr64 (S.addr (Load_Address_symbol t name)) (index * BPW))) ∧
    (ldrStrOffsetEncodable (index * BPW) = true →
      LeavesValue S (Call_C_Arg_Reg_X t offset 0 index st).1 m (BEFORE_ARG offset st)
        (m.mem (addr64 (bankBase t S m) (index * BPW)))) ∧
    (ldrStrOffsetEncodable (index * BPW) = false →
      Line.inst "ldr" [.reg (BEFORE_ARG offset st),
          .memImm (BEFORE_ARG offset st) (index * BPW)]
        ∈ (Call_C_Arg_Reg_X t offset 0 index st).1 ∧
      execAsm S (Call_C_Arg_Reg_X t offset 0 index st).1 m = none) ∧
    LeavesValue S (Call_C_Arg_Reg_Y t offset 0 index st).1 m (BEFORE_ARG offset st)
      (m.mem (addr64 (m.reg (asm_reg_e t)) (t.Y_OFFSET index))) := by
  refine ⟨fun adr_of ha => ⟨⟨?_, ?_⟩, ⟨?_, ?_⟩, ⟨?_, ?_⟩⟩, ?_, ?_, ?_, ?_⟩
  · exact LeavesValue_of_exec S _ m _ _
      (Call_C_Arg_Mem_L_encodable t offset adr_of index name st hslot hidx)
      ((Call_C_Arg_Mem_L_value S t offset adr_of index name st m hname).1 ha).1
  · exact ((Call_C_Arg_Mem_L_value S t offset adr_of index name st m hname).1 ha).2
  · exact LeavesValue_of_exec S _ m _ _
      (Call_C_Arg_Reg_X_encodable t offset adr_of index st hslot hidx (fun h => absurd h ha))
      ((Call_C_Arg_Reg_X_value S t offset adr_of index st m hregs hbank).1 ha).1
  · exact ((Call_C_Arg_Reg_X_value S t offset adr_of index st m hregs hbank).1 ha).2
  · exact LeavesValue_of_exec S _ m _ _
      (Call_C_Arg_Reg_Y_encodable t offset adr_of index st hslot hY)
      ((Call_C_Arg_Reg_Y_value S t offset adr_of index st m hregs hE).1 ha).1
  · exact ((Call_C_Arg_Reg_Y_value S t offset adr_of index st m hregs hE).1 ha).2
  · exact LeavesValue_of_exec S _ m _ _
      (Call_C_Arg_Mem_L_encodable t offset 0 index name st hslot hidx)
      ((Call_C_Arg_Mem_L_value S t offset 0 index name st m hname).2 rfl)
  · intro henc
    exact LeavesValue_of_exec S _ m _ _
      (Call_C_Arg_Reg_X_encodable t offset 0 index st hslot hidx (fun _ => henc))
      ((Call_C_Arg_Reg_X_value S t offset 0 index st m hregs hbank).2 rfl)
  · intro henc
    have hmem : Line.inst "ldr" [.reg (BEFORE_ARG offset st),
          .memImm (BEFORE_ARG offset st) (index * BPW)]
        ∈ (Call_C_Arg_Reg_X t offset 0 index st).1 := by
      simp [Call_C_Arg_Reg_X]
    exact ⟨hmem, execAsm_of_not_encodable S _ m _ hmem henc⟩
  · exact LeavesValue_of_exec S _ m _ _
      (Call_C_Arg_Reg_Y_encodable t offset 0 index st hslot hY)
      ((Call_C_Arg_Reg_Y_value S t offset 0 index st m hregs hE).2 rfl)

/-- Witness of C18 (as amended): the third word of `pl_foreign_long` (symbol
at 8192, word 99 at 8208) is left in x0 when passed by value, and its address
8208 when passed by address. -/
theorem Call_C_Arg_address_or_value_witness :
    LeavesValue sampleSymtab (Call_C_Arg_Mem_L sampleTarget 0 0 "pl_foreign_long" 2 Tr.init).1
      symMachine "x0" 99 ∧
    LeavesValue sampleSymtab (Call_C_Arg_Mem_L sampleTarget 0 1 "pl_foreign_long" 2 Tr.init).1
      symMachine "x0" 8208 :=
  ⟨(Call_C_Arg_address_or_value sampleSymtab sampleTarget symMachine 0 2 "pl_foreign_long"
      Tr.init symMachine_regs ⟨by decide, by decide, by decide⟩
      ⟨by decide, by decide, by decide⟩ (by decide) (by decide) (by decide) (by decide)).2.1,
   ((Call_C_Arg_address_or_value sampleSymtab sampleTarget symMachine 0 2 "pl_foreign_long"
      Tr.init symMachine_regs ⟨by decide, by decide, by decide⟩
      ⟨by decide, by decide, by decide⟩ (by decide) (by decide) (by decide) (by decide)).1 1
      (by decide)).1.1⟩

/-! ## Moves of X registers, executed -/

/-- C24 (as amended): for every X-register index, inside or outside the
range of `Is_Load_Store_Offset_Immediate`, each of `Move_From_Reg_X`,
`Move_To_Reg_X` and `Move_Ret_To_Reg_X` is `Load_Reg_Bank` followed by a
single `ldr`/`str` with `index * 8` as immediate offset from the register
bank, with no scratch-register fallback; when `index * 8` is an offset that
the instruction encodes (a multiple of 8 from 0 to 32760, or a value from
-256 to 255) every line is an encodable instruction and, executed, the code
loads x2 from, or stores x2 (x0 for `Move_Ret_To_Reg_X`) at, the address
bank + index * 8. -/
theorem Move_Reg_X_direct (S : Symtab) (t : Target) (index : Int) (m : Machine)
    (hbank : GotOk S m (Load_Address_symbol t "pl_reg_bank"))
    (hx2 : ASM_REG_BANK t ≠ "x2") (hx0 : ASM_REG_BANK t ≠ "x0")
    (henc : ldrStrOffsetEncodable (index * BPW) = true) :
    (∀ i : Int,
      Move_From_Reg_X t i = Load_Reg_Bank t
        ++ [Line.inst "ldr" [.reg "x2", .memImm (ASM_REG_BANK t) (i * BPW)]] ∧
      Move_To_Reg_X t i = Load_Reg_Bank t
        ++ [Line.inst "str" [.reg "x2", .memImm (ASM_REG_BANK t) (i * BPW)]] ∧
      Move_Ret_To_Reg_X t i = Load_Reg_Bank t
        ++ [Line.inst "str" [.reg "x0", .memImm (ASM_REG_BANK t) (i * BPW)]]) ∧
    (∀ l ∈ Move_From_Reg_X t index ++ Move_To_Reg_X t index ++ Move_Ret_To_Reg_X t index,
      l.encodable = true) ∧
    (∃ m1, execAsm S (Move_From_Reg_X t index) m = some m1 ∧
      m1.reg "x2" = m.mem (addr64 (bankBase t S m) (index * BPW))) ∧
    (∃ m1, execAsm S (Move_To_Reg_X t index) m = some m1 ∧
      m1.mem (addr64 (bankBase t S m) (index * BPW)) = m.reg "x2") ∧
    (∃ m1, execAsm S (Move_Ret_To_Reg_X t index) m = some m1 ∧
      m1.mem (addr64 (bankBase t S m) (index * BPW)) = m.reg "x0") := by
  have hbankreg : ∀ q, q ≠ ASM_REG_BANK t →
      ∃ m1, execSeqSym S (Load_Reg_Bank t) m = some m1 ∧
        m1.reg (ASM_REG_BANK t) = bankBase t S m ∧ m1.mem = m.mem ∧ m1.reg q = m.reg q := by
    intro q hq
    unfold Load_Reg_Bank bankBase
    split
    · obtain ⟨m1, he, hr, hf, hm⟩ := Load_Address_exec S t (ASM_REG_BANK t) "pl_reg_bank" m hbank
      exact ⟨m1, he, hr, hm, hf q hq⟩
    · exact ⟨m, rfl, rfl, rfl, rfl⟩
  have hencL : ∀ (op q : String), ∀ l ∈ Load_Reg_Bank t
      ++ [Line.inst op [.reg q, .memImm (ASM_REG_BANK t) (index * BPW)]],
      l.encodable = true := by
    intro op q l hl
    rcases List.mem_append.mp hl with h | h
    · exact Load_Reg_Bank_encodable t l h
    · simp only [List.mem_singleton] at h
      subst h
      exact henc
  refine ⟨fun i => ⟨rfl, rfl, rfl⟩, ?_, ?_, ?_, ?_⟩
  · intro l hl
    rcases List.mem_append.mp hl with h | h
    · rcases List.mem_append.mp h with h1 | h1
      · exact hencL "ldr" "x2" l h1
      · exact hencL "str" "x2" l h1
    · exact hencL "str" "x0" l h
  · obtain ⟨m1, he, hr, hm, _⟩ := hbankreg "x2" (Ne.symm hx2)
    refine ⟨m1.setReg "x2" (m1.mem (addr64 (m1.reg (ASM_REG_BANK t)) (index * BPW))), ?_, ?_⟩
    · rw [Move_From_Reg_X, execAsm_of_encodable S _ m (hencL "ldr" "x2"), execSeqSym_append, he]
      simp [execSeqSym, execInstSym, execInst, execLdr, effAddr]
    · rw [setReg_same, hr, hm]
  · obtain ⟨m1, he, hr, hm, hq⟩ := hbankreg "x2" (Ne.symm hx2)
    refine ⟨m1.setMem (addr64 (m1.reg (ASM_REG_BANK t)) (index * BPW)) (m1.reg "x2"), ?_, ?_⟩
    · rw [Move_To_Reg_X, execAsm_of_encodable S _ m (hencL "str" "x2"), execSeqSym_append, he]
      simp [execSeqSym, execInstSym, execInst, execStr, effAddr]
    · simp [Machine.setMem, hr, hq]
  · obtain ⟨m1, he, hr, hm, hq⟩ := hbankreg "x0" (Ne.symm hx0)
    refine ⟨m1.setMem (addr64 (m1.reg (ASM_REG_BANK t)) (index * BPW)) (m1.reg "x0"), ?_, ?_⟩
    · rw [Move_Ret_To_Reg_X, execAsm_of_encodable S _ m (hencL "str" "x0"), execSeqSym_append, he]
      simp [execSeqSym, execInstSym, execInst, execStr, effAddr]
    · simp [Machine.setMem, hr, hq]

/-- Witness of C24 (as amended): on the sample target, `Move_From_Reg_X(32)`
(offset 256, a multiple of 8 below 32760) loads x2 from the word at
bank + 256. -/
theorem Move_Reg_X_direct_witness :
    ldrStrOffsetEncodable (32 * BPW) = true ∧
    ∃ m1, execAsm sampleSymtab (Move_From_Reg_X sampleTarget 32) symMachine = some m1 ∧
      m1.reg "x2" = symMachine.mem (addr64 (bankBase sampleTarget sampleSymtab symMachine)
        (32 * BPW)) :=
  ⟨by decide,
   (Move_Reg_X_direct sampleSymtab sampleTarget 32 symMachine
    ⟨by decide, by decide, by decide⟩ (by decide) (by decide) (by decide)).2.2.1⟩

/-! ## Comparison of the returned value, executed -/

/-- For every 64-bit `int_val`, `Cmp_Ret_And_Int` is the single instruction
`cmp x0, #int_val` when `Nearest_Immediate` applied to `int_val` truncated to
a 32-bit `int` equals `int_val`, and otherwise `Load_Immediate("x7", int_val)`
followed by `cmp x0, x7`; the immediate form is chosen only for values inside
the 32-bit range.  When the fallback is taken, or the immediate is one that
`cmp` encodes, the lines are encodable instructions and the executed code
compares x0 with the 64-bit word of `int_val`; when the immediate form is
chosen for another value, the line is not an instruction. -/
theorem Cmp_Ret_And_Int_forms (S : Symtab) (t : Target) (v : Int) (m : Machine)
    (hlo : -2 ^ 63 ≤ v) (hhi : v < 2 ^ 63) :
    (Nearest_Immediate (toInt32 v) = v →
      Cmp_Ret_And_Int t v = [Line.inst "cmp" [.reg "x0", .imm v]]) ∧
    (Nearest_Immediate (toInt32 v) ≠ v →
      Cmp_Ret_And_Int t v =
        Load_Immediate t "x7" (toPlULong v) ++ [Line.inst "cmp" [.reg "x0", .reg "x7"]]) ∧
    (Nearest_Immediate (toInt32 v) = v → -2 ^ 31 ≤ v ∧ v < 2 ^ 31) ∧
    (Nearest_Immediate (toInt32 v) ≠ v ∨ cmpImmEncodable v = true →
      ∃ m1, execAsm S (Cmp_Ret_And_Int t v) m = some m1 ∧
        m1.flags = (m.reg "x0", toPlULong v) ∧ toSigned64 m1.flags.2 = v) ∧
    (Nearest_Immediate (toInt32 v) = v → cmpImmEncodable v = false →
      execAsm S (Cmp_Ret_And_Int t v) m = none) := by
  have hs := toSigned64_toPlULong v hlo hhi
  refine ⟨fun h => by simp [Cmp_Ret_And_Int, h], fun h => by simp [Cmp_Ret_And_Int, h], ?_, ?_,
    ?_⟩
  · intro h
    have h1 := Nearest_Immediate_natAbs_le (toInt32 v)
    have h2 := toInt32_range v
    rw [h] at h1
    by_cases hv : v = -2 ^ 31
    · subst hv; constructor <;> norm_num
    · by_cases ht : toInt32 v = -2 ^ 31
      · rw [ht] at h
        have : Nearest_Immediate (-2 ^ 31) = -2 ^ 31 := by
          simp [Nearest_Immediate, Nearest_Immediate_loop]
        rw [this] at h
        exact absurd h.symm hv
      · omega
  · intro hcase
    by_cases h : Nearest_Immediate (toInt32 v) = v
    · have henc : cmpImmEncodable v = true := by
        rcases hcase with h1 | h1
        · exact absurd h h1
        · exact h1
      have hL : Cmp_Ret_And_Int t v = [Line.inst "cmp" [.reg "x0", .imm v]] := by
        simp [Cmp_Ret_And_Int, h]
      refine ⟨{ m with flags := (m.reg "x0", toPlULong v) }, ?_, rfl, hs⟩
      rw [hL, execAsm_of_encodable S _ m (by
        intro l hl
        simp only [List.mem_singleton] at hl
        subst hl
        exact henc)]
      simp [execSeqSym, execInstSym, execInst, execCmp]
    · obtain ⟨m1, he, hr, hq, _⟩ := Load_Immediate_exec t "x7" (toPlULong v) (toPlULong_lt v) m
      have hL : Cmp_Ret_And_Int t v =
          Load_Immediate t "x7" (toPlULong v) ++ [Line.inst "cmp" [.reg "x0", .reg "x7"]] := by
        simp [Cmp_Ret_And_Int, h]
      refine ⟨{ m1 with flags := (m1.reg "x0", m1.reg "x7") }, ?_, ?_, ?_⟩
      · rw [hL, execAsm_of_encodable S _ m (by
          intro l hl
          rcases List.mem_append.mp hl with h1 | h1
          · exact Load_Immediate_encodable t "x7" _ (toPlULong_lt v) l h1
          · simp only [List.mem_singleton] at h1
            subst h1
            rfl)]
        rw [execSeqSym_append,
          execSeqSym_plain S _ m (Load_Immediate_plain t "x7" (toPlULong v)), he]
        simp [execSeqSym, execInstSym, execInst, execCmp]
      · simp [hr, hq "x0" (by decide)]
      · simp [hr, hs]
  · intro h henc
    have hL : Cmp_Ret_And_Int t v = [Line.inst "cmp" [.reg "x0", .imm v]] := by
      simp [Cmp_Ret_And_Int, h]
    rw [hL]
    exact execAsm_of_not_encodable S _ m _ (List.mem_singleton.mpr rfl) henc

/-- C30: for `int_val = 6144 = 96 * 4^3`, `Nearest_Immediate` returns its
argument, so `Cmp_Ret_And_Int` emits the single line `cmp x0, #6144`; 6144
exceeds 4095 and is not a multiple of 4096, so the line is not an instruction
and the emitted code compares x0 with nothing.  The neighbouring value 6145
takes the fallback through x7. -/
theorem Cmp_Ret_And_Int_6144_not_compared :
    Nearest_Immediate (toInt32 6144) = 6144 ∧
    Cmp_Ret_And_Int sampleTarget 6144 = [Line.inst "cmp" [.reg "x0", .imm 6144]] ∧
    Line.encodable (Line.inst "cmp" [.reg "x0", .imm 6144]) = false ∧
    execAsm sampleSymtab (Cmp_Ret_And_Int sampleTarget 6144) sampleMachine = none ∧
    Cmp_Ret_And_Int sampleTarget 6145 =
      Load_Immediate sampleTarget "x7" (toPlULong 6145)
        ++ [Line.inst "cmp" [.reg "x0", .reg "x7"]] := by
  have h1 : toInt32 6144 = 6144 := by decide
  have h2 : Nearest_Immediate 6144 = 6144 := by
    simp [Nearest_Immediate, Nearest_Immediate_loop]
  have h3 : toInt32 6145 = 6145 := by decide
  have h4 : Nearest_Immediate 6145 = 6144 := by
    simp [Nearest_Immediate, Nearest_Immediate_loop]
  have hL : Cmp_Ret_And_Int sampleTarget 6144 = [Line.inst "cmp" [.reg "x0", .imm 6144]] := by
    simp [Cmp_Ret_And_Int, h1, h2]
  refine ⟨by rw [h1]; exact h2, hL, by decide, ?_, ?_⟩
  · rw [hL]
    exact execAsm_of_not_encodable _ _ _ _ (List.mem_singleton.mpr rfl) (by decide)
  · simp [Cmp_Ret_And_Int, h3, h4]

end Ma2Asm
